import Mathlib

/-!
# The state tree and the message applier of cpp-filecoin

A shallow embedding of

* `core/vm/state/impl/state_tree_impl.cpp` (`StateTreeImpl`: the address → actor map with
  its stack of transaction layers), and
* `core/vm/runtime/impl/env.cpp` (`Env::applyMessage`, `Execution::send`,
  `Execution::sendWithRevert`, `Execution::chargeGas`),

followed by the properties proved about them.

Conventions of the embedding.

* Mutable C++ objects become explicit state: a method `T C::m(args)` becomes a function
  returning the result together with the new object.
* `outcome::result<T>` becomes `Except Error T`.
* `BigInt`/`TokenAmount` are `Int`.  `GasAmount` is `int64_t`: it is an `Int` here, and
  the `int64_t` operations of `applyMessage` and `chargeGas` that can leave the range
  (`11 * used`, `limit - …`, `gas_used += amount`) wrap explicitly (`wrapInt64`).
* `std::map` is `AList` (association list with unique keys), `std::set` is `Finset`;
  where the code iterates over one (`flush`), the entries are taken in ascending order.
* `BOOST_ASSERT`/`assert` failures and running out of recursion fuel are outcomes of their
  own (`Run.assertFailed`, `Run.outOfFuel`), distinct from a returned error.
* Debug tracing (`dvm::…`) has no effect on the state and is left out.
-/

namespace fc.vm

/-! ## Data model -/

/-- Actor id (`uint64_t`). -/
abbrev ActorId := Nat

/-- Content identifier, kept abstract: the state tree and the applier use only equality of
CIDs; what the block stores read off a CID is given by `CidView`. -/
abbrev CID := Nat

abbrev Bytes := List UInt8
abbrev BigInt := Int
abbrev TokenAmount := Int
/-- Gas amounts are `int64_t` in the source. -/
abbrev GasAmount := Int
abbrev ChainEpoch := Int
abbrev MethodNumber := Nat

/-- Modelled from the spec: the address type (`primitives/address`, not among the sources).
An address either carries an actor id or is one of the three hashed/key forms; the key-type
forms are the secp256k1 and BLS ones. -/
inductive Address where
  | id (n : ActorId)
  | secp256k1 (payload : List UInt8)
  | actorExec (payload : List UInt8)
  | bls (payload : List UInt8)
  deriving DecidableEq, Repr

namespace Address

def isId : Address → Bool
  | id _ => true
  | _ => false

def isKeyType : Address → Bool
  | secp256k1 _ => true
  | bls _ => true
  | _ => false

/-- The id carried by an id address (`Address::getId`). -/
def getId : Address → ActorId
  | id n => n
  | _ => 0

def makeFromId (n : ActorId) : Address := id n

end Address

/-- Actor record `{code, head, nonce, balance}`. -/
structure Actor where
  code : CID
  head : CID
  nonce : Nat
  balance : BigInt
  deriving DecidableEq, Repr

/-- Modelled from the spec: the exit codes of `vm/exit_code/exit_code.hpp` (not among the
sources) that the embedded code names, and `other` for every remaining code. -/
inductive VMExitCode where
  | kFatal
  | kOk
  | kSysErrSenderInvalid
  | kSysErrSenderStateInvalid
  | kSysErrInvalidReceiver
  | kSysErrInsufficientFunds
  | kSysErrOutOfGas
  | kSysErrForbidden
  | kSysErrIllegalArgument
  | other (code : Nat)
  deriving DecidableEq, Repr

/-- The error half of `outcome::result` (a `std::error_code`): a VM exit code, an exit code
marked as an abort (`asAbort`), `RuntimeError::kUnknown`, the "not found" error of
`StateTree::get`/`lookupId`, or an error of any other category (storage, decoding, …). -/
inductive Error where
  | exitCode (c : VMExitCode)
  | abort (c : VMExitCode)
  | runtimeUnknown
  | notFound
  | other (tag : Nat)
  deriving DecidableEq, Repr

/-- The function `asAbort(code)`. -/
def asAbort (c : VMExitCode) : Error := Error.abort c

/-- Modelled from the spec: `catchAbort` (`vm/exit_code`, not among the sources) turns an
abort back into the plain exit code it carries and leaves every other result alone. -/
def catchAbort {α : Type} : Except Error α → Except Error α
  | .error (Error.abort c) => .error (Error.exitCode c)
  | r => r

/-- Modelled from the spec: `asExitCode` (`vm/exit_code`, not among the sources).  A success
is `kOk`, an error that is a VM exit code is that code, any other error is propagated. -/
def asExitCode {α : Type} : Except Error α → Except Error VMExitCode
  | .ok _ => .ok VMExitCode.kOk
  | .error (Error.exitCode c) => .ok c
  | .error e => .error e

/-! The constants below are declared in headers that are not among the sources
(`vm/actor/actor.hpp`, the miner actor); they carry the values of the Filecoin protocol.
Of the values the proofs use only that the reward actor and the burnt-funds actor are not
the init actor. -/

/-- The address of the system actor. -/
def kSystemActorAddress : Address := Address.id 0
/-- The address of the init actor. -/
def kInitAddress : Address := Address.id 1
/-- The address of the reward actor. -/
def kRewardAddress : Address := Address.id 2
/-- The address of the burnt-funds actor. -/
def kBurntFundsActorAddress : Address := Address.id 99

/-- The method number of a plain send. -/
def kSendMethodNumber : MethodNumber := 0
/-- The method number of a constructor. -/
def kConstructorMethodNumber : MethodNumber := 1
/-- The method number `miner::SubmitWindowedPoSt::Number`. -/
def kSubmitWindowedPoStNumber : MethodNumber := 5
/-- The CID of the empty object (an abstract token here). -/
def kEmptyObjectCid : CID := 0

/-- Two's-complement wrap of an integer into the `int64_t` range; the identity on
`[-2^63, 2^63)`. -/
def wrapInt64 (x : Int) : Int := (x + 2 ^ 63) % 2 ^ 64 - 2 ^ 63

/-! ## State tree (`state_tree_impl.cpp`) -/

/-- One transaction layer, `StateTreeImpl::Tx`. -/
structure Tx where
  actors : AList (fun _ : ActorId => Actor)
  removed : Finset ActorId
  lookup : AList (fun _ : Address => ActorId)

/-- The value-initialised layer `Tx{}`. -/
def Tx.empty : Tx := ⟨∅, ∅, ∅⟩

/-- What the state tree uses of its IPLD store `store_` and of the init actor's state kept
in it (`StateProvider`, `StateManagerImpl`, init actor state: not among the sources).
`initTryGet init_actor a` is `getInitActorState(init_actor)` followed by `tryGet(a)` on that
state; `initAddActor init_actor a` is `addActor(a)` on that state followed by storing the
new state: it yields the CID of the new state and the allocated id. -/
structure Store where
  initTryGet : Actor → Address → Except Error (Option ActorId)
  initAddActor : Actor → Address → Except Error (CID × ActorId)

/-- The struct `StateRoot`, the state root of a tree of version 1 or later. -/
structure StateRoot where
  version : Nat
  actor_tree_root : CID
  info : CID
  deriving DecidableEq, Repr

/-- Modelled from the spec: what `flush` uses of the actors HAMT and of the IPLD store
(`adt::Map`, `Hamt`, `Ipld::flush`, `setCbor`: not among the sources).  The HAMT is its
content, a function from ids to read results.  `hamtSet c id actor` and `hamtRemove c id`
say whether `by_id.set` and `by_id.remove` fail on the content `c`; when they do not, the
key is written or deleted.  `hamtFlush c` is `Ipld::flush(by_id)` followed by
`by_id.hamt.cid()`.  `setCborInfo` is `store_->setCbor(StateTreeInfo{})` and `setCborRoot`
is `store_->setCbor` on a `StateRoot`. -/
structure HamtStore where
  hamtSet : (ActorId → Except Error (Option Actor)) → ActorId → Actor → Option Error
  hamtRemove : (ActorId → Except Error (Option Actor)) → ActorId → Option Error
  hamtFlush : (ActorId → Except Error (Option Actor)) → Except Error CID
  setCborInfo : Except Error CID
  setCborRoot : StateRoot → Except Error CID

/-- The class `StateTreeImpl`.  The vector `tx_` is never empty after construction; it is kept as its
last element `tx_back` (the layer `tx()` returns) and the remaining layers `tx_lower`,
the one next to the top first.  `by_id` is the actors HAMT: reading it can fail. -/
structure StateTreeImpl where
  version_ : Nat
  store_ : Store
  by_id : ActorId → Except Error (Option Actor)
  tx_back : Tx
  tx_lower : List Tx

namespace StateTreeImpl

/-- All layers in the order of `tx_.rbegin() … tx_.rend()`: top layer first. -/
def tx_ (s : StateTreeImpl) : List Tx := s.tx_back :: s.tx_lower

/-- The size `tx_.size()`. -/
def size (s : StateTreeImpl) : Nat := s.tx_lower.length + 1

/-- Method `StateTreeImpl::_set`: `tx().actors[id] = actor; tx().removed.erase(id)`. -/
def _set (s : StateTreeImpl) (id : ActorId) (actor : Actor) : StateTreeImpl :=
  { s with tx_back :=
      { s.tx_back with
        actors := s.tx_back.actors.insert id actor
        removed := s.tx_back.removed.erase id } }

/-- The loop of `tryGet` over the layers, top first: `some none` when a layer records the
removal of `id`, `some (some a)` when a layer holds the actor, `none` when every layer
misses. -/
def scanActors (id : ActorId) : List Tx → Option (Option Actor)
  | [] => none
  | t :: ts =>
    if id ∈ t.removed then some none
    else
      match t.actors.lookup id with
      | some a => some (some a)
      | none => scanActors id ts

/-- The loop of `tryLookupId` over the `lookup` maps of the layers, top first. -/
def scanLookup (address : Address) : List Tx → Option ActorId
  | [] => none
  | t :: ts =>
    match t.lookup.lookup address with
    | some id => some id
    | none => scanLookup address ts

/-- Method `StateTreeImpl::tryGet` from line 41 on, that is once the address is resolved to `id`:
walk the layers, else read the HAMT and cache a hit with `_set`. -/
def tryGetId (s : StateTreeImpl) (id : ActorId) : Except Error (Option Actor) × StateTreeImpl :=
  match scanActors id s.tx_ with
  | some r => (.ok r, s)
  | none =>
    match s.by_id id with
    | .error e => (.error e, s)
    | .ok none => (.ok none, s)
    | .ok (some actor) => (.ok (some actor), s._set id actor)

/-- The call `tx().lookup.emplace(address, id)`: inserts only when the key is absent. -/
def emplaceLookup (s : StateTreeImpl) (address : Address) (id : ActorId) : StateTreeImpl :=
  { s with tx_back :=
      { s.tx_back with
        lookup :=
          if address ∈ s.tx_back.lookup then s.tx_back.lookup
          else s.tx_back.lookup.insert address id } }

/-- Method `StateTreeImpl::tryLookupId`.  `get(actor::kInitAddress)` is unfolded: `kInitAddress` is
an id address, so `tryGet` goes straight to its layer walk (`tryGetId`), and `get` turns a
missing actor into an error. -/
def tryLookupId (s : StateTreeImpl) (address : Address) :
    Except Error (Option Address) × StateTreeImpl :=
  if address.isId then (.ok (some address), s)
  else
    match scanLookup address s.tx_ with
    | some id => (.ok (some (Address.makeFromId id)), s)
    | none =>
      match s.tryGetId kInitAddress.getId with
      | (.error e, s1) => (.error e, s1)
      | (.ok none, s1) => (.error Error.notFound, s1)
      | (.ok (some init_actor), s1) =>
        match s1.store_.initTryGet init_actor address with
        | .error e => (.error e, s1)
        | .ok (some id) => (.ok (some (Address.makeFromId id)), s1.emplaceLookup address id)
        | .ok none => (.ok none, s1)

/-- Method `StateTreeImpl::tryGet`. -/
def tryGet (s : StateTreeImpl) (address : Address) :
    Except Error (Option Actor) × StateTreeImpl :=
  match s.tryLookupId address with
  | (.error e, s1) => (.error e, s1)
  | (.ok none, s1) => (.ok none, s1)
  | (.ok (some id), s1) => s1.tryGetId id.getId

/-- Modelled from the spec: `StateTree::get` (base class, not among the sources): `tryGet`,
with a missing actor reported as an error. -/
def get (s : StateTreeImpl) (address : Address) : Except Error Actor × StateTreeImpl :=
  match s.tryGet address with
  | (.error e, s1) => (.error e, s1)
  | (.ok none, s1) => (.error Error.notFound, s1)
  | (.ok (some actor), s1) => (.ok actor, s1)

/-- Modelled from the spec: `StateTree::lookupId` (base class, not among the sources):
`tryLookupId`, with an unresolvable address reported as an error. -/
def lookupId (s : StateTreeImpl) (address : Address) : Except Error Address × StateTreeImpl :=
  match s.tryLookupId address with
  | (.error e, s1) => (.error e, s1)
  | (.ok none, s1) => (.error Error.notFound, s1)
  | (.ok (some id), s1) => (.ok id, s1)

/-- Method `StateTreeImpl::set`. -/
def set (s : StateTreeImpl) (address : Address) (actor : Actor) :
    Except Error Unit × StateTreeImpl :=
  match s.lookupId address with
  | (.error e, s1) => (.error e, s1)
  | (.ok address_id, s1) => (.ok (), s1._set address_id.getId actor)

/-- Method `StateTreeImpl::remove`. -/
def remove (s : StateTreeImpl) (address : Address) : Except Error Unit × StateTreeImpl :=
  match s.lookupId address with
  | (.error e, s1) => (.error e, s1)
  | (.ok address_id, s1) =>
    (.ok (), { s1 with tx_back :=
      { s1.tx_back with removed := insert address_id.getId s1.tx_back.removed } })

/-- Modelled from the spec: `StateTreeImpl::registerNewAddress` with the `StateManagerImpl`
it goes through (not among the sources): read the init actor, let its state allocate an id
for the address, and commit the new state by writing the init actor with the new head. -/
def registerNewAddress (s : StateTreeImpl) (address : Address) :
    Except Error Address × StateTreeImpl :=
  match s.get kInitAddress with
  | (.error e, s1) => (.error e, s1)
  | (.ok init_actor, s1) =>
    match s1.store_.initAddActor init_actor address with
    | .error e => (.error e, s1)
    | .ok (head, id) =>
      match s1.set kInitAddress { init_actor with head := head } with
      | (.error e, s2) => (.error e, s2)
      | (.ok _, s2) => (.ok (Address.makeFromId id), s2)

/-- Method `StateTreeImpl::txBegin`: `tx_.emplace_back()`. -/
def txBegin (s : StateTreeImpl) : StateTreeImpl :=
  { s with tx_back := Tx.empty, tx_lower := s.tx_back :: s.tx_lower }

/-- Method `StateTreeImpl::txRevert`: `tx_.back() = {}`. -/
def txRevert (s : StateTreeImpl) : StateTreeImpl :=
  { s with tx_back := Tx.empty }

/-- One iteration of the first loop of `txEnd`:
`tx().actors[id] = actor; tx().removed.erase(id)`. -/
def mergeActor (t : Tx) (e : (_ : ActorId) × Actor) : Tx :=
  { t with actors := t.actors.insert e.1 e.2, removed := t.removed.erase e.1 }

/-- One iteration of the second loop of `txEnd`: `tx().lookup[address] = id`. -/
def mergeLookup (t : Tx) (e : (_ : Address) × ActorId) : Tx :=
  { t with lookup := t.lookup.insert e.1 e.2 }

/-- The three loops of `txEnd`, merging the popped layer `top` into the new top `parent`.
The third loop inserts every element of `top.removed`, that is, it forms the union. -/
def mergeTx (top parent : Tx) : Tx :=
  let t1 := top.actors.entries.foldl mergeActor parent
  let t2 := top.lookup.entries.foldl mergeLookup t1
  { t2 with removed := t2.removed ∪ top.removed }

/-- Method `StateTreeImpl::txEnd`.  `none` is the failure of `assert(tx_.size() > 1)`. -/
def txEnd (s : StateTreeImpl) : Option StateTreeImpl :=
  match s.tx_lower with
  | [] => none
  | parent :: rest => some { s with tx_back := mergeTx s.tx_back parent, tx_lower := rest }

/-- The ids of a `std::set<ActorId>` in the order of its iteration, ascending. -/
def sortedIds (xs : Finset ActorId) : List ActorId :=
  Quot.liftOn xs.val (fun l => l.insertionSort (· ≤ ·)) fun a b h =>
    List.eq_of_perm_of_sorted
      ((List.perm_insertionSort _ a).trans (h.trans (List.perm_insertionSort _ b).symm))
      (List.sorted_insertionSort _ a) (List.sorted_insertionSort _ b)

/-- The entries of a `std::map<ActorId, Actor>` in the order of its iteration, ascending
keys. -/
def sortedActors (m : AList (fun _ : ActorId => Actor)) : List (Σ _ : ActorId, Actor) :=
  m.entries.insertionSort fun a b => a.1 ≤ b.1

/-- The first loop of `flush`: `by_id.set(Address::makeFromId(id), actor)` for each pending
actor, stopping at the first error. -/
def flushActors (io : HamtStore) :
    (ActorId → Except Error (Option Actor)) → List (Σ _ : ActorId, Actor) →
      Except Error Unit × (ActorId → Except Error (Option Actor))
  | c, [] => (.ok (), c)
  | c, ⟨id, actor⟩ :: rest =>
    match io.hamtSet c id actor with
    | some e => (.error e, c)
    | none => flushActors io (Function.update c id (.ok (some actor))) rest

/-- The second loop of `flush`: `by_id.remove(Address::makeFromId(id))` for each pending
removal, stopping at the first error. -/
def flushRemoved (io : HamtStore) :
    (ActorId → Except Error (Option Actor)) → List ActorId →
      Except Error Unit × (ActorId → Except Error (Option Actor))
  | c, [] => (.ok (), c)
  | c, id :: rest =>
    match io.hamtRemove c id with
    | some e => (.error e, c)
    | none => flushRemoved io (Function.update c id (.ok none)) rest

/-- Method `StateTreeImpl::flush`.  `none` is the failure of `assert(tx_.size() == 1)`;
`kVersion0` is 0. -/
def flush (io : HamtStore) (s : StateTreeImpl) : Option (Except Error CID × StateTreeImpl) :=
  if s.size ≠ 1 then none
  else
    match flushActors io s.by_id (sortedActors s.tx_back.actors) with
    | (.error e, c1) => some (.error e, { s with by_id := c1 })
    | (.ok _, c1) =>
      match flushRemoved io c1 (sortedIds s.tx_back.removed) with
      | (.error e, c2) => some (.error e, { s with by_id := c2 })
      | (.ok _, c2) =>
        match io.hamtFlush c2 with
        | .error e => some (.error e, { s with by_id := c2 })
        | .ok new_root =>
          if s.version_ = 0 then some (.ok new_root, { s with by_id := c2 })
          else
            match io.setCborInfo with
            | .error e => some (.error e, { s with by_id := c2 })
            | .ok info_cid =>
              some (io.setCborRoot ⟨s.version_, new_root, info_cid⟩, { s with by_id := c2 })

/-- The constructor `StateTreeImpl(store)` with the actors HAMT `by_id`: version 0 and, after
its `txBegin()`, one empty layer. -/
def create (store : Store) (by_id : ActorId → Except Error (Option Actor)) : StateTreeImpl :=
  ⟨0, store, by_id, Tx.empty, []⟩

/-! ### What a caller can observe of a state tree

`tryGetId`, `tryLookupId` and `tryGet` are `const` methods that write their caches into the
top layer.  The three functions below are their results as functions of the state, without
the caching; `tryGetId_fst`, `tryLookupId_fst` and `tryGet_fst` prove that they are. -/

/-- The result of `tryGetId`. -/
def viewActor (s : StateTreeImpl) (id : ActorId) : Except Error (Option Actor) :=
  match scanActors id s.tx_ with
  | some r => .ok r
  | none => s.by_id id

/-- The result of `tryLookupId`. -/
def viewLookup (s : StateTreeImpl) (address : Address) : Except Error (Option Address) :=
  if address.isId then .ok (some address)
  else
    match scanLookup address s.tx_ with
    | some id => .ok (some (Address.makeFromId id))
    | none =>
      match s.viewActor kInitAddress.getId with
      | .error e => .error e
      | .ok none => .error Error.notFound
      | .ok (some init_actor) =>
        match s.store_.initTryGet init_actor address with
        | .error e => .error e
        | .ok (some id) => .ok (some (Address.makeFromId id))
        | .ok none => .ok none

/-- The result of `tryGet`. -/
def viewGet (s : StateTreeImpl) (address : Address) : Except Error (Option Actor) :=
  match s.viewLookup address with
  | .error e => .error e
  | .ok none => .ok none
  | .ok (some id) => s.viewActor id.getId

/-- Two state trees that answer every `tryGetId` and every `tryLookupId` alike. -/
def SameView (s s' : StateTreeImpl) : Prop :=
  (∀ id, s'.viewActor id = s.viewActor id) ∧ ∀ a, s'.viewLookup a = s.viewLookup a

/-- The actor under `address` exists and has the nonce `k`. -/
def NonceIs (s : StateTreeImpl) (address : Address) (k : Nat) : Prop :=
  ∃ x : Actor, s.viewGet address = .ok (some x) ∧ x.nonce = k

/-- The state tree `s'` differs from `s` in its top layer at most. -/
def SameBelow (s s' : StateTreeImpl) : Prop :=
  s'.tx_lower = s.tx_lower ∧ s'.by_id = s.by_id ∧ s'.store_ = s.store_
    ∧ s'.version_ = s.version_

end StateTreeImpl

/-! ## Execution (`env.cpp`) -/

/-- The struct `UnsignedMessage`; its fields `to` and `from` are `to_` and `from_` here. -/
structure UnsignedMessage where
  to_ : Address
  from_ : Address
  nonce : Nat
  value : TokenAmount
  gas_limit : GasAmount
  gas_fee_cap : TokenAmount
  gas_premium : TokenAmount
  method : MethodNumber
  params : Bytes

/-- The struct `MessageReceipt`. -/
structure MessageReceipt where
  exit_code : VMExitCode
  return_value : Bytes
  gas_used : GasAmount
  deriving DecidableEq, Repr

/-- The struct `Env::Apply`. -/
structure Apply where
  receipt : MessageReceipt
  penalty : TokenAmount
  reward : TokenAmount
  deriving DecidableEq, Repr

/-- The default-constructed `Apply`. -/
def Apply.init : Apply := ⟨⟨VMExitCode.kOk, [], 0⟩, 0, 0⟩

/-- The assertions of the embedded code: `txEndSize` is `assert(tx_.size() > 1)` in `txEnd`,
`chargedOverLimit` is `BOOST_ASSERT_MSG(used <= limit, "runtime charged gas over limit")`,
`gasMathWrong` is `BOOST_ASSERT_MSG(locked >= 0, "gas math wrong")`. -/
inductive Assertion where
  | txEndSize
  | chargedOverLimit
  | gasMathWrong
  deriving DecidableEq, Repr

/-- Outcome of running code that may nest sends: it returns, or an assertion fails, or the
recursion fuel (the bound on the nesting depth of sends) is used up. -/
inductive Run (α : Type) where
  | done (a : α)
  | assertFailed (which : Assertion)
  | outOfFuel

/-- Sequencing of `Run`. -/
def Run.bind {α β : Type} : Run α → (α → Run β) → Run β
  | .done a, f => f a
  | .assertFailed w, _ => .assertFailed w
  | .outOfFuel, _ => .outOfFuel

/-- Partial correctness: `P` holds of the value when the run returns one. -/
def Run.Holds {α : Type} (P : α → Prop) : Run α → Prop
  | .done a => P a
  | _ => True

/-- No assertion fails, and `P` holds of the value when the run returns one. -/
def Run.Safe {α : Type} (P : α → Prop) : Run α → Prop
  | .done a => P a
  | .assertFailed _ => False
  | .outOfFuel => True

/-- A run that returns a value with `P`, or fails an assertion with `A`, or runs out of
fuel. -/
def Run.Meets {α : Type} (A : Assertion → Prop) (P : α → Prop) : Run α → Prop
  | .done a => P a
  | .assertFailed w => A w
  | .outOfFuel => True

/-- Modelled from the spec: actor code as seen by the VM (the invoker and `RuntimeImpl` are
not among the sources).  Actor code is a deterministic program that, through its runtime,
charges gas, reads and writes the state tree, allocates addresses and sends nested messages
(each through `sendWithRevert`), and finally returns a value or an error. -/
inductive ActorProg where
  | ret (result : Except Error Bytes)
  | chargeGas (amount : GasAmount) (k : Except Error Unit → ActorProg)
  | tryGet (address : Address) (k : Except Error (Option Actor) → ActorProg)
  | tryLookupId (address : Address) (k : Except Error (Option Address) → ActorProg)
  | set (address : Address) (actor : Actor) (k : Except Error Unit → ActorProg)
  | remove (address : Address) (k : Except Error Unit → ActorProg)
  | registerNewAddress (address : Address) (k : Except Error Address → ActorProg)
  | send (message : UnsignedMessage) (k : Except Error Bytes → ActorProg)

/-- The prices used by the embedded code (`Pricelist`, not among the sources). -/
structure Pricelist where
  onChainMessage : Nat → GasAmount
  onChainReturnValue : Nat → GasAmount
  onCreateActor : GasAmount
  onMethodInvocation : TokenAmount → MethodNumber → GasAmount

/-- The `AddressMatcher` of the toolchain for the network version of the epoch (not among the
sources). -/
structure AddressMatcher where
  isAccountActor : CID → Bool
  isStorageMinerActor : CID → Bool
  getAccountCodeId : CID

/-- The parts of `Env` that do not change while a message is applied.  `parentBaseFee` is
`tipset->getParentBaseFee()`, `versionAtLeast4` is
`getNetworkVersion(epoch) >= NetworkVersion::kVersion4`, `kUpgradeClausHeight` is the
(link-time) upgrade height, `invoker` is `env_context.invoker`. -/
structure Env where
  epoch : ChainEpoch
  parentBaseFee : TokenAmount
  pricelist : Pricelist
  address_matcher : AddressMatcher
  versionAtLeast4 : Bool
  kUpgradeClausHeight : ChainEpoch
  invoker : Actor → UnsignedMessage → ActorProg
  encodeActorParams : Address → Except Error Bytes

/-- The mutable part of `Execution`: the state tree it shares with its `Env` and the gas
counters. -/
structure Execution where
  state_tree : StateTreeImpl
  gas_used : GasAmount
  gas_limit : GasAmount

/-- The result of a send together with the execution it leaves behind. -/
abbrev SendResult := Run (Except Error Bytes × Execution)

namespace Execution

/-- Method `Execution::make`. -/
def make (state_tree : StateTreeImpl) (message : UnsignedMessage) : Execution :=
  ⟨state_tree, 0, message.gas_limit⟩

/-- Method `Execution::chargeGas`.  The `int64_t` sum `gas_used += amount` wraps. -/
def chargeGas (ex : Execution) (amount : GasAmount) : Except Error Unit × Execution :=
  let gas_used := wrapInt64 (ex.gas_used + amount)
  if gas_used > ex.gas_limit then
    (.error (asAbort VMExitCode.kSysErrOutOfGas), { ex with gas_used := ex.gas_limit })
  else (.ok (), { ex with gas_used := gas_used })

/-- Method `Execution::sendWithRevert`, with the `send` it calls given as `inner`.
The `gsl::finally` runs `txEnd` on every way out. -/
def sendWithRevert (inner : Execution → UnsignedMessage → SendResult) (ex : Execution)
    (message : UnsignedMessage) : SendResult :=
  (inner { ex with state_tree := ex.state_tree.txBegin } message).bind fun (result, ex1) =>
    let st :=
      match result with
      | .error _ => ex1.state_tree.txRevert
      | .ok _ => ex1.state_tree
    match st.txEnd with
    | none => .assertFailed Assertion.txEndSize
    | some st1 => .done (result, { ex1 with state_tree := st1 })

/-- Method `Execution::tryCreateAccountActor`, with the `send` of its `sendWithRevert` given as
`inner`. -/
def tryCreateAccountActor (env : Env) (inner : Execution → UnsignedMessage → SendResult)
    (ex : Execution) (address : Address) : Run (Except Error Actor × Execution) :=
  match ex.chargeGas env.pricelist.onCreateActor with
  | (charged, ex1) =>
    match catchAbort charged with
    | .error e => .done (.error e, ex1)
    | .ok _ =>
      match ex1.state_tree.registerNewAddress address with
      | (.error e, st2) => .done (.error e, { ex1 with state_tree := st2 })
      | (.ok id, st2) =>
        if !address.isKeyType then
          .done (.error (Error.exitCode VMExitCode.kSysErrInvalidReceiver),
            { ex1 with state_tree := st2 })
        else
          match st2.set id ⟨env.address_matcher.getAccountCodeId, kEmptyObjectCid, 0, 0⟩ with
          | (.error e, st3) => .done (.error e, { ex1 with state_tree := st3 })
          | (.ok _, st3) =>
            match env.encodeActorParams address with
            | .error e => .done (.error e, { ex1 with state_tree := st3 })
            | .ok params =>
              (sendWithRevert inner { ex1 with state_tree := st3 }
                  ⟨id, kSystemActorAddress, 0, 0, 0, 0, 0, kConstructorMethodNumber,
                    params⟩).bind fun (sent, ex4) =>
                match sent with
                | .error e => .done (.error e, ex4)
                | .ok _ =>
                  match ex4.state_tree.get id with
                  | (r, st5) => .done (r, { ex4 with state_tree := st5 })

/-- Running actor code against an execution; `inner` is the `send` behind the runtime's
nested sends. -/
def runActor (inner : Execution → UnsignedMessage → SendResult) :
    ActorProg → Execution → SendResult
  | .ret result, ex => .done (result, ex)
  | .chargeGas amount k, ex =>
    match ex.chargeGas amount with
    | (r, ex1) => runActor inner (k r) ex1
  | .tryGet address k, ex =>
    match ex.state_tree.tryGet address with
    | (r, st1) => runActor inner (k r) { ex with state_tree := st1 }
  | .tryLookupId address k, ex =>
    match ex.state_tree.tryLookupId address with
    | (r, st1) => runActor inner (k r) { ex with state_tree := st1 }
  | .set address actor k, ex =>
    match ex.state_tree.set address actor with
    | (r, st1) => runActor inner (k r) { ex with state_tree := st1 }
  | .remove address k, ex =>
    match ex.state_tree.remove address with
    | (r, st1) => runActor inner (k r) { ex with state_tree := st1 }
  | .registerNewAddress address k, ex =>
    match ex.state_tree.registerNewAddress address with
    | (r, st1) => runActor inner (k r) { ex with state_tree := st1 }
  | .send message k, ex =>
    (sendWithRevert inner ex message).bind fun (r, ex1) => runActor inner (k r) ex1

/-- The value transfer of `Execution::send` (lines 338–352). -/
def transferValue (st : StateTreeImpl) (message : UnsignedMessage)
    (caller_id to_id : Address) (to_actor : Actor) :
    Except Error Actor × StateTreeImpl :=
  if message.value ≠ 0 then
    if message.value < 0 then (.error (Error.exitCode VMExitCode.kSysErrForbidden), st)
    else if to_id ≠ caller_id then
      match st.get caller_id with
      | (.error e, st1) => (.error e, st1)
      | (.ok from_actor, st1) =>
        if from_actor.balance < message.value then
          (.error (Error.exitCode VMExitCode.kSysErrInsufficientFunds), st1)
        else
          let from_actor := { from_actor with balance := from_actor.balance - message.value }
          let to_actor := { to_actor with balance := to_actor.balance + message.value }
          match st1.set caller_id from_actor with
          | (.error e, st2) => (.error e, st2)
          | (.ok _, st2) =>
            match st2.set to_id to_actor with
            | (.error e, st3) => (.error e, st3)
            | (.ok _, st3) => (.ok to_actor, st3)
    else (.ok to_actor, st)
  else (.ok to_actor, st)

/-- Method `Execution::send` from line 326 on, once the receiver's actor `to_actor` is known. -/
def sendTo (env : Env) (inner : Execution → UnsignedMessage → SendResult) (ex : Execution)
    (message : UnsignedMessage) (to_actor : Actor) : SendResult :=
  match ex.chargeGas (env.pricelist.onMethodInvocation message.value message.method) with
  | (charged, ex1) =>
    match catchAbort charged with
    | .error e => .done (.error e, ex1)
    | .ok _ =>
      match ex1.state_tree.lookupId message.from_ with
      | (.error e, st2) => .done (.error e, { ex1 with state_tree := st2 })
      | (.ok caller_id, st2) =>
        match st2.lookupId message.to_ with
        | (.error e, st3) => .done (.error e, { ex1 with state_tree := st3 })
        | (.ok to_id, st3) =>
          let _message : UnsignedMessage :=
            { message with
              from_ := caller_id
              to_ := if env.versionAtLeast4 then to_id else message.to_ }
          match transferValue st3 message caller_id to_id to_actor with
          | (.error e, st4) => .done (.error e, { ex1 with state_tree := st4 })
          | (.ok to_actor, st4) =>
            if message.method ≠ kSendMethodNumber then
              (runActor inner (env.invoker to_actor _message)
                  { ex1 with state_tree := st4 }).bind fun (result, ex5) =>
                .done (catchAbort result, ex5)
            else .done (.ok [], { ex1 with state_tree := st4 })

/-- Method `Execution::send`.  The first argument bounds the nesting depth of sends. -/
def send (env : Env) : Nat → Execution → UnsignedMessage → GasAmount → SendResult
  | 0, _, _, _ => .outOfFuel
  | fuel + 1, ex, message, charge =>
    match ex.chargeGas charge with
    | (charged, ex1) =>
      match catchAbort charged with
      | .error e => .done (.error e, ex1)
      | .ok _ =>
        match ex1.state_tree.tryGet message.to_ with
        | (.error e, st2) => .done (.error e, { ex1 with state_tree := st2 })
        | (.ok none, st2) =>
          (tryCreateAccountActor env (fun ex m => send env fuel ex m 0)
              { ex1 with state_tree := st2 } message.to_).bind fun (created, ex3) =>
            match created with
            | .error e => .done (.error e, ex3)
            | .ok account_actor =>
              sendTo env (fun ex m => send env fuel ex m 0) ex3 message account_actor
        | (.ok (some to_actor), st2) =>
          sendTo env (fun ex m => send env fuel ex m 0) { ex1 with state_tree := st2 }
            message to_actor

/-- The gas counters of `ex` against those of an earlier `ex0`: the limit is the same, and
`gas_used` is within the limit if it was. -/
def GasKept (ex0 ex : Execution) : Prop :=
  ex.gas_limit = ex0.gas_limit ∧ (ex0.gas_used ≤ ex0.gas_limit → ex.gas_used ≤ ex.gas_limit)

/-- Method `Execution::sendWithRevert` over `Execution::send` with nesting depth at most `fuel`. -/
def sendWithRevertN (env : Env) (fuel : Nat) (ex : Execution) (message : UnsignedMessage) :
    SendResult :=
  sendWithRevert (fun ex m => send env fuel ex m 0) ex message

end Execution

/-! ## Message application (`Env::applyMessage`) -/

/-- The locals of `Env::applyMessage` that change while it runs: the result under
construction `apply`, the running total `locked`, and the state tree of the `Env`. -/
structure Locals where
  apply : Apply
  locked : TokenAmount
  state_tree : StateTreeImpl

/-- What `Env::applyMessage` leaves behind when it returns: the returned
`outcome::result<Apply>` and the final values of `locked` and of the state tree. -/
structure Returned where
  result : Except Error Apply
  locked : TokenAmount
  state_tree : StateTreeImpl

namespace Env

/-- The lambda `add_locked` of `applyMessage` (lines 112–121). -/
def add_locked (l : Locals) (address : Address) (add : TokenAmount) :
    Except Error Unit × Locals :=
  if add ≠ 0 then
    match l.state_tree.get address with
    | (.error e, st1) => (.error e, { l with state_tree := st1 })
    | (.ok actor, st1) =>
      match st1.set address { actor with balance := actor.balance + add } with
      | (.error e, st2) => (.error e, { l with locked := l.locked - add, state_tree := st2 })
      | (.ok _, st2) => (.ok (), { l with locked := l.locked - add, state_tree := st2 })
  else (.ok (), l)

/-- Modelled from the spec: `bigdiv` (`primitives/big_int.hpp`, not among the sources),
big-integer division truncating toward zero. -/
def bigdiv (n d : BigInt) : BigInt := Int.tdiv n d

/-- The local `over` of `applyMessage` (line 210): `limit - 11 * used / 10` in `int64_t`
arithmetic, `/` truncating. -/
def over (limit used : GasAmount) : GasAmount :=
  wrapInt64 (limit - Int.tdiv (wrapInt64 (11 * used)) 10)

/-- The local `gas_burned` of `applyMessage` (lines 211–215).  In the third branch `used`
is positive and `over` is not negative, so the quotient lies between `-|limit - used|` and
`|limit - used|`: the conversion `static_cast<GasAmount>` back to `int64_t` is exact. -/
def gas_burned (limit used : GasAmount) : GasAmount :=
  if used = 0 then limit
  else if over limit used < 0 then 0
  else bigdiv ((limit - used) * min used (over limit used)) used

/-- The local `base_fee_pay` of `applyMessage` (line 199). -/
def base_fee_pay (env : Env) (message : UnsignedMessage) : TokenAmount :=
  min env.parentBaseFee message.gas_fee_cap

/-- Sender validation (lines 134–154): an error of the lookup, or the exit code of a
rejection, or the sender's actor. -/
def validateSender (env : Env) (message : UnsignedMessage) (st : StateTreeImpl) :
    Except Error (Except VMExitCode Actor) × StateTreeImpl :=
  match st.tryGet message.from_ with
  | (.error e, st1) => (.error e, st1)
  | (.ok none, st1) => (.ok (.error VMExitCode.kSysErrSenderInvalid), st1)
  | (.ok (some sender), st1) =>
    if !env.address_matcher.isAccountActor sender.code then
      (.ok (.error VMExitCode.kSysErrSenderInvalid), st1)
    else if message.nonce ≠ sender.nonce then
      (.ok (.error VMExitCode.kSysErrSenderStateInvalid), st1)
    else if sender.balance < message.gas_limit * message.gas_fee_cap then
      (.ok (.error VMExitCode.kSysErrSenderStateInvalid), st1)
    else (.ok (.ok sender), st1)

/-- Lines 155–158: the sender pays the gas reserve and its nonce is incremented
(`uint64_t` increment). -/
def chargeSender (message : UnsignedMessage) (l : Locals) : Except Error Unit × Locals :=
  match add_locked l message.from_ (-(message.gas_limit * message.gas_fee_cap)) with
  | (.error e, l1) => (.error e, l1)
  | (.ok _, l1) =>
    match l1.state_tree.get message.from_ with
    | (.error e, st2) => (.error e, { l1 with state_tree := st2 })
    | (.ok sender, st2) =>
      match st2.set message.from_ { sender with nonce := (sender.nonce + 1) % 2 ^ 64 } with
      | (.error e, st3) => (.error e, { l1 with state_tree := st3 })
      | (.ok _, st3) => (.ok (), { l1 with state_tree := st3 })

/-- Lines 168–179: the gas for a non-empty return value.  Yields the exit code and the
return value of the receipt. -/
def chargeReturnValue (env : Env) (ex : Execution) (ret : Bytes) :
    Except Error (VMExitCode × Bytes) × Execution :=
  if !ret.isEmpty then
    match ex.chargeGas (env.pricelist.onChainReturnValue ret.length) with
    | (charge, ex1) =>
      match asExitCode (catchAbort charge) with
      | .error e => (.error e, ex1)
      | .ok exit_code =>
        match catchAbort charge with
        | .ok _ => (.ok (exit_code, ret), ex1)
        | .error _ => (.ok (exit_code, []), ex1)
  else (.ok (VMExitCode.kOk, []), ex)

/-- Lines 187–196: the local `no_fee`. -/
def noFee (env : Env) (message : UnsignedMessage) (exit_code : VMExitCode)
    (st : StateTreeImpl) : Except Error Bool × StateTreeImpl :=
  if env.epoch > env.kUpgradeClausHeight ∧ exit_code = VMExitCode.kOk
      ∧ message.method = kSubmitWindowedPoStNumber then
    match st.tryGet message.to_ with
    | (.error e, st1) => (.error e, st1)
    | (.ok none, st1) => (.ok false, st1)
    | (.ok (some to_actor), st1) =>
      (.ok (env.address_matcher.isStorageMinerActor to_actor.code), st1)
  else (.ok false, st)

/-- Lines 200–205: the penalty for a fee cap below the base fee, and the base-fee burn. -/
def settleBaseFee (env : Env) (message : UnsignedMessage) (no_fee : Bool)
    (used : GasAmount) (l : Locals) : Except Error Unit × Locals :=
  let l1 : Locals :=
    { l with apply :=
        { l.apply with penalty :=
            if env.parentBaseFee > message.gas_fee_cap then
              (env.parentBaseFee - message.gas_fee_cap) * used
            else 0 } }
  if !no_fee then add_locked l1 kBurntFundsActorAddress (base_fee_pay env message * used)
  else (.ok (), l1)

/-- Lines 206–209: the reward. -/
def settleReward (env : Env) (message : UnsignedMessage) (l : Locals) :
    Except Error Unit × Locals :=
  let l1 : Locals :=
    { l with apply :=
        { l.apply with reward :=
            (min message.gas_premium (message.gas_fee_cap - base_fee_pay env message))
              * message.gas_limit } }
  add_locked l1 kRewardAddress l1.apply.reward

/-- Lines 210–220: the overestimation burn. -/
def settleOverestimation (env : Env) (message : UnsignedMessage) (used : GasAmount)
    (l : Locals) : Except Error Unit × Locals :=
  if gas_burned message.gas_limit used ≠ 0 then
    match add_locked l kBurntFundsActorAddress
        (base_fee_pay env message * gas_burned message.gas_limit used) with
    | (.error e, l1) => (.error e, l1)
    | (.ok _, l1) =>
      (.ok (), { l1 with apply :=
        { l1.apply with penalty :=
            l1.apply.penalty
              + (env.parentBaseFee - base_fee_pay env message)
                * gas_burned message.gas_limit used } })
  else (.ok (), l)

/-- Lines 197–224: gas settlement, from the assertion `used <= limit` to the receipt. -/
def gasSettlement (env : Env) (message : UnsignedMessage) (exit_code : VMExitCode)
    (no_fee : Bool) (used : GasAmount) (l : Locals) : Run (Except Error Apply × Locals) :=
  if ¬ used ≤ message.gas_limit then .assertFailed Assertion.chargedOverLimit
  else
    match settleBaseFee env message no_fee used l with
    | (.error e, l1) => .done (.error e, l1)
    | (.ok _, l1) =>
      match settleReward env message l1 with
      | (.error e, l2) => .done (.error e, l2)
      | (.ok _, l2) =>
        match settleOverestimation env message used l2 with
        | (.error e, l3) => .done (.error e, l3)
        | (.ok _, l3) =>
          if ¬ 0 ≤ l3.locked then .assertFailed Assertion.gasMathWrong
          else
            match add_locked l3 message.from_ l3.locked with
            | (.error e, l4) => .done (.error e, l4)
            | (.ok _, l4) =>
              let apply : Apply :=
                { l4.apply with receipt :=
                    { l4.apply.receipt with exit_code := exit_code, gas_used := used } }
              .done (.ok apply, { l4 with apply := apply })

/-- Lines 180–224, once the exit code is known: revert on failure, clamp `used`, compute
`no_fee`, settle the gas. -/
def finishApply (env : Env) (message : UnsignedMessage) (exit_code : VMExitCode)
    (ex : Execution) (l : Locals) : Run (Except Error Apply × Locals) :=
  let st := if exit_code ≠ VMExitCode.kOk then ex.state_tree.txRevert else ex.state_tree
  let used := if ex.gas_used < 0 then 0 else ex.gas_used
  match noFee env message exit_code st with
  | (.error e, st1) => .done (.error e, { l with state_tree := st1 })
  | (.ok no_fee, st1) => gasSettlement env message exit_code no_fee used { l with state_tree := st1 }

/-- Lines 163–228: the part of `applyMessage` inside the scope guarded by the `txEnd`
finaliser. -/
def applyScope (env : Env) (fuel : Nat) (message : UnsignedMessage) (msg_gas_cost : GasAmount)
    (l : Locals) : Run (Except Error Apply × Locals) :=
  (Execution.send env fuel (Execution.make l.state_tree message) message msg_gas_cost).bind
    fun (result, ex) =>
      match result with
      | .error e =>
        match asExitCode (α := Bytes) (.error e) with
        | .error e1 => .done (.error e1, { l with state_tree := ex.state_tree })
        | .ok exit_code =>
          if exit_code = VMExitCode.kFatal then
            .done (.error e, { l with state_tree := ex.state_tree })
          else finishApply env message exit_code ex l
      | .ok ret =>
        match chargeReturnValue env ex ret with
        | (.error e, ex1) => .done (.error e, { l with state_tree := ex1.state_tree })
        | (.ok (exit_code, return_value), ex1) =>
          finishApply env message exit_code ex1
            { l with apply :=
                { l.apply with receipt := { l.apply.receipt with return_value := return_value } } }

/-- Lines 155–228: `applyMessage` once the sender is validated, with the `txEnd` finaliser
run on every way out of its scope.  `st` is the state tree after the validation. -/
def applyValidated (env : Env) (fuel : Nat) (st : StateTreeImpl) (message : UnsignedMessage)
    (msg_gas_cost : GasAmount) : Run Returned :=
  match chargeSender message
      ⟨{ Apply.init with penalty := message.gas_limit * env.parentBaseFee }, 0, st⟩ with
  | (.error e, l1) => .done ⟨.error e, l1.locked, l1.state_tree⟩
  | (.ok _, l1) =>
    (applyScope env fuel message msg_gas_cost
        { l1 with state_tree := l1.state_tree.txBegin }).bind fun (result, l2) =>
      match l2.state_tree.txEnd with
      | none => .assertFailed Assertion.txEndSize
      | some st2 => .done ⟨result, l2.locked, st2⟩

/-- Method `Env::applyMessage`.  `fuel` bounds the nesting depth of sends. -/
def applyMessage (env : Env) (fuel : Nat) (st : StateTreeImpl) (message : UnsignedMessage)
    (size : Nat) : Run Returned :=
  if message.gas_limit ≤ 0 then .done ⟨.error Error.runtimeUnknown, 0, st⟩
  else
    let msg_gas_cost := env.pricelist.onChainMessage size
    if msg_gas_cost > message.gas_limit then
      .done ⟨.ok { Apply.init with
                    penalty := msg_gas_cost * env.parentBaseFee
                    receipt := { Apply.init.receipt with
                                 exit_code := VMExitCode.kSysErrOutOfGas } }, 0, st⟩
    else
      let apply : Apply := { Apply.init with penalty := message.gas_limit * env.parentBaseFee }
      match validateSender env message st with
      | (.error e, st1) => .done ⟨.error e, 0, st1⟩
      | (.ok (.error exit_code), st1) =>
        .done ⟨.ok { apply with receipt := { apply.receipt with exit_code := exit_code } },
          0, st1⟩
      | (.ok (.ok _), st1) => applyValidated env fuel st1 message msg_gas_cost

/-- A sequence of `applyMessage` calls on one state tree: the messages of the list are
applied one after the other, each with its serialised size; the result is the state tree
after the last call. -/
def applyMessages (env : Env) (fuel : Nat) :
    StateTreeImpl → List (UnsignedMessage × Nat) → Run StateTreeImpl
  | st, [] => .done st
  | st, (message, size) :: rest =>
    (applyMessage env fuel st message size).bind fun r =>
      applyMessages env fuel r.state_tree rest

end Env

end fc.vm

/-! ## The buffered writer (`IpldBuffered`, `env.cpp` lines 48–95) -/

namespace fc.vm

/-- A BLAKE2b-256 digest (`common::Hash256`, `CbCid`): an array of 32 bytes. -/
abbrev Hash256 := { l : List UInt8 // l.length = 32 }

/-- The error `storage::ipfs::IpfsDatastoreError::kNotFound`. -/
def IpfsDatastoreError.kNotFound : Error := Error.other 404

/-- How a call of the storage code ends: it returns a value; it throws (`outcome::raise`,
`std::out_of_range`); its behaviour is not defined (a failed assertion, an empty optional
dereferenced); or the model runs out of fuel, which stands for a loop that does not end. -/
inductive Ended (α : Type) where
  | returned (a : α)
  | thrown (what : String)
  | undefined
  | outOfFuel

/-- Modelled from the spec: what the stores read off a CID.  `isCbor` and `asBlake` are
declared in `primitives/cid/cid.hpp` and defined in a file that is not among the sources:
`isCbor` says whether the codec is dag-cbor, `asBlake` gives the 32-byte digest of a
dag-cbor CID hashed with BLAKE2b-256, and nothing for any other CID. -/
structure CidView where
  isCbor : CID → Bool
  asBlake : CID → Option Hash256

/-- The interface `Ipld` of a backing store whose state has the type `σ`: its `get` and its
`set`. -/
structure Ipld (σ : Type) where
  get : σ → CID → Except Error Bytes
  set : σ → CID → Bytes → Except Error Unit × σ

/-- The class `IpldBuffered`: the backing store `ipld`, the map `write` of the blocks
written, and the flag `flushing`. -/
structure IpldBuffered (σ : Type) where
  ipld : σ
  write : AList (fun _ : Hash256 => Bytes)
  flushing : Bool

/-- The class `storage::ipld::traverser::Traverser` (not among the sources) as `flush` uses
it: a traverser with state `τ` is constructed on a root, and `traverseAll` runs it over a
store given by its `get`, leaving a new state. -/
structure Traverser (τ : Type) where
  make : CID → τ
  traverseAll : (CID → Option (Except Error Bytes)) → τ →
    Option (Except Error (List CID)) × τ

namespace IpldBuffered

variable {σ τ : Type}

/-- Method `IpldBuffered::set`.  `none` is the failure of `assert(isCbor(cid))` or the
dereference of an empty `asBlake(cid)`; `write.emplace` leaves a key that is present
alone. -/
def set (V : CidView) (b : IpldBuffered σ) (cid : CID) (value : Bytes) :
    Option (Except Error Unit × IpldBuffered σ) :=
  if !V.isCbor cid then none
  else
    match V.asBlake cid with
    | none => none
    | some key =>
      some (.ok (),
        { b with write := if key ∈ b.write then b.write else b.write.insert key value })

/-- Method `IpldBuffered::get`.  `none` is the dereference of an empty `asBlake(cid)`. -/
def get (B : Ipld σ) (V : CidView) (b : IpldBuffered σ) (cid : CID) :
    Option (Except Error Bytes) :=
  if V.isCbor cid then
    match V.asBlake cid with
    | none => none
    | some key =>
      match b.write.lookup key with
      | some value => some (.ok value)
      | none =>
        if !b.flushing then some (B.get b.ipld cid)
        else some (.error IpfsDatastoreError.kNotFound)
  else some (.error IpfsDatastoreError.kNotFound)

/-- The `for` loop of `flush`: `OUTCOME_TRY(ipld->set(cid, write.at(*asBlake(cid))))` for
each CID the traversal returned.  `write.at` throws when the key is missing. -/
def promote (B : Ipld σ) (V : CidView) (write : AList (fun _ : Hash256 => Bytes)) :
    σ → List CID → Ended (Except Error Unit × σ)
  | s, [] => .returned (.ok (), s)
  | s, cid :: rest =>
    match V.asBlake cid with
    | none => .undefined
    | some key =>
      match write.lookup key with
      | none => .thrown "map::at"
      | some value =>
        match B.set s cid value with
        | (.error e, s1) => .returned (.error e, s1)
        | (.ok _, s1) => promote B V write s1 rest

/-- The `while (true)` loop of `flush`; the first argument bounds the number of its
iterations. -/
def flushLoop (B : Ipld σ) (V : CidView) (T : Traverser τ) :
    Nat → IpldBuffered σ → τ → Ended (Except Error Unit × IpldBuffered σ)
  | 0, _, _ => .outOfFuel
  | fuel + 1, b, t =>
    match T.traverseAll (get B V b) t with
    | (none, _) => .undefined
    | (some (.ok cids), _) =>
      match promote B V b.write b.ipld cids with
      | .returned (r, s1) => .returned (r, { b with ipld := s1 })
      | .thrown what => .thrown what
      | .undefined => .undefined
      | .outOfFuel => .outOfFuel
    | (some (.error e), t1) =>
      if e ≠ IpfsDatastoreError.kNotFound then .returned (.error e, b)
      else flushLoop B V T fuel b t1

/-- Method `IpldBuffered::flush`: `flushing` is set for the duration of the loop and
cleared by the `gsl::finally` when the method returns. -/
def flush (B : Ipld σ) (V : CidView) (T : Traverser τ) (fuel : Nat) (b : IpldBuffered σ)
    (root : CID) : Ended (Except Error Unit × IpldBuffered σ) :=
  match flushLoop B V T fuel { b with flushing := true } (T.make root) with
  | .returned (r, b1) => .returned (r, { b1 with flushing := false })
  | .thrown what => .thrown what
  | .undefined => .undefined
  | .outOfFuel => .outOfFuel

end IpldBuffered

/-- The state of the traverser modelled below: the queue of CIDs to visit, the CIDs seen,
and the CIDs visited in order. -/
structure TraverserState where
  to_visit : List CID
  visited : List CID
  visit_order : List CID

namespace TraverserState

/-- One step of the traversal: take the CID at the head of the queue, read its block (an
error of the read is returned and the CID is not looked at again), record the CID as
visited, and queue the links of the block that were not seen before. -/
def advance (links : Bytes → List CID) (get : CID → Option (Except Error Bytes))
    (t : TraverserState) : Option (Except Error Unit) × TraverserState :=
  match t.to_visit with
  | [] => (some (.ok ()), t)
  | cid :: rest =>
    match get cid with
    | none => (none, { t with to_visit := rest })
    | some (.error e) => (some (.error e), { t with to_visit := rest })
    | some (.ok bytes) =>
      let fresh := (links bytes).dedup.filter fun c => c ∉ t.visited
      (some (.ok ()),
        { to_visit := rest ++ fresh
          visited := t.visited ++ fresh
          visit_order := t.visit_order ++ [cid] })

/-- The loop of `traverseAll`: advance until the queue is empty.  The first argument bounds
the number of steps; `none` stands for a read that is not defined and for running out of
steps. -/
def traverseAll (links : Bytes → List CID) (get : CID → Option (Except Error Bytes)) :
    Nat → TraverserState → Option (Except Error (List CID)) × TraverserState
  | 0, t => (none, t)
  | fuel + 1, t =>
    if t.to_visit = [] then (some (.ok t.visit_order), t)
    else
      match advance links get t with
      | (none, t1) => (none, t1)
      | (some (.error e), t1) => (some (.error e), t1)
      | (some (.ok _), t1) => traverseAll links get fuel t1

end TraverserState

/-- Modelled from the spec: the tree walker used by the flush of the buffered writer
(`storage/ipld/traverser`, not among the sources).  From the root it visits blocks
breadth first; the links of a block are the CIDs in its CBOR, given by `links`; a visited
set suppresses revisits; `traverseAll` returns the CIDs visited, or the error of a failed
read, after which a further call carries on with the rest of the queue. -/
def bfsTraverser (links : Bytes → List CID) (fuel : Nat) : Traverser TraverserState where
  make := fun root => ⟨[root], [root], []⟩
  traverseAll := fun get t => TraverserState.traverseAll links get fuel t

end fc.vm

/-! ## The CAR store with its index (`cids_ipld.cpp`, `cids_index.hpp`) -/

namespace fc.storage

open fc.vm

/-- The constant `kCborBlakePrefix`. -/
def kCborBlakePrefix : List UInt8 := [0x01, 0x71, 0xA0, 0xE4, 0x02, 0x20]

/-- The function `maxSize64` (`size_t` arithmetic). -/
def maxSize64 (size : Nat) : Nat := (size + 63) % 2 ^ 64 / 64

/-- The function `maxSize`. -/
def maxSize (max_size64 : Nat) : Nat := max_size64 * 64 % 2 ^ 64

/-- The `n` bytes of `x` in big-endian order, as a `boost::endian::big_uintN_buf_t` keeps
them. -/
def bigEndian : Nat → Nat → List UInt8
  | 0, _ => []
  | n + 1, x => UInt8.ofNat (x / 256 ^ n % 256) :: bigEndian n x

/-- The struct `Row`: the key, the 40-bit offset and the 24-bit `max_size64`, the last two
as the values of their big-endian buffers. -/
structure Row where
  key : Hash256
  offset : Nat
  max_size64 : Nat
  deriving DecidableEq

namespace Row

/-- The 40 bytes of a row in memory. -/
def bytes (r : Row) : List UInt8 :=
  r.key.1 ++ bigEndian 5 r.offset ++ bigEndian 3 r.max_size64

end Row

/-- The function `memcmp` on two byte strings of one length: the order of the first byte in
which they differ. -/
def memcmp : List UInt8 → List UInt8 → Ordering
  | a :: l, b :: r =>
    if a.toNat < b.toNat then .lt
    else if b.toNat < a.toNat then .gt
    else memcmp l r
  | _, _ => .eq

/-- The comparison `operator<(const Row &, const Row &)`:
`memcmp(&l, &r, sizeof(Row)) < 0`. -/
def Row.lt (l r : Row) : Bool := decide (memcmp l.bytes r.bytes = .lt)

/-- The insertion into the `std::set<Row>` kept as the list of its rows in ascending order:
a row equivalent to one of the set is not inserted. -/
def insertRow (row : Row) : List Row → List Row
  | [] => [row]
  | r :: rest =>
    if Row.lt row r then row :: r :: rest
    else if Row.lt r row then r :: insertRow row rest
    else r :: rest

/-- The bytes of an unsigned LEB128 number, least significant group first; the first
argument bounds the number of bytes. -/
def uvarintBytes : Nat → Nat → List UInt8
  | 0, _ => []
  | fuel + 1, n =>
    if n < 128 then [UInt8.ofNat n]
    else UInt8.ofNat (n % 128 + 128) :: uvarintBytes fuel (n / 128)

/-- Modelled from the spec: the bytes of `codec::uvarint::VarintEncoder` (`codec/uvarint.hpp`,
not among the sources) for a `uint64_t` value, the unsigned varint of the CAR format. -/
def uvarint (n : Nat) : List UInt8 := uvarintBytes 10 (n % 2 ^ 64)

/-- What the file system does with the stream `writable`: whether `common::write` of an item
after the bytes already written succeeds, and whether the `flush` that follows does. -/
structure StreamIo where
  write_ok : Bytes → Bytes → Bool
  flush_ok : Bytes → Bool

/-- The class `CidsIpld` as `put`, `get` and `findWritten` use it.  `index` is
`index->find`; `written` is the `std::set<Row>` in ascending order; `writable` is the
stream appending to the CAR file, `none` when it is not open, else the bytes written
through it. -/
structure CidsIpld where
  index : Hash256 → Except Error (Option Row)
  written : List Row
  car_offset : Nat
  writable : Option Bytes
  flush_on : Nat

namespace CidsIpld

/-- Method `CidsIpld::findWritten`.  `none` is the failure of
`assert(writable.is_open())`; `lower_bound` is the first row of the set that is not less
than `Row{key, {}, {}}`. -/
def findWritten (s : CidsIpld) (key : Hash256) : Option (Option Row) :=
  if s.writable.isNone then none
  else
    match s.written.find? fun r => !Row.lt r ⟨key, 0, 0⟩ with
    | some r => if r.key = key then some (some r) else some none
    | none => some none

/-- Method `CidsIpld::get(key, value)` called without a buffer, which is what `has(key)` of
the base class (not among the sources) does.  The `.value()` of a failed `index->find`
throws. -/
def has (s : CidsIpld) (key : Hash256) : Ended Bool :=
  match s.index key with
  | .error _ => .thrown "value"
  | .ok (some _) => .returned true
  | .ok none =>
    if s.writable.isSome then
      match s.findWritten key with
      | none => .undefined
      | some row => .returned row.isSome
    else .returned false

/-- The item that `put` appends for `key` and `value` (lines 164–171). -/
def item (key : Hash256) (value : Bytes) : Bytes :=
  uvarint (kCborBlakePrefix.length + key.1.length + value.length)
    ++ kCborBlakePrefix ++ key.1 ++ value

/-- The row that `put` builds (lines 173–176): the assignments to the 40-bit and the 24-bit
buffer keep the low bits. -/
def newRow (s : CidsIpld) (key : Hash256) (value : Bytes) : Row :=
  ⟨key, s.car_offset % 2 ^ 40, maxSize64 (item key value).length % 2 ^ 24⟩

/-- Method `CidsIpld::put`.  `asyncFlush` is the method of that name, which runs `doFlush`
now or later. -/
def put (io : StreamIo) (asyncFlush : CidsIpld → CidsIpld) (s : CidsIpld) (key : Hash256)
    (value : Bytes) : Ended CidsIpld :=
  match s.writable with
  | none => .thrown "CidsIpld.put: not writable"
  | some car =>
    match s.has key with
    | .thrown what => .thrown what
    | .undefined => .undefined
    | .outOfFuel => .outOfFuel
    | .returned true => .returned s
    | .returned false =>
      match s.findWritten key with
      | none => .undefined
      | some (some _) => .returned s
      | some none =>
        if !io.write_ok car (item key value) then .thrown "CidsIpld.put: write error"
        else if !io.flush_ok (car ++ item key value) then .thrown "CidsIpld.put: flush error"
        else
          let s1 : CidsIpld :=
            { s with
              writable := some (car ++ item key value)
              car_offset := (s.car_offset + (item key value).length) % 2 ^ 64
              written := insertRow (s.newRow key value) s.written }
          if s1.flush_on ≠ 0 ∧ s1.written.length ≥ s1.flush_on then .returned (asyncFlush s1)
          else .returned s1

/-- A sequence of `put` calls on one store, stopped by the first that does not return. -/
def putAll (io : StreamIo) (asyncFlush : CidsIpld → CidsIpld) :
    CidsIpld → List (Hash256 × Bytes) → Ended CidsIpld
  | s, [] => .returned s
  | s, (key, value) :: rest =>
    match put io asyncFlush s key value with
    | .returned s1 => putAll io asyncFlush s1 rest
    | .thrown what => .thrown what
    | .undefined => .undefined
    | .outOfFuel => .outOfFuel

/-- The total length of the items of a sequence of `put` calls. -/
def itemsLength : List (Hash256 × Bytes) → Nat
  | [] => 0
  | (key, value) :: rest => (item key value).length + itemsLength rest

end CidsIpld

end fc.storage

/-! ## The AMT (`storage/amt`, not among the sources) -/

namespace fc.storage.amt

open fc.vm

/-- The error `AmtError::kNotFound`. -/
def AmtError.kNotFound : Error := Error.other 1

/-- Modelled from the spec: an AMT node (`storage/amt`, not among the sources).  Its items
are either values at indices, for a leaf, or children at indices, for an interior node. -/
inductive Node where
  | values (items : Nat → Option Bytes)
  | links (items : Nat → Option Node)

/-- Modelled from the spec: the root record `{ height, count, node }`. -/
structure Root where
  height : Nat
  count : Nat
  node : Node

/-- Modelled from the spec: an AMT with its branching factor `2^bits`. -/
structure Amt where
  bits : Nat
  root : Root

namespace Node

/-- The node without items for the height `h`: a leaf for 0, else an interior node. -/
def empty : Nat → Node
  | 0 => .values fun _ => none
  | _ + 1 => .links fun _ => none

/-- Whether none of the `w` slots of a node is occupied. -/
def isEmpty (w : Nat) : Node → Bool
  | .values f => (List.range w).all fun i => (f i).isNone
  | .links f => (List.range w).all fun i => (f i).isNone

/-- Modelled from the spec: lookup below a node of height `h`: the key is decomposed into
base-`w` digits, most significant first; the digit selects the child, and at height 0 the
value slot. -/
def get (w : Nat) : Nat → Node → Nat → Option Bytes
  | 0, .values f, k => f k
  | h + 1, .links f, k =>
    match f (k / w ^ (h + 1)) with
    | some child => get w h child (k % w ^ (h + 1))
    | none => none
  | _, _, _ => none

/-- Modelled from the spec: insertion below a node of height `h`, creating empty child
nodes as needed. -/
def set (w : Nat) : Nat → Node → Nat → Bytes → Node
  | 0, .values f, k, v => .values (Function.update f k (some v))
  | h + 1, .links f, k, v =>
    .links (Function.update f (k / w ^ (h + 1))
      (some (set w h ((f (k / w ^ (h + 1))).getD (empty h)) (k % w ^ (h + 1)) v)))
  | _, n, _, _ => n

/-- Modelled from the spec: deletion below a node of height `h`: the value is removed from
its leaf, and a child left without items is removed from its parent. -/
def remove (w : Nat) : Nat → Node → Nat → Node
  | 0, .values f, k => .values (Function.update f k none)
  | h + 1, .links f, k =>
    match f (k / w ^ (h + 1)) with
    | none => .links f
    | some child =>
      if (remove w h child (k % w ^ (h + 1))).isEmpty w then
        .links (Function.update f (k / w ^ (h + 1)) none)
      else
        .links (Function.update f (k / w ^ (h + 1))
          (some (remove w h child (k % w ^ (h + 1)))))
  | _, n, _ => n

/-- Whether slot 0 is the only occupied one of the `w` slots of an interior node. -/
def onlySlotZero (w : Nat) : Node → Bool
  | .links f => (f 0).isSome && (List.range w).all fun i => i == 0 || (f i).isNone
  | .values _ => false

/-- The nodes whose kind fits the height: values at height 0, links above, and so for the
children. -/
def Shaped : Nat → Node → Prop
  | 0, .values _ => True
  | h + 1, .links f => ∀ i c, f i = some c → Shaped h c
  | _, _ => False

/-- The node that wraps `n` at slot 0. -/
def wrap (n : Node) : Node := .links (Function.update (fun _ => none) 0 (some n))

end Node

namespace Root

/-- Modelled from the spec: growth.  While the key is beyond the addressable range
`w^(height+1)`, the root node is wrapped in a new node at slot 0 and the height is
incremented; the first argument bounds the number of levels added. -/
def grow (w : Nat) : Nat → Root → Nat → Root
  | 0, r, _ => r
  | fuel + 1, r, k =>
    if k ≥ w ^ (r.height + 1) then
      grow w fuel
        ⟨r.height + 1, r.count, .links (Function.update (fun _ => none) 0 (some r.node))⟩ k
    else r

/-- Modelled from the spec: collapse.  While the root has only one occupied slot, at index
0, and the height is not 0, the child takes the place of the root; the first argument
bounds the number of levels removed. -/
def collapse (w : Nat) : Nat → Root → Root
  | 0, r => r
  | fuel + 1, r =>
    if r.height > 0 ∧ r.node.onlySlotZero w = true then
      match r.node with
      | .links f =>
        match f 0 with
        | some child => collapse w fuel ⟨r.height - 1, r.count, child⟩
        | none => r
      | .values _ => r
    else r

end Root

namespace Amt

/-- The branching factor `2^bits`. -/
def width (a : Amt) : Nat := 2 ^ a.bits

/-- Modelled from the spec: the empty AMT. -/
def init (bits : Nat) : Amt := ⟨bits, ⟨0, 0, Node.empty 0⟩⟩

/-- Modelled from the spec: `count()`. -/
def count (a : Amt) : Nat := a.root.count

/-- Modelled from the spec: `get(key)`; a key without a value is NotFound. -/
def get (a : Amt) (key : Nat) : Except Error Bytes :=
  if key ≥ a.width ^ (a.root.height + 1) then .error AmtError.kNotFound
  else
    match a.root.node.get a.width a.root.height (key % a.width ^ (a.root.height + 1)) with
    | some v => .ok v
    | none => .error AmtError.kNotFound

/-- Modelled from the spec: `set(key, value)` for a 64-bit key: grow the tree until the
key is in range, then insert; `count` grows when the key had no value. -/
def set (a : Amt) (key : Nat) (value : Bytes) : Except Error Unit × Amt :=
  let grown := Root.grow a.width 64 a.root key
  let fresh := (a.get key).toOption.isNone
  let written : Root :=
    { grown with
      count := if fresh then grown.count + 1 else grown.count
      node := grown.node.set a.width grown.height (key % a.width ^ (grown.height + 1))
        value }
  (.ok (), { a with root := written })

/-- Modelled from the spec: `remove(key)`: NotFound when the key has no value; else the
value is removed, empty ancestors are pruned, and the root is collapsed. -/
def remove (a : Amt) (key : Nat) : Except Error Unit × Amt :=
  match a.get key with
  | .error e => (.error e, a)
  | .ok _ =>
    let pruned : Root :=
      { a.root with
        count := a.root.count - 1
        node := a.root.node.remove a.width a.root.height
          (key % a.width ^ (a.root.height + 1)) }
    (.ok (), { a with root := Root.collapse a.width a.root.height pruned })

/-- Modelled from the spec: the root record that `flush` stores, as the test reads it back
with `getCbor<Root>`. -/
def getRoot (a : Amt) : Root := a.root

end Amt

end fc.storage.amt

/-! ## The AMT walker (`codec/amt.hpp`, `codec/_tree.hpp`, `codec/common.hpp`,
`codec/cid.hpp`) -/

namespace fc.codec

open fc.vm

/-- Modelled from the spec: a CBOR token as the reader of `codec/cbor/token.hpp` (not among
the sources) fills it: whether it is valid, and the optional results of the accessors
`listCount()`, `bytesSize()`, `asUint()`, `cidSize()`, `mapCount()` and `strSize()`. -/
structure CborToken where
  valid : Bool
  listCount : Option Nat
  bytesSize : Option Nat
  asUint : Option Nat
  cidSize : Option Nat
  mapCount : Option Nat
  strSize : Option Nat

/-- Modelled from the spec: the readers that are not among the sources, as a parameter:
`read(token, input)` of `codec/cbor/token.hpp`, `readNested(value, input)`, which reads one
complete CBOR item, and `readT(key, input)`, which reads a hash.  Each returns what it read
and the input that is left. -/
structure CborReader where
  read : Bytes → CborToken × Bytes
  readNested : Bytes → Option Bytes × Bytes
  readT : Bytes → Option Hash256 × Bytes

/-- The function `read(out, input, n)` of `codec/common.hpp`: the first `n` bytes of the
input, when it has that many, and the input that is left. -/
def read (input : Bytes) (n : Nat) : Option Bytes × Bytes :=
  if input.length < n then (none, input) else (some (input.take n), input.drop n)

/-- The function `readPrefix` of `codec/common.hpp`: consume `expected` when the input
starts with it. -/
def readPrefix (input expected : Bytes) : Bool × Bytes :=
  if input.length ≥ expected.length ∧ input.take expected.length = expected then
    match read input expected.length with
    | (some _, rest) => (true, rest)
    | (none, rest) => (false, rest)
  else (false, input)

namespace cid

/-- The constant `kCborBlakePrefix` of `codec/cid.hpp`. -/
def kCborBlakePrefix : Bytes := [0x01, 0x71, 0xA0, 0xE4, 0x02, 0x20]

/-- The function `cid::readCborBlake`: the prefix of a dag-cbor blake2b-256 CID, then the
hash. -/
def readCborBlake (R : CborReader) (input : Bytes) : Option Hash256 × Bytes :=
  match readPrefix input kCborBlakePrefix with
  | (true, rest) => R.readT rest
  | (false, rest) => (none, rest)

end cid

namespace cbor

/-- The function `cbor::readCborBlake(key, token, input)`: the token is a CID, whose bytes
are exactly a dag-cbor blake2b-256 CID. -/
def readCborBlakeToken (R : CborReader) (token : CborToken) (input : Bytes) :
    Option Hash256 × Bytes :=
  match token.cidSize with
  | none => (none, input)
  | some n =>
    match read input n with
    | (none, input2) => (none, input2)
    | (some c, input2) =>
      match cid.readCborBlake R c with
      | (some key, left) => if left.isEmpty then (some key, input2) else (none, input2)
      | (none, _) => (none, input2)

/-- The function `cbor::readCborBlake(key, input)`: a token that is a CID, whose bytes are
exactly a dag-cbor blake2b-256 CID. -/
def readCborBlake (R : CborReader) (input : Bytes) : Option Hash256 × Bytes :=
  match R.read input with
  | (token, input1) =>
    if !token.valid then (none, input1)
    else
      match token.cidSize with
      | none => (none, input1)
      | some n =>
        match read input1 n with
        | (none, input2) => (none, input2)
        | (some c, input2) =>
          match cid.readCborBlake R c with
          | (some key, left) => if left.isEmpty then (some key, input2) else (none, input2)
          | (none, _) => (none, input2)

end cbor

/-- The struct `_tree::Tree`: the store, the queue of CIDs with the index of the next one,
the block being read and the part of it not yet read, and the optional store of visited
CIDs.  The store is a function from hashes to blocks. -/
structure Tree where
  ipld : Hash256 → Option Bytes
  cids : List Hash256
  next_cid : Nat
  _node : Bytes
  node : Bytes
  visited : Option (Hash256 → Bool)

namespace Tree

/-- The constructor `Tree(ipld, root)`. -/
def new (ipld : Hash256 → Option Bytes) (root : Hash256) : Tree :=
  ⟨ipld, [root], 0, [], [], none⟩

/-- The method `Tree::empty`. -/
def empty (t : Tree) : Bool := t.node.isEmpty && t.next_cid == t.cids.length

/-- The method `Tree::_next`: load the next block of the queue.  The result is `none` when
the assertion fails or the index is beyond the queue. -/
def _next (t : Tree) : Option (Bool × Tree) :=
  if t.empty then none
  else
    match t.cids.get? t.next_cid with
    | none => none
    | some c =>
      match t.ipld c with
      | some b => some (true, { t with next_cid := t.next_cid + 1, _node := b, node := b })
      | none => some (false, { t with next_cid := t.next_cid + 1, _node := [], node := [] })

/-- The method `Tree::_push`. -/
def _push (t : Tree) (c : Hash256) : Tree :=
  match t.visited with
  | none => { t with cids := t.cids ++ [c] }
  | some has => if !has c then { t with cids := t.cids ++ [c] } else t

end Tree

namespace amt

/-- The struct `AmtWalk`: a `Tree` and the number of values left in the node. -/
structure AmtWalk extends Tree where
  _values : Nat

namespace AmtWalk

/-- The inherited constructor. -/
def new (ipld : Hash256 → Option Bytes) (root : Hash256) : AmtWalk :=
  ⟨Tree.new ipld root, 0⟩

/-- The loop over the links in `_readNode`: read a CID and push it, `links` times. -/
def readLinks (R : CborReader) : Nat → AmtWalk → Bool × AmtWalk
  | 0, w => (true, w)
  | links + 1, w =>
    match cbor.readCborBlake R w.node with
    | (none, rest) => (false, { w with node := rest })
    | (some c, rest) =>
      readLinks R links { w with toTree := ({ w.toTree with node := rest })._push c }

/-- The method `AmtWalk::_readNode`: a list of 3, the bitmap bytes, the list of links,
which are pushed, and the head of the list of values. -/
def _readNode (R : CborReader) (w : AmtWalk) : Bool × AmtWalk :=
  match R.read w.node with
  | (t1, n1) =>
    if t1.listCount != some 3 then (false, { w with node := n1 })
    else
      match R.read n1 with
      | (t2, n2) =>
        match t2.bytesSize with
        | none => (false, { w with node := n2 })
        | some size =>
          match read n2 size with
          | (none, n3) => (false, { w with node := n3 })
          | (some _, n3) =>
            match R.read n3 with
            | (t3, n4) =>
              match t3.listCount with
              | none => (false, { w with node := n4 })
              | some links =>
                match readLinks R links { w with node := n4 } with
                | (false, w1) => (false, w1)
                | (true, w1) =>
                  match R.read w1.node with
                  | (t4, n5) =>
                    match t4.listCount with
                    | none => (false, { w1 with node := n5 })
                    | some count => (true, { w1 with node := n5, _values := count })

/-- The end of `load`: the height, the count and the root node. -/
def loadRoot (R : CborReader) (w : AmtWalk) : Bool × AmtWalk :=
  match R.read w.node with
  | (t2, n2) =>
    if t2.asUint.isNone then (false, { w with node := n2 })
    else
      match R.read n2 with
      | (t3, n3) =>
        if t3.asUint.isNone then (false, { w with node := n3 })
        else _readNode R { w with node := n3 }

/-- The method `AmtWalk::load`: the root block, a list of 4, whose first item is an
unsigned integer, or a list of 3, then the height, the count and the root node. -/
def load (R : CborReader) (w : AmtWalk) : Ended (Bool × AmtWalk) :=
  match w.toTree._next with
  | none => .undefined
  | some (false, t) => .returned (false, { w with toTree := t })
  | some (true, t) =>
    match R.read t.node with
    | (t1, n1) =>
      match t1.listCount with
      | none => .returned (false, { w with toTree := { t with node := n1 } })
      | some count =>
        if count = 4 then
          match R.read n1 with
          | (tb, nb) =>
            if tb.asUint.isNone then
              .returned (false, { w with toTree := { t with node := nb } })
            else .returned (loadRoot R { w with toTree := { t with node := nb } })
        else if count ≠ 3 then .returned (false, { w with toTree := { t with node := n1 } })
        else .returned (loadRoot R { w with toTree := { t with node := n1 } })

/-- The method `AmtWalk::next`: the loop runs `fuel` times at most.  The result is the
value read, for `true`, or `none`, for `false`, and the walker. -/
def next (R : CborReader) : Nat → AmtWalk → Ended (Option Bytes × AmtWalk)
  | 0, _ => .outOfFuel
  | fuel + 1, w =>
    if w.empty then .returned (none, w)
    else if w._values ≠ 0 then
      match R.readNested w.node with
      | (some value, rest) =>
        .returned (some value, { w with _values := w._values - 1, node := rest })
      | (none, rest) => .returned (none, { w with _values := w._values - 1, node := rest })
    else if !w.node.isEmpty then .returned (none, w)
    else
      match w.toTree._next with
      | none => .undefined
      | some (false, t) => next R fuel { w with toTree := t }
      | some (true, t) =>
        match _readNode R { w with toTree := t } with
        | (false, w1) => .returned (none, w1)
        | (true, w1) => next R fuel w1

end AmtWalk

end amt

end fc.codec

/-! ## Stored AMTs, as the walker reads them -/

namespace fc.storage.amt

open fc.vm

namespace Node

/-- The occupied ones of the `w` slots, in index order. -/
def items {α : Type} (w : Nat) (f : Nat → Option α) : List α := (List.range w).filterMap f

/-- The values below a node of height `h`, slot by slot in index order. -/
def entries (w : Nat) : Nat → Node → List Bytes
  | 0, .values f => items w f
  | h + 1, .links f => (items w f).flatMap fun child => entries w h child
  | _, _ => []

/-- A node of height `h` ends in a value: its last occupied slot, and the last occupied
slot of each node on the way down from it, leads to a leaf that holds a value. -/
def EndsInValue (w : Nat) : Nat → Node → Prop
  | 0, .values f => items w f ≠ []
  | h + 1, .links f => ∃ last, (items w f).getLast? = some last ∧ EndsInValue w h last
  | _, _ => False

/-- The last one of the nodes `A` of height `h`, if there is one, ends in a value. -/
def EndIn (w h : Nat) (A : List Node) : Prop :=
  ∀ last, A.getLast? = some last → EndsInValue w h last

/-- The tree below a root node of height `h` does not end in a node without values: the
last child of the root, if the root has one, ends in a value. -/
def RootEnds (w : Nat) : Nat → Node → Prop
  | h + 1, .links f => EndIn w h (items w f)
  | _, _ => True

/-- No node below a node of height `h` is without values: the state that pruning keeps. -/
def Pruned (w : Nat) : Nat → Node → Prop
  | h + 1, .links f =>
    ∀ i child, i < w → f i = some child → entries w h child ≠ [] ∧ Pruned w h child
  | _, _ => True

/-- Below a node of height `h`, a node without values is reached by slot 0 only: growth
wraps the root at slot 0, also when the root has no values. -/
def Spine (w : Nat) : Nat → Node → Prop
  | h + 1, .links f =>
    (∀ i child, 0 < i → i < w → f i = some child →
        entries w h child ≠ [] ∧ Pruned w h child)
      ∧ ∀ child, f 0 = some child → Spine w h child
  | _, _ => True

/-- No slot of the node other than slot 0 is occupied. -/
def Alone (w : Nat) : Node → Prop
  | .links f => ∀ i, 0 < i → i < w → f i = none
  | .values _ => True

end Node

/-- The state of the root that `set` and `remove` keep: the kinds of the nodes fit their
heights, a node without values is reached by slot 0 only, and when the root has no other
slot than slot 0 occupied, no node below it is without values. -/
def Root.Inv (w : Nat) (r : Root) : Prop :=
  Node.Shaped r.height r.node ∧ Node.Spine w r.height r.node
    ∧ (Node.Alone w r.node → Node.Pruned w r.height r.node)

/-- The AMTs built from the empty AMT by `set`, with 64-bit keys, and `remove`. -/
inductive Amt.Built : Amt → Prop where
  | init (bits : Nat) : Amt.Built (Amt.init bits)
  | set (a : Amt) (key : Nat) (value : Bytes) :
    Amt.Built a → key < 2 ^ 64 → Amt.Built (a.set key value).2
  | remove (a : Amt) (key : Nat) : Amt.Built a → Amt.Built (a.remove key).2

end fc.storage.amt

namespace fc.codec.amt

open fc.vm fc.storage.amt

/-- The input holds the values `vs` and nothing else: each is a CBOR item, of one byte at
least, that `readNested` reads. -/
def ValuesBytes (R : CborReader) : List Bytes → Bytes → Prop
  | [], b => b = []
  | v :: vs, b => b ≠ [] ∧ ∃ rest, R.readNested b = (some v, rest) ∧ ValuesBytes R vs rest

/-- The input starts with the links `cs`, each a dag-cbor blake2b-256 CID token, and `rest`
is what follows them. -/
def LinksBytes (R : CborReader) : List Hash256 → Bytes → Bytes → Prop
  | [], b, rest => b = rest
  | c :: cs, b, rest =>
    ∃ b1, cbor.readCborBlake R b = (some c, b1) ∧ LinksBytes R cs b1 rest

/-- The input holds a node `[bitmap, [links], [values]]` with the links `cs` and the values
`vs`, as the reader decodes it. -/
def NodeBytes (R : CborReader) (cs : List Hash256) (vs : List Bytes) (b : Bytes) : Prop :=
  ∃ t1 n1 t2 n2 size t3 n3 n4 t4 n5,
    R.read b = (t1, n1) ∧ t1.listCount = some 3
      ∧ R.read n1 = (t2, n2) ∧ t2.bytesSize = some size ∧ size ≤ n2.length
      ∧ R.read (n2.drop size) = (t3, n3) ∧ t3.listCount = some cs.length
      ∧ LinksBytes R cs n3 n4
      ∧ R.read n4 = (t4, n5) ∧ t4.listCount = some vs.length
      ∧ ValuesBytes R vs n5

/-- The input holds a root `[height, count, node]`, or `[bits, height, count, node]`, as
the reader decodes it. -/
def RootBytes (R : CborReader) (height count : Nat) (cs : List Hash256) (vs : List Bytes)
    (b : Bytes) : Prop :=
  ∃ t1 n1 n2 t2 n3 t3 n4,
    R.read b = (t1, n1)
      ∧ ((t1.listCount = some 4 ∧ ∃ tb, R.read n1 = (tb, n2) ∧ tb.asUint.isSome = true)
        ∨ (t1.listCount = some 3 ∧ n2 = n1))
      ∧ R.read n2 = (t2, n3) ∧ t2.asUint = some height
      ∧ R.read n3 = (t3, n4) ∧ t3.asUint = some count
      ∧ NodeBytes R cs vs n4

/-- A node of height `h` has the links `cs` and the values `vs`, and the store holds its
subtrees: a leaf has its values in index order and no link; an interior node has no value
and one link for each child in index order, at which the store holds the block of the
child. -/
def Stored (R : CborReader) (ipld : Hash256 → Option Bytes) (w : Nat) :
    Nat → Node → List Hash256 → List Bytes → Prop
  | 0, .values f, cs, vs => cs = [] ∧ vs = Node.items w f
  | h + 1, .links f, cs, vs =>
    vs = [] ∧ List.Forall₂
      (fun child c => ∃ b cs1 vs1,
        ipld c = some b ∧ NodeBytes R cs1 vs1 b ∧ Stored R ipld w h child cs1 vs1)
      (Node.items w f) cs
  | _, _, _, _ => False

/-- The store holds, at `c`, the block of a node of height `h` and its subtrees. -/
def StoredAt (R : CborReader) (ipld : Hash256 → Option Bytes) (w h : Nat) (n : Node)
    (c : Hash256) : Prop :=
  ∃ b cs vs, ipld c = some b ∧ NodeBytes R cs vs b ∧ Stored R ipld w h n cs vs

/-- The store holds, at `c`, the AMT with the root `root`: all its node blocks are
present. -/
def Flushed (R : CborReader) (ipld : Hash256 → Option Bytes) (w : Nat) (root : Root)
    (c : Hash256) : Prop :=
  ∃ b cs vs, ipld c = some b ∧ RootBytes R root.height root.count cs vs b
    ∧ Stored R ipld w root.height root.node cs vs

/-- The walker is between two nodes or in a node, with the values `vs` left in the node and
the CIDs `q` left in the queue. -/
def AmtWalk.At (R : CborReader) (ipld : Hash256 → Option Bytes) (wk : AmtWalk)
    (vs : List Bytes) (q : List Hash256) : Prop :=
  wk.ipld = ipld ∧ wk.visited = none ∧ ValuesBytes R vs wk.node ∧ wk._values = vs.length
    ∧ wk.next_cid ≤ wk.cids.length ∧ wk.cids.drop wk.next_cid = q

/-- Successive calls of `next` yield the values `vs`, one per call, and then `false`;
`empty()` is false while a value is left and true after the last one. -/
def AmtWalk.Yields (R : CborReader) : List Bytes → AmtWalk → Prop
  | [], wk =>
    wk.empty = true ∧ ∃ N, ∀ fuel, N ≤ fuel → AmtWalk.next R fuel wk = .returned (none, wk)
  | v :: vs, wk =>
    wk.empty = false ∧ ∃ N wk1,
      (∀ fuel, N ≤ fuel → AmtWalk.next R fuel wk = .returned (some v, wk1))
        ∧ AmtWalk.Yields R vs wk1

end fc.codec.amt

namespace fc.codec

open fc.vm

/-- Whether the walker has a store of visited CIDs and that store has `c`: the condition
under which `_push` does not enqueue `c`. -/
def Tree.isVisited (t : Tree) (c : Hash256) : Bool :=
  match t.visited with
  | none => false
  | some has => has c

end fc.codec

/-! ## The flush of the CAR store (`CidsIpld::doFlush`, `CidsIpld::asyncFlush`) -/

namespace fc.storage

open fc.vm

/-- What `doFlush` uses of code that is not among the sources, as a parameter: `merge` of the
index file with the sorted rows into the temporary file, `cids_index::load` of the temporary
file, which gives the new index, and `boost::filesystem::rename` of the temporary file onto
the index file.  Each of them may fail. -/
structure FlushIo where
  merge : List Row → Except Error Unit
  load : List Row → Except Error (Hash256 → Except Error (Option Row))
  rename : Except Error Unit

/-- The class `CidsIpld` as a flush uses it: the store and its flag `flushing`
(`std::atomic_flag`). -/
structure CidsIpldFlush where
  store : CidsIpld
  flushing : Bool

namespace CidsIpldFlush

/-- The local `max_offset` of `doFlush`: the largest offset of the rows, 0 without rows. -/
def maxOffset (rows : List Row) : Nat := rows.foldl (fun m row => max m row.offset) 0

/-- Method `CidsIpld::doFlush`, one thread at a time.  The rows are those of the set
`written`, whose order is that of `std::sort`.  An error of `merge`, of `load` or of the
rename returns at once; else the index is replaced, the rows up to `max_offset` are erased
from `written`, and `flushing.clear()` runs. -/
def doFlush (io : FlushIo) (s : CidsIpldFlush) : Except Error Unit × CidsIpldFlush :=
  let rows := s.store.written
  let max_offset := maxOffset rows
  match io.merge rows with
  | .error e => (.error e, s)
  | .ok _ =>
    match io.load rows with
    | .error e => (.error e, s)
    | .ok new_index =>
      match io.rename with
      | .error ec => (.error ec, s)
      | .ok _ =>
        (.ok (),
          { store :=
              { s.store with
                index := new_index
                written := s.store.written.filter fun row => row.offset > max_offset }
            flushing := false })

/-- The test `!flushing.test_and_set()` of `asyncFlush`: whether the flag was clear, and the
store with the flag set. -/
def testAndSet (s : CidsIpldFlush) : Bool × CidsIpldFlush :=
  (!s.flushing, { s with flushing := true })

/-- Method `CidsIpld::asyncFlush` without an executor `io`: `doFlush` runs at once when the
flag was clear, and its error is logged only.  The result says whether a flush was
started. -/
def asyncFlush (io : FlushIo) (s : CidsIpldFlush) : Bool × CidsIpldFlush :=
  match s.testAndSet with
  | (true, s1) => (true, (doFlush io s1).2)
  | (false, s1) => (false, s1)

end CidsIpldFlush

end fc.storage

/-! ## Sets of numbers (`primitives/rle_bitset/rle_bitset.hpp`) -/

namespace fc.primitives

/-- The struct `RleBitset`, a `std::set<uint64_t>`: the list of its elements in the order
of its iteration, ascending. -/
abbrev RleBitset := List Nat

namespace RleBitset

/-- A set of 64-bit numbers: the elements ascend strictly and are below `2^64`. -/
def WF (s : RleBitset) : Prop := s.Sorted (· < ·) ∧ ∀ x ∈ s, x < 2 ^ 64

/-- The method `insert` of `std::set`: the element is put at its place unless the set has
it. -/
def insert (v : Nat) : RleBitset → RleBitset
  | [] => [v]
  | x :: rest =>
    if v < x then v :: x :: rest
    else if x < v then x :: insert v rest
    else x :: rest

/-- The method `has`. -/
def has (s : RleBitset) (v : Nat) : Bool := s.contains v

/-- The operator `-`: the elements of `s` that `other` does not have, inserted one after
the other. -/
def sub (s other : RleBitset) : RleBitset :=
  s.foldl (fun result i => if !other.has i then insert i result else result) []

/-- The inner loop of `cut`: the iterator `it` moves over the elements below `element`, and
`shift`, a `uint64_t`, counts them. -/
def skip (element : Nat) : Nat → List Nat → Nat × List Nat
  | shift, [] => (shift, [])
  | shift, x :: it =>
    if x < element then skip element ((shift + 1) % 2 ^ 64) it else (shift, x :: it)

/-- The outer loop of `cut` over the elements of the set that are left, with the locals
`shift`, `it`, as the part of `to_cut` from the iterator on, and `result`.  The difference
`element - shift` is one of `uint64_t`. -/
def cutLoop : List Nat → Nat → List Nat → RleBitset → RleBitset
  | [], _, _, result => result
  | element :: rest, shift, it, result =>
    match skip element shift it with
    | (shift1, []) =>
      cutLoop rest shift1 [] (insert ((element + 2 ^ 64 - shift1) % 2 ^ 64) result)
    | (shift1, x :: it1) =>
      if x > element then
        cutLoop rest shift1 (x :: it1) (insert ((element + 2 ^ 64 - shift1) % 2 ^ 64) result)
      else cutLoop rest shift1 (x :: it1) result

/-- The method `cut`. -/
def cut (s to_cut : RleBitset) : RleBitset := cutLoop s 0 to_cut []

/-- The number of elements of `c` below `e`. -/
def below (c : RleBitset) (e : Nat) : Nat := (c.filter fun x => x < e).length

end RleBitset

end fc.primitives

/-! ## The HAMT walker (`codec/hamt.hpp`) -/

namespace fc.codec.hamt

open fc.vm

/-- The struct `HamtWalk`: a `Tree` and the number of entries left in the bucket. -/
structure HamtWalk extends Tree where
  _bucket : Nat

namespace HamtWalk

/-- The inherited constructor. -/
def new (ipld : Hash256 → Option Bytes) (root : Hash256) : HamtWalk :=
  ⟨Tree.new ipld root, 0⟩

/-- The first branch of the loop of `next`: one entry `[key bytes, value]` of the bucket. -/
def readEntry (R : CborReader) (w : HamtWalk) : Option (Bytes × Bytes) × HamtWalk :=
  match R.read w.node with
  | (t1, n1) =>
    if t1.listCount != some 2 then (none, { w with node := n1 })
    else
      match R.read n1 with
      | (t2, n2) =>
        match t2.bytesSize with
        | none => (none, { w with node := n2 })
        | some size =>
          match read n2 size with
          | (none, n3) => (none, { w with node := n3 })
          | (some key, n3) =>
            match R.readNested n3 with
            | (none, n4) => (none, { w with node := n4 })
            | (some value, n4) => (some (key, value), { w with node := n4 })

/-- The second branch, after `_next()` returned true: the head of a node, a list of 2, the
bitmap bytes and the head of the list of pointers. -/
def readHead (R : CborReader) (w : HamtWalk) : Bool × HamtWalk :=
  match R.read w.node with
  | (t1, n1) =>
    if t1.listCount != some 2 then (false, { w with node := n1 })
    else
      match R.read n1 with
      | (t2, n2) =>
        match t2.bytesSize with
        | none => (false, { w with node := n2 })
        | some size =>
          match read n2 size with
          | (none, n3) => (false, { w with node := n3 })
          | (some _, n3) =>
            match R.read n3 with
            | (t3, n4) =>
              if t3.listCount.isNone then (false, { w with node := n4 })
              else (true, { w with node := n4 })

/-- The end of the third branch: a CID token is read and pushed, any other token is the
head of a bucket. -/
def readPointer (R : CborReader) (token : CborToken) (w : HamtWalk) : Bool × HamtWalk :=
  if token.cidSize.isSome then
    match cbor.readCborBlakeToken R token w.node with
    | (none, rest) => (false, { w with node := rest })
    | (some c, rest) => (true, { w with toTree := ({ w.toTree with node := rest })._push c })
  else
    match token.listCount with
    | none => (false, w)
    | some count => (true, { w with _bucket := count })

/-- The third branch: a token, which is the pointer or the head of a map of one entry with
the key `"0"` or `"1"`, whose value is the pointer. -/
def readWrapped (R : CborReader) (w : HamtWalk) : Bool × HamtWalk :=
  match R.read w.node with
  | (t1, n1) =>
    if !t1.valid then (false, { w with node := n1 })
    else
      match t1.mapCount with
      | none => readPointer R t1 { w with node := n1 }
      | some count =>
        if count ≠ 1 then (false, { w with node := n1 })
        else
          match R.read n1 with
          | (t2, n2) =>
            if t2.strSize != some 1 then (false, { w with node := n2 })
            else
              match read n2 1 with
              | (none, n3) => (false, { w with node := n3 })
              | (some str, n3) =>
                if str.headD 0 ≠ 0x30 ∧ str.headD 0 ≠ 0x31 then (false, { w with node := n3 })
                else
                  match R.read n3 with
                  | (t3, n4) =>
                    if !t3.valid then (false, { w with node := n4 })
                    else readPointer R t3 { w with node := n4 }

/-- The method `HamtWalk::next`: the loop runs `fuel` times at most.  The result is the
key and the value read, for `true`, or `none`, for `false`, and the walker. -/
def next (R : CborReader) : Nat → HamtWalk → Ended (Option (Bytes × Bytes) × HamtWalk)
  | 0, _ => .outOfFuel
  | fuel + 1, w =>
    if w.empty then .returned (none, w)
    else if w._bucket ≠ 0 then .returned (readEntry R { w with _bucket := w._bucket - 1 })
    else if w.node.isEmpty then
      match w.toTree._next with
      | none => .undefined
      | some (false, t) => next R fuel { w with toTree := t }
      | some (true, t) =>
        match readHead R { w with toTree := t } with
        | (false, w1) => .returned (none, w1)
        | (true, w1) => next R fuel w1
    else
      match readWrapped R w with
      | (false, w1) => .returned (none, w1)
      | (true, w1) => next R fuel w1

end HamtWalk

/-- Modelled from the spec: a HAMT node as the sequence of its pointers (the HAMT of
`storage/hamt` is not among the sources): no pointer; a link to a child node, then the
pointers that follow; or a bucket of entries `(key, value)`, then the pointers that
follow. -/
inductive Node where
  | done : Node
  | link (child : Node) (rest : Node) : Node
  | bucket (entries : List (Bytes × Bytes)) (rest : Node) : Node

namespace Node

/-- The number of pointers of the node. -/
def count : Node → Nat
  | .done => 0
  | .link _ rest => rest.count + 1
  | .bucket _ rest => rest.count + 1

/-- The bucket entries of the node and of every node below it. -/
def entries : Node → List (Bytes × Bytes)
  | .done => []
  | .link child rest => child.entries ++ rest.entries
  | .bucket es rest => es ++ rest.entries

/-- A bound on the turns of the walk below the node. -/
def size : Node → Nat
  | .done => 0
  | .link child rest => child.size + rest.size + 2
  | .bucket _ rest => rest.size + 1

/-- The entries in the order of a walk that is at the pointers `cur` with the nodes `queue`
waiting: the buckets of a node in the order of its pointers, then the waiting nodes and,
after them, the children of the node. -/
def walk : Nat → Node → List Node → List (Bytes × Bytes)
  | 0, _, _ => []
  | _ + 1, .done, [] => []
  | fuel + 1, .done, n :: queue => walk fuel n queue
  | fuel + 1, .link child rest, queue => walk fuel rest (queue ++ [child])
  | fuel + 1, .bucket es rest, queue => es ++ walk fuel rest queue

/-- The entries of the HAMT with the root `root`, breadth first. -/
def order (root : Node) : List (Bytes × Bytes) := walk (root.size + 2) .done [root]

end Node

/-- The input starts with the entries `es`, each a list of the key bytes and a value that
`readNested` reads, and `rest` is what follows them. -/
def EntriesBytes (R : CborReader) : List (Bytes × Bytes) → Bytes → Bytes → Prop
  | [], b, rest => b = rest
  | e :: es, b, rest =>
    b ≠ [] ∧ ∃ t1 n1 t2 n2 n3,
      R.read b = (t1, n1) ∧ t1.listCount = some 2
        ∧ R.read n1 = (t2, n2) ∧ t2.bytesSize = some e.1.length
        ∧ read n2 e.1.length = (some e.1, n2.drop e.1.length)
        ∧ R.readNested (n2.drop e.1.length) = (some e.2, n3)
        ∧ EntriesBytes R es n3 rest

/-- The input starts with a pointer, whose token is `token`, and `rest` is what follows the
token: the token is the first one of the input, or the input starts with the head of a map
of one entry, the key is the text `"0"` or `"1"`, and the token follows the key. -/
def PointerBytes (R : CborReader) (b : Bytes) (token : CborToken) (rest : Bytes) : Prop :=
  b ≠ [] ∧ token.valid = true
    ∧ ((R.read b = (token, rest) ∧ token.mapCount = none)
      ∨ ∃ t1 n1 t2 n2 k,
          R.read b = (t1, n1) ∧ t1.valid = true ∧ t1.mapCount = some 1
            ∧ R.read n1 = (t2, k :: n2) ∧ t2.strSize = some 1 ∧ (k = 0x30 ∨ k = 0x31)
            ∧ R.read n2 = (token, rest))

/-- The input holds the head of a node `[bitmap, [pointers]]` with `count` pointers, as the
reader decodes it, and `rest` is what follows the head. -/
def HeadBytes (R : CborReader) (count : Nat) (b rest : Bytes) : Prop :=
  ∃ t1 n1 t2 n2 size t3,
    R.read b = (t1, n1) ∧ t1.listCount = some 2
      ∧ R.read n1 = (t2, n2) ∧ t2.bytesSize = some size ∧ size ≤ n2.length
      ∧ R.read (n2.drop size) = (t3, rest) ∧ t3.listCount = some count

/-- The input holds the pointers of the node and nothing else, and the store holds the
blocks of the nodes below it: a link is a dag-cbor blake2b-256 CID token, at which the
store holds the block of the child; a bucket is a list of its entries. -/
def Stored (R : CborReader) (ipld : Hash256 → Option Bytes) : Node → Bytes → Prop
  | .done, b => b = []
  | .link child rest, b =>
    ∃ token n1 c n2 block n3,
      PointerBytes R b token n1 ∧ cbor.readCborBlakeToken R token n1 = (some c, n2)
        ∧ ipld c = some block ∧ HeadBytes R child.count block n3 ∧ Stored R ipld child n3
        ∧ Stored R ipld rest n2
  | .bucket es rest, b =>
    ∃ token n1 n2,
      PointerBytes R b token n1 ∧ token.cidSize = none ∧ token.listCount = some es.length
        ∧ EntriesBytes R es n1 n2 ∧ Stored R ipld rest n2

/-- The store holds, at `c`, the block of the node and the blocks of the nodes below it:
all node blocks of the HAMT with this root are present. -/
def StoredAt (R : CborReader) (ipld : Hash256 → Option Bytes) (n : Node) (c : Hash256) :
    Prop :=
  ∃ block rest, ipld c = some block ∧ HeadBytes R n.count block rest ∧ Stored R ipld n rest

/-- The walker has the entries `es` of a bucket left, then the pointers `cur` of the node,
and the nodes `queue` wait at the CIDs left in the queue. -/
def HamtWalk.At (R : CborReader) (ipld : Hash256 → Option Bytes) (wk : HamtWalk)
    (es : List (Bytes × Bytes)) (cur : Node) (queue : List Node) : Prop :=
  wk.ipld = ipld ∧ wk.visited = none ∧ wk._bucket = es.length
    ∧ (∃ mid, EntriesBytes R es wk.node mid ∧ Stored R ipld cur mid)
    ∧ wk.next_cid ≤ wk.cids.length
    ∧ List.Forall₂ (StoredAt R ipld) queue (wk.cids.drop wk.next_cid)

/-- Successive calls of `next` yield the entries `es`, one per call, and then `false`. -/
def HamtWalk.Yields (R : CborReader) : List (Bytes × Bytes) → HamtWalk → Prop
  | [], wk => ∃ N wk1, ∀ fuel, N ≤ fuel → HamtWalk.next R fuel wk = .returned (none, wk1)
  | e :: es, wk =>
    ∃ N wk1, (∀ fuel, N ≤ fuel → HamtWalk.next R fuel wk = .returned (some e, wk1))
      ∧ HamtWalk.Yields R es wk1

end fc.codec.hamt

/-! ## Concrete inputs used to exercise the theorems -/

namespace fc.vm.Examples

/-- A store whose init actor state knows one key address and allocates id 200. -/
def store0 : Store :=
  ⟨fun _ a => if a = Address.secp256k1 [1] then .ok (some 100) else .ok none,
   fun _ _ => .ok (3, 200)⟩

/-- An account actor (code 7) with the given balance. -/
def account (balance : Int) : Actor := ⟨7, 0, 0, balance⟩

/-- A HAMT holding the init, reward and burnt-funds actors and two accounts. -/
def hamt0 : ActorId → Except Error (Option Actor)
  | 1 => .ok (some ⟨1, 0, 0, 0⟩)
  | 2 => .ok (some ⟨2, 0, 0, 0⟩)
  | 99 => .ok (some (account 0))
  | 100 => .ok (some (account 1000000))
  | 101 => .ok (some (account 5))
  | _ => .ok none

/-- A freshly constructed state tree over `hamt0`. -/
def tree0 : StateTreeImpl := ⟨0, store0, hamt0, Tx.empty, []⟩

/-- A parent layer that holds actor 6 and records the removal of actor 5. -/
def parentLayer : Tx := ⟨(∅ : AList fun _ : ActorId => Actor).insert 6 (account 1), {5}, ∅⟩

/-- A top layer that writes actor 5, writes and then removes actor 6. -/
def topLayer : Tx :=
  ⟨((∅ : AList fun _ : ActorId => Actor).insert 5 (account 2)).insert 6 (account 3), {6}, ∅⟩

/-- A state tree with the two layers above. -/
def tree2 : StateTreeImpl := ⟨0, store0, hamt0, topLayer, [parentLayer]⟩

end fc.vm.Examples

namespace fc.vm.Examples

/-- Prices: 10 for a message on chain, the length for a return value, 3 for creating an
actor, 5 for a method invocation. -/
def prices : Pricelist := ⟨fun _ => 10, fun n => n, 3, fun _ _ => 5⟩

/-- Code 7 is the account actor, code 8 the storage miner actor. -/
def matcher : AddressMatcher := ⟨fun c => c == 7, fun c => c == 8, 7⟩

/-- An environment whose actor code overwrites actor 101 and then fails with exit code 42. -/
def envFail : Env :=
  ⟨10, 1, prices, matcher, true, 5,
   fun _ _ => .set (Address.id 101) (account 77)
     (fun _ => .ret (.error (Error.exitCode (VMExitCode.other 42)))),
   fun _ => .ok []⟩

/-- An execution over `tree0` with gas limit 1000. -/
def exec0 : Execution := ⟨tree0, 0, 1000⟩

/-- A call of method 3 of actor 101 by actor 100, with value 10. -/
def msgCall : UnsignedMessage := ⟨Address.id 101, Address.id 100, 0, 10, 1000, 2, 1, 3, []⟩

/-- What `sendWithRevert` returns for `msgCall` under `envFail`. -/
def sentFail : Except Error Bytes × Execution :=
  match Execution.sendWithRevertN envFail 1 exec0 msgCall with
  | .done p => p
  | _ => (.ok [], exec0)

end fc.vm.Examples

namespace fc.vm.Examples

/-- An environment at epoch 10 with base fee 1 whose actor code returns three bytes. -/
def envOk : Env :=
  ⟨10, 1, prices, matcher, true, 5, fun _ _ => .ret (.ok [1, 2, 3]), fun _ => .ok []⟩

/-- A plain transfer of 10 from actor 100 to actor 101: gas limit 1000, fee cap 2,
premium 1, nonce 0. -/
def msgSend : UnsignedMessage := ⟨Address.id 101, Address.id 100, 0, 10, 1000, 2, 1, 0, []⟩

/-- The transfer `msgSend` with a gas limit below the price of the message on chain. -/
def msgSmall : UnsignedMessage := { msgSend with gas_limit := 5 }

/-- The transfer `msgSend` with a nonce that is not the sender's. -/
def msgStale : UnsignedMessage := { msgSend with nonce := 3 }

/-- A HAMT whose read of actor 100 fails. -/
def hamtErr : ActorId → Except Error (Option Actor)
  | 100 => .error (Error.other 7)
  | n => hamt0 n

/-- A freshly constructed state tree over `hamtErr`. -/
def treeErr : StateTreeImpl := ⟨0, store0, hamtErr, Tx.empty, []⟩

end fc.vm.Examples

namespace fc.vm.Examples

end fc.vm.Examples

namespace fc.vm.Examples

/-- An execution that has used 990 of its gas limit 1000. -/
def execNearLimit : Execution := ⟨tree0, 990, 1000⟩

end fc.vm.Examples

namespace fc.vm.Examples

/-- A call of method 3 of actor 101 by actor 100 with gas limit 16: enough for the message
on chain (10) and the invocation (5), not for the three bytes returned by `envOk`. -/
def msgTight : UnsignedMessage := { msgCall with gas_limit := 16 }

/-- The locals of `applyMessage` for `msgTight` on `tree0` after the sender is charged. -/
def chargedTight : Locals :=
  (Env.chargeSender msgTight
    ⟨{ Apply.init with penalty := msgTight.gas_limit * envOk.parentBaseFee }, 0, tree0⟩).2

/-- What the send of `msgTight` returns under `envOk`. -/
def sentTight : Except Error Bytes × Execution :=
  match Execution.send envOk 2 (Execution.make chargedTight.state_tree.txBegin msgTight)
      msgTight 10 with
  | .done p => p
  | _ => (.ok [], exec0)

/-- What `applyValidated` leaves behind for `msgTight` on `tree0`. -/
def validatedTight : Returned :=
  match Env.applyValidated envOk 2 tree0 msgTight 10 with
  | .done r => r
  | _ => ⟨.error Error.notFound, 0, tree0⟩

end fc.vm.Examples

namespace fc.vm.Examples

/-- A HAMT and store that never fail: the root CID of a content is the balance it holds for
actor 100, the empty `StateTreeInfo` is stored under CID 45, and a state root under the sum
of its three fields. -/
def io0 : HamtStore :=
  ⟨fun _ _ _ => none, fun _ _ => none,
   fun c => match c 100 with
     | .ok (some a) => .ok a.balance.toNat
     | _ => .ok 0,
   .ok 45, fun r => .ok (r.version + r.actor_tree_root + r.info)⟩

/-- The pending layer of the trees below: actors 100 and 6 written, actor 101 removed. -/
def pending : Tx :=
  ⟨((∅ : AList fun _ : ActorId => Actor).insert 100 (account 7)).insert 6 (account 3),
   {101}, ∅⟩

/-- A tree of version 0 over `hamt0` with the pending layer. -/
def treeV0 : StateTreeImpl := ⟨0, store0, hamt0, pending, []⟩

/-- A tree of version 1 over `hamt0` with the pending layer. -/
def treeV1 : StateTreeImpl := ⟨1, store0, hamt0, pending, []⟩

/-- The tree `treeV1` after `flush`. -/
def flushedV1 : StateTreeImpl :=
  match treeV1.flush io0 with
  | some p => p.2
  | none => treeV1

end fc.vm.Examples

namespace fc.vm.Examples

end fc.vm.Examples

namespace fc.vm.Examples

/-- The digest of the example CID `c`: 32 bytes equal to `c`. -/
def digest (c : CID) : Hash256 := ⟨List.replicate 32 (UInt8.ofNat c), List.length_replicate _ _⟩

/-- A view of CIDs in which the even CIDs are dag-cbor with a BLAKE2b-256 digest and the odd
CIDs have another codec. -/
def view0 : CidView := ⟨fun c => c % 2 == 0, fun c => if c % 2 == 0 then some (digest c) else none⟩

/-- A backing store kept as the list of its blocks, newest first. -/
def listStore : Ipld (List (CID × Bytes)) where
  get := fun s cid =>
    match s.lookup cid with
    | some v => .ok v
    | none => .error IpfsDatastoreError.kNotFound
  set := fun s cid v => (.ok (), (cid, v) :: s)

/-- A buffered writer with nothing written over a backing store that holds the blocks 1
and 6. -/
def buffered0 : IpldBuffered (List (CID × Bytes)) := ⟨[(1, [9]), (6, [8])], ∅, false⟩

/-- The links of a block: each byte of the example blocks is the CID of a link. -/
def byteLinks (block : Bytes) : List CID := block.map UInt8.toNat

/-- A buffered writer that holds the block 2, which links to the block 4; the block 4 is
neither written nor in the backing store. -/
def bufferedDangling : IpldBuffered (List (CID × Bytes)) :=
  ⟨[(1, [9])], (∅ : AList fun _ : Hash256 => Bytes).insert (digest 2) [4], false⟩

end fc.vm.Examples

namespace fc.storage.Examples

open fc.vm fc.vm.Examples

/-- A file system on which every write and flush succeeds. -/
def diskOk : StreamIo := ⟨fun _ _ => true, fun _ => true⟩

/-- An open store with an empty index and an empty written set; the CAR file has 100 bytes
and flushes are off. -/
def car0 : CidsIpld := ⟨fun _ => .ok none, [], 100, some [], 0⟩

/-- An open store whose CAR file has 2^40 bytes. -/
def carFull : CidsIpld := ⟨fun _ => .ok none, [], 2 ^ 40, some [], 0⟩

/-- An open store whose written set holds one row for the key of 3 and two for the key
of 5. -/
def carWritten : CidsIpld :=
  ⟨fun _ => .ok none, [⟨digest 3, 7, 1⟩, ⟨digest 5, 0, 1⟩, ⟨digest 5, 9, 1⟩], 200, some [], 0⟩

/-- A value of 64 bytes. -/
def value64 : Bytes := List.replicate 64 0

end fc.storage.Examples

namespace fc.codec.amt.Examples

open fc.vm fc.vm.Examples fc.storage.amt

/-- The token that is not valid. -/
def noToken : CborToken := ⟨false, none, none, none, none, none, none⟩

/-- The argument of a CBOR head with the additional information `info`, for arguments of
one byte at most, and the input that is left. -/
def headArgument (info : Nat) (rest : Bytes) : Option (Nat × Bytes) :=
  if info < 24 then some (info, rest)
  else if info = 24 then
    match rest with
    | y :: r => some (y.toNat, r)
    | [] => none
  else none

/-- A reader of CBOR heads with arguments of one byte at most: unsigned integers, byte
strings, text strings, lists, maps, and tag 42 with a byte string that starts with the
byte 0, a CID. -/
def headToken : Bytes → CborToken × Bytes
  | [] => (noToken, [])
  | x :: rest =>
    match headArgument (x.toNat % 32) rest with
    | none => (noToken, rest)
    | some (arg, r) =>
      if x.toNat / 32 = 0 then (⟨true, none, none, some arg, none, none, none⟩, r)
      else if x.toNat / 32 = 2 then (⟨true, none, some arg, none, none, none, none⟩, r)
      else if x.toNat / 32 = 3 then (⟨true, none, none, none, none, none, some arg⟩, r)
      else if x.toNat / 32 = 4 then (⟨true, some arg, none, none, none, none, none⟩, r)
      else if x.toNat / 32 = 5 then (⟨true, none, none, none, none, some arg, none⟩, r)
      else if x.toNat / 32 = 6 ∧ arg = 42 then
        match r with
        | 0x58 :: n :: 0 :: r1 => (⟨true, none, none, none, some (n.toNat - 1), none, none⟩, r1)
        | _ => (noToken, r)
      else (noToken, r)

/-- A reader of one CBOR item that is an unsigned integer below 24. -/
def smallItem : Bytes → Option Bytes × Bytes
  | [] => (none, [])
  | x :: rest => if x.toNat < 24 then (some [x], rest) else (none, rest)

/-- A reader of the 32 bytes of a hash. -/
def hashBytes (b : Bytes) : Option Hash256 × Bytes :=
  if h : (b.take 32).length = 32 then (some ⟨b.take 32, h⟩, b.drop 32) else (none, b)

/-- A reader for blocks with short heads and small integers as values. -/
def reader : CborReader := ⟨headToken, smallItem, hashBytes⟩

/-- The link to the block with the hash `digest c`, as a CBOR item. -/
def link (c : Nat) : Bytes :=
  [0xd8, 0x2a, 0x58, 0x27, 0x00] ++ cid.kCborBlakePrefix ++ (digest c).1

/-- The leaf with the value `06` at index 3. -/
def leaf3 : Node := .values fun i => if i = 3 then some [0x06] else none

/-- The leaf with the value `07` at index 0. -/
def leaf0 : Node := .values fun i => if i = 0 then some [0x07] else none

/-- The interior node above `leaf3`. -/
def left : Node := .links fun i => if i = 0 then some leaf3 else none

/-- The interior node above `leaf0`. -/
def right : Node := .links fun i => if i = 0 then some leaf0 else none

/-- The AMT of `AmtVisitTest`, with 3 bits: the value `06` at key 3 and `07` at key 64. -/
def walkRoot : Root :=
  ⟨2, 2, .links fun i => if i = 0 then some left else if i = 1 then some right else none⟩

/-- The store with the blocks of `walkRoot`: the root at `digest 1`, the interior nodes at
`digest 2` and `digest 3`, the leaves at `digest 4` and `digest 5`. -/
def walkStore (k : Hash256) : Option Bytes :=
  match (k.1.headD 0).toNat with
  | 1 => some ([0x83, 0x02, 0x02, 0x83, 0x41, 0x03, 0x82] ++ link 2 ++ link 3 ++ [0x80])
  | 2 => some ([0x83, 0x41, 0x01, 0x81] ++ link 4 ++ [0x80])
  | 3 => some ([0x83, 0x41, 0x01, 0x81] ++ link 5 ++ [0x80])
  | 4 => some [0x83, 0x41, 0x08, 0x80, 0x81, 0x06]
  | 5 => some [0x83, 0x41, 0x01, 0x80, 0x81, 0x07]
  | _ => none

/-- The result of `load` on the example, or the new walker when it does not return. -/
def loaded : Bool × AmtWalk :=
  match (AmtWalk.new walkStore (digest 1)).load reader with
  | .returned r => r
  | _ => (false, AmtWalk.new walkStore (digest 1))

/-- The value that `next` returns, the value of `empty()` after it, and the walker. -/
def nextOf (wk : AmtWalk) : Option Bytes × Bool × AmtWalk :=
  match AmtWalk.next reader 10 wk with
  | .returned (v, wk1) => (v, wk1.empty, wk1)
  | _ => (none, false, wk)

end fc.codec.amt.Examples

namespace fc.vm.Examples

/-- The environment `envOk` with the base fee 5, above the fee cap 2 of `msgSend`. -/
def envDear : Env := { envOk with parentBaseFee := 5 }

/-- What `applyValidated` leaves behind for `msgSend` on `tree0` with the base fee 5. -/
def validatedDear : Returned :=
  match Env.applyValidated envDear 1 tree0 msgSend 10 with
  | .done r => r
  | _ => ⟨.error Error.notFound, 0, tree0⟩

end fc.vm.Examples

namespace fc.vm.Examples

end fc.vm.Examples

namespace fc.codec.amt.Examples

open fc.vm fc.vm.Examples fc.storage.amt

/-- The store of an AMT in which the two interior nodes, at `digest 2` and `digest 3`, link
the same leaf, at `digest 4`. -/
def sharedStore (k : Hash256) : Option Bytes :=
  match (k.1.headD 0).toNat with
  | 1 => some ([0x83, 0x02, 0x02, 0x83, 0x41, 0x03, 0x82] ++ link 2 ++ link 3 ++ [0x80])
  | 2 => some ([0x83, 0x41, 0x01, 0x81] ++ link 4 ++ [0x80])
  | 3 => some ([0x83, 0x41, 0x01, 0x81] ++ link 4 ++ [0x80])
  | 4 => some [0x83, 0x41, 0x08, 0x80, 0x81, 0x06]
  | _ => none

/-- The walker over `sharedStore` after `load`. -/
def sharedLoaded : AmtWalk :=
  match (AmtWalk.new sharedStore (digest 1)).load reader with
  | .returned (_, wk) => wk
  | _ => AmtWalk.new sharedStore (digest 1)

/-- The walker over `sharedStore` after `load` and two calls of `next`. -/
def sharedWalked : AmtWalk := (nextOf (nextOf sharedLoaded).2.2).2.2

end fc.codec.amt.Examples

namespace fc.vm.Examples

/-- The transfer `msgSend` with the value -1. -/
def msgNegative : UnsignedMessage := { msgSend with value := -1 }

/-- The transfer `msgSend` with the value 2000000, above the balance of the sender. -/
def msgHuge : UnsignedMessage := { msgSend with value := 2000000 }

end fc.vm.Examples

namespace fc.vm.Examples

/-- A store whose init actor state knows the key address `[1]`, allocates id 200, and knows
the key address `[2]` under that id once the new state, with head 3, is committed. -/
def storeNew : Store :=
  ⟨fun init a =>
      if a = Address.secp256k1 [1] then .ok (some 100)
      else if a = Address.secp256k1 [2] ∧ init.head = 3 then .ok (some 200)
      else .ok none,
   fun _ _ => .ok (3, 200)⟩

/-- A freshly constructed state tree over `hamt0` with the store `storeNew`. -/
def treeNew : StateTreeImpl := ⟨0, storeNew, hamt0, Tx.empty, []⟩

/-- A transfer of 10 from actor 100 to the key address `[2]`, which has no actor. -/
def msgNew : UnsignedMessage :=
  ⟨Address.secp256k1 [2], Address.id 100, 0, 10, 1000, 2, 1, 0, []⟩

end fc.vm.Examples

namespace fc.storage.Examples

open fc.vm fc.vm.Examples

/-- A file system on which the merge of the index fails. -/
def mergeFails : FlushIo := ⟨fun _ => .error (Error.other 5), fun _ => .ok fun _ => .ok none, .ok ()⟩

/-- A file system on which the rename of the temporary index fails. -/
def renameFails : FlushIo := ⟨fun _ => .ok (), fun _ => .ok fun _ => .ok none, .error (Error.other 6)⟩

/-- A file system on which a flush succeeds. -/
def flushOk : FlushIo := ⟨fun _ => .ok (), fun _ => .ok fun _ => .ok none, .ok ()⟩

/-- The store `carWritten` with no flush in progress. -/
def carIdle : CidsIpldFlush := ⟨carWritten, false⟩

end fc.storage.Examples

namespace fc.codec.hamt.Examples

open fc.vm fc.vm.Examples fc.codec.amt.Examples

/-- The key `"abc"`. -/
def abc : Bytes := [0x61, 0x62, 0x63]

/-- The key `"xyz"`. -/
def xyz : Bytes := [0x78, 0x79, 0x7a]

/-- The node below the root: one bucket with the entry `"xyz"` to `02`. -/
def below : Node := .bucket [(xyz, [0x02])] .done

/-- A HAMT that holds two entries: the root has a bucket with the entry `"abc"` to `01` and
a link to the node `below`. -/
def two : Node := .bucket [(abc, [0x01])] (.link below .done)

/-- The store with the blocks of `two`: the root at `digest 1`, with its pointers wrapped
in maps with the keys `"1"` and `"0"`, and the node below it at `digest 2`, with its
pointer not wrapped. -/
def hamtStore (k : Hash256) : Option Bytes :=
  match (k.1.headD 0).toNat with
  | 1 =>
    some ([0x82, 0x41, 0x03, 0x82, 0xa1, 0x61, 0x31, 0x81, 0x82, 0x43] ++ abc
      ++ [0x01, 0xa1, 0x61, 0x30] ++ link 2)
  | 2 => some ([0x82, 0x41, 0x01, 0x81, 0x81, 0x82, 0x43] ++ xyz ++ [0x02])
  | _ => none

/-- The entry that `next` returns, if any, and the walker after the call. -/
def nextOf (wk : HamtWalk) : Option (Bytes × Bytes) × HamtWalk :=
  match HamtWalk.next reader 10 wk with
  | .returned r => r
  | _ => (none, wk)

end fc.codec.hamt.Examples

namespace fc.vm.Examples

/-- An execution over `tree0` with the gas limit 5. -/
def execSmall : Execution := ⟨tree0, 0, 5⟩

/-- A transfer of -1 from actor 100 to the key address `[2]`, which has no actor. -/
def msgNegativeNew : UnsignedMessage := { msgNew with value := -1 }

/-- The environment `envOk` with actor code that charges 7 gas and returns. -/
def envCharging : Env :=
  { envOk with invoker := fun _ _ => .chargeGas 7 fun _ => .ret (.ok []) }

/-- What `send` returns for a message on `treeNew` in the environment `env`. -/
def sentIn (env : Env) (message : UnsignedMessage) : Except Error Bytes × Execution :=
  match Execution.send env 2 ⟨treeNew, 0, 1000⟩ message 10 with
  | .done p => p
  | _ => (.ok [], ⟨treeNew, 0, 1000⟩)

end fc.vm.Examples

/-! # Properties -/

namespace fc.vm

namespace StateTreeImpl

/-! ## State tree: views and frames -/

theorem scanActors_empty_cons (id : ActorId) (l : List Tx) :
    scanActors id (Tx.empty :: l) = scanActors id l := by
  simp [scanActors, Tx.empty, AList.lookup_empty]

theorem scanLookup_empty_cons (a : Address) (l : List Tx) :
    scanLookup a (Tx.empty :: l) = scanLookup a l := by
  simp [scanLookup, Tx.empty, AList.lookup_empty]

theorem SameBelow.reflB (s : StateTreeImpl) : SameBelow s s := ⟨rfl, rfl, rfl, rfl⟩

theorem SameBelow.transB {s s1 s2 : StateTreeImpl} (h1 : SameBelow s s1)
    (h2 : SameBelow s1 s2) : SameBelow s s2 :=
  ⟨h2.1.trans h1.1, h2.2.1.trans h1.2.1, h2.2.2.1.trans h1.2.2.1, h2.2.2.2.trans h1.2.2.2⟩

theorem SameView.reflV (s : StateTreeImpl) : SameView s s := ⟨fun _ => rfl, fun _ => rfl⟩

theorem SameView.transV {s s1 s2 : StateTreeImpl} (h1 : SameView s s1)
    (h2 : SameView s1 s2) : SameView s s2 :=
  ⟨fun id => (h2.1 id).trans (h1.1 id), fun a => (h2.2 a).trans (h1.2 a)⟩

theorem SameView.symmV {s s1 : StateTreeImpl} (h : SameView s s1) : SameView s1 s :=
  ⟨fun id => (h.1 id).symm, fun a => (h.2 a).symm⟩

theorem SameView.viewGet_eq {s s1 : StateTreeImpl} (h : SameView s s1) (a : Address) :
    s1.viewGet a = s.viewGet a := by
  unfold StateTreeImpl.viewGet
  rw [h.2 a]
  split
  · rfl
  · rfl
  · exact h.1 _

/-- The lookup view is determined by the lookup maps, the init actor and the store. -/
theorem viewLookup_congr {s s' : StateTreeImpl} (hstore : s'.store_ = s.store_)
    (hscan : ∀ a, scanLookup a s'.tx_ = scanLookup a s.tx_)
    (hact : ∀ id, s'.viewActor id = s.viewActor id) (a : Address) :
    s'.viewLookup a = s.viewLookup a := by
  unfold viewLookup
  rw [hscan a, hact, hstore]

theorem tryGetId_fst (s : StateTreeImpl) (id : ActorId) :
    (s.tryGetId id).1 = s.viewActor id := by
  unfold tryGetId viewActor
  split
  · rfl
  · split <;> simp_all

theorem tryGetId_sameBelow (s : StateTreeImpl) (id : ActorId) :
    SameBelow s (s.tryGetId id).2 := by
  unfold tryGetId SameBelow
  split
  · simp
  · split <;> simp [_set]

/-- Caching an actor that no layer mentions and that the HAMT holds changes no view. -/
theorem _set_cache_viewActor (s : StateTreeImpl) (id : ActorId) (actor : Actor)
    (hscan : scanActors id s.tx_ = none) (hhamt : s.by_id id = .ok (some actor))
    (id' : ActorId) : (s._set id actor).viewActor id' = s.viewActor id' := by
  unfold viewActor
  by_cases h : id' = id
  · subst h
    have hscan' := hscan
    simp only [tx_, scanActors] at hscan'
    simp [hscan', hhamt, _set, tx_, scanActors, AList.lookup_insert]
  · have hr : (id' ∈ s.tx_back.removed.erase id) ↔ id' ∈ s.tx_back.removed := by
      simp [Finset.mem_erase, h]
    simp only [_set, tx_, scanActors, hr, AList.lookup_insert_ne h]

theorem tryGetId_viewActor (s : StateTreeImpl) (id id' : ActorId) :
    (s.tryGetId id).2.viewActor id' = s.viewActor id' := by
  unfold tryGetId
  split
  · rfl
  · next hscan =>
    split
    · rfl
    · rfl
    · next actor hhamt => exact _set_cache_viewActor s id actor hscan hhamt id'

theorem tryGetId_sameView (s : StateTreeImpl) (id : ActorId) :
    SameView s (s.tryGetId id).2 := by
  refine ⟨tryGetId_viewActor s id, viewLookup_congr (tryGetId_sameBelow s id).2.2.1 ?_
    (tryGetId_viewActor s id)⟩
  intro a
  unfold tryGetId
  split
  · rfl
  · split <;> simp [_set, tx_, scanLookup]

theorem tryLookupId_fst (s : StateTreeImpl) (a : Address) :
    (s.tryLookupId a).1 = s.viewLookup a := by
  unfold tryLookupId viewLookup
  split
  · rfl
  · split
    · rfl
    · rw [← tryGetId_fst]
      have hb := (tryGetId_sameBelow s kInitAddress.getId).2.2.1
      generalize s.tryGetId kInitAddress.getId = p at hb
      obtain ⟨r, s1⟩ := p
      simp only at hb
      rcases r with e | _ | init_actor
      · rfl
      · rfl
      · simp only [hb]
        split <;> simp_all

theorem emplaceLookup_sameBelow (s : StateTreeImpl) (a : Address) (id : ActorId) :
    SameBelow s (s.emplaceLookup a id) := ⟨rfl, rfl, rfl, rfl⟩

theorem emplaceLookup_viewActor (s : StateTreeImpl) (a : Address) (id id' : ActorId) :
    (s.emplaceLookup a id).viewActor id' = s.viewActor id' := by
  simp [viewActor, emplaceLookup, tx_, scanActors]

theorem tryLookupId_sameBelow (s : StateTreeImpl) (a : Address) :
    SameBelow s (s.tryLookupId a).2 := by
  unfold tryLookupId
  split
  · exact SameBelow.reflB s
  · split
    · exact SameBelow.reflB s
    · have h := tryGetId_sameBelow s kInitAddress.getId
      generalize s.tryGetId kInitAddress.getId = p at h
      obtain ⟨r, s1⟩ := p
      rcases r with e | _ | init_actor
      · exact h
      · exact h
      · simp only
        split
        · exact h
        · exact h.transB (emplaceLookup_sameBelow _ _ _)
        · exact h

end StateTreeImpl
end fc.vm

namespace fc.vm

namespace StateTreeImpl

theorem emplaceLookup_viewLookup (s : StateTreeImpl) (a : Address) (id : ActorId)
    (hscan : scanLookup a s.tx_ = none) (hview : s.viewLookup a = .ok (some (Address.makeFromId id)))
    (a' : Address) : (s.emplaceLookup a id).viewLookup a' = s.viewLookup a' := by
  have htop : a ∉ s.tx_back.lookup := by
    have h := hscan
    simp only [tx_, scanLookup] at h
    rw [← AList.lookup_eq_none]
    split at h
    · simp at h
    · assumption
  by_cases h : a' = a
  · subst h
    rw [hview]
    unfold viewLookup at hview ⊢
    split
    · next hid => simp [hid] at hview; rw [hview]
    · simp [emplaceLookup, htop, tx_, scanLookup, AList.lookup_insert]
  · unfold viewLookup
    have hs : scanLookup a' (s.emplaceLookup a id).tx_ = scanLookup a' s.tx_ := by
      simp [emplaceLookup, htop, tx_, scanLookup, AList.lookup_insert_ne h]
    rw [hs, emplaceLookup_viewActor]
    rfl

theorem tryGetId_scanLookup (s : StateTreeImpl) (id : ActorId) (a : Address) :
    scanLookup a (s.tryGetId id).2.tx_ = scanLookup a s.tx_ := by
  unfold tryGetId
  split
  · rfl
  · split <;> simp [_set, tx_, scanLookup]

theorem tryLookupId_sameView (s : StateTreeImpl) (a : Address) :
    SameView s (s.tryLookupId a).2 := by
  have hfst := tryLookupId_fst s a
  unfold tryLookupId at hfst ⊢
  split
  · exact SameView.reflV s
  · split
    · exact SameView.reflV s
    · next hid id hscan =>
      have h := tryGetId_sameView s kInitAddress.getId
      have hsl := tryGetId_scanLookup s kInitAddress.getId a
      simp only [hid, hscan] at hfst
      generalize s.tryGetId kInitAddress.getId = p at h hsl hfst
      obtain ⟨r, s1⟩ := p
      rcases r with e | _ | init_actor
      · exact h
      · exact h
      · simp only at hfst ⊢
        split
        · exact h
        · next id' hinit =>
          simp only [hinit] at hfst
          refine h.transV ⟨emplaceLookup_viewActor s1 a id', emplaceLookup_viewLookup s1 a id' ?_ ?_⟩
          · rw [← hscan, ← hsl]
          · simp at hfst
            exact (h.2 a).trans hfst.symm
        · exact h

theorem tryGet_fst (s : StateTreeImpl) (a : Address) : (s.tryGet a).1 = s.viewGet a := by
  have hfst := tryLookupId_fst s a
  have hv := tryLookupId_sameView s a
  unfold tryGet viewGet
  generalize s.tryLookupId a = p at hfst hv
  obtain ⟨r, s1⟩ := p
  simp only at hfst
  rw [← hfst]
  rcases r with e | _ | id
  · rfl
  · rfl
  · simp only [tryGetId_fst]
    exact hv.1 _

theorem tryGet_sameBelow (s : StateTreeImpl) (a : Address) : SameBelow s (s.tryGet a).2 := by
  have hb := tryLookupId_sameBelow s a
  unfold tryGet
  generalize s.tryLookupId a = p at hb
  obtain ⟨r, s1⟩ := p
  rcases r with e | _ | id
  · exact hb
  · exact hb
  · exact hb.transB (tryGetId_sameBelow _ _)

theorem tryGet_sameView (s : StateTreeImpl) (a : Address) : SameView s (s.tryGet a).2 := by
  have hv := tryLookupId_sameView s a
  unfold tryGet
  generalize s.tryLookupId a = p at hv
  obtain ⟨r, s1⟩ := p
  rcases r with e | _ | id
  · exact hv
  · exact hv
  · exact hv.transV (tryGetId_sameView _ _)

theorem get_sameBelow (s : StateTreeImpl) (a : Address) : SameBelow s (s.get a).2 := by
  have hb := tryGet_sameBelow s a
  unfold get
  generalize s.tryGet a = p at hb
  obtain ⟨r, s1⟩ := p
  rcases r with e | _ | id <;> exact hb

theorem get_sameView (s : StateTreeImpl) (a : Address) : SameView s (s.get a).2 := by
  have hb := tryGet_sameView s a
  unfold get
  generalize s.tryGet a = p at hb
  obtain ⟨r, s1⟩ := p
  rcases r with e | _ | id <;> exact hb

theorem lookupId_sameBelow (s : StateTreeImpl) (a : Address) :
    SameBelow s (s.lookupId a).2 := by
  have hb := tryLookupId_sameBelow s a
  unfold lookupId
  generalize s.tryLookupId a = p at hb
  obtain ⟨r, s1⟩ := p
  rcases r with e | _ | id <;> exact hb

theorem lookupId_sameView (s : StateTreeImpl) (a : Address) :
    SameView s (s.lookupId a).2 := by
  have hb := tryLookupId_sameView s a
  unfold lookupId
  generalize s.tryLookupId a = p at hb
  obtain ⟨r, s1⟩ := p
  rcases r with e | _ | id <;> exact hb

theorem _set_sameBelow (s : StateTreeImpl) (id : ActorId) (actor : Actor) :
    SameBelow s (s._set id actor) := ⟨rfl, rfl, rfl, rfl⟩

theorem set_sameBelow (s : StateTreeImpl) (a : Address) (actor : Actor) :
    SameBelow s (s.set a actor).2 := by
  have hb := lookupId_sameBelow s a
  unfold set
  generalize s.lookupId a = p at hb
  obtain ⟨r, s1⟩ := p
  rcases r with e | id
  · exact hb
  · exact hb.transB (_set_sameBelow _ _ _)

theorem remove_sameBelow (s : StateTreeImpl) (a : Address) :
    SameBelow s (s.remove a).2 := by
  have hb := lookupId_sameBelow s a
  unfold remove
  generalize s.lookupId a = p at hb
  obtain ⟨r, s1⟩ := p
  rcases r with e | id
  · exact hb
  · exact hb.transB ⟨rfl, rfl, rfl, rfl⟩

theorem registerNewAddress_sameBelow (s : StateTreeImpl) (a : Address) :
    SameBelow s (s.registerNewAddress a).2 := by
  have hb := get_sameBelow s kInitAddress
  unfold registerNewAddress
  generalize s.get kInitAddress = p at hb
  obtain ⟨r, s1⟩ := p
  rcases r with e | init_actor
  · exact hb
  · simp only
    split
    · exact hb
    · next head id _ =>
      have hs := set_sameBelow s1 kInitAddress { init_actor with head := head }
      generalize s1.set kInitAddress { init_actor with head := head } = q at hs
      obtain ⟨r2, s2⟩ := q
      rcases r2 with e | _ <;> exact hb.transB hs

theorem txBegin_sameView (s : StateTreeImpl) : SameView s s.txBegin := by
  have hact : ∀ id, s.txBegin.viewActor id = s.viewActor id := by
    intro id
    simp only [viewActor, txBegin, tx_]
    rw [scanActors_empty_cons]
  refine ⟨hact, viewLookup_congr rfl ?_ hact⟩
  intro a
  simp only [txBegin, tx_]
  rw [scanLookup_empty_cons]

/-- Whatever is done to the top layer after `txBegin`, `txRevert` leads back to the state
right after `txBegin`. -/
theorem txRevert_of_sameBelow {s s' : StateTreeImpl} (h : SameBelow s.txBegin s') :
    s'.txRevert = s.txBegin := by
  obtain ⟨h1, h2, h3, h4⟩ := h
  cases s'
  simp_all [txRevert, txBegin]

end StateTreeImpl
end fc.vm

namespace fc.vm

namespace StateTreeImpl

/-! ## Merging a layer into its parent (`txEnd`) -/

theorem foldl_mergeActor_actors (l : List ((_ : ActorId) × Actor)) (hl : l.NodupKeys)
    (t : Tx) (id : ActorId) :
    (l.foldl mergeActor t).actors.lookup id
      = match l.dlookup id with
        | some a => some a
        | none => t.actors.lookup id := by
  induction l generalizing t with
  | nil => rfl
  | cons e l ih =>
    obtain ⟨k, v⟩ := e
    rw [List.nodupKeys_cons] at hl
    rw [List.foldl_cons, ih hl.2]
    by_cases h : id = k
    · subst h
      have hnone : l.dlookup id = none := List.dlookup_eq_none.mpr hl.1
      simp [hnone, mergeActor, AList.lookup_insert, List.dlookup_cons_eq]
    · have hne : k ≠ id := fun h' => h h'.symm
      rw [List.dlookup_cons_ne _ _ h]
      simp [mergeActor, AList.lookup_insert_ne h]

theorem foldl_mergeActor_removed (l : List ((_ : ActorId) × Actor)) (t : Tx) (id : ActorId) :
    id ∈ (l.foldl mergeActor t).removed ↔ id ∈ t.removed ∧ id ∉ l.keys := by
  induction l generalizing t with
  | nil => simp
  | cons e l ih =>
    obtain ⟨k, v⟩ := e
    rw [List.foldl_cons, ih]
    simp only [mergeActor, Finset.mem_erase, List.keys_cons, List.mem_cons, not_or]
    tauto

theorem foldl_mergeLookup_actors (l : List ((_ : Address) × ActorId)) (t : Tx) :
    (l.foldl mergeLookup t).actors = t.actors ∧ (l.foldl mergeLookup t).removed = t.removed := by
  induction l generalizing t with
  | nil => exact ⟨rfl, rfl⟩
  | cons e l ih => simp [List.foldl_cons, ih, mergeLookup]

/-- The actors of the merged layer: a write of the committed layer masks the parent's. -/
theorem mergeTx_actors (top parent : Tx) (id : ActorId) :
    (mergeTx top parent).actors.lookup id
      = match top.actors.lookup id with
        | some a => some a
        | none => parent.actors.lookup id := by
  simp only [mergeTx, (foldl_mergeLookup_actors _ _).1]
  exact foldl_mergeActor_actors _ top.actors.nodupKeys _ _

/-- The removals of the merged layer: those of the committed layer, and those of the parent
that the committed layer did not overwrite. -/
theorem mergeTx_removed (top parent : Tx) (id : ActorId) :
    id ∈ (mergeTx top parent).removed
      ↔ id ∈ top.removed ∨ (id ∈ parent.removed ∧ top.actors.lookup id = none) := by
  simp only [mergeTx, (foldl_mergeLookup_actors _ _).2, Finset.mem_union,
    foldl_mergeActor_removed, AList.lookup_eq_none, AList.mem_keys, AList.keys]
  tauto

theorem mergeTx_scanActors (top parent : Tx) (rest : List Tx) (id : ActorId) :
    scanActors id (mergeTx top parent :: rest) = scanActors id (top :: parent :: rest) := by
  simp only [scanActors, mergeTx_removed, mergeTx_actors]
  by_cases h1 : id ∈ top.removed
  · simp [h1]
  · cases h2 : top.actors.lookup id with
    | some a => simp [h1]
    | none => simp [h1]

theorem mergeTx_empty (parent : Tx) : mergeTx Tx.empty parent = parent := by
  simp [mergeTx, Tx.empty]

end StateTreeImpl
end fc.vm

namespace fc.vm

/-! ## Sends leave the lower layers alone -/

theorem Run.holds_done {α : Type} {P : α → Prop} {a : α} (h : P a) :
    (Run.done a).Holds P := h

theorem Run.safe_bind {α β : Type} {P : α → Prop} {Q : β → Prop} {x : Run α}
    {f : α → Run β} (hx : x.Safe P) (hf : ∀ a, P a → (f a).Safe Q) :
    (x.bind f).Safe Q := by
  cases x with
  | done a => exact hf a hx
  | assertFailed w => exact hx
  | outOfFuel => trivial

theorem Run.safe_of_eq {α : Type} {P : α → Prop} {x : Run α} {a : α} (hx : x.Safe P)
    (h : x = .done a) : P a := by
  subst h
  exact hx

theorem Run.safe_mono {α : Type} {P Q : α → Prop} {x : Run α} (hx : x.Safe P)
    (h : ∀ a, P a → Q a) : x.Safe Q := by
  cases x with
  | done a => exact h a hx
  | assertFailed w => exact hx
  | outOfFuel => trivial

theorem Run.safe_holds {α : Type} {P : α → Prop} {x : Run α} (hx : x.Safe P) :
    x.Holds P := by
  cases x with
  | done a => exact hx
  | assertFailed w => trivial
  | outOfFuel => trivial

theorem Run.safe_ne_assertFailed {α : Type} {P : α → Prop} {x : Run α} (hx : x.Safe P)
    (w : Assertion) : x ≠ .assertFailed w := by
  intro h
  subst h
  exact hx

theorem Run.holds_bind {α β : Type} {P : α → Prop} {Q : β → Prop} {x : Run α}
    {f : α → Run β} (hx : x.Holds P) (hf : ∀ a, P a → (f a).Holds Q) :
    (x.bind f).Holds Q := by
  cases x with
  | done a => exact hf a hx
  | assertFailed w => trivial
  | outOfFuel => trivial

theorem Run.holds_mono {α : Type} {P Q : α → Prop} {x : Run α} (hx : x.Holds P)
    (h : ∀ a, P a → Q a) : x.Holds Q := by
  cases x with
  | done a => exact h a hx
  | assertFailed w => trivial
  | outOfFuel => trivial

namespace Execution

open StateTreeImpl

theorem chargeGas_state_tree (ex : Execution) (amount : GasAmount) :
    (ex.chargeGas amount).2.state_tree = ex.state_tree := by
  simp only [chargeGas]
  split <;> rfl

/-- An `inner` send that changes the top layer only. -/
theorem sendWithRevert_safe (inner : Execution → UnsignedMessage → SendResult)
    (hinner : ∀ ex m, (inner ex m).Safe fun p => SameBelow ex.state_tree p.2.state_tree)
    (ex : Execution) (message : UnsignedMessage) :
    (sendWithRevert inner ex message).Safe fun p =>
      SameBelow ex.state_tree p.2.state_tree
        ∧ (∀ e, p.1 = .error e → p.2.state_tree = ex.state_tree)
        ∧ ∃ ex1, inner { ex with state_tree := ex.state_tree.txBegin } message
            = .done (p.1, ex1) := by
  unfold sendWithRevert
  have h := hinner { ex with state_tree := ex.state_tree.txBegin } message
  generalize inner { ex with state_tree := ex.state_tree.txBegin } message = x at h
  cases x with
  | assertFailed w => exact h
  | outOfFuel => trivial
  | done p =>
    obtain ⟨result, ex1⟩ := p
    obtain ⟨h1, h2, h3, h4⟩ := h
    simp only [txBegin] at h1 h2 h3 h4
    cases result with
    | error e =>
      simp only [Run.bind, txRevert, txEnd, h1]
      refine ⟨⟨rfl, h2, h3, h4⟩, ?_, ex1, rfl⟩
      intro _ _
      rw [mergeTx_empty]
      cases hs : ex.state_tree
      simp_all
    | ok v =>
      simp only [Run.bind, txEnd, h1]
      exact ⟨⟨rfl, h2, h3, h4⟩, fun e he => Except.noConfusion he, ex1, rfl⟩

theorem runActor_safe (inner : Execution → UnsignedMessage → SendResult)
    (hinner : ∀ ex m, (inner ex m).Safe fun p => SameBelow ex.state_tree p.2.state_tree)
    (prog : ActorProg) (ex : Execution) :
    (runActor inner prog ex).Safe fun p => SameBelow ex.state_tree p.2.state_tree := by
  induction prog generalizing ex with
  | ret result => exact SameBelow.reflB _
  | chargeGas amount k ih =>
    simp only [runActor]
    have h := ih (ex.chargeGas amount).1 (ex.chargeGas amount).2
    rw [chargeGas_state_tree] at h
    exact h
  | tryGet address k ih =>
    simp only [runActor]
    exact Run.safe_mono (ih _ _) fun p hp => (tryGet_sameBelow _ address).transB hp
  | tryLookupId address k ih =>
    simp only [runActor]
    exact Run.safe_mono (ih _ _) fun p hp => (tryLookupId_sameBelow _ address).transB hp
  | set address actor k ih =>
    simp only [runActor]
    exact Run.safe_mono (ih _ _) fun p hp => (set_sameBelow _ address actor).transB hp
  | remove address k ih =>
    simp only [runActor]
    exact Run.safe_mono (ih _ _) fun p hp => (remove_sameBelow _ address).transB hp
  | registerNewAddress address k ih =>
    simp only [runActor]
    exact Run.safe_mono (ih _ _) fun p hp => (registerNewAddress_sameBelow _ address).transB hp
  | send message k ih =>
    simp only [runActor]
    refine Run.safe_bind (sendWithRevert_safe inner hinner ex message) ?_
    intro p hp
    exact Run.safe_mono (ih _ _) fun q hq => hp.1.transB hq

end Execution
end fc.vm

namespace fc.vm
namespace Execution

open StateTreeImpl

theorem transferValue_sameBelow (st : StateTreeImpl) (message : UnsignedMessage)
    (caller_id to_id : Address) (to_actor : Actor) :
    SameBelow st (transferValue st message caller_id to_id to_actor).2 := by
  unfold transferValue
  split
  · split
    · exact SameBelow.reflB _
    · split
      · have hg := get_sameBelow st caller_id
        generalize st.get caller_id = p at hg
        obtain ⟨r, st1⟩ := p
        rcases r with e | from_actor
        · exact hg
        · simp only
          split
          · exact hg
          · have hs := set_sameBelow st1 caller_id
              { from_actor with balance := from_actor.balance - message.value }
            generalize st1.set caller_id
              { from_actor with balance := from_actor.balance - message.value } = q at hs
            obtain ⟨r2, st2⟩ := q
            rcases r2 with e | _
            · exact hg.transB hs
            · dsimp only
              have hs2 := set_sameBelow st2 to_id
                { to_actor with balance := to_actor.balance + message.value }
              generalize st2.set to_id
                { to_actor with balance := to_actor.balance + message.value } = q2 at hs2
              obtain ⟨r3, st3⟩ := q2
              rcases r3 with e | _ <;> exact (hg.transB hs).transB hs2
      · exact SameBelow.reflB _
  · exact SameBelow.reflB _

theorem tryCreateAccountActor_safe (env : Env)
    (inner : Execution → UnsignedMessage → SendResult)
    (hinner : ∀ ex m, (inner ex m).Safe fun p => SameBelow ex.state_tree p.2.state_tree)
    (ex : Execution) (address : Address) :
    (tryCreateAccountActor env inner ex address).Safe fun p =>
      SameBelow ex.state_tree p.2.state_tree := by
  unfold tryCreateAccountActor
  have hc := chargeGas_state_tree ex env.pricelist.onCreateActor
  generalize ex.chargeGas env.pricelist.onCreateActor = c at hc
  obtain ⟨charged, ex1⟩ := c
  simp only at hc
  simp only
  have hc' : SameBelow ex.state_tree ex1.state_tree := hc ▸ SameBelow.reflB _
  split
  · exact hc'
  · have hr := hc'.transB (registerNewAddress_sameBelow ex1.state_tree address)
    generalize ex1.state_tree.registerNewAddress address = q at hr
    obtain ⟨r, st2⟩ := q
    rcases r with e | id
    · exact hr
    · simp only
      split
      · exact hr
      · have hs := set_sameBelow st2 id
          ⟨env.address_matcher.getAccountCodeId, kEmptyObjectCid, 0, 0⟩
        generalize st2.set id
          ⟨env.address_matcher.getAccountCodeId, kEmptyObjectCid, 0, 0⟩ = q2 at hs
        obtain ⟨r2, st3⟩ := q2
        rcases r2 with e | _
        · exact hr.transB hs
        · simp only
          split
          · exact hr.transB hs
          · refine Run.safe_bind (sendWithRevert_safe inner hinner _ _) ?_
            rintro ⟨sent, ex4⟩ hp
            have h4 : SameBelow ex.state_tree ex4.state_tree := (hr.transB hs).transB hp.1
            rcases sent with e | _
            · exact h4
            · exact h4.transB (get_sameBelow _ _)

theorem sendTo_safe (env : Env) (inner : Execution → UnsignedMessage → SendResult)
    (hinner : ∀ ex m, (inner ex m).Safe fun p => SameBelow ex.state_tree p.2.state_tree)
    (ex : Execution) (message : UnsignedMessage) (to_actor : Actor) :
    (sendTo env inner ex message to_actor).Safe fun p =>
      SameBelow ex.state_tree p.2.state_tree := by
  unfold sendTo
  have hc := chargeGas_state_tree ex
    (env.pricelist.onMethodInvocation message.value message.method)
  generalize ex.chargeGas
    (env.pricelist.onMethodInvocation message.value message.method) = c at hc
  obtain ⟨charged, ex1⟩ := c
  simp only at hc
  simp only
  have hc' : SameBelow ex.state_tree ex1.state_tree := hc ▸ SameBelow.reflB _
  split
  · exact hc'
  · have h2 := hc'.transB (lookupId_sameBelow ex1.state_tree message.from_)
    generalize ex1.state_tree.lookupId message.from_ = q at h2
    obtain ⟨r, st2⟩ := q
    rcases r with e | caller_id
    · exact h2
    · dsimp only
      have h3 := lookupId_sameBelow st2 message.to_
      generalize st2.lookupId message.to_ = q3 at h3
      obtain ⟨r3, st3⟩ := q3
      rcases r3 with e | to_id
      · exact h2.transB h3
      · have h4 := transferValue_sameBelow st3 message caller_id to_id to_actor
        dsimp only
        generalize transferValue st3 message caller_id to_id to_actor = q4 at h4
        obtain ⟨r4, st4⟩ := q4
        rcases r4 with e | to_actor'
        · exact (h2.transB h3).transB h4
        · simp only
          split
          · refine Run.safe_bind (runActor_safe inner hinner _ _) ?_
            rintro ⟨result, ex5⟩ hp
            exact ((h2.transB h3).transB h4).transB hp
          · exact (h2.transB h3).transB h4

/-- A send fails no assertion and changes the top layer of the state tree only. -/
theorem send_safe (env : Env) (fuel : Nat) (ex : Execution) (message : UnsignedMessage)
    (charge : GasAmount) :
    (send env fuel ex message charge).Safe fun p =>
      SameBelow ex.state_tree p.2.state_tree := by
  induction fuel generalizing ex message charge with
  | zero => trivial
  | succ fuel ih =>
    have hinner : ∀ ex m, (send env fuel ex m 0).Safe fun p =>
        SameBelow ex.state_tree p.2.state_tree := fun ex m => ih ex m 0
    unfold send
    have hc := chargeGas_state_tree ex charge
    generalize ex.chargeGas charge = c at hc
    obtain ⟨charged, ex1⟩ := c
    simp only at hc
    simp only
    have hc' : SameBelow ex.state_tree ex1.state_tree := hc ▸ SameBelow.reflB _
    split
    · exact hc'
    · have h2 := hc'.transB (tryGet_sameBelow ex1.state_tree message.to_)
      generalize ex1.state_tree.tryGet message.to_ = q at h2
      obtain ⟨r, st2⟩ := q
      rcases r with e | _ | to_actor
      · exact h2
      · refine Run.safe_bind (tryCreateAccountActor_safe env _ hinner _ _) ?_
        rintro ⟨created, ex3⟩ hp
        rcases created with e | account_actor
        · exact h2.transB hp
        · exact Run.safe_mono (sendTo_safe env _ hinner _ _ _) fun q hq =>
            (h2.transB hp).transB hq
      · exact Run.safe_mono (sendTo_safe env _ hinner _ _ _) fun q hq => h2.transB hq

end Execution
end fc.vm

namespace fc.vm
namespace StateTreeImpl

/-! ## Reading back a write -/

theorem _set_viewActor_self (s : StateTreeImpl) (n : ActorId) (x : Actor) :
    (s._set n x).viewActor n = .ok (some x) := by
  simp [viewActor, _set, tx_, scanActors, AList.lookup_insert]

theorem _set_scanLookup (s : StateTreeImpl) (n : ActorId) (x : Actor) (a : Address) :
    scanLookup a (s._set n x).tx_ = scanLookup a s.tx_ := by
  simp [_set, tx_, scanLookup]

/-- A resolved address is an id address; when the address given is not one, the top layers
hold its id after the call. -/
theorem tryLookupId_resolved (s s1 : StateTreeImpl) (a id : Address)
    (h : s.tryLookupId a = (.ok (some id), s1)) :
    id = Address.id id.getId
      ∧ (a.isId = true → id = a)
      ∧ (a.isId = false → scanLookup a s1.tx_ = some id.getId) := by
  unfold tryLookupId at h
  split at h
  · next hid =>
    simp only [Prod.mk.injEq, Except.ok.injEq, Option.some.injEq] at h
    obtain ⟨rfl, rfl⟩ := h
    refine ⟨?_, fun _ => rfl, fun hf => by simp [hid] at hf⟩
    cases a <;> simp_all [Address.isId, Address.getId]
  · next hid =>
    split at h
    · next n hscan =>
      simp only [Prod.mk.injEq, Except.ok.injEq, Option.some.injEq] at h
      obtain ⟨rfl, rfl⟩ := h
      exact ⟨rfl, fun ht => absurd ht hid, fun _ => by simpa [Address.makeFromId, Address.getId] using hscan⟩
    · next hscan =>
      have hsl := tryGetId_scanLookup s kInitAddress.getId a
      generalize s.tryGetId kInitAddress.getId = p at h hsl
      obtain ⟨r, s0⟩ := p
      rcases r with e | _ | init_actor
      · simp at h
      · simp at h
      · simp only at h hsl
        split at h
        · simp at h
        · next n hinit =>
          simp only [Prod.mk.injEq, Except.ok.injEq, Option.some.injEq] at h
          obtain ⟨rfl, rfl⟩ := h
          refine ⟨rfl, fun ht => absurd ht hid, fun _ => ?_⟩
          rw [hscan] at hsl
          have htop : a ∉ s0.tx_back.lookup := by
            simp only [tx_, scanLookup] at hsl
            rw [← AList.lookup_eq_none]
            split at hsl
            · simp at hsl
            · assumption
          simp [emplaceLookup, htop, tx_, scanLookup, AList.lookup_insert, Address.makeFromId,
            Address.getId]
        · simp at h

/-- After a successful `set(a, x)`, `tryGet(a)` returns `x`. -/
theorem set_tryGet (s s' : StateTreeImpl) (a : Address) (x : Actor)
    (h : s.set a x = (.ok (), s')) : (s'.tryGet a).1 = .ok (some x) := by
  unfold set lookupId at h
  generalize hp : s.tryLookupId a = p at h
  obtain ⟨r, s1⟩ := p
  rcases r with e | _ | id
  · simp at h
  · simp at h
  · simp only [Prod.mk.injEq, true_and] at h
    subst h
    obtain ⟨hid, hisId, hmemo⟩ := tryLookupId_resolved s s1 a id hp
    rw [tryGet_fst]
    unfold viewGet viewLookup
    cases ha : a.isId
    · simp only [Bool.false_eq_true, if_false, _set_scanLookup, hmemo ha, Address.makeFromId,
        Address.getId]
      exact _set_viewActor_self _ _ _
    · simp only [if_true]
      rw [← hisId ha]
      exact _set_viewActor_self _ _ _

end StateTreeImpl
end fc.vm

namespace fc.vm
namespace StateTreeImpl

theorem _set_viewActor_ne (s : StateTreeImpl) (n : ActorId) (x : Actor) (id' : ActorId)
    (h : id' ≠ n) : (s._set n x).viewActor id' = s.viewActor id' := by
  have hr : (id' ∈ s.tx_back.removed.erase n) ↔ id' ∈ s.tx_back.removed := by
    simp [Finset.mem_erase, h]
  simp only [viewActor, _set, tx_, scanActors, hr, AList.lookup_insert_ne h]

theorem lookupId_fst (s : StateTreeImpl) (a : Address) :
    (s.lookupId a).1
      = match s.viewLookup a with
        | .error e => .error e
        | .ok none => .error Error.notFound
        | .ok (some id) => .ok id := by
  rw [← tryLookupId_fst]
  unfold lookupId
  generalize s.tryLookupId a = p
  obtain ⟨r, s1⟩ := p
  rcases r with e | _ | id <;> rfl

/-- A successful `set(a, x)` writes the actor under the id that `a` resolves to and changes
what `tryGetId` returns for no other id. -/
theorem set_spec (s s' : StateTreeImpl) (a : Address) (x : Actor)
    (h : s.set a x = (.ok (), s')) :
    ∃ n, (s.lookupId a).1 = .ok (Address.id n) ∧ s'.viewActor n = .ok (some x)
      ∧ ∀ id', id' ≠ n → s'.viewActor id' = s.viewActor id' := by
  unfold set at h
  have hfst : (s.lookupId a).1 = (s.lookupId a).1 := rfl
  have hv := lookupId_sameView s a
  generalize hp : s.lookupId a = p at h hv hfst
  obtain ⟨r, s1⟩ := p
  rcases r with e | id
  · simp at h
  · simp only [Prod.mk.injEq, true_and] at h
    subst h
    have hid : id = Address.id id.getId := by
      unfold lookupId at hp
      generalize hq : s.tryLookupId a = q at hp
      obtain ⟨r2, s2⟩ := q
      rcases r2 with e | _ | id2
      · simp at hp
      · simp at hp
      · simp only [Prod.mk.injEq, Except.ok.injEq] at hp
        obtain ⟨rfl, rfl⟩ := hp
        exact (tryLookupId_resolved s s2 a id2 hq).1
    refine ⟨id.getId, ?_, _set_viewActor_self _ _ _, ?_⟩
    · rw [← hid]
    · intro id' hne
      rw [_set_viewActor_ne _ _ _ _ hne]
      exact hv.1 id'

theorem tryGet_id (s : StateTreeImpl) (n : ActorId) :
    (s.tryGet (Address.id n)).1 = s.viewActor n := by
  rw [tryGet_fst]
  rfl

theorem SameView.lookupId_eq {s s1 : StateTreeImpl} (h : SameView s s1) (a : Address) :
    (s1.lookupId a).1 = (s.lookupId a).1 := by
  rw [lookupId_fst, lookupId_fst, h.2 a]

end StateTreeImpl
end fc.vm

namespace fc.vm
namespace Env

open StateTreeImpl

/-! ## Gas settlement -/

/-- What a successful `add_locked(address, add)` does: `locked` goes down by `add`, and
when `add` is not zero the balance of the actor that `address` resolves to goes up by `add`
and no other actor changes. -/
theorem add_locked_ok (l l' : Locals) (a : Address) (add : TokenAmount)
    (h : add_locked l a add = (.ok (), l')) :
    l'.locked = l.locked - add ∧ l'.apply = l.apply
      ∧ (add = 0 → l' = l)
      ∧ (add ≠ 0 → ∃ actor n, (l.state_tree.lookupId a).1 = .ok (Address.id n)
          ∧ (l.state_tree.get a).1 = .ok actor
          ∧ (l'.state_tree.tryGet a).1
              = .ok (some { actor with balance := actor.balance + add })
          ∧ ∀ id', id' ≠ n →
              (l'.state_tree.tryGet (Address.id id')).1
                = (l.state_tree.tryGet (Address.id id')).1) := by
  unfold add_locked at h
  split at h
  · next hadd =>
    have hgv := get_sameView l.state_tree a
    generalize hg : l.state_tree.get a = p at h hgv
    obtain ⟨r, st1⟩ := p
    rcases r with e | actor
    · simp at h
    · simp only at h
      generalize hs : st1.set a { actor with balance := actor.balance + add } = q at h
      obtain ⟨r2, st2⟩ := q
      rcases r2 with e | u
      · simp at h
      · simp only [Prod.mk.injEq, true_and] at h
        subst h
        obtain ⟨n, hn1, -, hn3⟩ := set_spec st1 st2 a _ hs
        refine ⟨rfl, rfl, fun h0 => absurd h0 hadd, fun _ => ⟨actor, n, ?_, rfl, ?_, ?_⟩⟩
        · rw [← hn1]
          exact (hgv.lookupId_eq a).symm
        · exact set_tryGet st1 st2 a _ hs
        · intro id' hne
          rw [tryGet_id, tryGet_id, hn3 id' hne]
          exact hgv.1 id'
  · next hadd =>
    simp only [Prod.mk.injEq, true_and] at h
    subst h
    have h0 : add = 0 := by simpa using hadd
    subst h0
    exact ⟨by simp, rfl, fun _ => rfl, fun hne => absurd rfl hne⟩

theorem add_locked_apply (l : Locals) (a : Address) (add : TokenAmount) :
    (add_locked l a add).2.apply = l.apply := by
  unfold add_locked
  split
  · generalize l.state_tree.get a = p
    obtain ⟨r, st1⟩ := p
    rcases r with e | actor
    · rfl
    · dsimp only
      generalize st1.set a { actor with balance := actor.balance + add } = q
      obtain ⟨r2, st2⟩ := q
      rcases r2 with e | u <;> rfl
  · rfl

theorem add_locked_sameBelow (l : Locals) (a : Address) (add : TokenAmount) :
    SameBelow l.state_tree (add_locked l a add).2.state_tree := by
  unfold add_locked
  split
  · have hg := get_sameBelow l.state_tree a
    generalize l.state_tree.get a = p at hg
    obtain ⟨r, st1⟩ := p
    rcases r with e | actor
    · exact hg
    · dsimp only
      have hs := set_sameBelow st1 a { actor with balance := actor.balance + add }
      generalize st1.set a { actor with balance := actor.balance + add } = q at hs
      obtain ⟨r2, st2⟩ := q
      rcases r2 with e | u <;> exact hg.transB hs
  · exact SameBelow.reflB _

/-- The overestimation burn never exceeds the gas left unused. -/
theorem gas_burned_le (limit used : Int) (h0 : 0 ≤ used) (h1 : used ≤ limit) :
    gas_burned limit used ≤ limit - used := by
  unfold gas_burned
  split
  · next hu => subst hu; simp
  · next hu =>
    split
    · linarith
    · next hover =>
      have hover0 : (0 : Int) ≤ over limit used := not_lt.mp hover
      have hpos : 0 < used := lt_of_le_of_ne h0 (Ne.symm hu)
      have hmin0 : 0 ≤ min used (over limit used) := le_min h0 hover0
      have hminle : min used (over limit used) ≤ used := min_le_left _ _
      have hsub : (0 : Int) ≤ limit - used := by linarith
      have hnum : 0 ≤ (limit - used) * min used (over limit used) :=
        Int.mul_nonneg hsub hmin0
      unfold bigdiv
      rw [Int.tdiv_eq_ediv hnum h0]
      apply Int.ediv_le_of_le_mul hpos
      exact Int.mul_le_mul_of_nonneg_left hminle hsub

theorem settleBaseFee_ok (env : Env) (message : UnsignedMessage) (no_fee : Bool)
    (used : GasAmount) (l l1 : Locals)
    (h : settleBaseFee env message no_fee used l = (.ok (), l1)) :
    l1.locked = l.locked - (if no_fee then 0 else base_fee_pay env message * used)
      ∧ l1.apply.reward = l.apply.reward ∧ l1.apply.receipt = l.apply.receipt := by
  unfold settleBaseFee at h
  cases no_fee
  · simp only [Bool.not_false, if_true] at h
    obtain ⟨h1, h2, -, -⟩ := add_locked_ok _ _ _ _ h
    simp [h1, h2]
  · simp only [Bool.not_true, Bool.false_eq_true, if_false, Prod.mk.injEq, true_and] at h
    subst h
    simp

theorem settleReward_ok (env : Env) (message : UnsignedMessage) (l l2 : Locals)
    (h : settleReward env message l = (.ok (), l2)) :
    l2.locked = l.locked
        - min message.gas_premium (message.gas_fee_cap - base_fee_pay env message)
          * message.gas_limit
      ∧ l2.apply.reward
        = min message.gas_premium (message.gas_fee_cap - base_fee_pay env message)
          * message.gas_limit
      ∧ l2.apply.receipt = l.apply.receipt := by
  unfold settleReward at h
  obtain ⟨h1, h2, -, -⟩ := add_locked_ok _ _ _ _ h
  simp [h1, h2]

theorem settleOverestimation_ok (env : Env) (message : UnsignedMessage) (used : GasAmount)
    (l l3 : Locals) (h : settleOverestimation env message used l = (.ok (), l3)) :
    l3.locked = l.locked - base_fee_pay env message * gas_burned message.gas_limit used
      ∧ l3.apply.reward = l.apply.reward ∧ l3.apply.receipt = l.apply.receipt := by
  unfold settleOverestimation at h
  split at h
  · generalize hq : add_locked l kBurntFundsActorAddress
        (base_fee_pay env message * gas_burned message.gas_limit used) = q at h
    obtain ⟨r, l1⟩ := q
    rcases r with e | u
    · simp at h
    · obtain ⟨h1, h2, -, -⟩ := add_locked_ok _ _ _ _ hq
      simp only [Prod.mk.injEq, true_and] at h
      subst h
      simp [h1, h2]
  · next hgb =>
    simp only [Prod.mk.injEq, true_and] at h
    subst h
    have : gas_burned message.gas_limit used = 0 := by simpa using hgb
    simp [this]

end Env
end fc.vm

namespace fc.vm
namespace Env

open StateTreeImpl

/-- What a returned `Apply` of the gas settlement says, and the final `locked`. -/
theorem gasSettlement_ok (env : Env) (message : UnsignedMessage) (exit_code : VMExitCode)
    (no_fee : Bool) (used : GasAmount) (l l' : Locals) (apply : Apply)
    (h : gasSettlement env message exit_code no_fee used l = .done (.ok apply, l')) :
    l'.locked = 0
      ∧ apply.reward
        = min message.gas_premium (message.gas_fee_cap - base_fee_pay env message)
          * message.gas_limit
      ∧ apply.receipt.exit_code = exit_code ∧ apply.receipt.gas_used = used
      ∧ apply.receipt.return_value = l.apply.receipt.return_value
      ∧ used ≤ message.gas_limit := by
  unfold gasSettlement at h
  split at h
  · simp at h
  · next hused =>
    generalize h1 : settleBaseFee env message no_fee used l = p1 at h
    obtain ⟨r1, l1⟩ := p1
    rcases r1 with e | u
    · simp at h
    · dsimp only at h
      generalize h2 : settleReward env message l1 = p2 at h
      obtain ⟨r2, l2⟩ := p2
      rcases r2 with e | u
      · simp at h
      · dsimp only at h
        generalize h3 : settleOverestimation env message used l2 = p3 at h
        obtain ⟨r3, l3⟩ := p3
        rcases r3 with e | u
        · simp at h
        · dsimp only at h
          split at h
          · simp at h
          · generalize h4 : add_locked l3 message.from_ l3.locked = p4 at h
            obtain ⟨r4, l4⟩ := p4
            rcases r4 with e | u
            · simp at h
            · simp only [Run.done.injEq, Prod.mk.injEq, Except.ok.injEq] at h
              obtain ⟨hap, hl⟩ := h
              obtain ⟨k1, k2, -, -⟩ := add_locked_ok _ _ _ _ h4
              obtain ⟨-, s2, s3⟩ := settleBaseFee_ok _ _ _ _ _ _ h1
              obtain ⟨-, t2, t3⟩ := settleReward_ok _ _ _ _ h2
              obtain ⟨-, o2, o3⟩ := settleOverestimation_ok _ _ _ _ _ h3
              subst hl hap
              refine ⟨by simp [k1], ?_, rfl, rfl, ?_, not_not.mp hused⟩
              · simp [k2, o2, t2]
              · simp [k2, o3, t3, s3]

/-- The arithmetic behind `locked >= 0`: with `0 <= used <= limit` and a non-negative base
fee and fee cap, the base-fee burn, the reward and the overestimation burn together do not
exceed the reserve `limit * fee_cap`. -/
theorem settlement_within_reserve (limit used base_fee fee_cap premium : Int)
    (no_fee : Bool) (h0 : 0 ≤ used) (h1 : used ≤ limit) (hb : 0 ≤ base_fee)
    (hc : 0 ≤ fee_cap) :
    0 ≤ limit * fee_cap
        - (if no_fee then 0 else min base_fee fee_cap * used)
        - min premium (fee_cap - min base_fee fee_cap) * limit
        - min base_fee fee_cap * gas_burned limit used := by
  have hbfp : 0 ≤ min base_fee fee_cap := le_min hb hc
  have hlimit : 0 ≤ limit := le_trans h0 h1
  have hF : min premium (fee_cap - min base_fee fee_cap) * limit
      ≤ (fee_cap - min base_fee fee_cap) * limit :=
    Int.mul_le_mul_of_nonneg_right (min_le_right _ _) hlimit
  have hgb : min base_fee fee_cap * gas_burned limit used
      ≤ min base_fee fee_cap * (limit - used) :=
    Int.mul_le_mul_of_nonneg_left (gas_burned_le limit used h0 h1) hbfp
  have hx : (if no_fee then 0 else min base_fee fee_cap * used)
      ≤ min base_fee fee_cap * used := by
    cases no_fee
    · simp
    · simpa using Int.mul_nonneg hbfp h0
  have e1 : (fee_cap - min base_fee fee_cap) * limit
      = limit * fee_cap - min base_fee fee_cap * limit := by ring
  have e2 : min base_fee fee_cap * (limit - used)
      = min base_fee fee_cap * limit - min base_fee fee_cap * used := by ring
  linarith

theorem gasSettlement_ne_gasMathWrong (env : Env) (message : UnsignedMessage)
    (exit_code : VMExitCode) (no_fee : Bool) (used : GasAmount) (l : Locals)
    (hl : l.locked = message.gas_limit * message.gas_fee_cap) (h0 : 0 ≤ used)
    (hb : 0 ≤ env.parentBaseFee) (hc : 0 ≤ message.gas_fee_cap) :
    gasSettlement env message exit_code no_fee used l
      ≠ .assertFailed Assertion.gasMathWrong := by
  unfold gasSettlement
  split
  · simp
  · next hused =>
    generalize h1 : settleBaseFee env message no_fee used l = p1
    obtain ⟨r1, l1⟩ := p1
    rcases r1 with e | u
    · simp
    · dsimp only
      generalize h2 : settleReward env message l1 = p2
      obtain ⟨r2, l2⟩ := p2
      rcases r2 with e | u
      · simp
      · dsimp only
        generalize h3 : settleOverestimation env message used l2 = p3
        obtain ⟨r3, l3⟩ := p3
        rcases r3 with e | u
        · simp
        · dsimp only
          obtain ⟨s1, -, -⟩ := settleBaseFee_ok _ _ _ _ _ _ h1
          obtain ⟨t1, -, -⟩ := settleReward_ok _ _ _ _ h2
          obtain ⟨o1, -, -⟩ := settleOverestimation_ok _ _ _ _ _ h3
          have hnn : 0 ≤ l3.locked := by
            rw [o1, t1, s1, hl]
            exact settlement_within_reserve message.gas_limit used env.parentBaseFee
              message.gas_fee_cap message.gas_premium no_fee h0 (not_not.mp hused) hb hc
          rw [if_neg (not_not.mpr hnn)]
          generalize add_locked l3 message.from_ l3.locked = p4
          obtain ⟨r4, l4⟩ := p4
          rcases r4 with e | u <;> simp

theorem noFee_sameBelow (env : Env) (message : UnsignedMessage) (exit_code : VMExitCode)
    (st : StateTreeImpl) : SameBelow st (noFee env message exit_code st).2 := by
  unfold noFee
  split
  · have h := tryGet_sameBelow st message.to_
    generalize st.tryGet message.to_ = p at h
    obtain ⟨r, st1⟩ := p
    rcases r with e | _ | a <;> exact h
  · exact SameBelow.reflB _

theorem finishApply_ne_gasMathWrong (env : Env) (message : UnsignedMessage)
    (exit_code : VMExitCode) (ex : Execution) (l : Locals)
    (hl : l.locked = message.gas_limit * message.gas_fee_cap)
    (hb : 0 ≤ env.parentBaseFee) (hc : 0 ≤ message.gas_fee_cap) :
    finishApply env message exit_code ex l ≠ .assertFailed Assertion.gasMathWrong := by
  unfold finishApply
  dsimp only
  generalize noFee env message exit_code
    (if exit_code ≠ VMExitCode.kOk then ex.state_tree.txRevert else ex.state_tree) = p
  obtain ⟨r, st1⟩ := p
  rcases r with e | no_fee
  · simp
  · dsimp only
    refine gasSettlement_ne_gasMathWrong _ _ _ _ _ { l with state_tree := st1 } hl ?_ hb hc
    split
    · exact le_refl _
    · next h => exact not_lt.mp h

end Env
end fc.vm

namespace fc.vm
namespace Env

open StateTreeImpl

/-! ## `applyMessage` as a whole -/

theorem wrapInt64_of_range (x : Int) (h1 : -2 ^ 63 ≤ x) (h2 : x < 2 ^ 63) :
    wrapInt64 x = x := by
  unfold wrapInt64
  norm_num at h1 h2 ⊢
  omega

theorem chargeSender_ok (message : UnsignedMessage) (l l1 : Locals)
    (h : chargeSender message l = (.ok (), l1)) :
    l1.locked = l.locked + message.gas_limit * message.gas_fee_cap ∧ l1.apply = l.apply := by
  unfold chargeSender at h
  generalize ha : add_locked l message.from_
    (-(message.gas_limit * message.gas_fee_cap)) = p at h
  obtain ⟨r, l0⟩ := p
  rcases r with e | u
  · simp at h
  · obtain ⟨k1, k2, -, -⟩ := add_locked_ok _ _ _ _ ha
    dsimp only at h
    generalize l0.state_tree.get message.from_ = q at h
    obtain ⟨r2, st2⟩ := q
    rcases r2 with e | sender
    · simp at h
    · dsimp only at h
      generalize st2.set message.from_
        { sender with nonce := (sender.nonce + 1) % 2 ^ 64 } = q3 at h
      obtain ⟨r3, st3⟩ := q3
      rcases r3 with e | u
      · simp at h
      · simp only [Prod.mk.injEq, true_and] at h
        subst h
        refine ⟨?_, k2⟩
        simp only [k1]
        ring

theorem applyScope_ne_gasMathWrong (env : Env) (fuel : Nat) (message : UnsignedMessage)
    (msg_gas_cost : GasAmount) (l : Locals)
    (hl : l.locked = message.gas_limit * message.gas_fee_cap)
    (hb : 0 ≤ env.parentBaseFee) (hc : 0 ≤ message.gas_fee_cap) :
    applyScope env fuel message msg_gas_cost l ≠ .assertFailed Assertion.gasMathWrong := by
  unfold applyScope
  have hs := Execution.send_safe env fuel (Execution.make l.state_tree message) message
    msg_gas_cost
  generalize Execution.send env fuel (Execution.make l.state_tree message) message
    msg_gas_cost = x at hs
  cases x with
  | assertFailed w => exact hs.elim
  | outOfFuel => simp [Run.bind]
  | done p =>
    obtain ⟨result, ex⟩ := p
    simp only [Run.bind]
    rcases result with e | ret
    · dsimp only
      split
      · simp
      · split
        · simp
        · exact finishApply_ne_gasMathWrong _ _ _ _ _ hl hb hc
    · dsimp only
      generalize chargeReturnValue env ex ret = q
      obtain ⟨r, ex1⟩ := q
      rcases r with e | ⟨exit_code, return_value⟩
      · simp
      · exact finishApply_ne_gasMathWrong _ _ _ _ _ hl hb hc

theorem validateSender_sameView (env : Env) (message : UnsignedMessage)
    (st : StateTreeImpl) :
    SameView st (validateSender env message st).2
      ∧ SameBelow st (validateSender env message st).2 := by
  unfold validateSender
  have h := tryGet_sameView st message.from_
  have hb := tryGet_sameBelow st message.from_
  generalize st.tryGet message.from_ = p at h hb
  obtain ⟨r, st1⟩ := p
  rcases r with e | _ | sender
  · exact ⟨h, hb⟩
  · exact ⟨h, hb⟩
  · dsimp only
    split
    · exact ⟨h, hb⟩
    · split
      · exact ⟨h, hb⟩
      · split <;> exact ⟨h, hb⟩

theorem applyMessage_ne_gasMathWrong (env : Env) (fuel : Nat) (st : StateTreeImpl)
    (message : UnsignedMessage) (size : Nat)
    (hb : 0 ≤ env.parentBaseFee) (hc : 0 ≤ message.gas_fee_cap) :
    applyMessage env fuel st message size ≠ .assertFailed Assertion.gasMathWrong := by
  unfold applyMessage
  split
  · simp
  · dsimp only
    split
    · simp
    · generalize validateSender env message st = p
      obtain ⟨r, st1⟩ := p
      rcases r with e | c | sender
      · simp
      · simp
      · dsimp only
        unfold applyValidated
        generalize hq : chargeSender message
          ⟨{ Apply.init with penalty := message.gas_limit * env.parentBaseFee }, 0, st1⟩ = q
        obtain ⟨r1, l1⟩ := q
        rcases r1 with e | u
        · simp
        · dsimp only
          obtain ⟨k1, -⟩ := chargeSender_ok _ _ _ hq
          have hl : ({ l1 with state_tree := l1.state_tree.txBegin } : Locals).locked
              = message.gas_limit * message.gas_fee_cap := by
            simp [k1]
          have hne := applyScope_ne_gasMathWrong env fuel message
            (env.pricelist.onChainMessage size)
            { l1 with state_tree := l1.state_tree.txBegin } hl hb hc
          generalize applyScope env fuel message (env.pricelist.onChainMessage size)
            { l1 with state_tree := l1.state_tree.txBegin } = x at hne
          cases x with
          | assertFailed w =>
            simp only [Run.bind]
            intro hw
            apply hne
            rw [Run.assertFailed.injEq] at hw ⊢
            exact hw
          | outOfFuel => simp [Run.bind]
          | done p2 =>
            obtain ⟨result, l2⟩ := p2
            simp only [Run.bind]
            split <;> simp

end Env
end fc.vm

namespace fc.vm
namespace Env

open StateTreeImpl

end Env
end fc.vm

namespace fc.vm
namespace Env

open StateTreeImpl

/-- The verdict of the sender validation as a function of what `tryGet(message.from)`
returns. -/
theorem validateSender_fst (env : Env) (message : UnsignedMessage) (st : StateTreeImpl) :
    (validateSender env message st).1
      = match (st.tryGet message.from_).1 with
        | .error e => .error e
        | .ok none => .ok (.error VMExitCode.kSysErrSenderInvalid)
        | .ok (some sender) =>
          if !env.address_matcher.isAccountActor sender.code then
            .ok (.error VMExitCode.kSysErrSenderInvalid)
          else if message.nonce ≠ sender.nonce then
            .ok (.error VMExitCode.kSysErrSenderStateInvalid)
          else if sender.balance < message.gas_limit * message.gas_fee_cap then
            .ok (.error VMExitCode.kSysErrSenderStateInvalid)
          else .ok (.ok sender) := by
  unfold validateSender
  generalize st.tryGet message.from_ = p
  obtain ⟨r, st1⟩ := p
  rcases r with e | _ | sender
  · rfl
  · rfl
  · dsimp only
    split
    · rfl
    · split
      · rfl
      · split <;> rfl

end Env
end fc.vm

namespace fc.vm
namespace StateTreeImpl

/-! ## Reading back a removal -/

/-- The state tree after `remove` has recorded the removal of `n` in the top layer. -/
theorem removed_viewActor_self (s : StateTreeImpl) (n : ActorId) :
    ({ s with tx_back :=
        { s.tx_back with removed := insert n s.tx_back.removed } } : StateTreeImpl).viewActor n
      = .ok none := by
  simp [viewActor, tx_, scanActors]

/-- After a successful `remove(a)`, `tryGet(a)` returns no actor. -/
theorem remove_tryGet (s s' : StateTreeImpl) (a : Address)
    (h : s.remove a = (.ok (), s')) : (s'.tryGet a).1 = .ok none := by
  unfold remove lookupId at h
  generalize hp : s.tryLookupId a = p at h
  obtain ⟨r, s1⟩ := p
  rcases r with e | _ | id
  · simp at h
  · simp at h
  · simp only [Prod.mk.injEq, true_and] at h
    subst h
    obtain ⟨hid, hisId, hmemo⟩ := tryLookupId_resolved s s1 a id hp
    rw [tryGet_fst]
    have key : ∀ s2 : StateTreeImpl, scanLookup a s2.tx_ = scanLookup a s1.tx_ →
        s2.viewActor id.getId = .ok none → s2.viewGet a = .ok none := by
      intro s2 h1 h2
      unfold viewGet viewLookup
      cases ha : a.isId
      · simp only [Bool.false_eq_true, if_false, h1, hmemo ha, Address.makeFromId]
        exact h2
      · simp only [if_true]
        rw [← hisId ha]
        exact h2
    exact key _ (by simp [tx_, scanLookup]) (removed_viewActor_self _ _)

theorem set_fst (s : StateTreeImpl) (a : Address) (x : Actor) :
    (s.set a x).1 = (s.lookupId a).1.map fun _ => () := by
  unfold set
  generalize s.lookupId a = p
  obtain ⟨r, s1⟩ := p
  rcases r with e | id <;> rfl

theorem remove_fst (s : StateTreeImpl) (a : Address) :
    (s.remove a).1 = (s.lookupId a).1.map fun _ => () := by
  unfold remove
  generalize s.lookupId a = p
  obtain ⟨r, s1⟩ := p
  rcases r with e | id <;> rfl

end StateTreeImpl

namespace Execution

/-- The three facts about `chargeGas` that hold without any condition. -/
theorem chargeGas_bound (ex : Execution) (amount : GasAmount) :
    (ex.chargeGas amount).2.gas_used ≤ ex.gas_limit
      ∧ (ex.chargeGas amount).2.gas_limit = ex.gas_limit
      ∧ ∀ e, (ex.chargeGas amount).1 = .error e →
          e = asAbort VMExitCode.kSysErrOutOfGas
            ∧ (ex.chargeGas amount).2.gas_used = ex.gas_limit := by
  simp only [chargeGas]
  split
  · exact ⟨le_refl _, rfl, fun e he => by simp at he; exact ⟨he.symm, rfl⟩⟩
  · next h => exact ⟨not_lt.mp h, rfl, fun e he => by simp at he⟩

end Execution
end fc.vm

namespace fc.vm
namespace Execution

open StateTreeImpl

/-! ## Sends keep `gas_used` within `gas_limit` -/

theorem GasKept.reflG (ex : Execution) : GasKept ex ex := ⟨rfl, fun h => h⟩

theorem GasKept.transG {ex0 ex1 ex2 : Execution} (h1 : GasKept ex0 ex1)
    (h2 : GasKept ex1 ex2) : GasKept ex0 ex2 :=
  ⟨h2.1.trans h1.1, fun h => h2.2 (h1.2 h)⟩

theorem GasKept.state {ex0 ex : Execution} (h : GasKept ex0 ex) (st : StateTreeImpl) :
    GasKept ex0 { ex with state_tree := st } := h

theorem GasKept.of_state {ex0 ex : Execution} (st : StateTreeImpl)
    (h : GasKept { ex0 with state_tree := st } ex) : GasKept ex0 ex := h

theorem chargeGas_gasKept (ex : Execution) (amount : GasAmount) :
    GasKept ex (ex.chargeGas amount).2 := by
  obtain ⟨h1, h2, -⟩ := chargeGas_bound ex amount
  exact ⟨h2, fun _ => by rw [h2]; exact h1⟩

theorem sendWithRevert_gasKept (inner : Execution → UnsignedMessage → SendResult)
    (hinner : ∀ ex m, (inner ex m).Holds fun p => GasKept ex p.2)
    (ex : Execution) (message : UnsignedMessage) :
    (sendWithRevert inner ex message).Holds fun p => GasKept ex p.2 := by
  unfold sendWithRevert
  refine Run.holds_bind (hinner _ _) ?_
  rintro ⟨result, ex1⟩ hp
  dsimp only
  split
  · trivial
  · exact hp

theorem runActor_gasKept (inner : Execution → UnsignedMessage → SendResult)
    (hinner : ∀ ex m, (inner ex m).Holds fun p => GasKept ex p.2)
    (prog : ActorProg) (ex : Execution) :
    (runActor inner prog ex).Holds fun p => GasKept ex p.2 := by
  induction prog generalizing ex with
  | ret result => exact GasKept.reflG _
  | chargeGas amount k ih =>
    simp only [runActor]
    exact Run.holds_mono (ih _ _) fun p hp => (chargeGas_gasKept ex amount).transG hp
  | tryGet address k ih =>
    simp only [runActor]
    exact Run.holds_mono (ih _ _) fun p hp => hp
  | tryLookupId address k ih =>
    simp only [runActor]
    exact Run.holds_mono (ih _ _) fun p hp => hp
  | set address actor k ih =>
    simp only [runActor]
    exact Run.holds_mono (ih _ _) fun p hp => hp
  | remove address k ih =>
    simp only [runActor]
    exact Run.holds_mono (ih _ _) fun p hp => hp
  | registerNewAddress address k ih =>
    simp only [runActor]
    exact Run.holds_mono (ih _ _) fun p hp => hp
  | send message k ih =>
    simp only [runActor]
    refine Run.holds_bind (sendWithRevert_gasKept inner hinner ex message) ?_
    intro p hp
    exact Run.holds_mono (ih _ _) fun q hq => hp.transG hq

theorem tryCreateAccountActor_gasKept (env : Env)
    (inner : Execution → UnsignedMessage → SendResult)
    (hinner : ∀ ex m, (inner ex m).Holds fun p => GasKept ex p.2)
    (ex : Execution) (address : Address) :
    (tryCreateAccountActor env inner ex address).Holds fun p => GasKept ex p.2 := by
  unfold tryCreateAccountActor
  have hc := chargeGas_gasKept ex env.pricelist.onCreateActor
  generalize ex.chargeGas env.pricelist.onCreateActor = c at hc
  obtain ⟨charged, ex1⟩ := c
  simp only at hc
  simp only
  split
  · exact hc
  · generalize ex1.state_tree.registerNewAddress address = q
    obtain ⟨r, st2⟩ := q
    rcases r with e | id
    · exact hc
    · simp only
      split
      · exact hc
      · generalize st2.set id
          ⟨env.address_matcher.getAccountCodeId, kEmptyObjectCid, 0, 0⟩ = q2
        obtain ⟨r2, st3⟩ := q2
        rcases r2 with e | _
        · exact hc
        · simp only
          split
          · exact hc
          · refine Run.holds_bind (sendWithRevert_gasKept inner hinner _ _) ?_
            rintro ⟨sent, ex4⟩ hp
            have h4 : GasKept ex ex4 := hc.transG hp
            rcases sent with e | _
            · exact h4
            · exact h4

theorem sendTo_gasKept (env : Env) (inner : Execution → UnsignedMessage → SendResult)
    (hinner : ∀ ex m, (inner ex m).Holds fun p => GasKept ex p.2)
    (ex : Execution) (message : UnsignedMessage) (to_actor : Actor) :
    (sendTo env inner ex message to_actor).Holds fun p => GasKept ex p.2 := by
  unfold sendTo
  have hc := chargeGas_gasKept ex
    (env.pricelist.onMethodInvocation message.value message.method)
  generalize ex.chargeGas
    (env.pricelist.onMethodInvocation message.value message.method) = c at hc
  obtain ⟨charged, ex1⟩ := c
  simp only at hc
  simp only
  split
  · exact hc
  · generalize ex1.state_tree.lookupId message.from_ = q
    obtain ⟨r, st2⟩ := q
    rcases r with e | caller_id
    · exact hc
    · dsimp only
      generalize st2.lookupId message.to_ = q3
      obtain ⟨r3, st3⟩ := q3
      rcases r3 with e | to_id
      · exact hc
      · dsimp only
        generalize transferValue st3 message caller_id to_id to_actor = q4
        obtain ⟨r4, st4⟩ := q4
        rcases r4 with e | to_actor'
        · exact hc
        · simp only
          split
          · refine Run.holds_bind (runActor_gasKept inner hinner _ _) ?_
            rintro ⟨result, ex5⟩ hp
            exact hc.transG hp
          · exact hc

/-- A send leaves `gas_limit` alone and `gas_used` within it. -/
theorem send_gasKept (env : Env) (fuel : Nat) (ex : Execution) (message : UnsignedMessage)
    (charge : GasAmount) :
    (send env fuel ex message charge).Holds fun p => GasKept ex p.2 := by
  induction fuel generalizing ex message charge with
  | zero => trivial
  | succ fuel ih =>
    have hinner : ∀ ex m, (send env fuel ex m 0).Holds fun p => GasKept ex p.2 :=
      fun ex m => ih ex m 0
    unfold send
    have hc := chargeGas_gasKept ex charge
    generalize ex.chargeGas charge = c at hc
    obtain ⟨charged, ex1⟩ := c
    simp only at hc
    simp only
    split
    · exact hc
    · generalize ex1.state_tree.tryGet message.to_ = q
      obtain ⟨r, st2⟩ := q
      rcases r with e | _ | to_actor
      · exact hc
      · refine Run.holds_bind (tryCreateAccountActor_gasKept env _ hinner _ _) ?_
        rintro ⟨created, ex3⟩ hp
        rcases created with e | account_actor
        · exact hc.transG hp
        · exact Run.holds_mono (sendTo_gasKept env _ hinner _ _ _) fun q hq =>
            (hc.transG hp).transG hq
      · exact Run.holds_mono (sendTo_gasKept env _ hinner _ _ _) fun q hq => hc.transG hq

end Execution
end fc.vm

namespace fc.vm

/-! ## Which assertions `applyMessage` can fail, and the depth of the stack -/

theorem Run.meets_bind {α β : Type} {A : Assertion → Prop} {P : α → Prop} {Q : β → Prop}
    {x : Run α} {f : α → Run β} (hx : x.Meets A P) (hf : ∀ a, P a → (f a).Meets A Q) :
    (x.bind f).Meets A Q := by
  cases x with
  | done a => exact hf a hx
  | assertFailed w => exact hx
  | outOfFuel => trivial

theorem Run.meets_mono {α : Type} {A : Assertion → Prop} {P Q : α → Prop} {x : Run α}
    (hx : x.Meets A P) (h : ∀ a, P a → Q a) : x.Meets A Q := by
  cases x with
  | done a => exact h a hx
  | assertFailed w => exact hx
  | outOfFuel => trivial

theorem Run.safe_meets {α : Type} {A : Assertion → Prop} {P : α → Prop} {x : Run α}
    (hx : x.Safe P) : x.Meets A P := by
  cases x with
  | done a => exact hx
  | assertFailed w => exact hx.elim
  | outOfFuel => trivial

theorem Run.meets_of_eq {α : Type} {A : Assertion → Prop} {P : α → Prop} {x : Run α} {a : α}
    (hx : x.Meets A P) (h : x = .done a) : P a := by
  subst h
  exact hx

theorem Run.meets_assert {α : Type} {A : Assertion → Prop} {P : α → Prop} {x : Run α}
    {w : Assertion} (hx : x.Meets A P) (h : x = .assertFailed w) : A w := by
  subst h
  exact hx

/-- A send fails no assertion, changes the top layer only and keeps the gas counters. -/
theorem Execution.send_safe_gas (env : Env) (fuel : Nat) (ex : Execution)
    (message : UnsignedMessage) (charge : GasAmount) :
    (Execution.send env fuel ex message charge).Safe fun p =>
      StateTreeImpl.SameBelow ex.state_tree p.2.state_tree ∧ Execution.GasKept ex p.2 := by
  have h1 := Execution.send_safe env fuel ex message charge
  have h2 := Execution.send_gasKept env fuel ex message charge
  cases hx : Execution.send env fuel ex message charge with
  | done p =>
    rw [hx] at h1 h2
    exact ⟨h1, h2⟩
  | assertFailed w =>
    rw [hx] at h1
    exact h1
  | outOfFuel => trivial

namespace Env

open StateTreeImpl

theorem chargeReturnValue_kept (env : Env) (ex : Execution) (ret : Bytes) :
    (chargeReturnValue env ex ret).2.state_tree = ex.state_tree
      ∧ Execution.GasKept ex (chargeReturnValue env ex ret).2 := by
  unfold chargeReturnValue
  split
  · have hc := Execution.chargeGas_gasKept ex (env.pricelist.onChainReturnValue ret.length)
    have hs := Execution.chargeGas_state_tree ex (env.pricelist.onChainReturnValue ret.length)
    generalize ex.chargeGas (env.pricelist.onChainReturnValue ret.length) = c at hc hs
    obtain ⟨charge, ex1⟩ := c
    dsimp only at hc hs ⊢
    split
    · exact ⟨hs, hc⟩
    · split <;> exact ⟨hs, hc⟩
  · exact ⟨rfl, Execution.GasKept.reflG _⟩

theorem settleBaseFee_sameBelow (env : Env) (message : UnsignedMessage) (no_fee : Bool)
    (used : GasAmount) (l : Locals) :
    SameBelow l.state_tree (settleBaseFee env message no_fee used l).2.state_tree := by
  unfold settleBaseFee
  dsimp only
  split
  · exact add_locked_sameBelow _ _ _
  · exact SameBelow.reflB _

theorem settleReward_sameBelow (env : Env) (message : UnsignedMessage) (l : Locals) :
    SameBelow l.state_tree (settleReward env message l).2.state_tree := by
  unfold settleReward
  exact add_locked_sameBelow _ _ _

theorem settleOverestimation_sameBelow (env : Env) (message : UnsignedMessage)
    (used : GasAmount) (l : Locals) :
    SameBelow l.state_tree (settleOverestimation env message used l).2.state_tree := by
  unfold settleOverestimation
  split
  · have h := add_locked_sameBelow l kBurntFundsActorAddress
      (base_fee_pay env message * gas_burned message.gas_limit used)
    generalize add_locked l kBurntFundsActorAddress
      (base_fee_pay env message * gas_burned message.gas_limit used) = q at h
    obtain ⟨r, l1⟩ := q
    rcases r with e | u <;> exact h
  · exact SameBelow.reflB _

/-- The gas settlement changes the top layer only; with `used <= limit` the only assertion
it can fail is `locked >= 0`. -/
theorem gasSettlement_meets (env : Env) (message : UnsignedMessage) (exit_code : VMExitCode)
    (no_fee : Bool) (used : GasAmount) (l : Locals) (hused : used ≤ message.gas_limit) :
    (gasSettlement env message exit_code no_fee used l).Meets
      (fun w => w = Assertion.gasMathWrong)
      (fun p => SameBelow l.state_tree p.2.state_tree) := by
  unfold gasSettlement
  rw [if_neg (not_not.mpr hused)]
  have h1 := settleBaseFee_sameBelow env message no_fee used l
  generalize settleBaseFee env message no_fee used l = p1 at h1
  obtain ⟨r1, l1⟩ := p1
  rcases r1 with e | u
  · exact h1
  · dsimp only
    have h2 := settleReward_sameBelow env message l1
    generalize settleReward env message l1 = p2 at h2
    obtain ⟨r2, l2⟩ := p2
    rcases r2 with e | u
    · exact h1.transB h2
    · dsimp only
      have h3 := settleOverestimation_sameBelow env message used l2
      generalize settleOverestimation env message used l2 = p3 at h3
      obtain ⟨r3, l3⟩ := p3
      rcases r3 with e | u
      · exact (h1.transB h2).transB h3
      · dsimp only
        split
        · rfl
        · have h4 := add_locked_sameBelow l3 message.from_ l3.locked
          generalize add_locked l3 message.from_ l3.locked = p4 at h4
          obtain ⟨r4, l4⟩ := p4
          rcases r4 with e | u <;> exact ((h1.transB h2).transB h3).transB h4

theorem txRevert_sameBelow (s : StateTreeImpl) : SameBelow s s.txRevert := ⟨rfl, rfl, rfl, rfl⟩

theorem finishApply_meets (env : Env) (message : UnsignedMessage) (exit_code : VMExitCode)
    (ex : Execution) (l : Locals) (hgas : ex.gas_used ≤ message.gas_limit)
    (hlimit : 0 < message.gas_limit) :
    (finishApply env message exit_code ex l).Meets
      (fun w => w = Assertion.gasMathWrong)
      (fun p => SameBelow ex.state_tree p.2.state_tree) := by
  unfold finishApply
  dsimp only
  have hrev : SameBelow ex.state_tree
      (if exit_code ≠ VMExitCode.kOk then ex.state_tree.txRevert else ex.state_tree) := by
    split
    · exact txRevert_sameBelow _
    · exact SameBelow.reflB _
  have hn := noFee_sameBelow env message exit_code
    (if exit_code ≠ VMExitCode.kOk then ex.state_tree.txRevert else ex.state_tree)
  generalize noFee env message exit_code
    (if exit_code ≠ VMExitCode.kOk then ex.state_tree.txRevert else ex.state_tree) = p at hn
  obtain ⟨r, st1⟩ := p
  rcases r with e | no_fee
  · exact hrev.transB hn
  · dsimp only
    have hused : (if ex.gas_used < 0 then 0 else ex.gas_used) ≤ message.gas_limit := by
      split
      · exact le_of_lt hlimit
      · exact hgas
    exact Run.meets_mono
      (gasSettlement_meets env message exit_code no_fee _ { l with state_tree := st1 } hused)
      fun p hp => (hrev.transB hn).transB hp

theorem applyScope_meets (env : Env) (fuel : Nat) (message : UnsignedMessage)
    (msg_gas_cost : GasAmount) (l : Locals) (hlimit : 0 < message.gas_limit) :
    (applyScope env fuel message msg_gas_cost l).Meets
      (fun w => w = Assertion.gasMathWrong)
      (fun p => SameBelow l.state_tree p.2.state_tree) := by
  unfold applyScope
  refine Run.meets_bind (Run.safe_meets
    (Execution.send_safe_gas env fuel (Execution.make l.state_tree message) message
      msg_gas_cost)) ?_
  rintro ⟨result, ex⟩ ⟨hb, hg⟩
  have hb' : SameBelow l.state_tree ex.state_tree := hb
  have hgas : ex.gas_used ≤ message.gas_limit := by
    have h1 : ex.gas_limit = message.gas_limit := hg.1
    have h2 := hg.2 (le_of_lt hlimit)
    rw [h1] at h2
    exact h2
  have hlim : ex.gas_limit = message.gas_limit := hg.1
  rcases result with e | ret
  · dsimp only
    split
    · exact hb'
    · split
      · exact hb'
      · exact Run.meets_mono (finishApply_meets env message _ ex l hgas hlimit)
          fun p hp => hb'.transB hp
  · dsimp only
    obtain ⟨hs, hk⟩ := chargeReturnValue_kept env ex ret
    generalize chargeReturnValue env ex ret = q at hs hk
    obtain ⟨r, ex1⟩ := q
    dsimp only at hs hk
    have hgas1 : ex1.gas_used ≤ message.gas_limit := by
      have h2 := hk.2 (by rw [hlim]; exact hgas)
      rw [hk.1, hlim] at h2
      exact h2
    rcases r with e | ⟨exit_code, return_value⟩
    · dsimp only
      rw [hs]
      exact hb'
    · dsimp only
      refine Run.meets_mono (finishApply_meets env message exit_code ex1 _ hgas1 hlimit)
        fun p hp => ?_
      rw [hs] at hp
      exact hb'.transB hp

theorem chargeSender_sameBelow (message : UnsignedMessage) (l : Locals) :
    SameBelow l.state_tree (chargeSender message l).2.state_tree := by
  unfold chargeSender
  have h1 := add_locked_sameBelow l message.from_
    (-(message.gas_limit * message.gas_fee_cap))
  generalize add_locked l message.from_ (-(message.gas_limit * message.gas_fee_cap)) = p at h1
  obtain ⟨r, l1⟩ := p
  rcases r with e | u
  · exact h1
  · dsimp only
    have h2 := get_sameBelow l1.state_tree message.from_
    generalize l1.state_tree.get message.from_ = q at h2
    obtain ⟨r2, st2⟩ := q
    rcases r2 with e | sender
    · exact h1.transB h2
    · dsimp only
      have h3 := set_sameBelow st2 message.from_
        { sender with nonce := (sender.nonce + 1) % 2 ^ 64 }
      generalize st2.set message.from_
        { sender with nonce := (sender.nonce + 1) % 2 ^ 64 } = q3 at h3
      obtain ⟨r3, st3⟩ := q3
      rcases r3 with e | u <;> exact (h1.transB h2).transB h3

theorem applyValidated_meets (env : Env) (fuel : Nat) (st : StateTreeImpl)
    (message : UnsignedMessage) (msg_gas_cost : GasAmount) (hlimit : 0 < message.gas_limit) :
    (applyValidated env fuel st message msg_gas_cost).Meets
      (fun w => w = Assertion.gasMathWrong)
      (fun r => SameBelow st r.state_tree ∧ r.state_tree.size = st.size) := by
  unfold applyValidated
  have hc := chargeSender_sameBelow message
    ⟨{ Apply.init with penalty := message.gas_limit * env.parentBaseFee }, 0, st⟩
  generalize chargeSender message
    ⟨{ Apply.init with penalty := message.gas_limit * env.parentBaseFee }, 0, st⟩ = q at hc
  obtain ⟨r1, l1⟩ := q
  dsimp only at hc
  have hsz : l1.state_tree.size = st.size := by
    simp [StateTreeImpl.size, hc.1]
  rcases r1 with e | u
  · exact ⟨hc, hsz⟩
  · dsimp only
    refine Run.meets_bind (applyScope_meets env fuel message msg_gas_cost
      { l1 with state_tree := l1.state_tree.txBegin } hlimit) ?_
    rintro ⟨result, l2⟩ hp
    obtain ⟨h1, h2, h3, h4⟩ := hp
    simp only [txBegin] at h1 h2 h3 h4
    simp only [txEnd, h1]
    refine ⟨⟨hc.1, h2.trans hc.2.1, h3.trans hc.2.2.1, h4.trans hc.2.2.2⟩, ?_⟩
    simp [StateTreeImpl.size, hc.1]

/-- On every path `applyMessage` returns a state tree with the layers below the top one as
on entry, so with the same depth; the only assertion it can fail is `locked >= 0`. -/
theorem applyMessage_meets (env : Env) (fuel : Nat) (st : StateTreeImpl)
    (message : UnsignedMessage) (size : Nat) :
    (applyMessage env fuel st message size).Meets
      (fun w => w = Assertion.gasMathWrong)
      (fun r => SameBelow st r.state_tree ∧ r.state_tree.size = st.size) := by
  unfold applyMessage
  split
  · exact ⟨SameBelow.reflB _, rfl⟩
  · next hl =>
    dsimp only
    split
    · exact ⟨SameBelow.reflB _, rfl⟩
    · have hv := (validateSender_sameView env message st).2
      generalize validateSender env message st = p at hv
      obtain ⟨r, st1⟩ := p
      dsimp only at hv
      have hsz : st1.size = st.size := by simp [StateTreeImpl.size, hv.1]
      rcases r with e | c | sender
      · exact ⟨hv, hsz⟩
      · exact ⟨hv, hsz⟩
      · dsimp only
        exact Run.meets_mono
          (applyValidated_meets env fuel st1 message _ (not_le.mp hl))
          fun r hr => ⟨hv.transB hr.1, hr.2.trans hsz⟩

end Env
end fc.vm

namespace fc.vm
namespace Env

open StateTreeImpl

/-! ## Where a receipt comes from -/

/-- A receipt built by `finishApply` carries the exit code, the clamped gas and the return
value stored before. -/
theorem finishApply_ok (env : Env) (message : UnsignedMessage) (exit_code : VMExitCode)
    (ex : Execution) (l l' : Locals) (apply : Apply)
    (h : finishApply env message exit_code ex l = .done (.ok apply, l')) :
    apply.receipt.exit_code = exit_code
      ∧ apply.receipt.gas_used = (if ex.gas_used < 0 then 0 else ex.gas_used)
      ∧ apply.receipt.return_value = l.apply.receipt.return_value
      ∧ (if ex.gas_used < 0 then 0 else ex.gas_used) ≤ message.gas_limit := by
  unfold finishApply at h
  dsimp only at h
  generalize noFee env message exit_code
    (if exit_code ≠ VMExitCode.kOk then ex.state_tree.txRevert else ex.state_tree) = p at h
  obtain ⟨r, st1⟩ := p
  rcases r with e | no_fee
  · simp at h
  · dsimp only at h
    obtain ⟨-, -, h3, h4, h5, h6⟩ := gasSettlement_ok _ _ _ _ _ _ _ _ h
    exact ⟨h3, h4, h5, h6⟩

theorem applyScope_send_error (env : Env) (fuel : Nat) (message : UnsignedMessage)
    (msg_gas_cost : GasAmount) (l : Locals) (e : Error) (ex : Execution)
    (hsend : Execution.send env fuel (Execution.make l.state_tree message) message msg_gas_cost
      = .done (.error e, ex)) :
    applyScope env fuel message msg_gas_cost l
      = match asExitCode (α := Bytes) (.error e) with
        | .error e1 => .done (.error e1, { l with state_tree := ex.state_tree })
        | .ok exit_code =>
          if exit_code = VMExitCode.kFatal then
            .done (.error e, { l with state_tree := ex.state_tree })
          else finishApply env message exit_code ex l := by
  unfold applyScope
  rw [hsend]
  rfl

theorem applyScope_send_ok (env : Env) (fuel : Nat) (message : UnsignedMessage)
    (msg_gas_cost : GasAmount) (l : Locals) (ret : Bytes) (ex : Execution)
    (hsend : Execution.send env fuel (Execution.make l.state_tree message) message msg_gas_cost
      = .done (.ok ret, ex)) :
    applyScope env fuel message msg_gas_cost l
      = match chargeReturnValue env ex ret with
        | (.error e, ex1) => .done (.error e, { l with state_tree := ex1.state_tree })
        | (.ok (exit_code, return_value), ex1) =>
          finishApply env message exit_code ex1
            { l with apply :=
                { l.apply with
                  receipt := { l.apply.receipt with return_value := return_value } } } := by
  unfold applyScope
  rw [hsend]
  rfl

/-- Every `Apply` returned from the scope of `applyMessage` was built by `finishApply`. -/
theorem applyScope_ok (env : Env) (fuel : Nat) (message : UnsignedMessage)
    (msg_gas_cost : GasAmount) (l l' : Locals) (apply : Apply)
    (h : applyScope env fuel message msg_gas_cost l = .done (.ok apply, l')) :
    ∃ exit_code ex l0, finishApply env message exit_code ex l0 = .done (.ok apply, l') := by
  cases hs : Execution.send env fuel (Execution.make l.state_tree message) message
      msg_gas_cost with
  | done p =>
    obtain ⟨result, ex⟩ := p
    rcases result with e | ret
    · rw [applyScope_send_error env fuel message msg_gas_cost l e ex hs] at h
      split at h
      · simp at h
      · split at h
        · simp at h
        · exact ⟨_, _, _, h⟩
    · rw [applyScope_send_ok env fuel message msg_gas_cost l ret ex hs] at h
      split at h
      · simp at h
      · exact ⟨_, _, _, h⟩
  | assertFailed w =>
    unfold applyScope at h
    rw [hs] at h
    simp [Run.bind] at h
  | outOfFuel =>
    unfold applyScope at h
    rw [hs] at h
    simp [Run.bind] at h

/-- An `Apply` returned by `applyValidated` was returned from its scope, entered after the
sender was charged. -/
theorem applyValidated_ok (env : Env) (fuel : Nat) (st : StateTreeImpl)
    (message : UnsignedMessage) (msg_gas_cost : GasAmount) (r : Returned) (apply : Apply)
    (h : applyValidated env fuel st message msg_gas_cost = .done r)
    (hres : r.result = .ok apply) :
    ∃ l1 l2,
      chargeSender message
          ⟨{ Apply.init with penalty := message.gas_limit * env.parentBaseFee }, 0, st⟩
        = (.ok (), l1)
      ∧ applyScope env fuel message msg_gas_cost
          { l1 with state_tree := l1.state_tree.txBegin } = .done (.ok apply, l2)
      ∧ l2.state_tree.txEnd = some r.state_tree := by
  unfold applyValidated at h
  generalize hc : chargeSender message
    ⟨{ Apply.init with penalty := message.gas_limit * env.parentBaseFee }, 0, st⟩ = q at h
  obtain ⟨r1, l1⟩ := q
  rcases r1 with e | u
  · simp only [Run.done.injEq] at h
    subst h
    simp at hres
  · dsimp only at h
    cases hs : applyScope env fuel message msg_gas_cost
        { l1 with state_tree := l1.state_tree.txBegin } with
    | done p =>
      obtain ⟨result, l2⟩ := p
      rw [hs] at h
      simp only [Run.bind] at h
      cases ht : l2.state_tree.txEnd with
      | none =>
        rw [ht] at h
        simp at h
      | some st2 =>
        rw [ht] at h
        simp only [Run.done.injEq] at h
        subst h
        dsimp only at hres
        subst hres
        exact ⟨l1, l2, rfl, hs, ht⟩
    | assertFailed w =>
      rw [hs] at h
      simp [Run.bind] at h
    | outOfFuel =>
      rw [hs] at h
      simp [Run.bind] at h

end Env
end fc.vm

namespace fc.vm
namespace Env

open StateTreeImpl

/-! ## Sequences of `applyMessage` calls -/

theorem applyMessages_meets (env : Env) (fuel : Nat) (msgs : List (UnsignedMessage × Nat)) :
    ∀ st : StateTreeImpl, (applyMessages env fuel st msgs).Meets
      (fun w => w = Assertion.gasMathWrong) (fun st' => st'.size = st.size) := by
  induction msgs with
  | nil =>
    intro st
    exact rfl
  | cons m rest ih =>
    intro st
    obtain ⟨message, size⟩ := m
    unfold applyMessages
    refine Run.meets_bind (applyMessage_meets env fuel st message size) ?_
    intro r hr
    exact Run.meets_mono (ih r.state_tree) fun st' h => h.trans hr.2

theorem flush_isSome (io : HamtStore) (s : StateTreeImpl) (h : s.size = 1) :
    (s.flush io).isSome = true := by
  unfold StateTreeImpl.flush
  rw [if_neg (not_not.mpr h)]
  generalize flushActors io s.by_id (sortedActors s.tx_back.actors) = p1
  obtain ⟨r1, c1⟩ := p1
  rcases r1 with e | u
  · rfl
  · dsimp only
    generalize flushRemoved io c1 (sortedIds s.tx_back.removed) = p2
    obtain ⟨r2, c2⟩ := p2
    rcases r2 with e | u
    · rfl
    · dsimp only
      cases io.hamtFlush c2 with
      | error e => rfl
      | ok new_root =>
        dsimp only
        split
        · rfl
        · cases io.setCborInfo <;> rfl

end Env
end fc.vm

namespace fc.vm
namespace StateTreeImpl

/-! ## Reads and writes at id addresses -/

theorem get_fst (s : StateTreeImpl) (a : Address) :
    (s.get a).1
      = match (s.tryGet a).1 with
        | .error e => .error e
        | .ok none => .error Error.notFound
        | .ok (some actor) => .ok actor := by
  unfold get
  generalize s.tryGet a = p
  obtain ⟨r, s1⟩ := p
  rcases r with e | _ | actor <;> rfl

theorem get_of_tryGet (s : StateTreeImpl) (a : Address) (x : Actor)
    (h : (s.tryGet a).1 = .ok (some x)) : ∃ s1, s.get a = (.ok x, s1) ∧ SameView s s1 := by
  have h1 := get_fst s a
  have h2 := get_sameView s a
  rw [h] at h1
  generalize s.get a = p at h1 h2
  obtain ⟨r, s1⟩ := p
  dsimp only at h1 h2
  subst h1
  exact ⟨s1, rfl, h2⟩

end StateTreeImpl
end fc.vm

namespace fc.vm
namespace StateTreeImpl

/-! ## The loops of `flush` -/

theorem mem_sortedIds (xs : Finset ActorId) (id : ActorId) : id ∈ sortedIds xs ↔ id ∈ xs := by
  obtain ⟨m, hm⟩ := xs
  induction m using Quot.inductionOn with
  | h l =>
    show id ∈ l.insertionSort (· ≤ ·) ↔ id ∈ l
    exact (List.perm_insertionSort _ l).mem_iff

theorem mem_sortedActors (m : AList (fun _ : ActorId => Actor)) (id : ActorId) (a : Actor) :
    (⟨id, a⟩ : Σ _ : ActorId, Actor) ∈ sortedActors m ↔ m.lookup id = some a := by
  unfold sortedActors
  rw [(List.perm_insertionSort _ m.entries).mem_iff]
  exact (AList.mem_lookup_iff).symm

theorem sortedActors_nodupKeys (m : AList (fun _ : ActorId => Actor)) :
    (sortedActors m).NodupKeys :=
  (List.perm_nodupKeys (List.perm_insertionSort _ m.entries)).mpr m.nodupKeys

theorem flushActors_ok (io : HamtStore) (l : List (Σ _ : ActorId, Actor)) :
    ∀ (c c' : ActorId → Except Error (Option Actor)), l.NodupKeys →
      flushActors io c l = (.ok (), c') →
        (∀ id a, (⟨id, a⟩ : Σ _ : ActorId, Actor) ∈ l → c' id = .ok (some a))
          ∧ ∀ id, id ∉ l.keys → c' id = c id := by
  induction l with
  | nil =>
    intro c c' _ h
    simp only [flushActors, Prod.mk.injEq, true_and] at h
    subst h
    exact ⟨fun id a hm => absurd hm (List.not_mem_nil _), fun _ _ => rfl⟩
  | cons e rest ih =>
    intro c c' hnd h
    obtain ⟨id0, a0⟩ := e
    rw [List.nodupKeys_cons] at hnd
    obtain ⟨hnot, hrest⟩ := hnd
    unfold flushActors at h
    cases hs : io.hamtSet c id0 a0 with
    | some err =>
      rw [hs] at h
      simp at h
    | none =>
      rw [hs] at h
      obtain ⟨h1, h2⟩ := ih _ c' hrest h
      constructor
      · intro id a hm
        rcases List.mem_cons.mp hm with heq | hm'
        · obtain ⟨hid, ha⟩ := Sigma.mk.inj_iff.mp heq
          rw [hid, eq_of_heq ha, h2 id0 hnot, Function.update_same]
        · exact h1 id a hm'
      · intro id hid
        rw [List.keys_cons, List.mem_cons, not_or] at hid
        rw [h2 id hid.2, Function.update_noteq hid.1]

theorem flushRemoved_ok (io : HamtStore) (l : List ActorId) :
    ∀ (c c' : ActorId → Except Error (Option Actor)),
      flushRemoved io c l = (.ok (), c') →
        (∀ id, id ∈ l → c' id = .ok none) ∧ ∀ id, id ∉ l → c' id = c id := by
  induction l with
  | nil =>
    intro c c' h
    simp only [flushRemoved, Prod.mk.injEq, true_and] at h
    subst h
    exact ⟨fun id hm => absurd hm (List.not_mem_nil _), fun _ _ => rfl⟩
  | cons id0 rest ih =>
    intro c c' h
    unfold flushRemoved at h
    cases hs : io.hamtRemove c id0 with
    | some err =>
      rw [hs] at h
      simp at h
    | none =>
      rw [hs] at h
      obtain ⟨h1, h2⟩ := ih _ c' h
      constructor
      · intro id hm
        by_cases hr : id ∈ rest
        · exact h1 id hr
        · rcases List.mem_cons.mp hm with heq | hm'
          · rw [heq] at hr ⊢
            rw [h2 id0 hr, Function.update_same]
          · exact absurd hm' hr
      · intro id hid
        rw [List.mem_cons, not_or] at hid
        rw [h2 id hid.2, Function.update_noteq hid.1]

/-- The view of a tree with a single layer. -/
theorem viewActor_single (s : StateTreeImpl) (h : s.size = 1) (id : ActorId) :
    s.viewActor id
      = if id ∈ s.tx_back.removed then .ok none
        else
          match s.tx_back.actors.lookup id with
          | some a => .ok (some a)
          | none => s.by_id id := by
  have hl : s.tx_lower = [] := by
    unfold StateTreeImpl.size at h
    exact List.length_eq_zero.mp (Nat.succ.inj h)
  unfold viewActor tx_
  rw [hl]
  unfold scanActors
  by_cases hr : id ∈ s.tx_back.removed
  · rw [if_pos hr, if_pos hr]
  · rw [if_neg hr, if_neg hr]
    cases s.tx_back.actors.lookup id <;> rfl

end StateTreeImpl
end fc.vm

namespace fc.vm
namespace StateTreeImpl

/-! ## The nonce of an actor across the steps of `applyMessage` -/

end StateTreeImpl
end fc.vm

namespace fc.vm

namespace StateTreeImpl

theorem NonceIs.tryGet {s : StateTreeImpl} {a : Address} {k : Nat} (h : NonceIs s a k) :
    ∃ x : Actor, (s.tryGet a).1 = .ok (some x) ∧ x.nonce = k := by
  obtain ⟨x, hx, hk⟩ := h
  exact ⟨x, (tryGet_fst s a).trans hx, hk⟩

end StateTreeImpl

namespace Env

open StateTreeImpl

end Env
end fc.vm

namespace fc.vm
namespace Env

open StateTreeImpl

end Env
end fc.vm

/-! ## The buffered writer -/

namespace fc.vm
namespace IpldBuffered

variable {σ τ : Type}

theorem set_new (V : CidView) (b : IpldBuffered σ) (cid : CID) (key : Hash256) (value : Bytes)
    (hcbor : V.isCbor cid = true) (hblake : V.asBlake cid = some key) (hnew : key ∉ b.write) :
    b.set V cid value = some (.ok (), { b with write := b.write.insert key value }) := by
  unfold set
  simp [hcbor, hblake, hnew]

theorem set_present (V : CidView) (b : IpldBuffered σ) (cid : CID) (key : Hash256)
    (value : Bytes) (hcbor : V.isCbor cid = true) (hblake : V.asBlake cid = some key)
    (hold : key ∈ b.write) : b.set V cid value = some (.ok (), b) := by
  unfold set
  simp [hcbor, hblake, hold]

/-- The bytes that `get` returns while `flushing` is set do not come from the backing
store. -/
theorem get_flushing (B B' : Ipld σ) (V : CidView) (b : IpldBuffered σ) (cid : CID)
    (hf : b.flushing = true) : b.get B V cid = b.get B' V cid := by
  unfold get
  simp [hf]

theorem promote_congr (B B' : Ipld σ) (V : CidView) (write : AList (fun _ : Hash256 => Bytes))
    (hset : B.set = B'.set) (cids : List CID) :
    ∀ s, promote B V write s cids = promote B' V write s cids := by
  induction cids with
  | nil => intro s; rfl
  | cons cid rest ih =>
    intro s
    unfold promote
    rw [hset]
    cases V.asBlake cid with
    | none => rfl
    | some key =>
      dsimp only
      cases write.lookup key with
      | none => rfl
      | some value =>
        dsimp only
        generalize B'.set s cid value = p
        obtain ⟨r, s1⟩ := p
        rcases r with e | u
        · rfl
        · exact ih s1

theorem flushLoop_congr (B B' : Ipld σ) (V : CidView) (T : Traverser τ)
    (hset : B.set = B'.set) (fuel : Nat) :
    ∀ (b : IpldBuffered σ) (t : τ), b.flushing = true →
      flushLoop B V T fuel b t = flushLoop B' V T fuel b t := by
  induction fuel with
  | zero => intro b t _; rfl
  | succ fuel ih =>
    intro b t hf
    unfold flushLoop
    have hget : get B V b = get B' V b := funext fun cid => get_flushing B B' V b cid hf
    rw [hget]
    generalize T.traverseAll (get B' V b) t = p
    obtain ⟨r, t1⟩ := p
    rcases r with _ | (e | cids)
    · rfl
    · dsimp only
      split
      · rfl
      · exact ih b t1 hf
    · dsimp only
      rw [promote_congr B B' V b.write hset cids b.ipld]

/-- An error that `promote` returns is an error of a `set` of the backing store. -/
theorem promote_error (B : Ipld σ) (V : CidView) (write : AList (fun _ : Hash256 => Bytes))
    (cids : List CID) :
    ∀ (s s' : σ) (e : Error), promote B V write s cids = .returned (.error e, s') →
      ∃ s0 cid value, (B.set s0 cid value).1 = .error e := by
  induction cids with
  | nil =>
    intro s s' e h
    simp [promote] at h
  | cons cid rest ih =>
    intro s s' e h
    unfold promote at h
    cases hb : V.asBlake cid with
    | none =>
      rw [hb] at h
      simp at h
    | some key =>
      rw [hb] at h
      dsimp only at h
      cases hl : write.lookup key with
      | none =>
        rw [hl] at h
        simp at h
      | some value =>
        rw [hl] at h
        dsimp only at h
        generalize hs : B.set s cid value = p at h
        obtain ⟨r, s1⟩ := p
        rcases r with e1 | u
        · simp only [Ended.returned.injEq, Prod.mk.injEq, Except.error.injEq] at h
          exact ⟨s, cid, value, by rw [hs, ← h.1]⟩
        · exact ih s1 s' e h

/-- An error that the loop of `flush` returns is an error of the traversal other than
NotFound, or an error of a `set` of the backing store. -/
theorem flushLoop_error (B : Ipld σ) (V : CidView) (T : Traverser τ) (fuel : Nat) :
    ∀ (b b' : IpldBuffered σ) (t : τ) (e : Error),
      flushLoop B V T fuel b t = .returned (.error e, b') →
        (e ≠ IpfsDatastoreError.kNotFound
            ∧ ∃ get t0, (T.traverseAll get t0).1 = some (.error e))
          ∨ ∃ s0 cid value, (B.set s0 cid value).1 = .error e := by
  induction fuel with
  | zero =>
    intro b b' t e h
    simp [flushLoop] at h
  | succ fuel ih =>
    intro b b' t e h
    unfold flushLoop at h
    generalize hp : T.traverseAll (get B V b) t = p at h
    obtain ⟨r, t1⟩ := p
    rcases r with _ | (e1 | cids)
    · simp at h
    · dsimp only at h
      split at h
      · next hne =>
        simp only [Ended.returned.injEq, Prod.mk.injEq, Except.error.injEq] at h
        left
        rw [← h.1]
        exact ⟨hne, get B V b, t, by rw [hp]⟩
      · exact ih b b' t1 e h
    · dsimp only at h
      cases hq : promote B V b.write b.ipld cids with
      | returned q =>
        obtain ⟨r2, s1⟩ := q
        rw [hq] at h
        simp only [Ended.returned.injEq, Prod.mk.injEq] at h
        right
        exact promote_error B V b.write cids b.ipld s1 e (by rw [hq, h.1])
      | thrown what =>
        rw [hq] at h
        simp at h
      | undefined =>
        rw [hq] at h
        simp at h
      | outOfFuel =>
        rw [hq] at h
        simp at h

end IpldBuffered
end fc.vm

/-! ## The order of rows -/

namespace fc.storage

open fc.vm

theorem memcmp_self (a : List UInt8) : memcmp a a = .eq := by
  induction a with
  | nil => rfl
  | cons x l ih => simp [memcmp, ih]

theorem memcmp_eq_iff : ∀ (a b : List UInt8), a.length = b.length →
    (memcmp a b = .eq ↔ a = b) := by
  intro a
  induction a with
  | nil =>
    intro b hlen
    cases b with
    | nil => simp [memcmp]
    | cons y r => simp at hlen
  | cons x l ih =>
    intro b hlen
    cases b with
    | nil => simp at hlen
    | cons y r =>
      have hlen' : l.length = r.length := by simpa using hlen
      unfold memcmp
      by_cases h1 : x.toNat < y.toNat
      · simp only [h1, if_true]
        constructor
        · intro h; cases h
        · intro h
          have hxy : x = y := (List.cons.inj h).1
          rw [hxy] at h1
          exact absurd h1 (lt_irrefl _)
      · by_cases h2 : y.toNat < x.toNat
        · simp only [h1, h2, if_true, if_false]
          constructor
          · intro h; cases h
          · intro h
            have hxy : x = y := (List.cons.inj h).1
            rw [hxy] at h2
            exact absurd h2 (lt_irrefl _)
        · simp only [h1, h2, if_false]
          have hxy : x = y := UInt8.ext (le_antisymm (not_lt.mp h2) (not_lt.mp h1))
          rw [ih r hlen', hxy]
          constructor
          · intro h; rw [h]
          · intro h; exact (List.cons.inj h).2

theorem memcmp_lt_trans : ∀ (a b c : List UInt8), a.length = b.length → b.length = c.length →
    memcmp a b = .lt → memcmp b c = .lt → memcmp a c = .lt := by
  intro a
  induction a with
  | nil =>
    intro b c _ _ h
    simp [memcmp] at h
  | cons x l ih =>
    intro b c hab hbc h1 h2
    cases b with
    | nil => simp at hab
    | cons y r =>
      cases c with
      | nil => simp at hbc
      | cons z t =>
        have hab' : l.length = r.length := by simpa using hab
        have hbc' : r.length = t.length := by simpa using hbc
        unfold memcmp at h1 h2 ⊢
        by_cases hxy : x.toNat < y.toNat
        · by_cases hyz : y.toNat < z.toNat
          · simp [lt_trans hxy hyz]
          · simp only [hyz, if_false] at h2
            by_cases hzy : z.toNat < y.toNat
            · simp [hzy] at h2
            · have : y.toNat = z.toNat := le_antisymm (not_lt.mp hzy) (not_lt.mp hyz)
              simp [← this, hxy]
        · simp only [hxy, if_false] at h1
          by_cases hyx : y.toNat < x.toNat
          · simp [hyx] at h1
          · simp only [hyx, if_false] at h1
            have hxy' : x.toNat = y.toNat := le_antisymm (not_lt.mp hyx) (not_lt.mp hxy)
            by_cases hyz : y.toNat < z.toNat
            · simp [hxy', hyz]
            · simp only [hyz, if_false] at h2
              by_cases hzy : z.toNat < y.toNat
              · simp [hzy] at h2
              · simp only [hzy, if_false] at h2
                rw [hxy']
                simp only [hyz, hzy, if_false]
                exact ih r t hab' hbc' h1 h2

theorem memcmp_flip : ∀ (a b : List UInt8), memcmp a b = .gt ↔ memcmp b a = .lt := by
  intro a
  induction a with
  | nil =>
    intro b
    cases b <;> simp [memcmp]
  | cons x l ih =>
    intro b
    cases b with
    | nil => simp [memcmp]
    | cons y r =>
      unfold memcmp
      by_cases h1 : x.toNat < y.toNat
      · have h2 : ¬ y.toNat < x.toNat := not_lt.mpr (le_of_lt h1)
        simp [h1, h2]
      · by_cases h2 : y.toNat < x.toNat
        · simp [h1, h2]
        · simp only [h1, h2, if_false]
          exact ih r

/-- Two byte strings that start with the same bytes compare as their remainders do. -/
theorem memcmp_append_same (a x y : List UInt8) : memcmp (a ++ x) (a ++ y) = memcmp x y := by
  induction a with
  | nil => rfl
  | cons b l ih => simp [memcmp, ih]

/-- Two byte strings that start with different bytes of one length compare as those do. -/
theorem memcmp_append_ne : ∀ (a b x y : List UInt8), a.length = b.length → a ≠ b →
    memcmp (a ++ x) (b ++ y) = memcmp a b := by
  intro a
  induction a with
  | nil =>
    intro b x y hlen hne
    cases b with
    | nil => exact absurd rfl hne
    | cons z r => simp at hlen
  | cons w l ih =>
    intro b x y hlen hne
    cases b with
    | nil => simp at hlen
    | cons z r =>
      have hlen' : l.length = r.length := by simpa using hlen
      simp only [List.cons_append, memcmp]
      by_cases h1 : w.toNat < z.toNat
      · simp [h1]
      · by_cases h2 : z.toNat < w.toNat
        · simp [h1, h2]
        · simp only [h1, h2, if_false]
          have hwz : w = z := UInt8.ext (le_antisymm (not_lt.mp h2) (not_lt.mp h1))
          apply ih r x y hlen'
          intro hlr
          exact hne (by rw [hwz, hlr])

/-- Nothing is below a string of zero bytes. -/
theorem memcmp_zeros (zs : List UInt8) (hz : ∀ z ∈ zs, z.toNat = 0) :
    ∀ t : List UInt8, memcmp t zs ≠ .lt := by
  induction zs with
  | nil =>
    intro t
    cases t <;> simp [memcmp]
  | cons z r ih =>
    intro t
    cases t with
    | nil => simp [memcmp]
    | cons a l =>
      have hz0 : z.toNat = 0 := hz z (List.mem_cons_self _ _)
      unfold memcmp
      rw [hz0]
      simp only [Nat.not_lt_zero, if_false]
      by_cases h : 0 < a.toNat
      · simp [h]
      · simp only [h, if_false]
        exact ih (fun z' hz' => hz z' (List.mem_cons_of_mem _ hz')) l

theorem bigEndian_length (n x : Nat) : (bigEndian n x).length = n := by
  induction n with
  | zero => rfl
  | succ n ih => simp [bigEndian, ih]

theorem bigEndian_zero (n : Nat) : ∀ z ∈ bigEndian n 0, z.toNat = 0 := by
  induction n with
  | zero => intro z hz; simp [bigEndian] at hz
  | succ n ih =>
    intro z hz
    simp only [bigEndian, List.mem_cons] at hz
    rcases hz with h | h
    · rw [h]
      simp
    · exact ih z h

namespace Row

theorem bytes_length (r : Row) : r.bytes.length = 40 := by
  simp [bytes, bigEndian_length, r.key.2]

theorem lt_trans {a b c : Row} (h1 : Row.lt a b = true) (h2 : Row.lt b c = true) :
    Row.lt a c = true := by
  simp only [Row.lt, decide_eq_true_eq] at h1 h2 ⊢
  exact memcmp_lt_trans _ _ _ ((bytes_length a).trans (bytes_length b).symm)
    ((bytes_length b).trans (bytes_length c).symm) h1 h2

theorem lt_irrefl (a : Row) : Row.lt a a = false := by
  simp [Row.lt, memcmp_self]

/-- A row with the key `key` is not below the probe `Row{key, {}, {}}`. -/
theorem not_lt_probe (r : Row) : Row.lt r ⟨r.key, 0, 0⟩ = false := by
  have h := memcmp_zeros (bigEndian 5 0 ++ bigEndian 3 0)
    (fun z hz => by
      rcases List.mem_append.mp hz with h | h
      · exact bigEndian_zero 5 z h
      · exact bigEndian_zero 3 z h)
    (bigEndian 5 r.offset ++ bigEndian 3 r.max_size64)
  simp only [Row.lt, bytes, List.append_assoc, memcmp_append_same]
  cases hm : memcmp (bigEndian 5 r.offset ++ bigEndian 3 r.max_size64)
      (bigEndian 5 0 ++ bigEndian 3 0) with
  | lt => exact absurd hm h
  | eq => rfl
  | gt => rfl

/-- The comparison of two rows with different keys is the comparison of the keys. -/
theorem memcmp_bytes_of_key_ne (a b : Row) (h : a.key ≠ b.key) :
    memcmp a.bytes b.bytes = memcmp a.key.1 b.key.1 := by
  simp only [bytes, List.append_assoc]
  apply memcmp_append_ne
  · rw [a.key.2, b.key.2]
  · intro h'
    exact h (Subtype.ext h')

/-- A row that is not below the probe for `key` and not above a row with that key has that
key. -/
theorem key_eq_of_between (r0 r1 : Row) (key : Hash256)
    (h0 : Row.lt r0 ⟨key, 0, 0⟩ = false) (h1 : r0 = r1 ∨ Row.lt r0 r1 = true)
    (hk : r1.key = key) : r0.key = key := by
  by_contra hne
  rcases h1 with h1 | h1
  · rw [h1] at hne
    exact hne hk
  · have e0 : memcmp r0.bytes (⟨key, 0, 0⟩ : Row).bytes = memcmp r0.key.1 key.1 :=
      memcmp_bytes_of_key_ne r0 ⟨key, 0, 0⟩ hne
    have e1 : memcmp r0.bytes r1.bytes = memcmp r0.key.1 key.1 := by
      rw [memcmp_bytes_of_key_ne r0 r1 (by rw [hk]; exact hne), hk]
    simp only [Row.lt, decide_eq_true_eq] at h1
    have : Row.lt r0 ⟨key, 0, 0⟩ = true := by
      simp only [Row.lt, decide_eq_true_eq]
      rw [e0, ← e1]
      exact h1
    rw [h0] at this
    cases this

end Row

/-- The first element of an ascending list that satisfies `p` comes before every other
element that does. -/
theorem find_first {α : Type} (R : α → α → Prop) (p : α → Bool) :
    ∀ (l : List α), l.Pairwise R → ∀ r0, l.find? p = some r0 →
      r0 ∈ l ∧ p r0 = true ∧ ∀ r1 ∈ l, p r1 = true → r0 = r1 ∨ R r0 r1 := by
  intro l
  induction l with
  | nil =>
    intro _ r0 h
    simp at h
  | cons a rest ih =>
    intro hs r0 h
    rw [List.pairwise_cons] at hs
    rw [List.find?_cons] at h
    cases hp : p a with
    | true =>
      rw [hp] at h
      simp only [Option.some.injEq] at h
      subst h
      refine ⟨List.mem_cons_self _ _, hp, ?_⟩
      intro r1 hr1 _
      rcases List.mem_cons.mp hr1 with e | hm
      · exact Or.inl e.symm
      · exact Or.inr (hs.1 r1 hm)
    | false =>
      rw [hp] at h
      obtain ⟨hm, hp0, hfirst⟩ := ih hs.2 r0 h
      refine ⟨List.mem_cons_of_mem _ hm, hp0, ?_⟩
      intro r1 hr1 hp1
      rcases List.mem_cons.mp hr1 with e | hm1
      · rw [e, hp] at hp1
        cases hp1
      · exact hfirst r1 hm1 hp1

theorem mem_insertRow (row : Row) : ∀ (l : List Row) (r : Row),
    r ∈ insertRow row l → r = row ∨ r ∈ l := by
  intro l
  induction l with
  | nil =>
    intro r h
    simp only [insertRow, List.mem_singleton] at h
    exact Or.inl h
  | cons a rest ih =>
    intro r h
    unfold insertRow at h
    split at h
    · rcases List.mem_cons.mp h with e | hm
      · exact Or.inl e
      · exact Or.inr hm
    · split at h
      · rcases List.mem_cons.mp h with e | hm
        · exact Or.inr (e ▸ List.mem_cons_self _ _)
        · rcases ih r hm with e | hm'
          · exact Or.inl e
          · exact Or.inr (List.mem_cons_of_mem _ hm')
      · exact Or.inr h

/-- The insertion keeps the set ascending. -/
theorem insertRow_sorted (row : Row) : ∀ (l : List Row),
    l.Pairwise (fun a b => Row.lt a b = true) →
      (insertRow row l).Pairwise fun a b => Row.lt a b = true := by
  intro l
  induction l with
  | nil =>
    intro _
    simp [insertRow]
  | cons a rest ih =>
    intro hs
    have hs' := List.pairwise_cons.mp hs
    unfold insertRow
    split
    · next h1 =>
      refine List.pairwise_cons.mpr ⟨?_, hs⟩
      intro b hb
      rcases List.mem_cons.mp hb with e | hm
      · rw [e]; exact h1
      · exact Row.lt_trans h1 (hs'.1 b hm)
    · split
      · next h2 =>
        refine List.pairwise_cons.mpr ⟨?_, ih hs'.2⟩
        intro b hb
        rcases mem_insertRow row rest b hb with e | hm
        · rw [e]; exact h2
        · exact hs'.1 b hm
      · exact hs

/-- A row whose key no row of the set has is in the set after its insertion. -/
theorem insertRow_mem (row : Row) : ∀ (l : List Row), (∀ r ∈ l, r.key ≠ row.key) →
    row ∈ insertRow row l := by
  intro l
  induction l with
  | nil =>
    intro _
    simp [insertRow]
  | cons a rest ih =>
    intro hk
    unfold insertRow
    split
    · exact List.mem_cons_self _ _
    · split
      · exact List.mem_cons_of_mem _ (ih fun r hr => hk r (List.mem_cons_of_mem _ hr))
      · next h1 h2 =>
        exfalso
        have hne : row.key ≠ a.key := fun h => hk a (List.mem_cons_self _ _) h.symm
        have e1 := Row.memcmp_bytes_of_key_ne row a hne
        have hneq : memcmp row.key.1 a.key.1 ≠ .eq := by
          intro h
          have := (memcmp_eq_iff _ _ (by rw [row.key.2, a.key.2])).mp h
          exact hne (Subtype.ext this)
        have e2 := Row.memcmp_bytes_of_key_ne a row (Ne.symm hne)
        simp only [Row.lt, decide_eq_true_eq] at h1 h2
        rw [e1] at h1
        rw [e2] at h2
        cases hm : memcmp row.key.1 a.key.1 with
        | lt => exact h1 hm
        | eq => exact hneq hm
        | gt =>
          apply h2
          exact (memcmp_flip _ _).mp hm

end fc.storage

namespace fc.storage

open fc.vm

/-! ## Big-endian fields and `findWritten` -/

theorem bigEndian_mod (n : Nat) : ∀ x, bigEndian n (x % 256 ^ n) = bigEndian n x := by
  induction n with
  | zero => intro x; rfl
  | succ n ih =>
    intro x
    have h1 : x % 256 ^ (n + 1) / 256 ^ n % 256 = x / 256 ^ n % 256 := by
      rw [pow_succ, Nat.mod_mul_right_div_self, Nat.mod_mod]
    have h2 : x % 256 ^ (n + 1) % 256 ^ n = x % 256 ^ n := by
      rw [pow_succ]
      exact Nat.mod_mul_right_mod x (256 ^ n) 256
    simp only [bigEndian]
    rw [h1, ← ih (x % 256 ^ (n + 1)), h2, ih]

theorem lt_of_quotient_lt (P qa qb ra rb a b : Nat) (da : P * qa + ra = a)
    (db : P * qb + rb = b) (ma : ra < P) (h : qa < qb) : a < b := by
  have h1 : P * (qa + 1) ≤ P * qb := Nat.mul_le_mul_left _ h
  have e : P * (qa + 1) = P * qa + P := by ring
  rw [e] at h1
  omega

/-- The bytes of two numbers that fit `n` bytes compare as the numbers do. -/
theorem memcmp_bigEndian (n : Nat) : ∀ a b, a < 256 ^ n → b < 256 ^ n →
    memcmp (bigEndian n a) (bigEndian n b) = compare a b := by
  induction n with
  | zero =>
    intro a b ha hb
    have ha0 : a = 0 := by simpa using ha
    have hb0 : b = 0 := by simpa using hb
    subst ha0 hb0
    rfl
  | succ n ih =>
    intro a b ha hb
    have hpos : 0 < 256 ^ n := by positivity
    have hta : a / 256 ^ n < 256 := by
      rw [Nat.div_lt_iff_lt_mul hpos, mul_comm, ← pow_succ]
      exact ha
    have htb : b / 256 ^ n < 256 := by
      rw [Nat.div_lt_iff_lt_mul hpos, mul_comm, ← pow_succ]
      exact hb
    have ea : (UInt8.ofNat (a / 256 ^ n % 256)).toNat = a / 256 ^ n := by
      show a / 256 ^ n % 256 % 256 = a / 256 ^ n
      rw [Nat.mod_mod, Nat.mod_eq_of_lt hta]
    have eb : (UInt8.ofNat (b / 256 ^ n % 256)).toNat = b / 256 ^ n := by
      show b / 256 ^ n % 256 % 256 = b / 256 ^ n
      rw [Nat.mod_mod, Nat.mod_eq_of_lt htb]
    have da := Nat.div_add_mod a (256 ^ n)
    have db := Nat.div_add_mod b (256 ^ n)
    have ma : a % 256 ^ n < 256 ^ n := Nat.mod_lt _ hpos
    have mb : b % 256 ^ n < 256 ^ n := Nat.mod_lt _ hpos
    simp only [bigEndian, memcmp, ea, eb]
    by_cases h1 : a / 256 ^ n < b / 256 ^ n
    · rw [if_pos h1]
      symm
      rw [compare_lt_iff_lt]
      exact lt_of_quotient_lt _ _ _ _ _ _ _ da db ma h1
    · rw [if_neg h1]
      by_cases h2 : b / 256 ^ n < a / 256 ^ n
      · rw [if_pos h2]
        symm
        rw [compare_gt_iff_gt]
        exact lt_of_quotient_lt _ _ _ _ _ _ _ db da mb h2
      · rw [if_neg h2]
        have hq : a / 256 ^ n = b / 256 ^ n := le_antisymm (not_lt.mp h2) (not_lt.mp h1)
        rw [← bigEndian_mod n a, ← bigEndian_mod n b, ih _ _ ma mb]
        have ha' : a = 256 ^ n * (b / 256 ^ n) + a % 256 ^ n := by rw [← hq]; exact da.symm
        have hb' : b = 256 ^ n * (b / 256 ^ n) + b % 256 ^ n := db.symm
        rcases lt_trichotomy (a % 256 ^ n) (b % 256 ^ n) with h | h | h
        · rw [compare_lt_iff_lt.mpr h]
          symm
          rw [compare_lt_iff_lt]
          omega
        · rw [h, compare_eq_iff_eq.mpr rfl]
          symm
          rw [compare_eq_iff_eq]
          omega
        · rw [compare_gt_iff_gt.mpr h]
          symm
          rw [compare_gt_iff_gt]
          omega

/-- The order of rows is the order of their keys as byte strings, then of their offsets,
then of their `max_size64`. -/
theorem Row.lt_iff (l r : Row) (hl : l.offset < 2 ^ 40 ∧ l.max_size64 < 2 ^ 24)
    (hr : r.offset < 2 ^ 40 ∧ r.max_size64 < 2 ^ 24) :
    Row.lt l r = true ↔
      memcmp l.key.1 r.key.1 = .lt
        ∨ (l.key = r.key
            ∧ (l.offset < r.offset ∨ (l.offset = r.offset ∧ l.max_size64 < r.max_size64))) := by
  have h40 : (2 : Nat) ^ 40 = 256 ^ 5 := by norm_num
  have h24 : (2 : Nat) ^ 24 = 256 ^ 3 := by norm_num
  rw [h40, h24] at hl hr
  simp only [Row.lt, decide_eq_true_eq]
  by_cases hk : l.key = r.key
  · have hself : memcmp l.key.1 r.key.1 = .eq := by rw [hk]; exact memcmp_self _
    simp only [Row.bytes, List.append_assoc, hk, memcmp_append_same]
    rw [memcmp_self]
    simp only [reduceCtorEq, true_and, false_or]
    by_cases ho : l.offset = r.offset
    · rw [ho, memcmp_append_same, memcmp_bigEndian 3 _ _ hl.2 hr.2, compare_lt_iff_lt]
      simp
    · have hne : bigEndian 5 l.offset ≠ bigEndian 5 r.offset := by
        intro h
        have := memcmp_bigEndian 5 _ _ hl.1 hr.1
        rw [h, memcmp_self] at this
        exact ho (compare_eq_iff_eq.mp this.symm)
      rw [memcmp_append_ne _ _ _ _ (by rw [bigEndian_length, bigEndian_length]) hne,
        memcmp_bigEndian 5 _ _ hl.1 hr.1, compare_lt_iff_lt]
      constructor
      · intro h; exact Or.inl h
      · rintro (h | ⟨h, -⟩)
        · exact h
        · exact absurd h ho
  · rw [Row.memcmp_bytes_of_key_ne l r hk]
    simp [hk]

namespace CidsIpld

/-- What `findWritten` returns on a set kept in ascending order. -/
theorem findWritten_spec (s : CidsIpld) (key : Hash256) (hopen : s.writable.isSome = true)
    (hsorted : s.written.Pairwise fun a b => Row.lt a b = true) :
    ∃ res : Option Row, s.findWritten key = some res
      ∧ (res.isSome = true ↔ ∃ r ∈ s.written, r.key = key)
      ∧ ∀ r, res = some r →
          r ∈ s.written ∧ r.key = key
            ∧ ∀ r1 ∈ s.written, r1.key = key → r = r1 ∨ Row.lt r r1 = true := by
  have hnone : s.writable.isNone = false := by
    cases hw : s.writable with
    | none => rw [hw] at hopen; cases hopen
    | some c => rfl
  have hp : ∀ r1 : Row, r1.key = key → (!Row.lt r1 ⟨key, 0, 0⟩) = true := by
    intro r1 hk
    rw [← hk, Row.not_lt_probe]
    rfl
  unfold findWritten
  rw [hnone]
  simp only [Bool.false_eq_true, if_false]
  cases hf : s.written.find? (fun r => !Row.lt r ⟨key, 0, 0⟩) with
  | none =>
    refine ⟨none, rfl, ?_, fun r h => by cases h⟩
    simp only [Option.isSome_none, Bool.false_eq_true, false_iff, not_exists, not_and]
    intro r hr hk
    have := List.find?_eq_none.mp hf r hr
    exact this (hp r hk)
  | some r0 =>
    obtain ⟨hm, hp0, hfirst⟩ :=
      find_first (fun a b => Row.lt a b = true) _ s.written hsorted r0 hf
    have hp0' : Row.lt r0 ⟨key, 0, 0⟩ = false := by
      cases hlt : Row.lt r0 ⟨key, 0, 0⟩ with
      | false => rfl
      | true => rw [hlt] at hp0; cases hp0
    dsimp only
    by_cases hk : r0.key = key
    · rw [if_pos hk]
      refine ⟨some r0, rfl, ?_, ?_⟩
      · simp only [Option.isSome_some, true_iff]
        exact ⟨r0, hm, hk⟩
      · intro r hr
        simp only [Option.some.injEq] at hr
        subst hr
        exact ⟨hm, hk, fun r1 hr1 hk1 => hfirst r1 hr1 (hp r1 hk1)⟩
    · rw [if_neg hk]
      refine ⟨none, rfl, ?_, fun r h => by cases h⟩
      simp only [Option.isSome_none, Bool.false_eq_true, false_iff, not_exists, not_and]
      intro r1 hr1 hk1
      exact hk (Row.key_eq_of_between r0 r1 key hp0' (hfirst r1 hr1 (hp r1 hk1)) hk1)

end CidsIpld
end fc.storage

namespace fc.storage
namespace CidsIpld

open fc.vm

/-! ## `put` -/

/-- The state after the append of `put`, before a flush is asked for. -/
theorem put_fresh (io : StreamIo) (asyncFlush : CidsIpld → CidsIpld) (s : CidsIpld)
    (key : Hash256) (value car : Bytes)
    (hw : s.writable = some car) (hidx : s.index key = .ok none)
    (hfresh : ∀ r ∈ s.written, r.key ≠ key)
    (hwrite : io.write_ok car (item key value) = true)
    (hflush : io.flush_ok (car ++ item key value) = true) :
    put io asyncFlush s key value
      = .returned
          (if s.flush_on ≠ 0
              ∧ (insertRow (s.newRow key value) s.written).length ≥ s.flush_on then
            asyncFlush
              { s with
                writable := some (car ++ item key value)
                car_offset := (s.car_offset + (item key value).length) % 2 ^ 64
                written := insertRow (s.newRow key value) s.written }
          else
            { s with
              writable := some (car ++ item key value)
              car_offset := (s.car_offset + (item key value).length) % 2 ^ 64
              written := insertRow (s.newRow key value) s.written }) := by
  have hfw : s.findWritten key = some none := by
    unfold findWritten
    rw [hw]
    simp only [Option.isNone_some, Bool.false_eq_true, if_false]
    cases hf : s.written.find? (fun r => !Row.lt r ⟨key, 0, 0⟩) with
    | none => rfl
    | some r0 =>
      have hm : r0 ∈ s.written := List.mem_of_find?_eq_some hf
      dsimp only
      rw [if_neg (hfresh r0 hm)]
  have hhas : s.has key = .returned false := by
    unfold has
    rw [hidx, hw, hfw]
    rfl
  unfold put
  rw [hw]
  dsimp only
  rw [hhas]
  dsimp only
  rw [hfw]
  dsimp only
  rw [hwrite, hflush]
  simp only [Bool.not_true, Bool.false_eq_true, if_false]
  split <;> rfl

/-- A `put` of a key that the index holds returns the store as it is. -/
theorem put_indexed (io : StreamIo) (asyncFlush : CidsIpld → CidsIpld) (s : CidsIpld)
    (key : Hash256) (value car : Bytes) (row : Row)
    (hw : s.writable = some car) (hidx : s.index key = .ok (some row)) :
    put io asyncFlush s key value = .returned s := by
  unfold put has
  rw [hw, hidx]

/-- A `put` of a key that the written set holds returns the store as it is when it
returns. -/
theorem put_written (io : StreamIo) (asyncFlush : CidsIpld → CidsIpld) (s : CidsIpld)
    (key : Hash256) (value car : Bytes) (row : Row)
    (hw : s.writable = some car)
    (hsorted : s.written.Pairwise fun a b => Row.lt a b = true)
    (hrow : row ∈ s.written) (hkey : row.key = key) :
    (∀ s', put io asyncFlush s key value = .returned s' → s' = s)
      ∧ ((∃ found, s.index key = .ok found) → put io asyncFlush s key value = .returned s) := by
  obtain ⟨res, hres, hsome, -⟩ := findWritten_spec s key (by rw [hw]; rfl) hsorted
  have hs : res.isSome = true := hsome.mpr ⟨row, hrow, hkey⟩
  obtain ⟨r0, hr0⟩ := Option.isSome_iff_exists.mp hs
  subst hr0
  have hput : ∀ found, s.index key = .ok found →
      put io asyncFlush s key value = .returned s := by
    intro found hidx
    unfold put has
    rw [hw, hidx]
    cases found with
    | some r => rfl
    | none =>
      simp only [Option.isSome_some, if_true, hres]
  constructor
  · intro s' h
    cases hidx : s.index key with
    | error e =>
      unfold put has at h
      rw [hw, hidx] at h
      simp at h
    | ok found =>
      rw [hput found hidx] at h
      simp only [Ended.returned.injEq] at h
      exact h.symm
  · rintro ⟨found, hidx⟩
    exact hput found hidx

theorem item_eq (key : Hash256) (value : Bytes) :
    item key value
      = uvarint (6 + 32 + value.length) ++ [0x01, 0x71, 0xA0, 0xE4, 0x02, 0x20] ++ key.1
          ++ value := by
  unfold item
  rw [key.2]
  rfl

theorem item_length (key : Hash256) (value : Bytes) :
    (item key value).length = (uvarint (6 + 32 + value.length)).length + 6 + 32 + value.length := by
  rw [item_eq]
  simp [key.2]
  omega

/-- A `put` does not lower `car_offset` and raises it by the length of its item at most,
as long as the sum stays below 2^64 and a flush leaves `car_offset` alone. -/
theorem put_car_offset (io : StreamIo) (asyncFlush : CidsIpld → CidsIpld)
    (hkeep : ∀ t, (asyncFlush t).car_offset = t.car_offset) (s s1 : CidsIpld)
    (key : Hash256) (value : Bytes)
    (h : put io asyncFlush s key value = .returned s1)
    (hrange : s.car_offset + (item key value).length < 2 ^ 64) :
    s.car_offset ≤ s1.car_offset
      ∧ s1.car_offset ≤ s.car_offset + (item key value).length := by
  unfold put at h
  cases hw : s.writable with
  | none =>
    rw [hw] at h
    simp at h
  | some car =>
    rw [hw] at h
    dsimp only at h
    cases hh : s.has key with
    | thrown what => rw [hh] at h; simp at h
    | undefined => rw [hh] at h; simp at h
    | outOfFuel => rw [hh] at h; simp at h
    | returned present =>
      rw [hh] at h
      cases present with
      | true =>
        simp only [Ended.returned.injEq] at h
        subst h
        exact ⟨le_refl _, Nat.le_add_right _ _⟩
      | false =>
        dsimp only at h
        cases hf : s.findWritten key with
        | none => rw [hf] at h; simp at h
        | some found =>
          rw [hf] at h
          cases found with
          | some r =>
            simp only [Ended.returned.injEq] at h
            subst h
            exact ⟨le_refl _, Nat.le_add_right _ _⟩
          | none =>
            dsimp only at h
            split at h
            · simp at h
            · split at h
              · simp at h
              · split at h
                · simp only [Ended.returned.injEq] at h
                  subst h
                  rw [hkeep]
                  dsimp only
                  rw [Nat.mod_eq_of_lt hrange]
                  exact ⟨Nat.le_add_right _ _, le_refl _⟩
                · simp only [Ended.returned.injEq] at h
                  subst h
                  dsimp only
                  rw [Nat.mod_eq_of_lt hrange]
                  exact ⟨Nat.le_add_right _ _, le_refl _⟩

theorem putAll_car_offset (io : StreamIo) (asyncFlush : CidsIpld → CidsIpld)
    (hkeep : ∀ t, (asyncFlush t).car_offset = t.car_offset) (ops : List (Hash256 × Bytes)) :
    ∀ (s s1 : CidsIpld), putAll io asyncFlush s ops = .returned s1 →
      s.car_offset + itemsLength ops < 2 ^ 64 →
      s.car_offset ≤ s1.car_offset ∧ s1.car_offset ≤ s.car_offset + itemsLength ops := by
  induction ops with
  | nil =>
    intro s s1 h _
    simp only [putAll, Ended.returned.injEq] at h
    subst h
    exact ⟨le_refl _, le_refl _⟩
  | cons op rest ih =>
    intro s s1 h hrange
    obtain ⟨key, value⟩ := op
    unfold putAll at h
    unfold itemsLength at hrange ⊢
    cases hp : put io asyncFlush s key value with
    | thrown what => rw [hp] at h; simp at h
    | undefined => rw [hp] at h; simp at h
    | outOfFuel => rw [hp] at h; simp at h
    | returned s0 =>
      rw [hp] at h
      dsimp only at h
      obtain ⟨h1, h2⟩ := put_car_offset io asyncFlush hkeep s s0 key value hp (by omega)
      obtain ⟨h3, h4⟩ := ih s0 s1 h (by omega)
      exact ⟨le_trans h1 h3, by omega⟩

end CidsIpld
end fc.storage

/-! ## The AMT -/

namespace fc.storage.amt

open fc.vm

namespace Node

theorem get_set_self (w : Nat) : ∀ (h : Nat) (f : Nat → Option Node) (k : Nat) (v : Bytes),
    get w (h + 1) (set w (h + 1) (.links f) k v) k
      = get w h (set w h ((f (k / w ^ (h + 1))).getD (empty h)) (k % w ^ (h + 1)) v)
          (k % w ^ (h + 1)) := by
  intro h f k v
  simp [get, set, Function.update_same]

theorem shaped_empty : ∀ h, Shaped h (empty h)
  | 0 => trivial
  | h + 1 => by
    intro i c hc
    cases hc

/-- A value set is the value read, in a node whose kind fits its height. -/
theorem get_set (w : Nat) : ∀ (h : Nat) (n : Node) (k : Nat) (v : Bytes), Shaped h n →
    get w h (set w h n k v) k = some v := by
  intro h
  induction h with
  | zero =>
    intro n k v hs
    cases n with
    | values f => simp [get, set, Function.update_same]
    | links f => exact hs.elim
  | succ h ih =>
    intro n k v hs
    cases n with
    | values f => exact hs.elim
    | links f =>
      rw [get_set_self]
      apply ih
      cases hc : f (k / w ^ (h + 1)) with
      | none => exact shaped_empty h
      | some c => exact hs _ c hc

/-- After the removal of a key, the key has no value. -/
theorem get_remove (w : Nat) : ∀ (h : Nat) (n : Node) (k : Nat),
    get w h (remove w h n k) k = none := by
  intro h
  induction h with
  | zero =>
    intro n k
    cases n with
    | values f => simp [get, remove, Function.update_same]
    | links f => rfl
  | succ h ih =>
    intro n k
    cases n with
    | values f => rfl
    | links f =>
      unfold remove
      cases hc : f (k / w ^ (h + 1)) with
      | none =>
        dsimp only
        unfold get
        rw [hc]
      | some child =>
        dsimp only
        split
        · unfold get
          rw [Function.update_same]
        · unfold get
          rw [Function.update_same]
          exact ih child _

theorem isEmpty_values_none (w : Nat) : isEmpty w (.values fun _ => none) = true := by
  simp [isEmpty]

theorem isEmpty_links_none (w : Nat) : isEmpty w (.links fun _ => none) = true := by
  simp [isEmpty]

/-- A key set in an empty node and removed again leaves a node without items. -/
theorem remove_set_empty (w : Nat) : ∀ (h k : Nat) (v : Bytes),
    isEmpty w (remove w h (set w h (empty h) k v) k) = true := by
  intro h
  induction h with
  | zero =>
    intro k v
    simp only [empty, set, remove, Function.update_idem]
    have : Function.update (fun _ : Nat => (none : Option Bytes)) k none = fun _ => none :=
      Function.update_eq_self k _
    rw [this]
    exact isEmpty_values_none w
  | succ h ih =>
    intro k v
    have e1 : set w (h + 1) (empty (h + 1)) k v
        = .links (Function.update (fun _ => none) (k / w ^ (h + 1))
            (some (set w h (empty h) (k % w ^ (h + 1)) v))) := rfl
    rw [e1]
    unfold remove
    simp only [Function.update_same]
    rw [if_pos (ih _ _), Function.update_idem]
    have : Function.update (fun _ : Nat => (none : Option Node)) (k / w ^ (h + 1)) none
        = fun _ => none := Function.update_eq_self (k / w ^ (h + 1)) _
    rw [this]
    exact isEmpty_links_none w

/-- A key set below a slot that was not occupied and removed again leaves the node as it
was. -/
theorem remove_set_fresh (w : Nat) (h : Nat) (f : Nat → Option Node) (k : Nat) (v : Bytes)
    (hfree : f (k / w ^ (h + 1)) = none) :
    remove w (h + 1) (set w (h + 1) (.links f) k v) k = .links f := by
  have e1 : set w (h + 1) (.links f) k v
      = .links (Function.update f (k / w ^ (h + 1))
          (some (set w h (empty h) (k % w ^ (h + 1)) v))) := by
    simp only [set, hfree, Option.getD_none]
  rw [e1]
  unfold remove
  simp only [Function.update_same]
  rw [if_pos (remove_set_empty w h _ v), Function.update_idem]
  have : Function.update f (k / w ^ (h + 1)) none = f := by
    rw [← hfree]
    exact Function.update_eq_self _ _
  rw [this]

theorem onlySlotZero_wrap (w : Nat) (n : Node) : onlySlotZero w (wrap n) = true := by
  simp only [onlySlotZero, wrap, Function.update_same, Option.isSome_some, Bool.true_and,
    List.all_eq_true, List.mem_range, Bool.or_eq_true, beq_iff_eq, Option.isNone_iff_eq_none]
  intro i _
  by_cases hi : i = 0
  · exact Or.inl hi
  · exact Or.inr (Function.update_noteq hi _ _)

end Node

namespace Root

open Node

/-- What growth builds: the root node wrapped `j` times, for the first height at which the
key is in range. -/
theorem grow_eq (w : Nat) : ∀ (fuel : Nat) (r : Root) (k : Nat),
    ∃ j, grow w fuel r k = ⟨r.height + j, r.count, wrap^[j] r.node⟩
      ∧ (0 < j → w ^ (r.height + j) ≤ k)
      ∧ (k < w ^ (r.height + fuel + 1) → k < w ^ (r.height + j + 1)) := by
  intro fuel
  induction fuel with
  | zero =>
    intro r k
    exact ⟨0, rfl, fun h => absurd h (lt_irrefl _), fun h => h⟩
  | succ fuel ih =>
    intro r k
    unfold grow
    split
    · next hge =>
      obtain ⟨j, h1, h2, h3⟩ := ih
        ⟨r.height + 1, r.count, .links (Function.update (fun _ => none) 0 (some r.node))⟩ k
      refine ⟨j + 1, ?_, ?_, ?_⟩
      · rw [h1]
        dsimp only
        rw [Function.iterate_succ_apply]
        have : r.height + 1 + j = r.height + (j + 1) := by omega
        rw [this]
        rfl
      · intro _
        by_cases hj : 0 < j
        · have := h2 hj
          dsimp only at this
          have e : r.height + 1 + j = r.height + (j + 1) := by omega
          rw [e] at this
          exact this
        · have hj0 : j = 0 := by omega
          subst hj0
          exact hge
      · intro hk
        have e1 : r.height + 1 + fuel + 1 = r.height + (fuel + 1) + 1 := by omega
        have e2 : r.height + 1 + j + 1 = r.height + (j + 1) + 1 := by omega
        dsimp only at h3
        rw [e1, e2] at h3
        exact h3 hk
    · next hlt =>
      exact ⟨0, rfl, fun h => absurd h (lt_irrefl _), fun _ => not_le.mp hlt⟩

/-- Collapse undoes the wrapping of growth. -/
theorem collapse_wrap (w : Nat) : ∀ (j fuel : Nat) (c : Nat) (n : Node), j ≤ fuel →
    (∀ f, n ≠ .links f) →
    collapse w fuel ⟨j, c, wrap^[j] n⟩ = ⟨0, c, n⟩ := by
  intro j
  induction j with
  | zero =>
    intro fuel c n _ hn
    cases fuel with
    | zero => rfl
    | succ fuel =>
      unfold collapse
      simp
  | succ j ih =>
    intro fuel c n hle hn
    cases fuel with
    | zero => omega
    | succ fuel =>
      unfold collapse
      rw [Function.iterate_succ_apply']
      have h1 : (j + 1 > 0 ∧ onlySlotZero w (wrap (wrap^[j] n)) = true) :=
        ⟨Nat.succ_pos _, onlySlotZero_wrap w _⟩
      dsimp only
      rw [if_pos h1]
      simp only [wrap, Function.update_same]
      exact ih fuel c n (by omega) hn

end Root

end fc.storage.amt

namespace fc.storage.amt

open fc.vm

theorem Root.collapse_count (w : Nat) : ∀ (fuel : Nat) (r : Root),
    (Root.collapse w fuel r).count = r.count := by
  intro fuel
  induction fuel with
  | zero => intro r; rfl
  | succ fuel ih =>
    intro r
    unfold Root.collapse
    split
    · split
      · split
        · rw [ih]
        · rfl
      · rfl
    · rfl

theorem Amt.width_pos (a : Amt) : 0 < a.width := Nat.pow_pos (by decide)

/-- A key without a value before the collapse of the root has none after it. -/
theorem Amt.get_collapse_notFound (bits : Nat) : ∀ (fuel : Nat) (r : Root) (k : Nat),
    Amt.get ⟨bits, r⟩ k = .error AmtError.kNotFound →
    Amt.get ⟨bits, Root.collapse (2 ^ bits) fuel r⟩ k = .error AmtError.kNotFound := by
  intro fuel
  induction fuel with
  | zero => intro r k h; exact h
  | succ fuel ih =>
    intro r k h
    unfold Root.collapse
    split
    · next hc =>
      obtain ⟨hpos, _⟩ := hc
      split
      · next f hnode =>
        split
        · next child hchild =>
          apply ih
          obtain ⟨height, count, node⟩ := r
          dsimp only at hpos hnode ⊢
          subst hnode
          obtain ⟨h', rfl⟩ : ∃ h', height = h' + 1 := ⟨height - 1, by omega⟩
          unfold Amt.get at h ⊢
          dsimp only [Amt.width] at h ⊢
          have hsub : h' + 1 - 1 = h' := rfl
          rw [hsub]
          by_cases hk : k ≥ (2 ^ bits) ^ (h' + 1)
          · rw [if_pos hk]
          · rw [if_neg hk]
            have hk1 : k < (2 ^ bits) ^ (h' + 1) := not_le.mp hk
            have hk2 : k < (2 ^ bits) ^ (h' + 1 + 1) :=
              lt_of_lt_of_le hk1 (Nat.pow_le_pow_right (Nat.pow_pos (by decide)) (by omega))
            rw [if_neg (not_le.mpr hk2), Nat.mod_eq_of_lt hk2] at h
            unfold Node.get at h
            rw [Nat.div_eq_of_lt hk1, hchild] at h
            exact h
        · exact h
      · exact h
    · exact h

/-- The root that growth from the empty tree reaches has the key in range. -/
theorem Root.grow_range (bits : Nat) (hbits : 0 < bits) (r : Root) (k : Nat)
    (hk : k < 2 ^ 64) :
    k < (2 ^ bits) ^ ((Root.grow (2 ^ bits) 64 r k).height + 1) := by
  obtain ⟨j, h1, _, h3⟩ := Root.grow_eq (2 ^ bits) 64 r k
  rw [h1]
  apply h3
  have h2 : (2 : Nat) ≤ 2 ^ bits := by
    calc (2 : Nat) = 2 ^ 1 := rfl
      _ ≤ 2 ^ bits := Nat.pow_le_pow_right (by decide) hbits
  calc k < 2 ^ 64 := hk
    _ ≤ 2 ^ (r.height + 64 + 1) := Nat.pow_le_pow_right (by decide) (by omega)
    _ ≤ (2 ^ bits) ^ (r.height + 64 + 1) := Nat.pow_le_pow_left h2 _

theorem Root.grow_count (w : Nat) (fuel : Nat) (r : Root) (k : Nat) :
    (Root.grow w fuel r k).count = r.count := by
  obtain ⟨j, h1, _, _⟩ := Root.grow_eq w fuel r k
  rw [h1]

theorem Node.shaped_wrap_iterate : ∀ (j h : Nat) (n : Node), Node.Shaped h n →
    Node.Shaped (h + j) (Node.wrap^[j] n) := by
  intro j
  induction j with
  | zero => intro h n hn; exact hn
  | succ j ih =>
    intro h n hn
    rw [Function.iterate_succ_apply']
    intro i c hc
    by_cases hi : i = 0
    · subst hi
      rw [Function.update_same] at hc
      cases hc
      exact ih h n hn
    · rw [Function.update_noteq hi] at hc
      cases hc

theorem Root.grow_shaped (w : Nat) (fuel : Nat) (r : Root) (k : Nat)
    (hr : Node.Shaped r.height r.node) :
    Node.Shaped (Root.grow w fuel r k).height (Root.grow w fuel r k).node := by
  obtain ⟨j, h1, _, _⟩ := Root.grow_eq w fuel r k
  rw [h1]
  exact Node.shaped_wrap_iterate j r.height r.node hr

end fc.storage.amt

/-! ## The AMT walker -/

namespace fc.codec.amt

open fc.vm fc.storage.amt

namespace AmtWalk

theorem readLinks_ok (R : CborReader) : ∀ (cs : List Hash256) (ip : Hash256 → Option Bytes)
    (cids : List Hash256) (nc : Nat) (nd b rest : Bytes) (vals : Nat),
    LinksBytes R cs b rest →
    readLinks R cs.length ⟨⟨ip, cids, nc, nd, b, none⟩, vals⟩
      = (true, ⟨⟨ip, cids ++ cs, nc, nd, rest, none⟩, vals⟩) := by
  intro cs
  induction cs with
  | nil =>
    intro ip cids nc nd b rest vals h
    have hb : b = rest := h
    subst hb
    simp [readLinks]
  | cons c cs ih =>
    intro ip cids nc nd b rest vals h
    obtain ⟨b1, hc, hl⟩ := h
    simp only [List.length_cons, readLinks, hc, Tree._push]
    rw [ih ip (cids ++ [c]) nc nd b1 rest vals hl, List.append_assoc, List.singleton_append]

theorem _readNode_ok (R : CborReader) (cs : List Hash256) (vs : List Bytes)
    (ip : Hash256 → Option Bytes) (cids : List Hash256) (nc : Nat) (nd b : Bytes)
    (vals : Nat) (h : NodeBytes R cs vs b) :
    ∃ n5, ValuesBytes R vs n5
      ∧ _readNode R ⟨⟨ip, cids, nc, nd, b, none⟩, vals⟩
          = (true, ⟨⟨ip, cids ++ cs, nc, nd, n5, none⟩, vs.length⟩) := by
  obtain ⟨t1, n1, t2, n2, size, t3, n3, n4, t4, n5, h1, h1c, h2, h2s, hsize, h3, h3c, hl,
    h4, h4c, hv⟩ := h
  refine ⟨n5, hv, ?_⟩
  have hread : read n2 size = (some (n2.take size), n2.drop size) := by
    unfold read
    rw [if_neg (not_lt.mpr hsize)]
  simp only [_readNode, h1, h1c, bne_self_eq_false, Bool.false_eq_true, if_false, h2, h2s,
    hread, h3, h3c, readLinks_ok R cs ip cids nc nd n3 n4 vals hl, h4, h4c]

theorem at_empty (R : CborReader) (ipld : Hash256 → Option Bytes) (wk : AmtWalk)
    (h : At R ipld wk [] []) : Yields R [] wk := by
  obtain ⟨_, _, hnode, _, hle, hq⟩ := h
  have hn : wk.node = [] := hnode
  have hlen : wk.next_cid = wk.cids.length := by
    have := List.drop_eq_nil_iff.mp hq
    omega
  have he : wk.toTree.empty = true := by
    simp [Tree.empty, hn, hlen]
  refine ⟨he, 1, ?_⟩
  intro fuel hf
  obtain ⟨f, rfl⟩ : ∃ f, fuel = f + 1 := ⟨fuel - 1, by omega⟩
  unfold next
  rw [if_pos he]

theorem next_value (R : CborReader) (ipld : Hash256 → Option Bytes) (wk : AmtWalk)
    (v : Bytes) (vs : List Bytes) (q : List Hash256) (h : At R ipld wk (v :: vs) q) :
    ∃ wk1, At R ipld wk1 vs q ∧ wk.empty = false
      ∧ ∀ fuel, next R (fuel + 1) wk = .returned (some v, wk1) := by
  obtain ⟨⟨ip, cids, nc, nd, b, vis⟩, vals⟩ := wk
  obtain ⟨hip, hvis, hnode, hvals, hle, hq⟩ := h
  dsimp only at hip hvis hnode hvals hle hq
  obtain ⟨hne, rest, hread, hrest⟩ := hnode
  have he : (⟨⟨ip, cids, nc, nd, b, vis⟩, vals⟩ : AmtWalk).toTree.empty = false := by
    cases b with
    | nil => exact absurd rfl hne
    | cons x xs => rfl
  refine ⟨⟨⟨ip, cids, nc, nd, rest, vis⟩, vals - 1⟩, ⟨hip, hvis, hrest, ?_, hle, hq⟩, he, ?_⟩
  · dsimp only
    rw [hvals, List.length_cons]
    rfl
  · intro fuel
    unfold next
    rw [if_neg (by rw [he]; exact Bool.false_ne_true)]
    have hv : vals ≠ 0 := by
      rw [hvals, List.length_cons]
      exact Nat.succ_ne_zero _
    dsimp only
    rw [if_pos hv, hread]

theorem next_node (R : CborReader) (ipld : Hash256 → Option Bytes) (wk : AmtWalk)
    (c : Hash256) (q : List Hash256) (b : Bytes) (cs : List Hash256) (vs : List Bytes)
    (h : At R ipld wk [] (c :: q)) (hb : ipld c = some b) (hnode : NodeBytes R cs vs b) :
    ∃ wk1, At R ipld wk1 vs (q ++ cs) ∧ wk.empty = false
      ∧ ∀ fuel, next R (fuel + 1) wk = next R fuel wk1 := by
  obtain ⟨⟨ip, cids, nc, nd, b0, vis⟩, vals⟩ := wk
  obtain ⟨hip, hvis, hb0, hvals, hle, hq⟩ := h
  dsimp only at hip hvis hb0 hvals hle hq
  have hb0 : b0 = [] := hb0
  have hvals : vals = 0 := hvals
  subst hip hvis hb0 hvals
  have hlt : nc < cids.length := by
    rcases Nat.lt_or_ge nc cids.length with h | h
    · exact h
    · rw [List.drop_eq_nil_iff.mpr h] at hq
      cases hq
  have hget : cids.get? nc = some c := by
    have h0 : (cids.drop nc).get? 0 = some c := by rw [hq]; rfl
    rw [List.get?_eq_getElem?] at h0 ⊢
    rw [List.getElem?_drop] at h0
    exact h0
  have hdrop : cids.drop (nc + 1) = q := by
    have := List.drop_drop 1 nc cids
    rw [hq] at this
    simpa using this.symm
  have he : (⟨⟨ip, cids, nc, nd, [], none⟩, 0⟩ : AmtWalk).toTree.empty = false := by
    simp [Tree.empty]
    omega
  obtain ⟨n5, hv, hrn⟩ := _readNode_ok R cs vs ip cids (nc + 1) b b 0 hnode
  refine ⟨⟨⟨ip, cids ++ cs, nc + 1, b, n5, none⟩, vs.length⟩,
    ⟨rfl, rfl, hv, rfl, ?_, ?_⟩, he, ?_⟩
  · dsimp only
    rw [List.length_append]
    omega
  · dsimp only
    rw [List.drop_append_of_le_length (by omega), hdrop]
  · intro fuel
    have hnext : Tree._next ⟨ip, cids, nc, nd, [], none⟩
        = some (true, ⟨ip, cids, nc + 1, b, b, none⟩) := by
      unfold Tree._next
      rw [if_neg (by rw [he]; exact Bool.false_ne_true)]
      dsimp only
      rw [hget]
      dsimp only
      rw [hb]
    conv => lhs; unfold next
    rw [if_neg (by rw [he]; exact Bool.false_ne_true)]
    simp only [ne_eq, not_true_eq_false, if_false, List.isEmpty_nil, Bool.not_true,
      Bool.false_eq_true, hnext, hrn]

theorem yields_step (R : CborReader) (T : List Bytes) (wk wk1 : AmtWalk) (hT : T ≠ [])
    (he : wk.empty = false) (hstep : ∀ fuel, next R (fuel + 1) wk = next R fuel wk1)
    (h : Yields R T wk1) : Yields R T wk := by
  cases T with
  | nil => exact absurd rfl hT
  | cons v T =>
    obtain ⟨_, N, wk2, hnext, hrest⟩ := h
    refine ⟨he, N + 1, wk2, ?_, hrest⟩
    intro fuel hf
    obtain ⟨f, rfl⟩ : ∃ f, fuel = f + 1 := ⟨fuel - 1, by omega⟩
    rw [hstep]
    exact hnext f (by omega)

theorem yields_values (R : CborReader) (ipld : Hash256 → Option Bytes) (T : List Bytes)
    (q : List Hash256) : ∀ (vs : List Bytes) (wk : AmtWalk), At R ipld wk vs q →
    (∀ wk1, At R ipld wk1 [] q → Yields R T wk1) → Yields R (vs ++ T) wk := by
  intro vs
  induction vs with
  | nil =>
    intro wk h hT
    exact hT wk h
  | cons v vs ih =>
    intro wk h hT
    obtain ⟨wk1, hat, he, hnext⟩ := next_value R ipld wk v vs q h
    refine ⟨he, 1, wk1, ?_, ih wk1 hat hT⟩
    intro fuel hf
    obtain ⟨f, rfl⟩ : ∃ f, fuel = f + 1 := ⟨fuel - 1, by omega⟩
    exact hnext f

theorem yields_node (R : CborReader) (ipld : Hash256 → Option Bytes) (T : List Bytes)
    (wk : AmtWalk) (c : Hash256) (q : List Hash256) (b : Bytes) (cs : List Hash256)
    (vs : List Bytes) (hT : T ≠ []) (h : At R ipld wk [] (c :: q)) (hb : ipld c = some b)
    (hnode : NodeBytes R cs vs b)
    (hrest : ∀ wk1, At R ipld wk1 vs (q ++ cs) → Yields R T wk1) : Yields R T wk := by
  obtain ⟨wk1, hat, he, hnext⟩ := next_node R ipld wk c q b cs vs h hb hnode
  exact yields_step R T wk wk1 hT he hnext (hrest wk1 hat)

theorem endsInValue_entries (w : Nat) : ∀ (h : Nat) (n : Node), Node.EndsInValue w h n →
    Node.entries w h n ≠ [] := by
  intro h
  induction h with
  | zero =>
    intro n hn
    cases n with
    | values f => exact hn
    | links f => exact hn.elim
  | succ h ih =>
    intro n hn
    cases n with
    | values f => exact hn.elim
    | links f =>
      obtain ⟨last, hlast, hends⟩ := hn
      intro h0
      have h1 : (Node.items w f).flatMap (Node.entries w h) = [] := h0
      exact ih last hends
        (List.flatMap_eq_nil_iff.mp h1 last (List.mem_of_getLast?_eq_some hlast))

theorem endIn_entries (w h : Nat) (a : Node) (A : List Node)
    (hA : Node.EndIn w h (a :: A)) : (a :: A).flatMap (Node.entries w h) ≠ [] := by
  have hsome : ((a :: A).getLast?).isSome = true :=
    List.getLast?_isSome.mpr (List.cons_ne_nil a A)
  obtain ⟨last, hlast⟩ := Option.isSome_iff_exists.mp hsome
  intro h0
  exact endsInValue_entries w h last (hA last hlast)
    (List.flatMap_eq_nil_iff.mp h0 last (List.mem_of_getLast?_eq_some hlast))

theorem endIn_tail (w h : Nat) (a : Node) (A : List Node)
    (hA : Node.EndIn w h (a :: A)) : Node.EndIn w h A := by
  intro last hlast
  cases A with
  | nil => cases hlast
  | cons b l =>
    apply hA
    rw [List.getLast?_cons_cons]
    exact hlast

/-- The walk over the leaves in the queue yields their values in the order of the queue. -/
theorem yields_leaves (R : CborReader) (ipld : Hash256 → Option Bytes) (w : Nat) :
    ∀ (A : List Node) (cA : List Hash256), List.Forall₂ (StoredAt R ipld w 0) A cA →
    Node.EndIn w 0 A →
    ∀ wk, At R ipld wk [] cA → Yields R (A.flatMap (Node.entries w 0)) wk := by
  intro A cA hA
  induction hA with
  | nil =>
    intro _ wk h
    exact at_empty R ipld wk h
  | @cons a c A cA hac _ ih =>
    intro hgood wk h
    have hne := endIn_entries w 0 a A hgood
    obtain ⟨b, cs, vs, hb, hnode, hst⟩ := hac
    cases a with
    | links f => exact hst.elim
    | values f =>
      obtain ⟨hcs, hvs⟩ := hst
      subst hcs hvs
      rw [List.flatMap_cons] at hne ⊢
      refine yields_node R ipld _ wk c cA b [] (Node.items w f) hne h hb hnode ?_
      intro wk1 hat
      rw [List.append_nil] at hat
      exact yields_values R ipld _ cA _ wk1 hat (ih (endIn_tail w 0 _ A hgood))

/-- The walk over a queue of nodes of height `h + 1` followed by nodes of height `h` yields
the values of the latter and then those of the former, given that of a queue of nodes of
height `h`. -/
theorem yields_levels (R : CborReader) (ipld : Hash256 → Option Bytes) (w h : Nat)
    (ih : ∀ (B : List Node) (cB : List Hash256), List.Forall₂ (StoredAt R ipld w h) B cB →
      Node.EndIn w h B →
      ∀ wk, At R ipld wk [] cB → Yields R (B.flatMap (Node.entries w h)) wk) :
    ∀ (A : List Node) (cA : List Hash256), List.Forall₂ (StoredAt R ipld w (h + 1)) A cA →
    Node.EndIn w (h + 1) A →
    ∀ (B : List Node) (cB : List Hash256), List.Forall₂ (StoredAt R ipld w h) B cB →
    (A = [] → Node.EndIn w h B) →
    ∀ wk, At R ipld wk [] (cA ++ cB) →
      Yields R (B.flatMap (Node.entries w h) ++ A.flatMap (Node.entries w (h + 1))) wk := by
  intro A cA hA
  induction hA with
  | nil =>
    intro _ B cB hB hgoodB wk hat0
    rw [List.flatMap_nil, List.append_nil]
    exact ih B cB hB (hgoodB rfl) wk hat0
  | @cons a c A cA hac _ ihA =>
    intro hgood B cB hB _ wk hat0
    have hne := endIn_entries w (h + 1) a A hgood
    obtain ⟨b, cs, vs, hb, hnode, hst⟩ := hac
    cases a with
    | values f => exact hst.elim
    | links f =>
      obtain ⟨hvs, hchildren⟩ := hst
      subst hvs
      have hentries : Node.entries w (h + 1) (.links f)
          = (Node.items w f).flatMap (Node.entries w h) := rfl
      refine yields_node R ipld _ wk c (cA ++ cB) b cs [] ?_ hat0 hb hnode ?_
      · intro h0
        exact hne (List.append_eq_nil.mp h0).2
      · intro wk1 hat
        rw [List.append_assoc] at hat
        have hlast : A = [] → Node.EndIn w h (B ++ Node.items w f) := by
          intro hnil
          subst hnil
          obtain ⟨last, hl, hends⟩ := hgood (.links f) rfl
          have hitems : Node.items w f ≠ [] := by
            intro h0
            rw [h0] at hl
            cases hl
          intro l hlast
          rw [List.getLast?_append_of_ne_nil _ hitems, hl] at hlast
          cases hlast
          exact hends
        have := ihA (endIn_tail w (h + 1) _ A hgood)
          (B ++ Node.items w f) (cB ++ cs) (List.rel_append hB hchildren) hlast wk1 hat
        rw [List.flatMap_append, List.append_assoc, ← hentries] at this
        rw [List.flatMap_cons]
        exact this

/-- The walk over a queue of nodes of height `h` yields their values in the order of the
queue. -/
theorem yields_queue (R : CborReader) (ipld : Hash256 → Option Bytes) (w : Nat) :
    ∀ (h : Nat) (A : List Node) (cA : List Hash256),
    List.Forall₂ (StoredAt R ipld w h) A cA → Node.EndIn w h A →
    ∀ wk, At R ipld wk [] cA → Yields R (A.flatMap (Node.entries w h)) wk := by
  intro h
  induction h with
  | zero =>
    intro A cA hA hgood wk hat
    exact yields_leaves R ipld w A cA hA hgood wk hat
  | succ h ih =>
    intro A cA hA hgood wk hat
    have := yields_levels R ipld w h ih A cA hA hgood [] [] List.Forall₂.nil
      (fun _ last hlast => by cases hlast) wk (by rw [List.append_nil]; exact hat)
    rw [List.flatMap_nil, List.nil_append] at this
    exact this

end AmtWalk

end fc.codec.amt

namespace fc.storage.amt

open fc.vm

theorem filterMap_range_mul {α : Type} (g : Nat → Option α) (W : Nat) : ∀ a : Nat,
    (List.range (a * W)).filterMap g
      = (List.range a).flatMap fun i => (List.range W).filterMap fun j => g (i * W + j) := by
  intro a
  induction a with
  | zero => simp
  | succ a ih =>
    rw [Nat.succ_mul, List.range_add, List.filterMap_append, ih, List.range_succ,
      List.flatMap_append, List.filterMap_map]
    simp [Function.comp_def]

theorem flatMap_filterMap {α β γ : Type} (f : α → Option β) (g : β → List γ) :
    ∀ l : List α, (l.filterMap f).flatMap g
      = l.flatMap fun i => match f i with
        | some c => g c
        | none => [] := by
  intro l
  induction l with
  | nil => rfl
  | cons x l ih =>
    rw [List.flatMap_cons, ← ih]
    cases hx : f x with
    | none => rw [List.filterMap_cons_none hx]; rfl
    | some c => rw [List.filterMap_cons_some hx, List.flatMap_cons]

/-- The values below a node, slot by slot, are the values at the keys in ascending
order. -/
theorem Node.entries_eq (w : Nat) : ∀ (h : Nat) (n : Node),
    Node.entries w h n = (List.range (w ^ (h + 1))).filterMap (Node.get w h n) := by
  intro h
  induction h with
  | zero =>
    intro n
    cases n with
    | values f =>
      simp only [Nat.zero_add, pow_one]
      rfl
    | links f =>
      have : Node.get w 0 (.links f) = fun _ => none := rfl
      rw [this]
      simp [Node.entries]
  | succ h ih =>
    intro n
    cases n with
    | values f =>
      have : Node.get w (h + 1) (.values f) = fun _ => none := rfl
      rw [this]
      simp [Node.entries]
    | links f =>
      have hpow : w ^ (h + 1 + 1) = w * w ^ (h + 1) := by ring
      rw [hpow, filterMap_range_mul]
      have hentries : Node.entries w (h + 1) (.links f)
          = (Node.items w f).flatMap (Node.entries w h) := rfl
      rw [hentries, Node.items, flatMap_filterMap]
      apply List.flatMap_congr
      intro i _
      have hW : 0 < w ^ (h + 1) ∨ w ^ (h + 1) = 0 := by omega
      have hinner : (List.range (w ^ (h + 1))).filterMap
            (fun j => Node.get w (h + 1) (.links f) (i * w ^ (h + 1) + j))
          = (List.range (w ^ (h + 1))).filterMap fun j =>
              match f i with
              | some c => Node.get w h c j
              | none => none := by
        apply List.filterMap_congr
        intro j hj
        have hj : j < w ^ (h + 1) := List.mem_range.mp hj
        have hdiv : (i * w ^ (h + 1) + j) / w ^ (h + 1) = i := by
          rw [Nat.add_comm, Nat.add_mul_div_right _ _ (by omega), Nat.div_eq_of_lt hj,
            Nat.zero_add]
        have hmod : (i * w ^ (h + 1) + j) % w ^ (h + 1) = j := by
          rw [Nat.add_comm, Nat.add_mul_mod_self_right, Nat.mod_eq_of_lt hj]
        have hget : Node.get w (h + 1) (.links f) (i * w ^ (h + 1) + j)
            = match f ((i * w ^ (h + 1) + j) / w ^ (h + 1)) with
              | some child => Node.get w h child ((i * w ^ (h + 1) + j) % w ^ (h + 1))
              | none => none := rfl
        rw [hget, hdiv, hmod]
      rw [hinner]
      cases f i with
      | none => simp
      | some c => exact ih c

end fc.storage.amt

namespace fc.codec.amt

open fc.vm fc.storage.amt

theorem AmtWalk.loadRoot_ok (R : CborReader) (height count : Nat) (cs : List Hash256)
    (vs : List Bytes) (ip : Hash256 → Option Bytes) (cids : List Hash256) (nc : Nat)
    (nd n2 : Bytes) (vals : Nat) (t2 : CborToken) (n3 : Bytes) (t3 : CborToken) (n4 : Bytes)
    (h2 : R.read n2 = (t2, n3)) (h2u : t2.asUint = some height)
    (h3 : R.read n3 = (t3, n4)) (h3u : t3.asUint = some count)
    (hnode : NodeBytes R cs vs n4) :
    ∃ n5, ValuesBytes R vs n5
      ∧ AmtWalk.loadRoot R ⟨⟨ip, cids, nc, nd, n2, none⟩, vals⟩
          = (true, ⟨⟨ip, cids ++ cs, nc, nd, n5, none⟩, vs.length⟩) := by
  obtain ⟨n5, hv, hrn⟩ := AmtWalk._readNode_ok R cs vs ip cids nc nd n4 vals hnode
  refine ⟨n5, hv, ?_⟩
  simp only [AmtWalk.loadRoot, h2, h2u, h3, h3u, Option.isNone_some, Bool.false_eq_true,
    if_false, hrn]

/-- On a stored AMT `load` returns true, and leaves the walker in the root node, with the
links of the root in the queue. -/
theorem AmtWalk.load_ok (R : CborReader) (ipld : Hash256 → Option Bytes) (height count : Nat)
    (cs : List Hash256) (vs : List Bytes) (c : Hash256) (b : Bytes) (hb : ipld c = some b)
    (hroot : RootBytes R height count cs vs b) :
    ∃ wk, (AmtWalk.new ipld c).load R = .returned (true, wk) ∧ AmtWalk.At R ipld wk vs cs := by
  obtain ⟨t1, n1, n2, t2, n3, t3, n4, h1, hver, h2, h2u, h3, h3u, hnode⟩ := hroot
  obtain ⟨n5, hv, hl⟩ := AmtWalk.loadRoot_ok R height count cs vs ipld [c] 1 b n2 0 t2 n3 t3
    n4 h2 h2u h3 h3u hnode
  refine ⟨⟨⟨ipld, [c] ++ cs, 1, b, n5, none⟩, vs.length⟩, ?_, ⟨rfl, rfl, hv, rfl, ?_, ?_⟩⟩
  · have hnext : Tree._next (AmtWalk.new ipld c).toTree
        = some (true, ⟨ipld, [c], 1, b, b, none⟩) := by
      simp [Tree._next, AmtWalk.new, Tree.new, Tree.empty, hb]
    have hvals : (AmtWalk.new ipld c)._values = 0 := rfl
    unfold AmtWalk.load
    rw [hnext]
    simp only [h1, hvals]
    rcases hver with ⟨hc, tb, hb1, hbu⟩ | ⟨hc, hn⟩
    · simp only [hc, if_true, hb1]
      cases hu : tb.asUint with
      | none => rw [hu] at hbu; cases hbu
      | some u =>
        simp only [Option.isNone_some, Bool.false_eq_true, if_false]
        exact congrArg Ended.returned hl
    · subst hn
      have h34 : ¬ (3 : Nat) = 4 := by decide
      simp only [hc, h34, if_false, ne_eq, not_true_eq_false]
      exact congrArg Ended.returned hl
  · simp
  · simp

end fc.codec.amt

/-! ## The trees that `set` and `remove` build -/

namespace fc.storage.amt

open fc.vm

namespace Node

theorem mem_items {α : Type} (w : Nat) (f : Nat → Option α) (c : α) :
    c ∈ items w f ↔ ∃ i, i < w ∧ f i = some c := by
  unfold items
  rw [List.mem_filterMap]
  constructor
  · rintro ⟨i, hi, h⟩
    exact ⟨i, List.mem_range.mp hi, h⟩
  · rintro ⟨i, hi, h⟩
    exact ⟨i, List.mem_range.mpr hi, h⟩

theorem items_succ {α : Type} (w : Nat) (f : Nat → Option α) :
    items (w + 1) f = items w f ++ (f w).toList := by
  unfold items
  rw [List.range_succ, List.filterMap_append]
  congr 1

/-- The last item is the one at the last occupied slot. -/
theorem items_last {α : Type} (f : Nat → Option α) : ∀ (w : Nat) (last : α),
    (items w f).getLast? = some last →
    ∃ j, j < w ∧ f j = some last ∧ ∀ j', j < j' → j' < w → f j' = none := by
  intro w
  induction w with
  | zero =>
    intro last h
    cases h
  | succ w ih =>
    intro last h
    rw [items_succ] at h
    cases hw : f w with
    | none =>
      rw [hw] at h
      have h' : (items w f).getLast? = some last := by
        simpa using h
      obtain ⟨j, hj, hf, hmax⟩ := ih last h'
      refine ⟨j, by omega, hf, ?_⟩
      intro j' h1 h2
      rcases Nat.lt_succ_iff_lt_or_eq.mp h2 with h3 | h3
      · exact hmax j' h1 h3
      · rw [h3]
        exact hw
    | some c =>
      rw [hw] at h
      have h' : some c = some last := by
        rw [← h]
        exact (List.getLast?_concat _).symm
      cases h'
      exact ⟨w, by omega, hw, fun j' h1 h2 => by omega⟩

theorem isEmpty_links_false (w : Nat) (f : Nat → Option Node)
    (h : isEmpty w (.links f) = false) : ∃ i c, i < w ∧ f i = some c := by
  by_contra hne
  push_neg at hne
  have : isEmpty w (.links f) = true := by
    simp only [isEmpty, List.all_eq_true, List.mem_range, Option.isNone_iff_eq_none]
    intro i hi
    cases hfi : f i with
    | none => rfl
    | some c => exact absurd hfi (hne i c hi)
  rw [this] at h
  cases h

theorem isEmpty_values_false (w : Nat) (f : Nat → Option Bytes)
    (h : isEmpty w (.values f) = false) : ∃ i c, i < w ∧ f i = some c := by
  by_contra hne
  push_neg at hne
  have : isEmpty w (.values f) = true := by
    simp only [isEmpty, List.all_eq_true, List.mem_range, Option.isNone_iff_eq_none]
    intro i hi
    cases hfi : f i with
    | none => rfl
    | some c => exact absurd hfi (hne i c hi)
  rw [this] at h
  cases h

theorem pruned_zero (w : Nat) (n : Node) : Pruned w 0 n := by
  cases n <;> simp [Pruned]

theorem pruned_values (w h : Nat) (f : Nat → Option Bytes) : Pruned w h (.values f) := by
  cases h <;> simp [Pruned]

theorem spine_zero (w : Nat) (n : Node) : Spine w 0 n := by
  cases n <;> simp [Spine]

theorem spine_values (w h : Nat) (f : Nat → Option Bytes) : Spine w h (.values f) := by
  cases h <;> simp [Spine]

theorem pruned_empty (w : Nat) : ∀ h, Pruned w h (empty h)
  | 0 => pruned_zero w _
  | h + 1 => by
    intro i c _ hc
    cases hc

theorem spine_empty (w : Nat) : ∀ h, Spine w h (empty h)
  | 0 => spine_zero w _
  | h + 1 => by
    refine ⟨?_, ?_⟩
    · intro i c _ _ hc
      cases hc
    · intro c hc
      cases hc

theorem entries_links_ne (w h : Nat) (f : Nat → Option Node) (i : Nat) (c : Node)
    (hi : i < w) (hc : f i = some c) (hne : entries w h c ≠ []) :
    entries w (h + 1) (.links f) ≠ [] := by
  intro h0
  have h1 : (items w f).flatMap (entries w h) = [] := h0
  exact hne (List.flatMap_eq_nil_iff.mp h1 c ((mem_items w f c).mpr ⟨i, hi, hc⟩))

/-- A node with an occupied slot below which no node is without values has values. -/
theorem pruned_nonempty (w h : Nat) (f : Nat → Option Node)
    (hP : Pruned w (h + 1) (.links f)) (hE : isEmpty w (.links f) = false) :
    entries w (h + 1) (.links f) ≠ [] := by
  obtain ⟨i, c, hi, hc⟩ := isEmpty_links_false w f hE
  exact entries_links_ne w h f i c hi hc (hP i c hi hc).1

theorem set_links (w h : Nat) (f : Nat → Option Node) (k : Nat) (v : Bytes) :
    set w (h + 1) (.links f) k v
      = .links (Function.update f (k / w ^ (h + 1))
          (some (set w h ((f (k / w ^ (h + 1))).getD (empty h)) (k % w ^ (h + 1)) v))) :=
  rfl

theorem remove_links (w h : Nat) (f : Nat → Option Node) (k : Nat) :
    remove w (h + 1) (.links f) k
      = match f (k / w ^ (h + 1)) with
        | none => .links f
        | some child =>
          if isEmpty w (remove w h child (k % w ^ (h + 1))) = true then
            .links (Function.update f (k / w ^ (h + 1)) none)
          else
            .links (Function.update f (k / w ^ (h + 1))
              (some (remove w h child (k % w ^ (h + 1))))) :=
  rfl

theorem digit_lt (w h k : Nat) (hk : k < w ^ (h + 1 + 1)) : k / w ^ (h + 1) < w := by
  apply Nat.div_lt_of_lt_mul
  rw [← pow_succ]
  exact hk

theorem rest_lt (w h k : Nat) (hk : k < w ^ (h + 1 + 1)) : k % w ^ (h + 1) < w ^ (h + 1) := by
  apply Nat.mod_lt
  apply Nat.pow_pos
  rcases Nat.eq_zero_or_pos w with h0 | h0
  · subst h0
    simp at hk
  · exact h0

theorem shaped_getD (h : Nat) (f : Nat → Option Node) (i : Nat)
    (hS : Shaped (h + 1) (.links f)) : Shaped h ((f i).getD (empty h)) := by
  cases hfi : f i with
  | none => exact shaped_empty h
  | some c => exact hS i c hfi

theorem set_shaped (w : Nat) : ∀ (h : Nat) (n : Node) (k : Nat) (v : Bytes), Shaped h n →
    Shaped h (set w h n k v) := by
  intro h
  induction h with
  | zero =>
    intro n k v hS
    cases n with
    | values f => trivial
    | links f => exact hS.elim
  | succ h ih =>
    intro n k v hS
    cases n with
    | values f => exact hS.elim
    | links f =>
      rw [set_links]
      intro j c hc
      by_cases hj : j = k / w ^ (h + 1)
      · subst hj
        rw [Function.update_same] at hc
        cases hc
        exact ih _ _ _ (shaped_getD h f _ hS)
      · rw [Function.update_noteq hj] at hc
        exact hS j c hc

theorem remove_shaped (w : Nat) : ∀ (h : Nat) (n : Node) (k : Nat), Shaped h n →
    Shaped h (remove w h n k) := by
  intro h
  induction h with
  | zero =>
    intro n k hS
    cases n with
    | values f => trivial
    | links f => exact hS.elim
  | succ h ih =>
    intro n k hS
    cases n with
    | values f => exact hS.elim
    | links f =>
      rw [remove_links]
      cases hfi : f (k / w ^ (h + 1)) with
      | none => exact hS
      | some child =>
        dsimp only
        split
        · intro j c hc
          by_cases hj : j = k / w ^ (h + 1)
          · subst hj
            rw [Function.update_same] at hc
            cases hc
          · rw [Function.update_noteq hj] at hc
            exact hS j c hc
        · intro j c hc
          by_cases hj : j = k / w ^ (h + 1)
          · subst hj
            rw [Function.update_same] at hc
            cases hc
            exact ih _ _ (hS _ child hfi)
          · rw [Function.update_noteq hj] at hc
            exact hS j c hc

/-- A node in which a value was set has values. -/
theorem set_entries (w : Nat) (h : Nat) (n : Node) (k : Nat) (v : Bytes) (hS : Shaped h n)
    (hk : k < w ^ (h + 1)) : entries w h (set w h n k v) ≠ [] := by
  rw [entries_eq]
  apply List.ne_nil_of_mem
  exact List.mem_filterMap.mpr ⟨k, List.mem_range.mpr hk, get_set w h n k v hS⟩

theorem set_pruned (w : Nat) : ∀ (h : Nat) (n : Node) (k : Nat) (v : Bytes), Shaped h n →
    Pruned w h n → k < w ^ (h + 1) → Pruned w h (set w h n k v) := by
  intro h
  induction h with
  | zero =>
    intro n k v _ _ _
    exact pruned_zero w _
  | succ h ih =>
    intro n k v hS hP hk
    cases n with
    | values f => exact hS.elim
    | links f =>
      have hP' : ∀ i child, i < w → f i = some child →
          entries w h child ≠ [] ∧ Pruned w h child := hP
      have hchild : Pruned w h ((f (k / w ^ (h + 1))).getD (empty h)) := by
        cases hfi : f (k / w ^ (h + 1)) with
        | none => exact pruned_empty w h
        | some c => exact (hP' _ c (digit_lt w h k hk) hfi).2
      rw [set_links]
      intro j c hj hc
      by_cases hji : j = k / w ^ (h + 1)
      · subst hji
        rw [Function.update_same] at hc
        cases hc
        exact ⟨set_entries w h _ _ v (shaped_getD h f _ hS) (rest_lt w h k hk),
          ih _ _ v (shaped_getD h f _ hS) hchild (rest_lt w h k hk)⟩
      · rw [Function.update_noteq hji] at hc
        exact hP' j c hj hc

end Node

end fc.storage.amt

namespace fc.storage.amt

open fc.vm

namespace Node

/-- Removal keeps the state that no node below is without values, and leaves a node that
has values unless none of its slots is occupied. -/
theorem remove_pruned (w : Nat) : ∀ (h : Nat) (n : Node) (k : Nat), Shaped h n →
    Pruned w h n →
    Pruned w h (remove w h n k)
      ∧ (isEmpty w (remove w h n k) = false → entries w h (remove w h n k) ≠ []) := by
  intro h
  induction h with
  | zero =>
    intro n k hS _
    refine ⟨pruned_zero w _, ?_⟩
    cases n with
    | links f => exact hS.elim
    | values f =>
      intro hE
      obtain ⟨i, c, hi, hc⟩ := isEmpty_values_false w _ hE
      exact List.ne_nil_of_mem ((mem_items w _ c).mpr ⟨i, hi, hc⟩)
  | succ h ih =>
    intro n k hS hP
    cases n with
    | values f => exact hS.elim
    | links f =>
      have hP' : ∀ i child, i < w → f i = some child →
          entries w h child ≠ [] ∧ Pruned w h child := hP
      have hres : Pruned w (h + 1) (remove w (h + 1) (.links f) k) := by
        rw [remove_links]
        cases hfi : f (k / w ^ (h + 1)) with
        | none => exact hP
        | some child =>
          dsimp only
          by_cases hE : isEmpty w (remove w h child (k % w ^ (h + 1))) = true
          · rw [if_pos hE]
            intro j c hj hc
            by_cases hji : j = k / w ^ (h + 1)
            · subst hji
              rw [Function.update_same] at hc
              cases hc
            · rw [Function.update_noteq hji] at hc
              exact hP' j c hj hc
          · rw [if_neg hE]
            intro j c hj hc
            by_cases hji : j = k / w ^ (h + 1)
            · subst hji
              rw [Function.update_same] at hc
              cases hc
              obtain ⟨h1, h2⟩ := ih child (k % w ^ (h + 1)) (hS _ child hfi)
                (hP' _ child hj hfi).2
              exact ⟨h2 (by simpa using hE), h1⟩
            · rw [Function.update_noteq hji] at hc
              exact hP' j c hj hc
      refine ⟨hres, ?_⟩
      intro hE
      have hshape : ∃ g, remove w (h + 1) (.links f) k = .links g := by
        rw [remove_links]
        cases hfi : f (k / w ^ (h + 1)) with
        | none => exact ⟨f, rfl⟩
        | some child =>
          dsimp only
          split
          · exact ⟨_, rfl⟩
          · exact ⟨_, rfl⟩
      obtain ⟨g, hg⟩ := hshape
      rw [hg] at hres hE ⊢
      exact pruned_nonempty w h g hres hE

theorem set_spine (w : Nat) : ∀ (h : Nat) (n : Node) (k : Nat) (v : Bytes), Shaped h n →
    Spine w h n → k < w ^ (h + 1) → Spine w h (set w h n k v) := by
  intro h
  induction h with
  | zero =>
    intro n k v _ _ _
    exact spine_zero w _
  | succ h ih =>
    intro n k v hS hSp hk
    cases n with
    | values f => exact hS.elim
    | links f =>
      obtain ⟨h1, h2⟩ := hSp
      rw [set_links]
      refine ⟨?_, ?_⟩
      · intro j c hj0 hj hc
        by_cases hji : j = k / w ^ (h + 1)
        · subst hji
          rw [Function.update_same] at hc
          cases hc
          have hchild : Pruned w h ((f (k / w ^ (h + 1))).getD (empty h)) := by
            cases hfi : f (k / w ^ (h + 1)) with
            | none => exact pruned_empty w h
            | some c => exact (h1 _ c hj0 hj hfi).2
          exact ⟨set_entries w h _ _ v (shaped_getD h f _ hS) (rest_lt w h k hk),
            set_pruned w h _ _ v (shaped_getD h f _ hS) hchild (rest_lt w h k hk)⟩
        · rw [Function.update_noteq hji] at hc
          exact h1 j c hj0 hj hc
      · intro c hc
        by_cases h0 : 0 = k / w ^ (h + 1)
        · rw [← h0, Function.update_same] at hc
          cases hc
          have hchild : Spine w h ((f 0).getD (empty h)) := by
            cases hfi : f 0 with
            | none => exact spine_empty w h
            | some c => exact h2 c hfi
          exact ih _ _ v (shaped_getD h f _ hS) hchild (rest_lt w h k hk)
        · rw [Function.update_noteq h0] at hc
          exact h2 c hc

theorem remove_spine (w : Nat) : ∀ (h : Nat) (n : Node) (k : Nat), Shaped h n →
    Spine w h n → k < w ^ (h + 1) → Spine w h (remove w h n k) := by
  intro h
  induction h with
  | zero =>
    intro n k _ _ _
    exact spine_zero w _
  | succ h ih =>
    intro n k hS hSp hk
    cases n with
    | values f => exact hS.elim
    | links f =>
      obtain ⟨h1, h2⟩ := hSp
      rw [remove_links]
      cases hfi : f (k / w ^ (h + 1)) with
      | none => exact ⟨h1, h2⟩
      | some child =>
        dsimp only
        have hrem : 0 < k / w ^ (h + 1) →
            Pruned w h (remove w h child (k % w ^ (h + 1)))
              ∧ (isEmpty w (remove w h child (k % w ^ (h + 1))) = false →
                  entries w h (remove w h child (k % w ^ (h + 1))) ≠ []) :=
          fun hpos => remove_pruned w h child _ (hS _ child hfi)
            (h1 _ child hpos (digit_lt w h k hk) hfi).2
        by_cases hE : isEmpty w (remove w h child (k % w ^ (h + 1))) = true
        · rw [if_pos hE]
          refine ⟨?_, ?_⟩
          · intro j c hj0 hj hc
            by_cases hji : j = k / w ^ (h + 1)
            · subst hji
              rw [Function.update_same] at hc
              cases hc
            · rw [Function.update_noteq hji] at hc
              exact h1 j c hj0 hj hc
          · intro c hc
            by_cases h0 : 0 = k / w ^ (h + 1)
            · rw [← h0, Function.update_same] at hc
              cases hc
            · rw [Function.update_noteq h0] at hc
              exact h2 c hc
        · rw [if_neg hE]
          refine ⟨?_, ?_⟩
          · intro j c hj0 hj hc
            by_cases hji : j = k / w ^ (h + 1)
            · subst hji
              rw [Function.update_same] at hc
              cases hc
              obtain ⟨p1, p2⟩ := hrem hj0
              exact ⟨p2 (by simpa using hE), p1⟩
            · rw [Function.update_noteq hji] at hc
              exact h1 j c hj0 hj hc
          · intro c hc
            by_cases h0 : 0 = k / w ^ (h + 1)
            · have hfi0 : f 0 = some child := by rw [h0]; exact hfi
              rw [← h0, Function.update_same] at hc
              cases hc
              have := ih child (k % w ^ (h + 1)) (hS _ child hfi) (h2 child hfi0)
                (rest_lt w h k hk)
              exact this
            · rw [Function.update_noteq h0] at hc
              exact h2 c hc

/-- A node with values below which no node is without values ends in a value. -/
theorem pruned_ends (w : Nat) : ∀ (h : Nat) (n : Node), Pruned w h n →
    entries w h n ≠ [] → EndsInValue w h n := by
  intro h
  induction h with
  | zero =>
    intro n _ hne
    cases n with
    | values f => exact hne
    | links f => exact absurd rfl hne
  | succ h ih =>
    intro n hP hne
    cases n with
    | values f => exact absurd rfl hne
    | links f =>
      have hP' : ∀ i child, i < w → f i = some child →
          entries w h child ≠ [] ∧ Pruned w h child := hP
      have hitems : items w f ≠ [] := by
        intro h0
        apply hne
        show (items w f).flatMap (entries w h) = []
        rw [h0]
        rfl
      obtain ⟨last, hlast⟩ := Option.isSome_iff_exists.mp (List.getLast?_isSome.mpr hitems)
      obtain ⟨j, hj, hf, _⟩ := items_last f w last hlast
      exact ⟨last, hlast, ih last (hP' j last hj hf).2 (hP' j last hj hf).1⟩

theorem wrap_spine (w h : Nat) (n : Node) (hn : Spine w h n) : Spine w (h + 1) (wrap n) := by
  refine ⟨?_, ?_⟩
  · intro j c hj0 _ hc
    rw [Function.update_noteq (by omega)] at hc
    cases hc
  · intro c hc
    rw [Function.update_same] at hc
    cases hc
    exact hn

theorem spine_wrap_iterate (w : Nat) : ∀ (j h : Nat) (n : Node), Spine w h n →
    Spine w (h + j) (wrap^[j] n) := by
  intro j
  induction j with
  | zero => intro h n hn; exact hn
  | succ j ih =>
    intro h n hn
    rw [Function.iterate_succ_apply']
    exact wrap_spine w (h + j) _ (ih h n hn)

end Node

end fc.storage.amt

namespace fc.storage.amt

open fc.vm

/-- The collapse of a root leaves a root in the state that `set` and `remove` keep. -/
theorem Root.collapse_inv (w : Nat) : ∀ (fuel : Nat) (r : Root),
    Node.Shaped r.height r.node → Node.Spine w r.height r.node → r.height ≤ fuel →
    Root.Inv w (Root.collapse w fuel r) := by
  intro fuel
  induction fuel with
  | zero =>
    intro r hS hSp hle
    obtain ⟨height, count, node⟩ := r
    dsimp only at hS hSp hle
    have h0 : height = 0 := by omega
    subst h0
    exact ⟨hS, hSp, fun _ => Node.pruned_zero w _⟩
  | succ fuel ih =>
    intro r hS hSp hle
    obtain ⟨height, count, node⟩ := r
    dsimp only at hS hSp hle
    unfold Root.collapse
    dsimp only
    by_cases hc : height > 0 ∧ Node.onlySlotZero w node = true
    · rw [if_pos hc]
      obtain ⟨hpos, hz⟩ := hc
      obtain ⟨h, rfl⟩ : ∃ h, height = h + 1 := ⟨height - 1, by omega⟩
      cases node with
      | values f => exact hS.elim
      | links f =>
        dsimp only
        cases hf0 : f 0 with
        | none =>
          simp [Node.onlySlotZero, hf0] at hz
        | some child =>
          dsimp only
          exact ih ⟨h + 1 - 1, count, child⟩ (hS 0 child hf0) (hSp.2 child hf0)
            (by dsimp only; omega)
    · rw [if_neg hc]
      refine ⟨hS, hSp, ?_⟩
      intro hA
      dsimp only at hA ⊢
      rcases Nat.eq_zero_or_pos height with h0 | hpos
      · subst h0
        exact Node.pruned_zero w _
      · obtain ⟨h, rfl⟩ : ∃ h, height = h + 1 := ⟨height - 1, by omega⟩
        cases node with
        | values f => exact hS.elim
        | links f =>
          have hA' : ∀ i, 0 < i → i < w → f i = none := hA
          have hz : Node.onlySlotZero w (.links f) = false := by
            cases hb : Node.onlySlotZero w (.links f) with
            | false => rfl
            | true => exact absurd ⟨hpos, hb⟩ hc
          have hf0 : f 0 = none := by
            cases hf : f 0 with
            | none => rfl
            | some c =>
              have : Node.onlySlotZero w (.links f) = true := by
                simp only [Node.onlySlotZero, hf, Option.isSome_some, Bool.true_and,
                  List.all_eq_true, List.mem_range, Bool.or_eq_true, beq_iff_eq,
                  Option.isNone_iff_eq_none]
                intro i hi
                rcases Nat.eq_zero_or_pos i with h0 | h0
                · exact Or.inl h0
                · exact Or.inr (hA' i h0 hi)
              rw [this] at hz
              cases hz
          intro i c hi hfi
          rcases Nat.eq_zero_or_pos i with h0 | h0
          · subst h0
            rw [hf0] at hfi
            cases hfi
          · rw [hA' i h0 hi] at hfi
            cases hfi

/-- The state that `set` and `remove` keep implies that the tree does not end in a node
without values. -/
theorem Root.inv_rootEnds (w : Nat) (r : Root) (hr : Root.Inv w r) :
    Node.RootEnds w r.height r.node := by
  obtain ⟨height, count, node⟩ := r
  obtain ⟨hS, hSp, hAP⟩ := hr
  dsimp only at hS hSp hAP ⊢
  cases height with
  | zero => cases node <;> trivial
  | succ h =>
    cases node with
    | values f => trivial
    | links f =>
      intro last hlast
      obtain ⟨j, hj, hf, hmax⟩ := Node.items_last f w last hlast
      rcases Nat.eq_zero_or_pos j with h0 | h0
      · subst h0
        have hA : Node.Alone w (.links f) := fun i hi0 hi => hmax i hi0 hi
        have hP := hAP hA 0 last hj hf
        exact Node.pruned_ends w h last hP.2 hP.1
      · have hP := hSp.1 j last h0 hj hf
        exact Node.pruned_ends w h last hP.2 hP.1

theorem Amt.set_bits (a : Amt) (k : Nat) (v : Bytes) : (a.set k v).2.bits = a.bits := rfl

theorem Amt.remove_bits (a : Amt) (k : Nat) : (a.remove k).2.bits = a.bits := by
  unfold Amt.remove
  split <;> rfl

/-- The method `set` keeps the state of the root. -/
theorem Amt.set_inv (a : Amt) (k : Nat) (v : Bytes) (hbits : 0 < a.bits) (hk : k < 2 ^ 64)
    (ha : Root.Inv a.width a.root) : Root.Inv a.width (a.set k v).2.root := by
  obtain ⟨bits, r⟩ := a
  obtain ⟨hS, hSp, hAP⟩ := ha
  dsimp only [Amt.width] at hbits hS hSp hAP ⊢
  obtain ⟨j, hj1, hj2, _⟩ := Root.grow_eq (2 ^ bits) 64 r k
  have hrange := Root.grow_range bits hbits r k hk
  have hroot : ((⟨bits, r⟩ : Amt).set k v).2.root
      = ⟨(Root.grow (2 ^ bits) 64 r k).height,
          if ((⟨bits, r⟩ : Amt).get k).toOption.isNone then
            (Root.grow (2 ^ bits) 64 r k).count + 1
          else (Root.grow (2 ^ bits) 64 r k).count,
          Node.set (2 ^ bits) (Root.grow (2 ^ bits) 64 r k).height
            (Root.grow (2 ^ bits) 64 r k).node
            (k % (2 ^ bits) ^ ((Root.grow (2 ^ bits) 64 r k).height + 1)) v⟩ := rfl
  rw [hroot]
  rw [Nat.mod_eq_of_lt hrange]
  rw [hj1] at hrange ⊢
  dsimp only at hrange ⊢
  have hSg : Node.Shaped (r.height + j) (Node.wrap^[j] r.node) :=
    Node.shaped_wrap_iterate j r.height r.node hS
  have hSpg : Node.Spine (2 ^ bits) (r.height + j) (Node.wrap^[j] r.node) :=
    Node.spine_wrap_iterate (2 ^ bits) j r.height r.node hSp
  refine ⟨Node.set_shaped _ _ _ _ _ hSg, Node.set_spine _ _ _ _ _ hSg hSpg hrange, ?_⟩
  dsimp only
  intro hA
  rcases Nat.eq_zero_or_pos j with h0 | hpos
  · subst h0
    rw [Nat.add_zero] at hrange hA ⊢
    rw [Function.iterate_zero, id] at hA ⊢
    apply Node.set_pruned _ _ _ _ _ hS _ hrange
    obtain ⟨height, count, node⟩ := r
    dsimp only at hS hAP hA hrange ⊢
    cases height with
    | zero => exact Node.pruned_zero _ _
    | succ h =>
      cases node with
      | values f => exact hS.elim
      | links f =>
        apply hAP
        rw [Node.set_links] at hA
        have hA' : ∀ i, 0 < i → i < 2 ^ bits →
            Function.update f (k / (2 ^ bits) ^ (h + 1))
              (some (Node.set (2 ^ bits) h ((f (k / (2 ^ bits) ^ (h + 1))).getD (Node.empty h))
                (k % (2 ^ bits) ^ (h + 1)) v)) i = none := hA
        intro i hi0 hi
        have := hA' i hi0 hi
        by_cases hik : i = k / (2 ^ bits) ^ (h + 1)
        · subst hik
          rw [Function.update_same] at this
          cases this
        · rw [Function.update_noteq hik] at this
          exact this
  · exfalso
    obtain ⟨i, rfl⟩ : ∃ i, j = i + 1 := ⟨j - 1, by omega⟩
    have hle := hj2 hpos
    have hh : r.height + (i + 1) = (r.height + i) + 1 := rfl
    rw [hh] at hA hrange hle
    rw [Function.iterate_succ_apply'] at hA
    have hw : Node.wrap (Node.wrap^[i] r.node)
        = .links (Function.update (fun _ => none) 0 (some (Node.wrap^[i] r.node))) := rfl
    rw [hw, Node.set_links] at hA
    have hdpos : 0 < k / (2 ^ bits) ^ (r.height + i + 1) :=
      Nat.div_pos hle (Nat.pow_pos (Nat.pow_pos (by decide)))
    have hdlt := Node.digit_lt (2 ^ bits) (r.height + i) k hrange
    have := hA (k / (2 ^ bits) ^ (r.height + i + 1)) hdpos hdlt
    rw [Function.update_same] at this
    cases this

/-- The method `remove` keeps the state of the root. -/
theorem Amt.remove_inv (a : Amt) (k : Nat) (ha : Root.Inv a.width a.root) :
    Root.Inv a.width (a.remove k).2.root := by
  obtain ⟨bits, r⟩ := a
  obtain ⟨hS, hSp, hAP⟩ := ha
  dsimp only [Amt.width] at hS hSp hAP ⊢
  unfold Amt.remove
  cases hg : Amt.get ⟨bits, r⟩ k with
  | error e => exact ⟨hS, hSp, hAP⟩
  | ok v0 =>
    dsimp only [Amt.width]
    have hrange : k < (2 ^ bits) ^ (r.height + 1) := by
      by_contra hge
      unfold Amt.get at hg
      dsimp only [Amt.width] at hg
      rw [if_pos (not_lt.mp hge)] at hg
      cases hg
    rw [Nat.mod_eq_of_lt hrange]
    exact Root.collapse_inv (2 ^ bits) r.height
      ⟨r.height, r.count - 1, Node.remove (2 ^ bits) r.height r.node k⟩
      (Node.remove_shaped _ _ _ _ hS) (Node.remove_spine _ _ _ _ hS hSp hrange) (le_refl _)

/-- An AMT built from the empty AMT by `set` and `remove`, with a branching factor of at
least 2, is in the state of the root that they keep. -/
theorem Amt.built_inv (a : Amt) (hb : Amt.Built a) (hbits : 0 < a.bits) :
    Root.Inv a.width a.root := by
  induction hb with
  | init bits => exact ⟨trivial, Node.spine_zero _ _, fun _ => Node.pruned_zero _ _⟩
  | set a k v _ hk ih => exact Amt.set_inv a k v hbits hk (ih hbits)
  | remove a k _ ih =>
    have hbits' : 0 < a.bits := by
      rw [Amt.remove_bits] at hbits
      exact hbits
    have hw : (a.remove k).2.width = a.width := by
      unfold Amt.width
      rw [Amt.remove_bits]
    rw [hw]
    exact Amt.remove_inv a k (ih hbits')

/-- An AMT built from the empty AMT by `set` and `remove`, with a branching factor of at
least 2, does not end in a node without values. -/
theorem Amt.built_rootEnds (a : Amt) (hb : Amt.Built a) (hbits : 0 < a.bits) :
    Node.RootEnds a.width a.root.height a.root.node :=
  Root.inv_rootEnds a.width a.root (Amt.built_inv a hb hbits)

end fc.storage.amt

/-! ## The penalty of the gas settlement -/

namespace fc.vm

open StateTreeImpl

namespace Env

theorem settleBaseFee_penalty (env : Env) (message : UnsignedMessage) (no_fee : Bool)
    (used : GasAmount) (l l1 : Locals)
    (h : settleBaseFee env message no_fee used l = (.ok (), l1)) :
    l1.apply.penalty
      = if env.parentBaseFee > message.gas_fee_cap then
          (env.parentBaseFee - message.gas_fee_cap) * used
        else 0 := by
  unfold settleBaseFee at h
  cases no_fee
  · simp only [Bool.not_false, if_true] at h
    obtain ⟨-, h2, -, -⟩ := add_locked_ok _ _ _ _ h
    rw [h2]
  · simp only [Bool.not_true, Bool.false_eq_true, if_false, Prod.mk.injEq, true_and] at h
    subst h
    rfl

theorem settleReward_penalty (env : Env) (message : UnsignedMessage) (l l2 : Locals)
    (h : settleReward env message l = (.ok (), l2)) :
    l2.apply.penalty = l.apply.penalty := by
  unfold settleReward at h
  obtain ⟨-, h2, -, -⟩ := add_locked_ok _ _ _ _ h
  rw [h2]

theorem settleOverestimation_penalty (env : Env) (message : UnsignedMessage)
    (used : GasAmount) (l l3 : Locals)
    (h : settleOverestimation env message used l = (.ok (), l3)) :
    l3.apply.penalty
      = l.apply.penalty
        + (env.parentBaseFee - base_fee_pay env message) * gas_burned message.gas_limit used := by
  unfold settleOverestimation at h
  split at h
  · generalize hq : add_locked l kBurntFundsActorAddress
        (base_fee_pay env message * gas_burned message.gas_limit used) = q at h
    obtain ⟨r, l1⟩ := q
    rcases r with e | u
    · simp at h
    · obtain ⟨-, h2, -, -⟩ := add_locked_ok _ _ _ _ hq
      simp only [Prod.mk.injEq, true_and] at h
      subst h
      simp [h2]
  · next hgb =>
    simp only [Prod.mk.injEq, true_and] at h
    subst h
    have : gas_burned message.gas_limit used = 0 := by simpa using hgb
    simp [this]

/-- The two parts of the penalty add up to one product. -/
theorem penalty_sum (base_fee fee_cap used burned : Int) :
    (if base_fee > fee_cap then (base_fee - fee_cap) * used else 0)
        + (base_fee - min base_fee fee_cap) * burned
      = max (base_fee - fee_cap) 0 * (used + burned) := by
  by_cases h : base_fee > fee_cap
  · rw [if_pos h, min_eq_right (le_of_lt h), max_eq_left (by linarith)]
    ring
  · rw [if_neg h, min_eq_left (not_lt.mp h), max_eq_right (by linarith)]
    ring

/-- The penalty of a settlement that returns a result. -/
theorem gasSettlement_penalty (env : Env) (message : UnsignedMessage)
    (exit_code : VMExitCode) (no_fee : Bool) (used : GasAmount) (l l' : Locals)
    (apply : Apply)
    (h : gasSettlement env message exit_code no_fee used l = .done (.ok apply, l')) :
    apply.penalty
      = max (env.parentBaseFee - message.gas_fee_cap) 0
        * (used + gas_burned message.gas_limit used) := by
  unfold gasSettlement at h
  split at h
  · simp at h
  · generalize h1 : settleBaseFee env message no_fee used l = p1 at h
    obtain ⟨r1, l1⟩ := p1
    rcases r1 with e | u
    · simp at h
    · dsimp only at h
      generalize h2 : settleReward env message l1 = p2 at h
      obtain ⟨r2, l2⟩ := p2
      rcases r2 with e | u
      · simp at h
      · dsimp only at h
        generalize h3 : settleOverestimation env message used l2 = p3 at h
        obtain ⟨r3, l3⟩ := p3
        rcases r3 with e | u
        · simp at h
        · dsimp only at h
          split at h
          · simp at h
          · generalize h4 : add_locked l3 message.from_ l3.locked = p4 at h
            obtain ⟨r4, l4⟩ := p4
            rcases r4 with e | u
            · simp at h
            · simp only [Run.done.injEq, Prod.mk.injEq, Except.ok.injEq] at h
              obtain ⟨hap, -⟩ := h
              obtain ⟨-, k2, -, -⟩ := add_locked_ok _ _ _ _ h4
              have s := settleBaseFee_penalty _ _ _ _ _ _ h1
              have t := settleReward_penalty _ _ _ _ h2
              have o := settleOverestimation_penalty _ _ _ _ _ h3
              subst hap
              show l4.apply.penalty = _
              rw [k2, o, t, s]
              exact penalty_sum _ _ _ _

theorem finishApply_penalty (env : Env) (message : UnsignedMessage) (exit_code : VMExitCode)
    (ex : Execution) (l l' : Locals) (apply : Apply)
    (h : finishApply env message exit_code ex l = .done (.ok apply, l')) :
    apply.penalty
      = max (env.parentBaseFee - message.gas_fee_cap) 0
        * (apply.receipt.gas_used
          + gas_burned message.gas_limit apply.receipt.gas_used) := by
  obtain ⟨-, hused, -, -⟩ := finishApply_ok env message exit_code ex l l' apply h
  unfold finishApply at h
  dsimp only at h
  generalize noFee env message exit_code
    (if exit_code ≠ VMExitCode.kOk then ex.state_tree.txRevert else ex.state_tree) = p at h
  obtain ⟨r, st1⟩ := p
  rcases r with e | no_fee
  · simp at h
  · dsimp only at h
    rw [hused]
    exact gasSettlement_penalty _ _ _ _ _ _ _ _ h

end Env

end fc.vm

/-! ## The method `cut` of `RleBitset` -/

namespace fc.primitives

namespace RleBitset

theorem below_eq_card (c : RleBitset) (e : Nat) (hc : c.Sorted (· < ·)) :
    below c e = (c.toFinset.filter fun x => x < e).card := by
  unfold below
  rw [← List.toFinset_card_of_nodup (hc.nodup.filter _)]
  congr 1
  ext x
  simp [List.mem_filter]

/-- The number of elements below `e` of a set is at most `e`. -/
theorem below_le (c : RleBitset) (e : Nat) (hc : c.Sorted (· < ·)) : below c e ≤ e := by
  rw [below_eq_card c e hc]
  calc (c.toFinset.filter fun x => x < e).card ≤ (Finset.range e).card := by
        apply Finset.card_le_card
        intro x hx
        exact Finset.mem_range.mpr (Finset.mem_filter.mp hx).2
    _ = e := Finset.card_range e

/-- Between two numbers, the first of which is not in the set, the count of the elements
below grows by less than the distance. -/
theorem below_gap (c : RleBitset) (e1 e2 : Nat) (hc : c.Sorted (· < ·)) (h12 : e1 < e2)
    (h1 : e1 ∉ c) : below c e2 + e1 + 1 ≤ below c e1 + e2 := by
  rw [below_eq_card c e1 hc, below_eq_card c e2 hc]
  have hsub : (c.toFinset.filter fun x => x < e2)
      ⊆ (c.toFinset.filter fun x => x < e1) ∪ Finset.Ioo e1 e2 := by
    intro x hx
    obtain ⟨hxc, hx2⟩ := Finset.mem_filter.mp hx
    rcases Nat.lt_trichotomy x e1 with h | h | h
    · exact Finset.mem_union_left _ (Finset.mem_filter.mpr ⟨hxc, h⟩)
    · subst h
      exact absurd (List.mem_toFinset.mp hxc) h1
    · exact Finset.mem_union_right _ (Finset.mem_Ioo.mpr ⟨h, hx2⟩)
  have hcard := (Finset.card_le_card hsub).trans (Finset.card_union_le _ _)
  rw [Nat.card_Ioo] at hcard
  omega

/-- The mapping `e ↦ e - below c e` ascends strictly on the numbers that are not in `c`. -/
theorem shifted_lt (c : RleBitset) (e1 e2 : Nat) (hc : c.Sorted (· < ·)) (h12 : e1 < e2)
    (h1 : e1 ∉ c) : e1 - below c e1 < e2 - below c e2 := by
  have hg := below_gap c e1 e2 hc h12 h1
  have hl1 := below_le c e1 hc
  have hl2 := below_le c e2 hc
  omega

theorem insert_last (v : Nat) : ∀ result : RleBitset, (∀ x ∈ result, x < v) →
    insert v result = result ++ [v] := by
  intro result
  induction result with
  | nil => intro _; rfl
  | cons x rest ih =>
    intro h
    have hx : x < v := h x (List.mem_cons_self _ _)
    unfold insert
    rw [if_neg (by omega), if_pos hx, ih (fun y hy => h y (List.mem_cons_of_mem _ hy))]
    rfl

theorem skip_spec (element : Nat) : ∀ (it : List Nat) (shift : Nat),
    shift + (it.takeWhile fun x => x < element).length < 2 ^ 64 →
    skip element shift it
      = (shift + (it.takeWhile fun x => x < element).length,
          it.dropWhile fun x => x < element) := by
  intro it
  induction it with
  | nil => intro shift _; rfl
  | cons x it ih =>
    intro shift h
    unfold skip
    by_cases hx : x < element
    · rw [if_pos hx]
      rw [List.takeWhile_cons_of_pos (by simpa using hx)] at h ⊢
      rw [List.dropWhile_cons_of_pos (by simpa using hx)]
      rw [List.length_cons] at h ⊢
      rw [Nat.mod_eq_of_lt (by omega), ih (shift + 1) (by omega)]
      congr 1
      omega
    · rw [if_neg hx]
      rw [List.takeWhile_cons_of_neg (by simpa using hx)]
      rw [List.dropWhile_cons_of_neg (by simpa using hx)]
      rfl

theorem has_eq_true (c : RleBitset) (e : Nat) : has c e = true ↔ e ∈ c := by
  simp [has]

/-- The elements of `c` below `element`, when `c` is `cdone ++ it` with the elements of
`cdone` below `element`: those of `cdone` and the first ones of `it`. -/
theorem below_split (cdone it : List Nat) (element : Nat)
    (hc : (cdone ++ it).Sorted (· < ·)) (hdone : ∀ x ∈ cdone, x < element) :
    below (cdone ++ it) element
        = cdone.length + (it.takeWhile fun x => x < element).length
      ∧ (∀ x ∈ it.dropWhile fun x => x < element, element ≤ x) := by
  have hit : it.Sorted (· < ·) := (List.pairwise_append.mp hc).2.1
  have hdrop : ∀ l : List Nat, l.Sorted (· < ·) →
      ∀ x ∈ l.dropWhile fun x => x < element, element ≤ x := by
    intro l
    induction l with
    | nil => intro _ x hx; cases hx
    | cons y l ih =>
      intro hl x hx
      by_cases hy : y < element
      · rw [List.dropWhile_cons_of_pos (by simpa using hy)] at hx
        exact ih (List.Pairwise.of_cons hl) x hx
      · rw [List.dropWhile_cons_of_neg (by simpa using hy)] at hx
        rcases List.mem_cons.mp hx with h | h
        · omega
        · have := (List.pairwise_cons.mp hl).1 x h
          omega
  refine ⟨?_, hdrop it hit⟩
  unfold below
  rw [List.filter_append, List.length_append]
  congr 1
  · rw [List.filter_eq_self.mpr (fun x hx => by simpa using hdone x hx)]
  · conv => lhs; rw [← List.takeWhile_append_dropWhile (fun x => decide (x < element)) it]
    rw [List.filter_append]
    have h1 : (it.takeWhile fun x => x < element).filter (fun x => x < element)
        = it.takeWhile fun x => x < element :=
      List.filter_eq_self.mpr fun x hx =>
        List.mem_takeWhile_imp (p := fun x => decide (x < element)) hx
    have h2 : (it.dropWhile fun x => x < element).filter (fun x => x < element) = [] := by
      apply List.filter_eq_nil_iff.mpr
      intro x hx
      have := hdrop it hit x hx
      simp
      omega
    rw [h1, h2, List.append_nil]

end RleBitset

end fc.primitives

namespace fc.primitives

namespace RleBitset

theorem shifted_wrap (element shift : Nat) (h1 : shift ≤ element) (h2 : element < 2 ^ 64) :
    (element + 2 ^ 64 - shift) % 2 ^ 64 = element - shift := by
  have e : element + 2 ^ 64 - shift = (element - shift) + 2 ^ 64 := by omega
  rw [e, Nat.add_mod_right, Nat.mod_eq_of_lt (by omega)]

/-- The outer loop of `cut`, from any of its turns on: the result grows by the shifted
elements that are left and that `c` does not have. -/
theorem cutLoop_spec (c : RleBitset) (hc : c.Sorted (· < ·)) :
    ∀ (rest cdone it : List Nat) (result : RleBitset), c = cdone ++ it →
    rest.Sorted (· < ·) → (∀ e ∈ rest, e < 2 ^ 64) → (∀ x ∈ cdone, ∀ e ∈ rest, x < e) →
    (∀ v ∈ result, ∀ e ∈ rest, e ∉ c → v < e - below c e) →
    cutLoop rest cdone.length it result
      = result ++ (rest.filter fun e => !c.has e).map fun e => e - below c e := by
  intro rest
  induction rest with
  | nil =>
    intro cdone it result _ _ _ _ _
    simp [cutLoop]
  | cons element rest ih =>
    intro cdone it result hsplit hsorted hbound hdone hres
    have helt : element < 2 ^ 64 := hbound element (List.mem_cons_self _ _)
    have hdone' : ∀ x ∈ cdone, x < element := fun x hx => hdone x hx element
      (List.mem_cons_self _ _)
    have hc' : (cdone ++ it).Sorted (· < ·) := hsplit ▸ hc
    obtain ⟨hbelow, hdrop⟩ := below_split cdone it element hc' hdone'
    rw [← hsplit] at hbelow
    have hle := below_le c element hc
    have hskip := skip_spec element it cdone.length (by omega)
    rw [← hbelow] at hskip
    have htd := List.takeWhile_append_dropWhile (fun x => decide (x < element)) it
    have hnext : ∀ e ∈ rest, element < e := fun e he =>
      (List.pairwise_cons.mp hsorted).1 e he
    have hlen : (cdone ++ it.takeWhile fun x => x < element).length = below c element := by
      rw [List.length_append, hbelow]
    have hsplit' : c = (cdone ++ it.takeWhile fun x => x < element)
        ++ it.dropWhile fun x => x < element := by
      rw [List.append_assoc, htd]
      exact hsplit
    have hdone2 : ∀ x ∈ cdone ++ it.takeWhile (fun x => x < element), ∀ e ∈ rest, x < e := by
      intro x hx e he
      have hlt := hnext e he
      rcases List.mem_append.mp hx with h | h
      · exact hdone x h e (List.mem_cons_of_mem _ he)
      · have := List.mem_takeWhile_imp (p := fun x => decide (x < element)) h
        have : x < element := by simpa using this
        omega
    have hmem : element ∈ c ↔ element ∈ it.dropWhile fun x => x < element := by
      rw [hsplit']
      constructor
      · intro h
        rcases List.mem_append.mp h with h1 | h1
        · rcases List.mem_append.mp h1 with h2 | h2
          · exact absurd (hdone' element h2) (lt_irrefl _)
          · have := List.mem_takeWhile_imp (p := fun x => decide (x < element)) h2
            simp at this
        · exact h1
      · intro h
        exact List.mem_append_right _ h
    have hkeep : element ∉ c →
        cutLoop rest (below c element) (it.dropWhile fun x => x < element)
            (insert ((element + 2 ^ 64 - below c element) % 2 ^ 64) result)
          = result ++ ((element :: rest).filter fun e => !c.has e).map
              fun e => e - below c e := by
      intro hnot
      have hhas : c.has element = false := by
        cases hb : c.has element with
        | false => rfl
        | true => exact absurd ((has_eq_true c element).mp hb) hnot
      rw [shifted_wrap element _ hle helt,
        insert_last _ result (fun v hv => hres v hv element (List.mem_cons_self _ _) hnot)]
      have hih := ih _ _ (result ++ [element - below c element]) hsplit'
        (List.Pairwise.of_cons hsorted)
        (fun e he => hbound e (List.mem_cons_of_mem _ he)) hdone2 (by
          intro v hv e he hec
          rcases List.mem_append.mp hv with h | h
          · exact hres v h e (List.mem_cons_of_mem _ he) hec
          · rw [List.mem_singleton] at h
            subst h
            exact shifted_lt c element e hc (hnext e he) hnot)
      rw [hlen] at hih
      rw [hih, List.filter_cons_of_pos (by simp [hhas]), List.map_cons, List.append_assoc]
      rfl
    unfold cutLoop
    rw [hskip]
    cases hdr : it.dropWhile (fun x => decide (x < element)) with
    | nil =>
      dsimp only
      rw [hdr] at hmem hkeep
      exact hkeep (fun h => by cases hmem.mp h)
    | cons x it1 =>
      dsimp only
      have hx : element ≤ x := hdrop x (by rw [hdr]; exact List.mem_cons_self _ _)
      by_cases hgt : x > element
      · rw [if_pos hgt]
        rw [hdr] at hmem hkeep
        apply hkeep
        intro h
        have hit : (x :: it1).Sorted (· < ·) := by
          have := (List.pairwise_append.mp (hsplit' ▸ hc)).2.1
          rw [hdr] at this
          exact this
        rcases List.mem_cons.mp (hmem.mp h) with h1 | h1
        · omega
        · have := (List.pairwise_cons.mp hit).1 element h1
          omega
      · rw [if_neg hgt]
        have hxe : x = element := by omega
        have hin : element ∈ c := hmem.mpr (by rw [hdr, hxe]; exact List.mem_cons_self _ _)
        have hhas : c.has element = true := (has_eq_true c element).mpr hin
        have hih := ih _ _ result hsplit' (List.Pairwise.of_cons hsorted)
          (fun e he => hbound e (List.mem_cons_of_mem _ he)) hdone2
          (fun v hv e he hec => hres v hv e (List.mem_cons_of_mem _ he) hec)
        rw [hlen] at hih
        rw [← hdr, hih, List.filter_cons_of_neg (by simp [hhas])]

/-- The operator `-` on a set: the elements that `other` does not have. -/
theorem sub_spec (other : RleBitset) : ∀ (s result : RleBitset), s.Sorted (· < ·) →
    (∀ v ∈ result, ∀ e ∈ s, v < e) →
    s.foldl (fun result i => if !other.has i then insert i result else result) result
      = result ++ s.filter fun e => !other.has e := by
  intro s
  induction s with
  | nil => intro result _ _; simp
  | cons e s ih =>
    intro result hs hres
    rw [List.foldl_cons]
    cases hb : other.has e with
    | true =>
      simp only [Bool.not_true, Bool.false_eq_true, if_false]
      rw [ih result (List.Pairwise.of_cons hs)
        (fun v hv x hx => hres v hv x (List.mem_cons_of_mem _ hx))]
      rw [List.filter_cons_of_neg (by simp [hb])]
    | false =>
      simp only [Bool.not_false, if_true]
      rw [insert_last e result (fun v hv => hres v hv e (List.mem_cons_self _ _))]
      rw [ih (result ++ [e]) (List.Pairwise.of_cons hs) ?_]
      · rw [List.filter_cons_of_pos (by simp [hb]), List.append_assoc]
        rfl
      · intro v hv x hx
        rcases List.mem_append.mp hv with h | h
        · exact hres v h x (List.mem_cons_of_mem _ hx)
        · rw [List.mem_singleton] at h
          subst h
          exact (List.pairwise_cons.mp hs).1 x hx

end RleBitset

end fc.primitives

/-! ## The HAMT walker -/

namespace fc.codec.hamt

open fc.vm

namespace HamtWalk

theorem readEntry_ok (R : CborReader) (e : Bytes × Bytes) (es : List (Bytes × Bytes))
    (ip : Hash256 → Option Bytes) (cids : List Hash256) (nc : Nat) (nd b rest : Bytes)
    (vis : Option (Hash256 → Bool)) (bucket : Nat) (h : EntriesBytes R (e :: es) b rest) :
    ∃ n3, EntriesBytes R es n3 rest
      ∧ readEntry R ⟨⟨ip, cids, nc, nd, b, vis⟩, bucket⟩
          = (some e, ⟨⟨ip, cids, nc, nd, n3, vis⟩, bucket⟩) := by
  obtain ⟨_, t1, n1, t2, n2, n3, h1, h1c, h2, h2s, hkey, hvalue, hrest⟩ := h
  refine ⟨n3, hrest, ?_⟩
  simp only [readEntry, h1, h1c, bne_self_eq_false, Bool.false_eq_true, if_false, h2, h2s,
    hkey, hvalue]

theorem readHead_ok (R : CborReader) (count : Nat) (ip : Hash256 → Option Bytes)
    (cids : List Hash256) (nc : Nat) (nd b rest : Bytes) (vis : Option (Hash256 → Bool))
    (bucket : Nat) (h : HeadBytes R count b rest) :
    readHead R ⟨⟨ip, cids, nc, nd, b, vis⟩, bucket⟩
      = (true, ⟨⟨ip, cids, nc, nd, rest, vis⟩, bucket⟩) := by
  obtain ⟨t1, n1, t2, n2, size, t3, h1, h1c, h2, h2s, hsize, h3, h3c⟩ := h
  have hread : read n2 size = (some (n2.take size), n2.drop size) := by
    unfold read
    rw [if_neg (not_lt.mpr hsize)]
  simp only [readHead, h1, h1c, bne_self_eq_false, Bool.false_eq_true, if_false, h2, h2s,
    hread, h3, h3c, Option.isNone_some]

/-- The third branch reads the token of a pointer, wrapped in a map or not. -/
theorem readWrapped_ok (R : CborReader) (token : CborToken) (ip : Hash256 → Option Bytes)
    (cids : List Hash256) (nc : Nat) (nd b rest : Bytes) (vis : Option (Hash256 → Bool))
    (bucket : Nat) (h : PointerBytes R b token rest) :
    readWrapped R ⟨⟨ip, cids, nc, nd, b, vis⟩, bucket⟩
      = readPointer R token ⟨⟨ip, cids, nc, nd, rest, vis⟩, bucket⟩ := by
  obtain ⟨_, hvalid, h | h⟩ := h
  · obtain ⟨h1, hmap⟩ := h
    simp only [readWrapped, h1, hvalid, hmap, Bool.not_true, Bool.false_eq_true, if_false]
  · obtain ⟨t1, n1, t2, n2, k, h1, h1v, h1m, h2, h2s, hk, h3⟩ := h
    have hread : read (k :: n2) 1 = (some [k], n2) := rfl
    have hkey : ¬ (([k] : Bytes).headD 0 ≠ 0x30 ∧ ([k] : Bytes).headD 0 ≠ 0x31) := by
      intro hne
      rcases hk with hk | hk
      · exact hne.1 hk
      · exact hne.2 hk
    simp only [readWrapped, h1, h1v, h1m, Bool.not_true, Bool.false_eq_true, if_false, ne_eq,
      not_true_eq_false, h2, h2s, bne_self_eq_false, hread]
    rw [if_neg hkey]
    simp only [h3, hvalid, Bool.not_true, Bool.false_eq_true, if_false]

theorem empty_of_node (wk : HamtWalk) (h : wk.node ≠ []) : wk.toTree.empty = false := by
  obtain ⟨⟨ip, cids, nc, nd, b, vis⟩, bucket⟩ := wk
  cases b with
  | nil => exact absurd rfl h
  | cons x xs => rfl

/-- One entry of the bucket is left: `next` returns it. -/
theorem next_entry (R : CborReader) (ipld : Hash256 → Option Bytes) (wk : HamtWalk)
    (e : Bytes × Bytes) (es : List (Bytes × Bytes)) (cur : Node) (q : List Node)
    (h : At R ipld wk (e :: es) cur q) :
    ∃ wk1, At R ipld wk1 es cur q
      ∧ ∀ fuel, next R (fuel + 1) wk = .returned (some e, wk1) := by
  obtain ⟨⟨ip, cids, nc, nd, b, vis⟩, bucket⟩ := wk
  obtain ⟨hip, hvis, hbucket, ⟨mid, hes, hcur⟩, hle, hq⟩ := h
  dsimp only at hip hvis hbucket hes hle hq
  have hne : b ≠ [] := hes.1
  obtain ⟨n3, hrest, hread⟩ := readEntry_ok R e es ip cids nc nd b mid vis (bucket - 1) hes
  have he := empty_of_node ⟨⟨ip, cids, nc, nd, b, vis⟩, bucket⟩ hne
  refine ⟨⟨⟨ip, cids, nc, nd, n3, vis⟩, bucket - 1⟩,
    ⟨hip, hvis, ?_, ⟨mid, hrest, hcur⟩, hle, hq⟩, ?_⟩
  · dsimp only
    rw [hbucket, List.length_cons]
    rfl
  · intro fuel
    unfold next
    rw [if_neg (by rw [he]; exact Bool.false_ne_true)]
    have hv : bucket ≠ 0 := by
      rw [hbucket, List.length_cons]
      exact Nat.succ_ne_zero _
    dsimp only
    rw [if_pos hv, hread]

/-- Nothing is left: `next` returns false. -/
theorem next_end (R : CborReader) (ipld : Hash256 → Option Bytes) (wk : HamtWalk)
    (h : At R ipld wk [] .done []) : ∀ fuel, next R (fuel + 1) wk = .returned (none, wk) := by
  obtain ⟨_, _, _, ⟨mid, hes, hcur⟩, hle, hq⟩ := h
  have hmid : wk.node = mid := hes
  have hnil : mid = [] := hcur
  have hlen : wk.next_cid = wk.cids.length := by
    cases hd : wk.cids.drop wk.next_cid with
    | nil =>
      have := List.drop_eq_nil_iff.mp hd
      omega
    | cons c cs =>
      rw [hd] at hq
      cases hq
  have he : wk.toTree.empty = true := by
    simp [Tree.empty, hmid, hnil, hlen]
  intro fuel
  unfold next
  rw [if_pos he]

/-- The node is read to its end and a node waits: `next` loads it and reads its head. -/
theorem next_load (R : CborReader) (ipld : Hash256 → Option Bytes) (wk : HamtWalk)
    (n : Node) (q : List Node) (h : At R ipld wk [] .done (n :: q)) :
    ∃ wk1, At R ipld wk1 [] n q ∧ ∀ fuel, next R (fuel + 1) wk = next R fuel wk1 := by
  obtain ⟨⟨ip, cids, nc, nd, b0, vis⟩, bucket⟩ := wk
  obtain ⟨hip, hvis, hbucket, ⟨mid, hes, hcur⟩, hle, hq⟩ := h
  dsimp only at hip hvis hbucket hes hle hq
  have hmid : b0 = mid := hes
  have hnil : mid = [] := hcur
  have hbucket : bucket = 0 := hbucket
  subst hip hvis hmid hbucket
  subst hnil
  cases hd : cids.drop nc with
  | nil =>
    rw [hd] at hq
    cases hq
  | cons c cs =>
    rw [hd] at hq
    cases hq with
    | cons hn hrest =>
      obtain ⟨block, rest, hblock, hhead, hstored⟩ := hn
      have hlt : nc < cids.length := by
        rcases Nat.lt_or_ge nc cids.length with h | h
        · exact h
        · rw [List.drop_eq_nil_iff.mpr h] at hd
          cases hd
      have hget : cids.get? nc = some c := by
        have h0 : (cids.drop nc).get? 0 = some c := by rw [hd]; rfl
        rw [List.get?_eq_getElem?] at h0 ⊢
        rw [List.getElem?_drop] at h0
        exact h0
      have hdrop : cids.drop (nc + 1) = cs := by
        have := List.drop_drop 1 nc cids
        rw [hd] at this
        simpa using this.symm
      have he : (⟨⟨ip, cids, nc, nd, [], none⟩, 0⟩ : HamtWalk).toTree.empty = false := by
        simp [Tree.empty]
        omega
      refine ⟨⟨⟨ip, cids, nc + 1, block, rest, none⟩, 0⟩,
        ⟨rfl, rfl, rfl, ⟨rest, rfl, hstored⟩, by dsimp only; omega, ?_⟩, ?_⟩
      · dsimp only
        rw [hdrop]
        exact hrest
      · intro fuel
        have hnext : Tree._next ⟨ip, cids, nc, nd, [], none⟩
            = some (true, ⟨ip, cids, nc + 1, block, block, none⟩) := by
          unfold Tree._next
          rw [if_neg (by rw [he]; exact Bool.false_ne_true)]
          dsimp only
          rw [hget]
          dsimp only
          rw [hblock]
        conv => lhs; unfold next
        rw [if_neg (by rw [he]; exact Bool.false_ne_true)]
        simp only [ne_eq, not_true_eq_false, if_false, List.isEmpty_nil, if_true, hnext,
          readHead_ok R n.count ip cids (nc + 1) block block rest none 0 hhead]

/-- The next pointer is a link: `next` pushes the CID, and the child waits behind the
others. -/
theorem next_link (R : CborReader) (ipld : Hash256 → Option Bytes) (wk : HamtWalk)
    (child rest : Node) (q : List Node) (h : At R ipld wk [] (.link child rest) q) :
    ∃ wk1, At R ipld wk1 [] rest (q ++ [child])
      ∧ ∀ fuel, next R (fuel + 1) wk = next R fuel wk1 := by
  obtain ⟨⟨ip, cids, nc, nd, b0, vis⟩, bucket⟩ := wk
  obtain ⟨hip, hvis, hbucket, ⟨mid, hes, hcur⟩, hle, hq⟩ := h
  dsimp only at hip hvis hbucket hes hle hq
  have hmid : b0 = mid := hes
  have hbucket : bucket = 0 := hbucket
  subst hip hvis hmid hbucket
  obtain ⟨token, n1, c, n2, block, n3, hptr, hcid, hblock, hhead, hchild, hrest⟩ := hcur
  have hne : b0 ≠ [] := hptr.1
  have he := empty_of_node ⟨⟨ip, cids, nc, nd, b0, none⟩, 0⟩ hne
  have hsize : token.cidSize.isSome = true := by
    cases hs : token.cidSize with
    | none =>
      unfold cbor.readCborBlakeToken at hcid
      rw [hs] at hcid
      cases hcid
    | some n => rfl
  refine ⟨⟨⟨ip, cids ++ [c], nc, nd, n2, none⟩, 0⟩,
    ⟨rfl, rfl, rfl, ⟨n2, rfl, hrest⟩, ?_, ?_⟩, ?_⟩
  · dsimp only
    rw [List.length_append]
    omega
  · dsimp only
    rw [List.drop_append_of_le_length hle]
    exact List.rel_append hq (List.Forall₂.cons ⟨block, n3, hblock, hhead, hchild⟩
      List.Forall₂.nil)
  · intro fuel
    have hnode : (b0.isEmpty) = false := by
      cases b0 with
      | nil => exact absurd rfl hne
      | cons x xs => rfl
    conv => lhs; unfold next
    rw [if_neg (by rw [he]; exact Bool.false_ne_true)]
    simp only [ne_eq, not_true_eq_false, if_false, hnode, Bool.false_eq_true,
      readWrapped_ok R token ip cids nc nd b0 n1 none 0 hptr, readPointer, hsize, if_true,
      hcid, Tree._push]

/-- The next pointer is a bucket: `next` reads its head. -/
theorem next_bucket (R : CborReader) (ipld : Hash256 → Option Bytes) (wk : HamtWalk)
    (es : List (Bytes × Bytes)) (rest : Node) (q : List Node)
    (h : At R ipld wk [] (.bucket es rest) q) :
    ∃ wk1, At R ipld wk1 es rest q ∧ ∀ fuel, next R (fuel + 1) wk = next R fuel wk1 := by
  obtain ⟨⟨ip, cids, nc, nd, b0, vis⟩, bucket⟩ := wk
  obtain ⟨hip, hvis, hbucket, ⟨mid, hes, hcur⟩, hle, hq⟩ := h
  dsimp only at hip hvis hbucket hes hle hq
  have hmid : b0 = mid := hes
  have hbucket : bucket = 0 := hbucket
  subst hip hvis hmid hbucket
  obtain ⟨token, n1, n2, hptr, hcid, hcount, hentries, hrest⟩ := hcur
  have hne : b0 ≠ [] := hptr.1
  have he := empty_of_node ⟨⟨ip, cids, nc, nd, b0, none⟩, 0⟩ hne
  refine ⟨⟨⟨ip, cids, nc, nd, n1, none⟩, es.length⟩,
    ⟨rfl, rfl, rfl, ⟨n2, hentries, hrest⟩, hle, hq⟩, ?_⟩
  intro fuel
  have hnode : (b0.isEmpty) = false := by
    cases b0 with
    | nil => exact absurd rfl hne
    | cons x xs => rfl
  conv => lhs; unfold next
  rw [if_neg (by rw [he]; exact Bool.false_ne_true)]
  simp only [ne_eq, not_true_eq_false, if_false, hnode, Bool.false_eq_true,
    readWrapped_ok R token ip cids nc nd b0 n1 none 0 hptr, readPointer, hcid,
    Option.isSome_none, hcount]

theorem yields_turn (R : CborReader) (T : List (Bytes × Bytes)) (wk wk1 : HamtWalk)
    (hstep : ∀ fuel, next R (fuel + 1) wk = next R fuel wk1) (h : Yields R T wk1) :
    Yields R T wk := by
  cases T with
  | nil =>
    obtain ⟨N, wk2, hnext⟩ := h
    refine ⟨N + 1, wk2, ?_⟩
    intro fuel hf
    obtain ⟨f, rfl⟩ : ∃ f, fuel = f + 1 := ⟨fuel - 1, by omega⟩
    rw [hstep]
    exact hnext f (by omega)
  | cons v T =>
    obtain ⟨N, wk2, hnext, hrest⟩ := h
    refine ⟨N + 1, wk2, ?_, hrest⟩
    intro fuel hf
    obtain ⟨f, rfl⟩ : ∃ f, fuel = f + 1 := ⟨fuel - 1, by omega⟩
    rw [hstep]
    exact hnext f (by omega)

theorem yields_entries (R : CborReader) (ipld : Hash256 → Option Bytes)
    (T : List (Bytes × Bytes)) (cur : Node) (q : List Node) :
    ∀ (es : List (Bytes × Bytes)) (wk : HamtWalk), At R ipld wk es cur q →
    (∀ wk1, At R ipld wk1 [] cur q → Yields R T wk1) → Yields R (es ++ T) wk := by
  intro es
  induction es with
  | nil =>
    intro wk h hT
    exact hT wk h
  | cons e es ih =>
    intro wk h hT
    obtain ⟨wk1, hat, hnext⟩ := next_entry R ipld wk e es cur q h
    refine ⟨1, wk1, ?_, ih wk1 hat hT⟩
    intro fuel hf
    obtain ⟨f, rfl⟩ : ∃ f, fuel = f + 1 := ⟨fuel - 1, by omega⟩
    exact hnext f

end HamtWalk

namespace Node

/-- The turns that a walk at the pointers `cur` with the nodes `queue` waiting has left. -/
theorem turns_append (q : List Node) (n : Node) :
    ((q ++ [n]).map fun c => c.size + 1).sum = (q.map fun c => c.size + 1).sum + (n.size + 1) := by
  simp

end Node

namespace HamtWalk

/-- From any state of the walk on, `next` yields the entries in the order of `walk`. -/
theorem yields_walk (R : CborReader) (ipld : Hash256 → Option Bytes) :
    ∀ (fuel : Nat) (cur : Node) (q : List Node) (wk : HamtWalk),
    cur.size + (q.map fun c => c.size + 1).sum < fuel → At R ipld wk [] cur q →
    Yields R (Node.walk fuel cur q) wk := by
  intro fuel
  induction fuel with
  | zero =>
    intro cur q wk h _
    omega
  | succ fuel ih =>
    intro cur q wk hfuel hat
    cases cur with
    | done =>
      cases q with
      | nil =>
        exact ⟨1, wk, fun f hf => by
          obtain ⟨f, rfl⟩ : ∃ g, f = g + 1 := ⟨f - 1, by omega⟩
          exact next_end R ipld wk hat f⟩
      | cons n q =>
        obtain ⟨wk1, hat1, hstep⟩ := next_load R ipld wk n q hat
        refine yields_turn R _ wk wk1 hstep (ih n q wk1 ?_ hat1)
        simp only [Node.size, List.map_cons, List.sum_cons] at hfuel
        omega
    | link child rest =>
      obtain ⟨wk1, hat1, hstep⟩ := next_link R ipld wk child rest q hat
      refine yields_turn R _ wk wk1 hstep (ih rest (q ++ [child]) wk1 ?_ hat1)
      rw [Node.turns_append]
      simp only [Node.size] at hfuel
      omega
    | bucket es rest =>
      obtain ⟨wk1, hat1, hstep⟩ := next_bucket R ipld wk es rest q hat
      refine yields_turn R _ wk wk1 hstep ?_
      refine yields_entries R ipld _ rest q es wk1 hat1 fun wk2 hat2 => ih rest q wk2 ?_ hat2
      simp only [Node.size] at hfuel
      omega

end HamtWalk

namespace Node

/-- The walk visits every entry once: its entries are those of the node at hand, of the
nodes that wait and of every node below them, in another order. -/
theorem walk_perm : ∀ (fuel : Nat) (cur : Node) (q : List Node),
    cur.size + (q.map fun c => c.size + 1).sum < fuel →
    (walk fuel cur q).Perm (cur.entries ++ q.flatMap entries) := by
  intro fuel
  induction fuel with
  | zero =>
    intro cur q h
    omega
  | succ fuel ih =>
    intro cur q hfuel
    cases cur with
    | done =>
      cases q with
      | nil => exact List.Perm.refl _
      | cons n q =>
        have := ih n q (by
          simp only [size, List.map_cons, List.sum_cons] at hfuel
          omega)
        simpa [walk, entries] using this
    | link child rest =>
      have := ih rest (q ++ [child]) (by
        rw [turns_append]
        simp only [size] at hfuel
        omega)
      refine this.trans ?_
      simp only [List.flatMap_append, List.flatMap_cons, List.flatMap_nil, List.append_nil,
        entries]
      have h1 : (rest.entries ++ q.flatMap entries ++ child.entries).Perm
          (child.entries ++ (rest.entries ++ q.flatMap entries)) := List.perm_append_comm
      simpa [List.append_assoc] using h1
    | bucket es rest =>
      have := ih rest q (by
        simp only [size] at hfuel
        omega)
      simp only [walk, entries, List.append_assoc]
      exact List.Perm.append_left es this

end Node

end fc.codec.hamt

namespace fc.vm

open StateTreeImpl

/-! ## Transactions of the state tree -/

/-- C3. For every state tree, addresses `a`, `b` and actors `x`, `y`: after
`txBegin(); set(a,x); set(b,y); txRevert()` the calls `tryGet(a)` and `tryGet(b)` return
what they returned before `txBegin()`.  Stated twice: each read compared with the same read
on the state before `txBegin`, and for the reads made one after the other before and after
(a `tryGet` may write its cache).  It holds whether or not the two `set` calls succeed. -/
theorem txRevert_restores_tryGet (s : StateTreeImpl) (a b : Address) (x y : Actor) :
    ((((s.txBegin.set a x).2.set b y).2.txRevert.tryGet a).1 = (s.tryGet a).1
      ∧ (((s.txBegin.set a x).2.set b y).2.txRevert.tryGet b).1 = (s.tryGet b).1)
    ∧
    (let before_a := s.tryGet a
     let before_b := before_a.2.tryGet b
     let reverted := ((before_b.2.txBegin.set a x).2.set b y).2.txRevert
     let after_a := reverted.tryGet a
     let after_b := after_a.2.tryGet b
     after_a.1 = before_a.1 ∧ after_b.1 = before_b.1) := by
  have key : ∀ s0 : StateTreeImpl,
      ((s0.txBegin.set a x).2.set b y).2.txRevert = s0.txBegin := fun s0 =>
    txRevert_of_sameBelow ((set_sameBelow _ a x).transB (set_sameBelow _ b y))
  refine ⟨⟨?_, ?_⟩, ?_⟩
  · rw [key, tryGet_fst, tryGet_fst]
    exact (txBegin_sameView s).viewGet_eq a
  · rw [key, tryGet_fst, tryGet_fst]
    exact (txBegin_sameView s).viewGet_eq b
  · simp only
    rw [key]
    have h1 := tryGet_sameView s a
    have h2 := tryGet_sameView (s.tryGet a).2 b
    have h3 := txBegin_sameView ((s.tryGet a).2.tryGet b).2
    have h4 := tryGet_sameView ((s.tryGet a).2.tryGet b).2.txBegin a
    constructor
    · rw [tryGet_fst, tryGet_fst]
      exact ((h1.transV h2).transV h3).viewGet_eq a
    · rw [tryGet_fst, tryGet_fst]
      exact ((h2.transV h3).transV h4).viewGet_eq b

/-- C4. For every state tree with at least two layers (top layer `s.tx_back`, its parent
`parent`): `txEnd()` succeeds, leaves one layer less, and `tryGet(id)` returns after it what
it returned before it, for every actor id.  The merged layer holds the writes of the
committed layer over those of the parent, and records a removal when the committed layer
records it, or when the parent records it and the committed layer does not write the id. -/
theorem txEnd_preserves_tryGet (s : StateTreeImpl) (parent : Tx) (rest : List Tx)
    (h : s.tx_lower = parent :: rest) :
    ∃ s', s.txEnd = some s' ∧ s'.size + 1 = s.size
      ∧ (∀ id : ActorId, (s'.tryGet (Address.id id)).1 = (s.tryGet (Address.id id)).1)
      ∧ (∀ id : ActorId, s'.tx_back.actors.lookup id
          = match s.tx_back.actors.lookup id with
            | some actor => some actor
            | none => parent.actors.lookup id)
      ∧ (∀ id : ActorId, id ∈ s'.tx_back.removed
          ↔ id ∈ s.tx_back.removed
            ∨ (id ∈ parent.removed ∧ s.tx_back.actors.lookup id = none)) := by
  refine ⟨{ s with tx_back := mergeTx s.tx_back parent, tx_lower := rest }, ?_, ?_, ?_, ?_, ?_⟩
  · simp [txEnd, h]
  · simp [size, h]
  · intro id
    rw [tryGet_fst, tryGet_fst]
    simp only [viewGet, viewLookup, Address.isId, if_true, Address.getId, viewActor, tx_, h,
      mergeTx_scanActors]
  · exact mergeTx_actors _ _
  · exact mergeTx_removed _ _

/-- C4, exercised on a tree whose top layer writes actor 5 and removes actor 6 over a parent
that removes actor 5 and writes actor 6. -/
theorem txEnd_preserves_tryGet_witness :
    Examples.tree2.tx_lower = [Examples.parentLayer]
      ∧ ∃ s', Examples.tree2.txEnd = some s' ∧ s'.size + 1 = Examples.tree2.size
        ∧ (∀ id : ActorId,
            (s'.tryGet (Address.id id)).1 = (Examples.tree2.tryGet (Address.id id)).1)
        ∧ (∀ id : ActorId, s'.tx_back.actors.lookup id
            = match Examples.tree2.tx_back.actors.lookup id with
              | some actor => some actor
              | none => Examples.parentLayer.actors.lookup id)
        ∧ (∀ id : ActorId, id ∈ s'.tx_back.removed
            ↔ id ∈ Examples.tree2.tx_back.removed
              ∨ (id ∈ Examples.parentLayer.removed
                  ∧ Examples.tree2.tx_back.actors.lookup id = none)) :=
  ⟨rfl, txEnd_preserves_tryGet Examples.tree2 Examples.parentLayer [] rfl⟩

end fc.vm

namespace fc.vm

open StateTreeImpl

/-! ## Sends inside a transaction -/

/-- C5. Whenever `Execution::sendWithRevert(message)` returns, its result is the result of
the inner `send` (run on the state tree after `txBegin`) and the transaction stack has the
depth it had before the call; and when that result is an error, the state tree is the one
before the call, so that `tryGet` returns for every actor id what it returned before: every
write and removal made during the send, nested sends included, is discarded. -/
theorem sendWithRevert_failure_discards (env : Env) (fuel : Nat) (ex : Execution)
    (message : UnsignedMessage) (out : Except Error Bytes × Execution)
    (h : Execution.sendWithRevertN env fuel ex message = .done out) :
    (∃ ex1, Execution.send env fuel { ex with state_tree := ex.state_tree.txBegin } message 0
        = .done (out.1, ex1))
      ∧ out.2.state_tree.size = ex.state_tree.size
      ∧ ∀ e, out.1 = .error e →
          out.2.state_tree = ex.state_tree
            ∧ ∀ id : ActorId, (out.2.state_tree.tryGet (Address.id id)).1
                = (ex.state_tree.tryGet (Address.id id)).1 := by
  have hs := Run.safe_of_eq
    (Execution.sendWithRevert_safe (fun ex m => Execution.send env fuel ex m 0)
      (fun ex m => Execution.send_safe env fuel ex m 0) ex message) h
  obtain ⟨hbelow, herr, hinner⟩ := hs
  refine ⟨hinner, ?_, ?_⟩
  · simp [size, hbelow.1]
  · intro e he
    have heq := herr e he
    exact ⟨heq, fun id => by rw [heq]⟩

/-- C5, exercised on a send whose actor code overwrites actor 101 and then fails: the error
is returned and the state tree is the one before the call. -/
theorem sendWithRevert_failure_discards_witness :
    Execution.sendWithRevertN Examples.envFail 1 Examples.exec0 Examples.msgCall
        = .done Examples.sentFail
      ∧ Examples.sentFail.1 = .error (Error.exitCode (VMExitCode.other 42))
      ∧ (∃ ex1, Execution.send Examples.envFail 1
            { Examples.exec0 with state_tree := Examples.exec0.state_tree.txBegin }
            Examples.msgCall 0 = .done (Examples.sentFail.1, ex1))
      ∧ Examples.sentFail.2.state_tree.size = Examples.exec0.state_tree.size
      ∧ ∀ e, Examples.sentFail.1 = .error e →
          Examples.sentFail.2.state_tree = Examples.exec0.state_tree
            ∧ ∀ id : ActorId, (Examples.sentFail.2.state_tree.tryGet (Address.id id)).1
                = (Examples.exec0.state_tree.tryGet (Address.id id)).1 :=
  ⟨rfl, rfl,
    sendWithRevert_failure_discards Examples.envFail 1 Examples.exec0 Examples.msgCall
      Examples.sentFail rfl⟩

end fc.vm

namespace fc.vm

open StateTreeImpl

/-! ## Gas settlement of `applyMessage` -/

/-- C2. With a non-negative parent base fee and a non-negative fee cap, `applyMessage` never
fails the assertion `locked >= 0` ("gas math wrong"), whatever the gas premium and with or
without the base-fee exemption; and for every `0 <= used <= gas_limit` the base-fee burn,
the reward and the overestimation burn together do not exceed the reserve
`gas_limit * gas_fee_cap`, so that the remainder refunded to the sender is not negative. -/
theorem applyMessage_gas_math_holds (env : Env) (fuel : Nat) (st : StateTreeImpl)
    (message : UnsignedMessage) (size : Nat)
    (hb : 0 ≤ env.parentBaseFee) (hc : 0 ≤ message.gas_fee_cap) :
    Env.applyMessage env fuel st message size ≠ .assertFailed Assertion.gasMathWrong
      ∧ ∀ (used : Int) (no_fee : Bool), 0 ≤ used → used ≤ message.gas_limit →
          0 ≤ message.gas_limit * message.gas_fee_cap
              - (if no_fee then 0 else min env.parentBaseFee message.gas_fee_cap * used)
              - min message.gas_premium
                  (message.gas_fee_cap - min env.parentBaseFee message.gas_fee_cap)
                * message.gas_limit
              - min env.parentBaseFee message.gas_fee_cap
                * Env.gas_burned message.gas_limit used :=
  ⟨Env.applyMessage_ne_gasMathWrong env fuel st message size hb hc,
    fun used no_fee h0 h1 =>
      Env.settlement_within_reserve message.gas_limit used env.parentBaseFee
        message.gas_fee_cap message.gas_premium no_fee h0 h1 hb hc⟩

/-- C2, exercised on the transfer of `Examples.msgSend` (base fee 1, fee cap 2). -/
theorem applyMessage_gas_math_holds_witness :
    (0 : Int) ≤ Examples.envOk.parentBaseFee ∧ (0 : Int) ≤ Examples.msgSend.gas_fee_cap
      ∧ Env.applyMessage Examples.envOk 1 Examples.tree0 Examples.msgSend 0
          ≠ .assertFailed Assertion.gasMathWrong
      ∧ ∀ (used : Int) (no_fee : Bool), 0 ≤ used → used ≤ Examples.msgSend.gas_limit →
          0 ≤ Examples.msgSend.gas_limit * Examples.msgSend.gas_fee_cap
              - (if no_fee then 0
                  else min Examples.envOk.parentBaseFee Examples.msgSend.gas_fee_cap * used)
              - min Examples.msgSend.gas_premium
                  (Examples.msgSend.gas_fee_cap
                    - min Examples.envOk.parentBaseFee Examples.msgSend.gas_fee_cap)
                * Examples.msgSend.gas_limit
              - min Examples.envOk.parentBaseFee Examples.msgSend.gas_fee_cap
                * Env.gas_burned Examples.msgSend.gas_limit used :=
  ⟨by decide, by decide,
    applyMessage_gas_math_holds Examples.envOk 1 Examples.tree0 Examples.msgSend 0
      (by decide) (by decide)⟩

/-- C6. For `used > 0`, with `over` the value the code computes for
`limit - 11 * used / 10`: when `over >= 0` the gas burned for overestimation is
`((limit - used) * min(used, over)) / used` with the division truncating toward zero, and
when `over < 0` it is 0.  As long as `11 * used` stays within `int64_t`, `over` is
`limit - (11 * used) / 10` in integer arithmetic, and `over >= 0` then forces
`used <= limit`.  For `used <= limit` the dividend is not negative and rounding down gives
the same quotient: the result does not depend on how the division rounds. -/
theorem gas_burned_formula (limit used : Int) (hused : 0 < used) :
    (0 ≤ Env.over limit used →
        Env.gas_burned limit used
          = Int.tdiv ((limit - used) * min used (Env.over limit used)) used)
      ∧ (Env.over limit used < 0 → Env.gas_burned limit used = 0)
      ∧ (0 < limit → limit < 2 ^ 63 → 11 * used < 2 ^ 63 →
          Env.over limit used = limit - Int.tdiv (11 * used) 10)
      ∧ (used ≤ limit → 0 ≤ Env.over limit used →
          Env.gas_burned limit used = (limit - used) * min used (Env.over limit used) / used)
      ∧ (0 < limit → limit < 2 ^ 63 → 11 * used < 2 ^ 63 → 0 ≤ Env.over limit used →
          used ≤ limit) := by
  have hne : used ≠ 0 := ne_of_gt hused
  have hburn : 0 ≤ Env.over limit used →
      Env.gas_burned limit used
        = Int.tdiv ((limit - used) * min used (Env.over limit used)) used := by
    intro hover
    unfold Env.gas_burned
    rw [if_neg hne, if_neg (not_lt.mpr hover)]
    rfl
  have hover_eq : 0 < limit → limit < 2 ^ 63 → 11 * used < 2 ^ 63 →
      Env.over limit used = limit - Int.tdiv (11 * used) 10 := by
    intro h1 h2 h3
    unfold Env.over
    have hq0 : 0 ≤ Int.tdiv (11 * used) 10 :=
      Int.tdiv_nonneg (by linarith) (by norm_num)
    have hqle : Int.tdiv (11 * used) 10 ≤ 11 * used := by
      rw [Int.tdiv_eq_ediv (by linarith) (by norm_num)]
      exact Int.ediv_le_self _ (by linarith)
    rw [Env.wrapInt64_of_range (11 * used) (by norm_num; linarith) h3]
    apply Env.wrapInt64_of_range
    · norm_num at h2 h3 ⊢
      linarith
    · linarith
  refine ⟨hburn, ?_, hover_eq, ?_, ?_⟩
  · intro hover
    unfold Env.gas_burned
    rw [if_neg hne, if_pos hover]
  · intro hle hover
    rw [hburn hover]
    apply Int.tdiv_eq_ediv _ (le_of_lt hused)
    exact Int.mul_nonneg (by linarith) (le_min (le_of_lt hused) hover)
  · intro h1 h2 h3 hover
    rw [hover_eq h1 h2 h3, Int.tdiv_eq_ediv (by linarith) (by norm_num)] at hover
    have hq : used ≤ 11 * used / 10 := by omega
    linarith

/-- C6, exercised with gas limit 1000: 15 gas used gives `over = 984` and a burn of 985,
950 gas used gives `over = -45` and no burn. -/
theorem gas_burned_formula_witness :
    (0 : Int) < 15
      ∧ Env.over 1000 15 = 984 ∧ Env.gas_burned 1000 15 = 985
      ∧ Env.over 1000 950 = -45 ∧ Env.gas_burned 1000 950 = 0
      ∧ (0 ≤ Env.over 1000 15 →
          Env.gas_burned 1000 15 = Int.tdiv ((1000 - 15) * min 15 (Env.over 1000 15)) 15)
      ∧ (Env.over 1000 15 < 0 → Env.gas_burned 1000 15 = 0)
      ∧ ((0 : Int) < 1000 → (1000 : Int) < 2 ^ 63 → (11 : Int) * 15 < 2 ^ 63 →
          Env.over 1000 15 = 1000 - Int.tdiv (11 * 15) 10)
      ∧ ((15 : Int) ≤ 1000 → 0 ≤ Env.over 1000 15 →
          Env.gas_burned 1000 15 = (1000 - 15) * min 15 (Env.over 1000 15) / 15)
      ∧ ((0 : Int) < 1000 → (1000 : Int) < 2 ^ 63 → (11 : Int) * 15 < 2 ^ 63 →
          0 ≤ Env.over 1000 15 → (15 : Int) ≤ 1000) :=
  ⟨by decide, by decide, by decide, by decide, by decide,
    gas_burned_formula 1000 15 (by decide)⟩

end fc.vm

namespace fc.vm

open StateTreeImpl

end fc.vm

namespace fc.vm

open StateTreeImpl

/-! ## The early returns of `applyMessage` -/

/-- C9 as stated fails: on a state tree whose read of the sender's actor fails (here the
HAMT read of actor 100 returns an error), with `gas_limit > 0` and
`onChainMessage(size) <= gas_limit`, the message does not pass sender validation and yet
`applyMessage` returns the error of the read, not a result with an exit code. -/
theorem sender_lookup_error_counterexample :
    (0 : Int) < Examples.msgSend.gas_limit
      ∧ Examples.envOk.pricelist.onChainMessage 0 ≤ Examples.msgSend.gas_limit
      ∧ (Examples.treeErr.tryGet Examples.msgSend.from_).1 = .error (Error.other 7)
      ∧ (Env.validateSender Examples.envOk Examples.msgSend Examples.treeErr).1
          = .error (Error.other 7)
      ∧ ∃ r, Env.applyMessage Examples.envOk 1 Examples.treeErr Examples.msgSend 0 = .done r
          ∧ r.result = .error (Error.other 7) :=
  ⟨by decide, by decide, rfl, rfl, _, rfl, rfl⟩

/-- C9, amended. With `gas_limit > 0` and `onChainMessage(size) <= gas_limit`:
the message passes sender validation iff `tryGet(from)` returns an actor whose code is an
account actor, whose nonce is `message.nonce` and whose balance is at least
`gas_limit * gas_fee_cap`, and `applyMessage` then goes on with the validated sender;
it is rejected with `SysErrSenderInvalid` iff `tryGet(from)` returns no actor or one that is
not an account actor, and with `SysErrSenderStateInvalid` iff the actor is an account actor
with another nonce or a smaller balance; a rejection is returned as a result with that exit
code, penalty `gas_limit * parent_base_fee`, no reward, and with every `tryGet` answering as
before the call; and when `tryGet(from)` itself fails, `applyMessage` returns that error,
again with every `tryGet` answering as before. -/
theorem sender_validation (env : Env) (fuel : Nat) (st : StateTreeImpl)
    (message : UnsignedMessage) (size : Nat) (hlimit : 0 < message.gas_limit)
    (hcost : env.pricelist.onChainMessage size ≤ message.gas_limit) :
    (∀ sender, (Env.validateSender env message st).1 = .ok (.ok sender)
        ↔ (st.tryGet message.from_).1 = .ok (some sender)
          ∧ env.address_matcher.isAccountActor sender.code = true
          ∧ message.nonce = sender.nonce
          ∧ message.gas_limit * message.gas_fee_cap ≤ sender.balance)
      ∧ (∀ sender, (Env.validateSender env message st).1 = .ok (.ok sender) →
          Env.applyMessage env fuel st message size
            = Env.applyValidated env fuel (Env.validateSender env message st).2 message
                (env.pricelist.onChainMessage size))
      ∧ (∀ exit_code, (Env.validateSender env message st).1 = .ok (.error exit_code)
          ↔ ((st.tryGet message.from_).1 = .ok none
                ∧ exit_code = VMExitCode.kSysErrSenderInvalid)
            ∨ ∃ sender, (st.tryGet message.from_).1 = .ok (some sender)
                ∧ ((env.address_matcher.isAccountActor sender.code = false
                      ∧ exit_code = VMExitCode.kSysErrSenderInvalid)
                  ∨ (env.address_matcher.isAccountActor sender.code = true
                      ∧ (message.nonce ≠ sender.nonce
                          ∨ sender.balance < message.gas_limit * message.gas_fee_cap)
                      ∧ exit_code = VMExitCode.kSysErrSenderStateInvalid)))
      ∧ (∀ exit_code, (Env.validateSender env message st).1 = .ok (.error exit_code) →
          ∃ r, Env.applyMessage env fuel st message size = .done r
            ∧ r.result
                = .ok ⟨⟨exit_code, [], 0⟩, message.gas_limit * env.parentBaseFee, 0⟩
            ∧ r.locked = 0 ∧ r.state_tree.size = st.size
            ∧ ∀ a : Address, (r.state_tree.tryGet a).1 = (st.tryGet a).1)
      ∧ ∀ e, (st.tryGet message.from_).1 = .error e →
          ∃ r, Env.applyMessage env fuel st message size = .done r
            ∧ r.result = .error e
            ∧ ∀ a : Address, (r.state_tree.tryGet a).1 = (st.tryGet a).1 := by
  have hfst := Env.validateSender_fst env message st
  obtain ⟨hview, hbelow⟩ := Env.validateSender_sameView env message st
  have hsame : ∀ a : Address,
      ((Env.validateSender env message st).2.tryGet a).1 = (st.tryGet a).1 := by
    intro a
    rw [tryGet_fst, tryGet_fst]
    exact hview.viewGet_eq a
  have hnl : ¬ message.gas_limit ≤ 0 := not_le.mpr hlimit
  have hnc : ¬ env.pricelist.onChainMessage size > message.gas_limit := not_lt.mpr hcost
  refine ⟨?_, ?_, ?_, ?_, ?_⟩
  · intro sender
    rw [hfst]
    rcases (st.tryGet message.from_).1 with e | _ | s
    · simp
    · simp
    · by_cases h1 : env.address_matcher.isAccountActor s.code = true
      · by_cases h2 : message.nonce = s.nonce
        · by_cases h3 : s.balance < message.gas_limit * message.gas_fee_cap
          · simp only [h1, h2, h3, Bool.not_true, Bool.false_eq_true, if_false, ne_eq,
              not_true_eq_false, if_true, Except.ok.injEq, Option.some.injEq]
            constructor
            · intro h; cases h
            · rintro ⟨rfl, -, -, h4⟩
              exact absurd h3 (not_lt.mpr h4)
          · simp only [h1, h2, h3, Bool.not_true, Bool.false_eq_true, if_false, ne_eq,
              not_true_eq_false, Except.ok.injEq, Option.some.injEq]
            constructor
            · rintro rfl
              exact ⟨rfl, h1, rfl, not_lt.mp h3⟩
            · rintro ⟨rfl, -⟩
              rfl
        · simp only [h1, h2, Bool.not_true, Bool.false_eq_true, if_false, ne_eq,
            not_false_eq_true, if_true, Except.ok.injEq, Option.some.injEq]
          constructor
          · intro h; cases h
          · rintro ⟨rfl, -, h4, -⟩
            exact absurd h4 h2
      · have h1' : env.address_matcher.isAccountActor s.code = false := by simpa using h1
        simp only [h1', Bool.not_false, if_true, Except.ok.injEq, Option.some.injEq]
        constructor
        · intro h; cases h
        · rintro ⟨rfl, h4, -⟩
          rw [h1'] at h4
          cases h4
  · intro sender hv
    unfold Env.applyMessage
    rw [if_neg hnl]
    dsimp only
    rw [if_neg hnc]
    generalize Env.validateSender env message st = p at hv
    obtain ⟨r, st1⟩ := p
    simp only at hv
    subst hv
    rfl
  · intro exit_code
    rw [hfst]
    rcases (st.tryGet message.from_).1 with e | _ | s
    · simp
    · simp only [Except.ok.injEq, Except.error.injEq, true_and, false_and, exists_false,
        or_false, reduceCtorEq]
      exact eq_comm
    · by_cases h1 : env.address_matcher.isAccountActor s.code = true
      · by_cases h2 : message.nonce = s.nonce
        · by_cases h3 : s.balance < message.gas_limit * message.gas_fee_cap
          · simp only [h1, h2, h3, Bool.not_true, Bool.false_eq_true, if_false, ne_eq,
              not_true_eq_false, if_true, Except.ok.injEq, Except.error.injEq,
              Option.some.injEq, reduceCtorEq, false_and, false_or, or_true, true_and,
              exists_eq_left']
            exact eq_comm
          · simp [h1, h2, h3]
        · simp only [h1, h2, Bool.not_true, Bool.false_eq_true, if_false, ne_eq,
            not_false_eq_true, if_true, Except.ok.injEq, Except.error.injEq,
            Option.some.injEq, reduceCtorEq, false_and, false_or, true_or, true_and,
            exists_eq_left']
          exact eq_comm
      · have h1' : env.address_matcher.isAccountActor s.code = false := by simpa using h1
        simp only [h1', Bool.not_false, if_true, Except.ok.injEq, Except.error.injEq,
          Option.some.injEq, reduceCtorEq, false_and, false_or, or_false, true_and,
          exists_eq_left']
        exact eq_comm
  · intro exit_code hv
    unfold Env.applyMessage
    rw [if_neg hnl]
    dsimp only
    rw [if_neg hnc]
    generalize Env.validateSender env message st = p at hv hsame hbelow
    obtain ⟨r, st1⟩ := p
    simp only at hv
    subst hv
    have hlow : st1.tx_lower = st.tx_lower := hbelow.1
    exact ⟨_, rfl, rfl, rfl, by simp [StateTreeImpl.size, hlow], hsame⟩
  · intro e he
    have hv : (Env.validateSender env message st).1 = .error e := by
      rw [hfst, he]
    unfold Env.applyMessage
    rw [if_neg hnl]
    dsimp only
    rw [if_neg hnc]
    generalize Env.validateSender env message st = p at hv hsame
    obtain ⟨r, st1⟩ := p
    simp only at hv
    subst hv
    exact ⟨_, rfl, rfl, hsame⟩

/-- C9, amended, exercised on a message whose nonce 3 is not the sender's nonce 0: it is
rejected with `SysErrSenderStateInvalid` and penalty `1000 * 1`. -/
theorem sender_validation_witness :
    (0 : Int) < Examples.msgStale.gas_limit
      ∧ Examples.envOk.pricelist.onChainMessage 0 ≤ Examples.msgStale.gas_limit
      ∧ (Env.validateSender Examples.envOk Examples.msgStale Examples.tree0).1
          = .ok (.error VMExitCode.kSysErrSenderStateInvalid)
      ∧ ∃ r, Env.applyMessage Examples.envOk 1 Examples.tree0 Examples.msgStale 0 = .done r
          ∧ r.result = .ok ⟨⟨VMExitCode.kSysErrSenderStateInvalid, [], 0⟩, 1000, 0⟩
          ∧ r.locked = 0 ∧ r.state_tree.size = Examples.tree0.size
          ∧ ∀ a : Address, (r.state_tree.tryGet a).1 = (Examples.tree0.tryGet a).1 :=
  ⟨by decide, by decide, rfl,
    (sender_validation Examples.envOk 1 Examples.tree0 Examples.msgStale 0 (by decide)
      (by decide)).2.2.2.1 VMExitCode.kSysErrSenderStateInvalid rfl⟩

/-- C10. For every message with `gas_limit > 0` whose price on chain `onChainMessage(size)`
exceeds `gas_limit`, `applyMessage` returns a result with exit code `SysErrOutOfGas`, empty
return value, no gas used, penalty `onChainMessage(size) * parent_base_fee` and no reward,
and the state tree is the one it was given: no actor is read or written. -/
theorem out_of_gas_on_chain (env : Env) (fuel : Nat) (st : StateTreeImpl)
    (message : UnsignedMessage) (size : Nat) (hlimit : 0 < message.gas_limit)
    (hcost : message.gas_limit < env.pricelist.onChainMessage size) :
    Env.applyMessage env fuel st message size
      = .done ⟨.ok ⟨⟨VMExitCode.kSysErrOutOfGas, [], 0⟩,
            env.pricelist.onChainMessage size * env.parentBaseFee, 0⟩, 0, st⟩ := by
  unfold Env.applyMessage
  rw [if_neg (not_le.mpr hlimit)]
  dsimp only
  rw [if_pos hcost]
  rfl

/-- C10, exercised on a message with gas limit 5 where the message costs 10 on chain. -/
theorem out_of_gas_on_chain_witness :
    (0 : Int) < Examples.msgSmall.gas_limit
      ∧ Examples.msgSmall.gas_limit < Examples.envOk.pricelist.onChainMessage 0
      ∧ Env.applyMessage Examples.envOk 1 Examples.tree0 Examples.msgSmall 0
          = .done ⟨.ok ⟨⟨VMExitCode.kSysErrOutOfGas, [], 0⟩, 10, 0⟩, 0, Examples.tree0⟩ :=
  ⟨by decide, by decide,
    out_of_gas_on_chain Examples.envOk 1 Examples.tree0 Examples.msgSmall 0 (by decide)
      (by decide)⟩

end fc.vm

namespace fc.vm

open StateTreeImpl

/-! ## Charging gas -/

/-- C12. After every `Execution::chargeGas(amount)` call `gas_used <= gas_limit` holds and
`gas_limit` is unchanged; when the call fails, the error is the abort of the non-fatal exit
code `SysErrOutOfGas` (`catchAbort` turns it into that exit code) and `gas_used` is
`gas_limit`.  When `gas_used + amount` is representable as `int64_t`, the call fails iff
`gas_used + amount > gas_limit`, and otherwise succeeds with `gas_used` increased by exactly
`amount`. -/
theorem chargeGas_spec (ex : Execution) (amount : Int) :
    (ex.chargeGas amount).2.gas_used ≤ ex.gas_limit
      ∧ (ex.chargeGas amount).2.gas_limit = ex.gas_limit
      ∧ (∀ e, (ex.chargeGas amount).1 = .error e →
          e = asAbort VMExitCode.kSysErrOutOfGas
            ∧ catchAbort (ex.chargeGas amount).1
                = .error (Error.exitCode VMExitCode.kSysErrOutOfGas)
            ∧ VMExitCode.kSysErrOutOfGas ≠ VMExitCode.kFatal
            ∧ (ex.chargeGas amount).2.gas_used = ex.gas_limit)
      ∧ (-2 ^ 63 ≤ ex.gas_used + amount → ex.gas_used + amount < 2 ^ 63 →
          ((ex.chargeGas amount).1 = .error (asAbort VMExitCode.kSysErrOutOfGas)
              ↔ ex.gas_limit < ex.gas_used + amount)
            ∧ ((ex.chargeGas amount).1 = .ok () ↔ ex.gas_used + amount ≤ ex.gas_limit)
            ∧ ((ex.chargeGas amount).1 = .ok () →
                (ex.chargeGas amount).2.gas_used = ex.gas_used + amount)) := by
  obtain ⟨h1, h2, h3⟩ := Execution.chargeGas_bound ex amount
  refine ⟨h1, h2, ?_, ?_⟩
  · intro e he
    obtain ⟨h4, h5⟩ := h3 e he
    refine ⟨h4, ?_, by decide, h5⟩
    rw [he, h4]
    rfl
  · intro hlo hhi
    have hw : wrapInt64 (ex.gas_used + amount) = ex.gas_used + amount :=
      Env.wrapInt64_of_range _ hlo hhi
    simp only [Execution.chargeGas, hw]
    by_cases hgt : ex.gas_used + amount > ex.gas_limit
    · simp only [if_pos hgt, true_iff, reduceCtorEq, false_iff, not_le, false_implies,
        and_true]
      exact ⟨hgt, hgt⟩
    · simp only [if_neg hgt, reduceCtorEq, false_iff, not_lt, true_iff, forall_const,
        and_true]
      exact ⟨not_lt.mp hgt, not_lt.mp hgt⟩

/-- C12, exercised on an execution that has used 990 of 1000 gas: charging 10 succeeds and
gives 1000, charging 11 fails with the abort of `SysErrOutOfGas` and leaves 1000. -/
theorem chargeGas_spec_witness :
    Examples.execNearLimit.chargeGas 10 = (.ok (), ⟨Examples.tree0, 1000, 1000⟩)
      ∧ Examples.execNearLimit.chargeGas 11
          = (.error (asAbort VMExitCode.kSysErrOutOfGas), ⟨Examples.tree0, 1000, 1000⟩)
      ∧ (Examples.execNearLimit.chargeGas 11).2.gas_used ≤ Examples.execNearLimit.gas_limit
      ∧ ((-2 : Int) ^ 63 ≤ Examples.execNearLimit.gas_used + 11 →
          Examples.execNearLimit.gas_used + 11 < 2 ^ 63 →
          ((Examples.execNearLimit.chargeGas 11).1
                = .error (asAbort VMExitCode.kSysErrOutOfGas)
              ↔ Examples.execNearLimit.gas_limit < Examples.execNearLimit.gas_used + 11)
            ∧ ((Examples.execNearLimit.chargeGas 11).1 = .ok ()
                ↔ Examples.execNearLimit.gas_used + 11 ≤ Examples.execNearLimit.gas_limit)
            ∧ ((Examples.execNearLimit.chargeGas 11).1 = .ok () →
                (Examples.execNearLimit.chargeGas 11).2.gas_used
                  = Examples.execNearLimit.gas_used + 11)) :=
  ⟨rfl, rfl, (chargeGas_spec Examples.execNearLimit 11).1,
    (chargeGas_spec Examples.execNearLimit 11).2.2.2⟩

/-! ## Writes and removals of the state tree -/

/-- C17. For every state tree, address `a` that resolves to an id and actor `x`:
`set(a, x)` succeeds and `tryGet(a)` then returns `x`, whatever the layers hold, a pending
removal of that id in the top layer or in a lower layer included. -/
theorem set_then_tryGet (s : StateTreeImpl) (a id : Address) (x : Actor)
    (hres : (s.lookupId a).1 = .ok id) :
    (s.set a x).1 = .ok () ∧ ((s.set a x).2.tryGet a).1 = .ok (some x) := by
  have hfst : (s.set a x).1 = .ok () := by
    rw [set_fst, hres]
    rfl
  refine ⟨hfst, set_tryGet s (s.set a x).2 a x ?_⟩
  rw [← hfst]

/-- C17, exercised on a tree whose top layer records the removal of actor 6 and whose parent
layer records the removal of actor 5: a write of either id is read back. -/
theorem set_then_tryGet_witness :
    (Examples.tree2.lookupId (Address.id 6)).1 = .ok (Address.id 6)
      ∧ (Examples.tree2.tryGet (Address.id 6)).1 = .ok none
      ∧ (Examples.tree2.txBegin.tryGet (Address.id 5)).1 = .ok (some (Examples.account 2))
      ∧ (Examples.tree2.set (Address.id 6) (Examples.account 9)).1 = .ok ()
      ∧ ((Examples.tree2.set (Address.id 6) (Examples.account 9)).2.tryGet (Address.id 6)).1
          = .ok (some (Examples.account 9)) :=
  ⟨rfl, rfl, rfl, set_then_tryGet Examples.tree2 (Address.id 6) (Address.id 6)
    (Examples.account 9) rfl⟩

/-- C18. For every state tree and address `a` that resolves to an id: `remove(a)` succeeds
and `tryGet(a)` then returns no actor, also when the top layer or a lower layer holds an
actor for that id or the HAMT does: within a layer the removal is looked at first. -/
theorem remove_then_tryGet (s : StateTreeImpl) (a id : Address)
    (hres : (s.lookupId a).1 = .ok id) :
    (s.remove a).1 = .ok () ∧ ((s.remove a).2.tryGet a).1 = .ok none := by
  have hfst : (s.remove a).1 = .ok () := by
    rw [remove_fst, hres]
    rfl
  refine ⟨hfst, remove_tryGet s (s.remove a).2 a ?_⟩
  rw [← hfst]

/-- C18, exercised on a tree whose top layer holds actor 5 and whose HAMT holds actor 100:
after the removal neither is returned. -/
theorem remove_then_tryGet_witness :
    (Examples.tree2.lookupId (Address.id 5)).1 = .ok (Address.id 5)
      ∧ (Examples.tree2.tryGet (Address.id 5)).1 = .ok (some (Examples.account 2))
      ∧ (Examples.tree2.tryGet (Address.id 100)).1 = .ok (some (Examples.account 1000000))
      ∧ ((Examples.tree2.remove (Address.id 100)).2.tryGet (Address.id 100)).1 = .ok none
      ∧ (Examples.tree2.remove (Address.id 5)).1 = .ok ()
      ∧ ((Examples.tree2.remove (Address.id 5)).2.tryGet (Address.id 5)).1 = .ok none :=
  ⟨rfl, rfl, rfl, rfl, remove_then_tryGet Examples.tree2 (Address.id 5) (Address.id 5) rfl⟩

end fc.vm

namespace fc.vm

open StateTreeImpl Env

/-- C13: a receipt built by the settlement path (`finishApply`) from the execution `ex` has
`gas_used = min (max ex.gas_used 0) gas_limit`, so it lies between 0 and the gas limit; the
same bounds hold for every receipt `applyMessage` returns.  All gas of the embedded code is
charged through `chargeGas`, and `applyMessage` never fails the assertion `used <= limit`
("runtime charged gas over limit"). -/
theorem receipt_gas_used_clamped (env : Env) (fuel : Nat) (st : StateTreeImpl)
    (message : UnsignedMessage) (size : Nat) :
    (∀ (exit_code : VMExitCode) (ex : Execution) (l l' : Locals) (apply : Apply),
        finishApply env message exit_code ex l = .done (.ok apply, l') →
          apply.receipt.gas_used = min (max ex.gas_used 0) message.gas_limit
            ∧ 0 ≤ apply.receipt.gas_used ∧ apply.receipt.gas_used ≤ message.gas_limit)
      ∧ (∀ (r : Returned) (apply : Apply),
          applyMessage env fuel st message size = .done r → r.result = .ok apply →
            0 ≤ apply.receipt.gas_used ∧ apply.receipt.gas_used ≤ message.gas_limit)
      ∧ applyMessage env fuel st message size ≠ .assertFailed Assertion.chargedOverLimit := by
  have key : ∀ (exit_code : VMExitCode) (ex : Execution) (l l' : Locals) (apply : Apply),
      finishApply env message exit_code ex l = .done (.ok apply, l') →
        apply.receipt.gas_used = min (max ex.gas_used 0) message.gas_limit
          ∧ 0 ≤ apply.receipt.gas_used ∧ apply.receipt.gas_used ≤ message.gas_limit := by
    intro exit_code ex l l' apply h
    obtain ⟨-, h2, -, h4⟩ := finishApply_ok env message exit_code ex l l' apply h
    have hclamp : (if ex.gas_used < 0 then 0 else ex.gas_used) = max ex.gas_used 0 := by
      split
      · next hneg => exact (max_eq_right (le_of_lt hneg)).symm
      · next hpos => exact (max_eq_left (not_lt.mp hpos)).symm
    rw [hclamp] at h2 h4
    rw [h2]
    exact ⟨(min_eq_left h4).symm, le_max_right _ _, h4⟩
  refine ⟨key, ?_, ?_⟩
  · intro r apply h hres
    unfold applyMessage at h
    split at h
    · simp only [Run.done.injEq] at h
      subst h
      simp at hres
    · next hl =>
      have hlimit : (0 : Int) < message.gas_limit := not_le.mp hl
      dsimp only at h
      split at h
      · simp only [Run.done.injEq] at h
        subst h
        simp only [Except.ok.injEq] at hres
        subst hres
        exact ⟨le_refl _, le_of_lt hlimit⟩
      · generalize validateSender env message st = p at h
        obtain ⟨r0, st1⟩ := p
        rcases r0 with e | c | sender
        · simp only [Run.done.injEq] at h
          subst h
          simp at hres
        · simp only [Run.done.injEq] at h
          subst h
          simp only [Except.ok.injEq] at hres
          subst hres
          exact ⟨le_refl _, le_of_lt hlimit⟩
        · dsimp only at h
          obtain ⟨l1, l2, -, hs, -⟩ := applyValidated_ok env fuel st1 message _ r apply h hres
          obtain ⟨exit_code, ex, l0, hf⟩ := applyScope_ok env fuel message _ _ l2 apply hs
          exact (key exit_code ex l0 l2 apply hf).2
  · intro h
    have := Run.meets_assert (applyMessage_meets env fuel st message size) h
    cases this

/-- C20: `applyMessage` returns, on every path, a state tree whose transaction stack has the
depth it had on entry (nested sends of actor code run inside `sendWithRevert`), and it
never fails the assertion of `txEnd`, so the stack is never empty.  The same holds for any
sequence of `applyMessage` calls; started on a freshly constructed tree the sequence ends
with depth 1, where the assertion of `flush` holds. -/
theorem applyMessage_keeps_depth (env : Env) (fuel : Nat) (st : StateTreeImpl)
    (message : UnsignedMessage) (size : Nat) (msgs : List (UnsignedMessage × Nat)) :
    applyMessage env fuel st message size ≠ .assertFailed Assertion.txEndSize
      ∧ (∀ r : Returned, applyMessage env fuel st message size = .done r →
          r.state_tree.size = st.size ∧ 1 ≤ r.state_tree.size)
      ∧ applyMessages env fuel st msgs ≠ .assertFailed Assertion.txEndSize
      ∧ (∀ st' : StateTreeImpl, applyMessages env fuel st msgs = .done st' →
          st'.size = st.size ∧ 1 ≤ st'.size)
      ∧ (∀ (store : Store) (by_id : ActorId → Except Error (Option Actor))
          (io : HamtStore) (st' : StateTreeImpl),
          applyMessages env fuel (create store by_id) msgs = .done st' →
            st'.size = 1 ∧ (st'.flush io).isSome = true) := by
  refine ⟨?_, ?_, ?_, ?_, ?_⟩
  · intro h
    have := Run.meets_assert (applyMessage_meets env fuel st message size) h
    cases this
  · intro r h
    have hr := Run.meets_of_eq (applyMessage_meets env fuel st message size) h
    exact ⟨hr.2, Nat.succ_le_succ (Nat.zero_le _)⟩
  · intro h
    have := Run.meets_assert (applyMessages_meets env fuel msgs st) h
    cases this
  · intro st' h
    have hr := Run.meets_of_eq (applyMessages_meets env fuel msgs st) h
    exact ⟨hr, Nat.succ_le_succ (Nat.zero_le _)⟩
  · intro store by_id io st' h
    have hr := Run.meets_of_eq (applyMessages_meets env fuel msgs (create store by_id)) h
    have h1 : st'.size = 1 := hr
    exact ⟨h1, flush_isSome io st' h1⟩

end fc.vm

namespace fc.vm

open StateTreeImpl Env

/-- C11: when the send of an applied message succeeds with a non-empty return value and the
charge `onChainReturnValue(len)` would take `gas_used` above the gas limit, the scope of
`applyMessage` continues as the gas settlement with exit code `SysErrOutOfGas`, `used` equal
to the gas limit and the state tree as it was right after the sender was charged and the
transaction opened, so nothing the execution wrote remains; every receipt returned then is
`{SysErrOutOfGas, empty, gas_limit}`. -/
theorem return_value_out_of_gas (env : Env) (fuel : Nat) (st : StateTreeImpl)
    (message : UnsignedMessage) (msg_gas_cost : GasAmount) (l1 : Locals) (ret : Bytes)
    (ex : Execution)
    (hlimit : 0 < message.gas_limit)
    (hcharge : chargeSender message
        ⟨{ Apply.init with penalty := message.gas_limit * env.parentBaseFee }, 0, st⟩
      = (.ok (), l1))
    (hsend : Execution.send env fuel (Execution.make l1.state_tree.txBegin message) message
        msg_gas_cost = .done (.ok ret, ex))
    (hret : ret ≠ [])
    (hover : message.gas_limit < ex.gas_used + env.pricelist.onChainReturnValue ret.length)
    (hrange : ex.gas_used + env.pricelist.onChainReturnValue ret.length < 2 ^ 63) :
    applyScope env fuel message msg_gas_cost { l1 with state_tree := l1.state_tree.txBegin }
        = gasSettlement env message VMExitCode.kSysErrOutOfGas false message.gas_limit
            { l1 with state_tree := l1.state_tree.txBegin }
      ∧ ∀ (r : Returned) (apply : Apply),
          applyValidated env fuel st message msg_gas_cost = .done r → r.result = .ok apply →
            apply.receipt = ⟨VMExitCode.kSysErrOutOfGas, [], message.gas_limit⟩ := by
  have hsafe := Execution.send_safe_gas env fuel
    (Execution.make l1.state_tree.txBegin message) message msg_gas_cost
  rw [hsend] at hsafe
  obtain ⟨hb, hg⟩ := hsafe
  have hb' : SameBelow l1.state_tree.txBegin ex.state_tree := hb
  have hlim : ex.gas_limit = message.gas_limit := hg.1
  have happly : l1.apply.receipt.return_value = [] := by
    rw [(chargeSender_ok _ _ _ hcharge).2]
    rfl
  have hwrap : wrapInt64 (ex.gas_used + env.pricelist.onChainReturnValue ret.length)
      = ex.gas_used + env.pricelist.onChainReturnValue ret.length := by
    apply wrapInt64_of_range _ _ hrange
    have h0 : (0 : Int) < ex.gas_used + env.pricelist.onChainReturnValue ret.length :=
      lt_trans hlimit hover
    have h1 : (-2 ^ 63 : Int) ≤ 0 := by norm_num
    exact le_trans h1 (le_of_lt h0)
  have hcr : chargeReturnValue env ex ret
      = (.ok (VMExitCode.kSysErrOutOfGas, []), { ex with gas_used := ex.gas_limit }) := by
    unfold chargeReturnValue
    have hne : (!ret.isEmpty) = true := by
      cases ret with
      | nil => exact absurd rfl hret
      | cons b bs => rfl
    rw [if_pos hne]
    unfold Execution.chargeGas
    dsimp only
    rw [hwrap, if_pos (by rw [hlim]; exact hover)]
    rfl
  have hscope : applyScope env fuel message msg_gas_cost
        { l1 with state_tree := l1.state_tree.txBegin }
      = gasSettlement env message VMExitCode.kSysErrOutOfGas false message.gas_limit
          { l1 with state_tree := l1.state_tree.txBegin } := by
    rw [applyScope_send_ok env fuel message msg_gas_cost _ ret ex hsend, hcr]
    dsimp only
    unfold finishApply
    dsimp only
    rw [if_pos (by decide : VMExitCode.kSysErrOutOfGas ≠ VMExitCode.kOk),
      txRevert_of_sameBelow hb', hlim,
      if_neg (not_lt.mpr (le_of_lt hlimit))]
    have hno : noFee env message VMExitCode.kSysErrOutOfGas l1.state_tree.txBegin
        = (.ok false, l1.state_tree.txBegin) := by
      unfold noFee
      rw [if_neg]
      rintro ⟨-, h, -⟩
      cases h
    rw [hno]
    dsimp only
    congr 1
    obtain ⟨⟨⟨c, rv, g⟩, p, w⟩, lk, t⟩ := l1
    dsimp only at happly
    subst happly
    rfl
  refine ⟨hscope, ?_⟩
  intro r apply h hres
  obtain ⟨l1', l2, hc, hs, -⟩ := applyValidated_ok env fuel st message _ r apply h hres
  rw [hcharge] at hc
  simp only [Prod.mk.injEq, true_and] at hc
  subst hc
  rw [hscope] at hs
  obtain ⟨-, -, h3, h4, h5, -⟩ := gasSettlement_ok _ _ _ _ _ _ _ _ hs
  have hrec : apply.receipt
      = ⟨apply.receipt.exit_code, apply.receipt.return_value, apply.receipt.gas_used⟩ := rfl
  rw [hrec, h3, h4, h5, happly]

/-- Witness of C11: under `envOk` the call `msgTight` returns three bytes it cannot pay for,
and the receipt is `{SysErrOutOfGas, empty, 16}`. -/
theorem return_value_out_of_gas_witness :
    applyValidated Examples.envOk 2 Examples.tree0 Examples.msgTight 10
        = .done Examples.validatedTight
      ∧ (∃ apply, Examples.validatedTight.result = .ok apply
          ∧ apply.receipt = ⟨VMExitCode.kSysErrOutOfGas, [], 16⟩) :=
  ⟨rfl,
    match h : Examples.validatedTight.result with
    | .ok apply =>
      ⟨apply, rfl,
        (return_value_out_of_gas Examples.envOk 2 Examples.tree0 Examples.msgTight 10
          Examples.chargedTight [1, 2, 3] Examples.sentTight.2 (by decide) rfl rfl
          (by decide) (by decide) (by decide)).2 Examples.validatedTight apply rfl h⟩
    | .error e => by
      have h2 : Examples.validatedTight.result.isOk = true := by decide
      rw [h] at h2
      cases h2⟩

end fc.vm

namespace fc.vm

open StateTreeImpl Env

end fc.vm

namespace fc.vm

open StateTreeImpl Execution

end fc.vm

namespace fc.vm

open StateTreeImpl

/-- C19: a `flush` that succeeds ran on a tree with a single layer and leaves a HAMT that
holds every pending actor and none of the pending removals, that is the content a reader of
the tree saw before; the root CID is computed from that content.  On a tree of version 0 the
CID returned is this root itself; on a tree of version 1 or later it is the CID under which
the `StateRoot` with the tree's version, this root and the CID of the stored empty
`StateTreeInfo` was stored. -/
theorem flush_returns_root (io : HamtStore) (s s' : StateTreeImpl) (cid : CID)
    (h : s.flush io = some (.ok cid, s')) :
    s.size = 1
      ∧ (∀ id a, s.tx_back.actors.lookup id = some a → id ∉ s.tx_back.removed →
          s'.by_id id = .ok (some a))
      ∧ (∀ id, id ∈ s.tx_back.removed → s'.by_id id = .ok none)
      ∧ (∀ id, s'.by_id id = s.viewActor id)
      ∧ (s.version_ = 0 → io.hamtFlush s'.by_id = .ok cid)
      ∧ (s.version_ ≠ 0 → ∃ new_root info_cid,
          io.hamtFlush s'.by_id = .ok new_root ∧ io.setCborInfo = .ok info_cid
            ∧ io.setCborRoot ⟨s.version_, new_root, info_cid⟩ = .ok cid) := by
  unfold StateTreeImpl.flush at h
  split at h
  · simp at h
  · next hsize =>
    have hsz : s.size = 1 := not_not.mp hsize
    generalize h1 : flushActors io s.by_id (sortedActors s.tx_back.actors) = p1 at h
    obtain ⟨r1, c1⟩ := p1
    rcases r1 with e | u
    · simp at h
    · dsimp only at h
      generalize h2 : flushRemoved io c1 (sortedIds s.tx_back.removed) = p2 at h
      obtain ⟨r2, c2⟩ := p2
      rcases r2 with e | u
      · simp at h
      · dsimp only at h
        obtain ⟨ha1, ha2⟩ := flushActors_ok io _ _ c1 (sortedActors_nodupKeys _) h1
        obtain ⟨hr1, hr2⟩ := flushRemoved_ok io _ _ c2 h2
        have hrem : ∀ id, id ∈ s.tx_back.removed → c2 id = .ok none := fun id hid =>
          hr1 id ((mem_sortedIds _ _).mpr hid)
        have hact : ∀ id a, s.tx_back.actors.lookup id = some a → id ∉ s.tx_back.removed →
            c2 id = .ok (some a) := fun id a hl hid => by
          rw [hr2 id (fun hm => hid ((mem_sortedIds _ _).mp hm))]
          exact ha1 id a ((mem_sortedActors _ _ _).mpr hl)
        have hview : ∀ id, c2 id = s.viewActor id := by
          intro id
          rw [viewActor_single s hsz]
          by_cases hid : id ∈ s.tx_back.removed
          · rw [if_pos hid]
            exact hrem id hid
          · rw [if_neg hid]
            cases hl : s.tx_back.actors.lookup id with
            | some a => exact hact id a hl hid
            | none =>
              dsimp only
              rw [hr2 id (fun hm => hid ((mem_sortedIds _ _).mp hm))]
              apply ha2
              intro hk
              obtain ⟨a, hm⟩ := List.mem_keys.mp hk
              rw [(mem_sortedActors _ _ _).mp hm] at hl
              cases hl
        cases h3 : io.hamtFlush c2 with
        | error e =>
          rw [h3] at h
          simp at h
        | ok new_root =>
          rw [h3] at h
          dsimp only at h
          split at h
          · next hv =>
            simp only [Option.some.injEq, Prod.mk.injEq, Except.ok.injEq] at h
            obtain ⟨hc, hs'⟩ := h
            subst hs'
            subst hc
            exact ⟨hsz, hact, hrem, hview, fun _ => h3, fun hne => absurd hv hne⟩
          · next hv =>
            cases h4 : io.setCborInfo with
            | error e =>
              rw [h4] at h
              simp at h
            | ok info_cid =>
              rw [h4] at h
              simp only [Option.some.injEq, Prod.mk.injEq] at h
              obtain ⟨hc, hs'⟩ := h
              subst hs'
              exact ⟨hsz, hact, hrem, hview, fun h0 => absurd h0 hv,
                fun _ => ⟨new_root, info_cid, h3, rfl, hc⟩⟩

/-- Witness of C19: flushing the version-1 tree `treeV1` returns the CID 53 of the state root
{1, 7, 45}, and the flushed HAMT holds the pending actor 100 and no actor 101; flushing the
version-0 tree `treeV0` returns the HAMT root 7 itself. -/
theorem flush_returns_root_witness :
    Examples.treeV1.flush Examples.io0 = some (.ok 53, Examples.flushedV1)
      ∧ Examples.flushedV1.by_id 100 = .ok (some (Examples.account 7))
      ∧ Examples.flushedV1.by_id 101 = .ok none
      ∧ (∃ s', Examples.treeV0.flush Examples.io0 = some (.ok 7, s')) :=
  ⟨rfl,
    (flush_returns_root Examples.io0 Examples.treeV1 Examples.flushedV1 53 rfl).2.1 100
      (Examples.account 7) (by decide) (by decide),
    (flush_returns_root Examples.io0 Examples.treeV1 Examples.flushedV1 53 rfl).2.2.1 101
      (by decide),
    ⟨_, rfl⟩⟩

end fc.vm

namespace fc.vm

open StateTreeImpl Env

end fc.vm

namespace fc.vm

open IpldBuffered

/-- C21: for a buffered writer over any backing store, a dag-cbor/blake2b CID `c` whose
digest is not in the local map and bytes `v`: `set(c, v)` succeeds, leaves the backing store
and the flag `flushing` as they were, and `get(c)` then returns `v`, whatever the backing
store holds. -/
theorem buffered_set_then_get {σ : Type} (B : Ipld σ) (V : CidView) (b : IpldBuffered σ)
    (c : CID) (key : Hash256) (v : Bytes)
    (hcbor : V.isCbor c = true) (hblake : V.asBlake c = some key) (hnew : key ∉ b.write) :
    ∃ b' : IpldBuffered σ, b.set V c v = some (.ok (), b')
      ∧ b'.ipld = b.ipld ∧ b'.flushing = b.flushing
      ∧ b'.get B V c = some (.ok v) := by
  refine ⟨_, set_new V b c key v hcbor hblake hnew, rfl, rfl, ?_⟩
  unfold IpldBuffered.get
  simp [hcbor, hblake]

/-- Witness of C21: the block 2 is written over a backing store that does not hold it, and
read back. -/
theorem buffered_set_then_get_witness :
    ∃ b', Examples.buffered0.set Examples.view0 2 [5] = some (.ok (), b')
      ∧ b'.ipld = Examples.buffered0.ipld ∧ b'.flushing = Examples.buffered0.flushing
      ∧ b'.get Examples.listStore Examples.view0 2 = some (.ok [5]) :=
  buffered_set_then_get Examples.listStore Examples.view0 Examples.buffered0 2
    (Examples.digest 2) [5] rfl rfl (by decide)

/-- C22, as stated, fails: the CID 1 is not dag-cbor, so it is not in the local map; the
writer is not flushing and the backing store returns the block `[9]` for it, yet `get`
answers NotFound. -/
theorem buffered_get_not_cbor_counterexample :
    Examples.view0.asBlake 1 = none
      ∧ Examples.buffered0.flushing = false
      ∧ Examples.listStore.get Examples.buffered0.ipld 1 = .ok [9]
      ∧ Examples.buffered0.get Examples.listStore Examples.view0 1
          = some (.error IpfsDatastoreError.kNotFound)
      ∧ Examples.buffered0.get Examples.listStore Examples.view0 1
          ≠ some (Examples.listStore.get Examples.buffered0.ipld 1) := by
  refine ⟨rfl, rfl, rfl, rfl, ?_⟩
  intro h
  have h' : (some (.error IpfsDatastoreError.kNotFound) : Option (Except Error Bytes))
      = some (.ok [9]) := h
  cases h'

/-- C22, amended: outside a flush, `get` of a dag-cbor/blake2b CID whose digest is not in the
local map returns exactly what the `get` of the backing store returns, a value or an error;
`get` of a CID that is not dag-cbor returns NotFound without asking the backing store. -/
theorem buffered_get_pass_through {σ : Type} (B : Ipld σ) (V : CidView) (b : IpldBuffered σ)
    (cid : CID) (hflush : b.flushing = false) :
    (∀ key, V.isCbor cid = true → V.asBlake cid = some key → key ∉ b.write →
        b.get B V cid = some (B.get b.ipld cid))
      ∧ (V.isCbor cid = false →
          b.get B V cid = some (.error IpfsDatastoreError.kNotFound)) := by
  constructor
  · intro key hcbor hblake hnew
    unfold IpldBuffered.get
    have hl : b.write.lookup key = none := AList.lookup_eq_none.mpr hnew
    simp [hcbor, hblake, hl, hflush]
  · intro hcbor
    unfold IpldBuffered.get
    simp [hcbor]

/-- Witness of C22, amended: the dag-cbor block 6 is read through from the backing store. -/
theorem buffered_get_pass_through_witness :
    Examples.buffered0.flushing = false
      ∧ Examples.buffered0.get Examples.listStore Examples.view0 6 = some (.ok [8]) :=
  ⟨rfl, (buffered_get_pass_through Examples.listStore Examples.view0 Examples.buffered0 6
    rfl).1 (Examples.digest 6) rfl rfl (by decide)⟩

/-- C23, as stated, fails: the written block 2 links to the block 4, which is neither in the
local map nor in the backing store; `flush(2)` succeeds and puts the block 2 into the
backing store. -/
theorem buffered_flush_dangling_counterexample :
    Examples.bufferedDangling.write.lookup (Examples.digest 2) = some [4]
      ∧ Examples.byteLinks [4] = [4]
      ∧ Examples.view0.asBlake 4 = some (Examples.digest 4)
      ∧ Examples.digest 4 ∉ Examples.bufferedDangling.write
      ∧ Examples.listStore.get Examples.bufferedDangling.ipld 4
          = .error IpfsDatastoreError.kNotFound
      ∧ IpldBuffered.flush Examples.listStore Examples.view0
            (bfsTraverser Examples.byteLinks 5) 5 Examples.bufferedDangling 2
          = .returned (.ok (),
              { Examples.bufferedDangling with ipld := [(2, [4]), (1, [9])] }) := by
  refine ⟨rfl, rfl, rfl, by decide, rfl, rfl⟩

/-- C23, amended: `flush(root)` does not read the backing store: two backing stores with
the same `set` give the same flush, whatever their `get` returns.  An error that `flush`
returns is an error of the traversal other than NotFound or an error of a `set` of the
backing store; a NotFound of the traversal never fails the flush. -/
theorem buffered_flush_errors {σ τ : Type} (B : Ipld σ) (V : CidView) (T : Traverser τ)
    (fuel : Nat) (b : IpldBuffered σ) (root : CID) :
    (∀ B' : Ipld σ, B'.set = B.set →
        IpldBuffered.flush B' V T fuel b root = IpldBuffered.flush B V T fuel b root)
      ∧ ∀ (e : Error) (b' : IpldBuffered σ),
          IpldBuffered.flush B V T fuel b root = .returned (.error e, b') →
            (e ≠ IpfsDatastoreError.kNotFound
                ∧ ∃ get t0, (T.traverseAll get t0).1 = some (.error e))
              ∨ ∃ s0 cid value, (B.set s0 cid value).1 = .error e := by
  constructor
  · intro B' hset
    unfold IpldBuffered.flush
    rw [flushLoop_congr B' B V T hset fuel _ _ rfl]
  · intro e b' h
    unfold IpldBuffered.flush at h
    cases hq : flushLoop B V T fuel { b with flushing := true } (T.make root) with
    | returned q =>
      obtain ⟨r, b1⟩ := q
      rw [hq] at h
      simp only [Ended.returned.injEq, Prod.mk.injEq] at h
      exact flushLoop_error B V T fuel _ b1 _ e (by rw [hq, h.1])
    | thrown what =>
      rw [hq] at h
      simp at h
    | undefined =>
      rw [hq] at h
      simp at h
    | outOfFuel =>
      rw [hq] at h
      simp at h

end fc.vm

namespace fc.storage

open fc.vm CidsIpld

/-- C30: on a written set in ascending order (rows compared byte by byte, that is by key,
then offset, then `max_size64`), `findWritten(k)` returns a row iff the set holds a row with
the key `k`; the row returned has the key `k` and is the first such row of the set. -/
theorem findWritten_first_row (s : CidsIpld) (key : Hash256)
    (hopen : s.writable.isSome = true)
    (hsorted : s.written.Pairwise fun a b => Row.lt a b = true) :
    (∃ res : Option Row, s.findWritten key = some res
        ∧ (res.isSome = true ↔ ∃ r ∈ s.written, r.key = key)
        ∧ ∀ r, res = some r →
            r ∈ s.written ∧ r.key = key
              ∧ ∀ r1 ∈ s.written, r1.key = key → r = r1 ∨ Row.lt r r1 = true)
      ∧ ∀ l r : Row, l.offset < 2 ^ 40 ∧ l.max_size64 < 2 ^ 24 →
          r.offset < 2 ^ 40 ∧ r.max_size64 < 2 ^ 24 →
          (Row.lt l r = true ↔
            memcmp l.key.1 r.key.1 = .lt
              ∨ (l.key = r.key
                  ∧ (l.offset < r.offset
                      ∨ (l.offset = r.offset ∧ l.max_size64 < r.max_size64)))) :=
  ⟨findWritten_spec s key hopen hsorted, fun l r hl hr => Row.lt_iff l r hl hr⟩

/-- Witness of C30: of the two rows for the key of 5 the one with the offset 0 is found; no
row is found for the key of 4. -/
theorem findWritten_first_row_witness :
    Examples.carWritten.findWritten (fc.vm.Examples.digest 5)
        = some (some ⟨fc.vm.Examples.digest 5, 0, 1⟩)
      ∧ Examples.carWritten.findWritten (fc.vm.Examples.digest 4) = some none
      ∧ ∃ res : Option Row,
          Examples.carWritten.findWritten (fc.vm.Examples.digest 5) = some res
            ∧ (res.isSome = true ↔
                ∃ r ∈ Examples.carWritten.written, r.key = fc.vm.Examples.digest 5) :=
  ⟨by decide, by decide,
    match (findWritten_first_row Examples.carWritten (fc.vm.Examples.digest 5) rfl
      (by decide)).1 with
    | ⟨res, h1, h2, _⟩ => ⟨res, h1, h2⟩⟩

/-- C24: a `set` of the buffered writer with a CID whose digest is in the local map leaves
the writer, its map included, as it is; a `put` of the CAR store with a key that the index
holds, or that the written set holds, returns the store as it is: nothing is appended,
`car_offset` and the written set are unchanged. -/
theorem reput_is_noop {σ : Type} (V : CidView) (b : IpldBuffered σ) (cid : CID)
    (value : Bytes) (io : StreamIo) (asyncFlush : CidsIpld → CidsIpld) (s : CidsIpld)
    (key : Hash256) :
    (∀ k, V.isCbor cid = true → V.asBlake cid = some k → k ∈ b.write →
        b.set V cid value = some (.ok (), b))
      ∧ (∀ car row, s.writable = some car → s.index key = .ok (some row) →
          put io asyncFlush s key value = .returned s)
      ∧ (∀ car row, s.writable = some car →
          (s.written.Pairwise fun a b => Row.lt a b = true) → row ∈ s.written →
          row.key = key →
          (∀ s', put io asyncFlush s key value = .returned s' → s' = s)
            ∧ ((∃ found, s.index key = .ok found) →
                put io asyncFlush s key value = .returned s)) :=
  ⟨fun k hcbor hblake hold => IpldBuffered.set_present V b cid k value hcbor hblake hold,
    fun car row hw hidx => put_indexed io asyncFlush s key value car row hw hidx,
    fun car row hw hsorted hrow hkey =>
      put_written io asyncFlush s key value car row hw hsorted hrow hkey⟩

/-- Witness of C24: a second `set` of the block 2 and a `put` of the key of 5, which the
written set holds, change nothing. -/
theorem reput_is_noop_witness :
    fc.vm.Examples.bufferedDangling.set fc.vm.Examples.view0 2 [7]
        = some (.ok (), fc.vm.Examples.bufferedDangling)
      ∧ put Examples.diskOk id Examples.carWritten (fc.vm.Examples.digest 5) [1]
          = .returned Examples.carWritten :=
  ⟨(reput_is_noop fc.vm.Examples.view0 fc.vm.Examples.bufferedDangling 2 [7]
      Examples.diskOk id Examples.carWritten (fc.vm.Examples.digest 5)).1
      (fc.vm.Examples.digest 2) rfl rfl (by decide),
    ((reput_is_noop fc.vm.Examples.view0 fc.vm.Examples.bufferedDangling 2 [1]
      Examples.diskOk id Examples.carWritten (fc.vm.Examples.digest 5)).2.2 []
      ⟨fc.vm.Examples.digest 5, 0, 1⟩ rfl (by decide) (by decide) rfl).2 ⟨none, rfl⟩⟩

end fc.storage

namespace fc.storage

open fc.vm CidsIpld

/-- C25, as stated, fails: on a store whose CAR file has 2^40 bytes, the row that `put`
inserts for a new key has the offset 0, not the value 2^40 of `car_offset` before the call:
the offset field of a row has 40 bits. -/
theorem put_offset_wraps_counterexample :
    Examples.carFull.car_offset = 2 ^ 40
      ∧ Examples.carFull.index (fc.vm.Examples.digest 7) = .ok none
      ∧ Examples.carFull.written = []
      ∧ ∃ s1 : CidsIpld,
          put Examples.diskOk id Examples.carFull (fc.vm.Examples.digest 7) [1] = .returned s1
            ∧ s1.written = [⟨fc.vm.Examples.digest 7, 0, 1⟩]
            ∧ ∀ r ∈ s1.written, r.offset ≠ Examples.carFull.car_offset := by
  refine ⟨rfl, rfl, rfl, _, rfl, rfl, ?_⟩
  intro r hr
  have hr' : r ∈ ([⟨fc.vm.Examples.digest 7, 0, 1⟩] : List Row) := hr
  rw [List.mem_singleton] at hr'
  rw [hr']
  decide

/-- C25, amended: for a key not yet stored, on a CAR file that stays within 2^40 bytes,
`put(key, value)` appends exactly `uvarint(6 + 32 + |value|) || 01 71 A0 E4 02 20 || key ||
value`, inserts a row with that key and with the offset `car_offset` had before the call,
and advances `car_offset` by the length of the item.  Hence a row inserted by a later `put`
starts at or after the end of this item, as long as the CAR file stays within 2^40 bytes:
offsets increase strictly and the byte ranges of the items do not overlap. -/
theorem put_appends_item (io : StreamIo) (asyncFlush : CidsIpld → CidsIpld) (s : CidsIpld)
    (key : Hash256) (value car : Bytes)
    (hw : s.writable = some car) (hidx : s.index key = .ok none)
    (hfresh : ∀ r ∈ s.written, r.key ≠ key)
    (hwrite : io.write_ok car (item key value) = true)
    (hflush : io.flush_ok (car ++ item key value) = true)
    (hrange : s.car_offset + (item key value).length ≤ 2 ^ 40) :
    ∃ s1 : CidsIpld,
      put io asyncFlush s key value
          = .returned
              (if s1.flush_on ≠ 0 ∧ s1.written.length ≥ s1.flush_on then asyncFlush s1
                else s1)
        ∧ s1.writable
            = some (car ++ (uvarint (6 + 32 + value.length)
                ++ [0x01, 0x71, 0xA0, 0xE4, 0x02, 0x20] ++ key.1 ++ value))
        ∧ s1.car_offset = s.car_offset + (item key value).length
        ∧ s1.index = s.index ∧ s1.flush_on = s.flush_on
        ∧ (∃ row ∈ s1.written, row.key = key ∧ row.offset = s.car_offset
            ∧ s1.written = insertRow row s.written)
        ∧ ((s.written.Pairwise fun a b => Row.lt a b = true) →
            s1.written.Pairwise fun a b => Row.lt a b = true)
        ∧ ∀ (ops : List (Hash256 × Bytes)) (s2 : CidsIpld) (key2 : Hash256) (value2 : Bytes),
            (∀ t, (asyncFlush t).car_offset = t.car_offset) →
            putAll io asyncFlush s1 ops = .returned s2 →
            s1.car_offset + itemsLength ops + (item key2 value2).length ≤ 2 ^ 40 →
            (s2.newRow key2 value2).offset = s2.car_offset
              ∧ s.car_offset + (item key value).length ≤ (s2.newRow key2 value2).offset
              ∧ s.car_offset < (s2.newRow key2 value2).offset := by
  have hlen : 0 < (item key value).length := by
    rw [item_length]
    omega
  have h40 : (2 : Nat) ^ 40 < 2 ^ 64 := by norm_num
  have hmod : (s.car_offset + (item key value).length) % 2 ^ 64
      = s.car_offset + (item key value).length :=
    Nat.mod_eq_of_lt (lt_of_le_of_lt hrange h40)
  have hoff : s.car_offset % 2 ^ 40 = s.car_offset := Nat.mod_eq_of_lt (by omega)
  refine ⟨{ s with
      writable := some (car ++ item key value)
      car_offset := (s.car_offset + (item key value).length) % 2 ^ 64
      written := insertRow (s.newRow key value) s.written }, ?_, ?_, hmod, rfl, rfl, ?_, ?_, ?_⟩
  · exact put_fresh io asyncFlush s key value car hw hidx hfresh hwrite hflush
  · show some (car ++ item key value) = _
    rw [item_eq]
  · refine ⟨s.newRow key value, insertRow_mem _ _ hfresh, rfl, hoff, rfl⟩
  · exact insertRow_sorted _ _
  · intro ops s2 key2 value2 hkeep hputs hbound
    dsimp only at hputs hbound
    rw [hmod] at hbound
    have hlen2 : 0 < (item key2 value2).length := by
      rw [item_length]
      omega
    obtain ⟨h1, h2⟩ := putAll_car_offset io asyncFlush hkeep ops _ s2 hputs (by
      dsimp only
      rw [hmod]
      omega)
    dsimp only at h1 h2
    rw [hmod] at h1 h2
    have hoff2 : (s2.newRow key2 value2).offset = s2.car_offset := by
      show s2.car_offset % 2 ^ 40 = s2.car_offset
      exact Nat.mod_eq_of_lt (by omega)
    rw [hoff2]
    exact ⟨rfl, h1, by omega⟩

/-- Witness of C25, amended: a `put` on a store whose CAR file has 100 bytes appends the item
of 40 bytes, inserts the row with the offset 100 and moves `car_offset` to 140. -/
theorem put_appends_item_witness :
    put Examples.diskOk id Examples.car0 (fc.vm.Examples.digest 7) [1]
        = .returned
            { Examples.car0 with
              writable := some ([39, 0x01, 0x71, 0xA0, 0xE4, 0x02, 0x20]
                ++ List.replicate 32 7 ++ [1])
              car_offset := 140
              written := [⟨fc.vm.Examples.digest 7, 100, 1⟩] }
      ∧ ∃ s1 : CidsIpld, s1.car_offset = Examples.car0.car_offset + 40
          ∧ ∃ row ∈ s1.written, row.key = fc.vm.Examples.digest 7
              ∧ row.offset = Examples.car0.car_offset :=
  ⟨rfl,
    match put_appends_item Examples.diskOk id Examples.car0 (fc.vm.Examples.digest 7) [1] []
        rfl rfl (fun r hr => absurd hr (List.not_mem_nil r)) rfl rfl (by decide) with
    | ⟨s1, _, _, h3, _, _, ⟨row, hm, hk, ho, _⟩, _⟩ => ⟨s1, h3, row, hm, hk, ho⟩⟩

/-- C26, as stated, fails: for a value of 64 bytes the row that `put` inserts has
`max_size64 = 2`, while `(64 + 63) / 64 = 1`: the field is computed from the length of the
whole item, which is 103 bytes here. -/
theorem put_max_size64_counterexample :
    Examples.value64.length = 64
      ∧ (Examples.value64.length + 63) / 64 = 1
      ∧ (item (fc.vm.Examples.digest 7) Examples.value64).length = 103
      ∧ ∃ s1 : CidsIpld,
          put Examples.diskOk id Examples.car0 (fc.vm.Examples.digest 7) Examples.value64
              = .returned s1
            ∧ s1.written = [⟨fc.vm.Examples.digest 7, 100, 2⟩]
            ∧ ∀ r ∈ s1.written, r.max_size64 ≠ (Examples.value64.length + 63) / 64 := by
  refine ⟨rfl, rfl, rfl, _, rfl, rfl, ?_⟩
  intro r hr
  have hr' : r ∈ ([⟨fc.vm.Examples.digest 7, 100, 2⟩] : List Row) := hr
  rw [List.mem_singleton] at hr'
  rw [hr']
  decide

/-- C26, amended: the row that `put` inserts for a new key has
`max_size64 = (item_size + 63) / 64`, where `item_size` is the length of the whole item
appended, `|uvarint| + 6 + 32 + |value|`, for items small enough for the 24-bit field; so
`64 * max_size64` is at least the length of the item and of the value. -/
theorem put_max_size64 (io : StreamIo) (asyncFlush : CidsIpld → CidsIpld) (s : CidsIpld)
    (key : Hash256) (value car : Bytes)
    (hw : s.writable = some car) (hidx : s.index key = .ok none)
    (hfresh : ∀ r ∈ s.written, r.key ≠ key)
    (hwrite : io.write_ok car (item key value) = true)
    (hflush : io.flush_ok (car ++ item key value) = true)
    (hsmall : ((item key value).length + 63) / 64 < 2 ^ 24) :
    ∃ (s1 : CidsIpld) (row : Row),
      put io asyncFlush s key value
          = .returned
              (if s1.flush_on ≠ 0 ∧ s1.written.length ≥ s1.flush_on then asyncFlush s1
                else s1)
        ∧ row ∈ s1.written ∧ s1.written = insertRow row s.written ∧ row.key = key
        ∧ (item key value).length
            = (uvarint (6 + 32 + value.length)).length + 6 + 32 + value.length
        ∧ row.max_size64 = ((item key value).length + 63) / 64
        ∧ (item key value).length ≤ 64 * row.max_size64
        ∧ value.length ≤ 64 * row.max_size64 := by
  have hlt : (item key value).length + 63 < 2 ^ 64 := by
    have h2 : (2 : Nat) ^ 24 * 64 ≤ 2 ^ 64 := by norm_num
    have := Nat.lt_of_div_lt_div (a := (item key value).length + 63) (b := 2 ^ 24 * 64)
      (c := 64) (by rw [Nat.mul_div_cancel _ (by norm_num : 0 < 64)]; exact hsmall)
    omega
  have hmax : (s.newRow key value).max_size64 = ((item key value).length + 63) / 64 := by
    show maxSize64 (item key value).length % 2 ^ 24 = _
    unfold maxSize64
    rw [Nat.mod_eq_of_lt hlt, Nat.mod_eq_of_lt hsmall]
  have hbound : (item key value).length ≤ 64 * (s.newRow key value).max_size64 := by
    rw [hmax]
    omega
  refine ⟨{ s with
      writable := some (car ++ item key value)
      car_offset := (s.car_offset + (item key value).length) % 2 ^ 64
      written := insertRow (s.newRow key value) s.written }, s.newRow key value, ?_,
    insertRow_mem _ _ hfresh, rfl, rfl, item_length key value, hmax, hbound, ?_⟩
  · exact put_fresh io asyncFlush s key value car hw hidx hfresh hwrite hflush
  · have := item_length key value
    omega

/-- Witness of C26, amended: the item of a value of 64 bytes has 103 bytes, and the row has
`max_size64 = (103 + 63) / 64 = 2`. -/
theorem put_max_size64_witness :
    ∃ (s1 : CidsIpld) (row : Row),
      row ∈ s1.written ∧ row.key = fc.vm.Examples.digest 7
        ∧ row.max_size64
            = ((item (fc.vm.Examples.digest 7) Examples.value64).length + 63) / 64
        ∧ ((item (fc.vm.Examples.digest 7) Examples.value64).length + 63) / 64 = 2 :=
  match put_max_size64 Examples.diskOk id Examples.car0 (fc.vm.Examples.digest 7)
      Examples.value64 [] rfl rfl (fun r hr => absurd hr (List.not_mem_nil r)) rfl rfl
      (by decide) with
  | ⟨s1, row, _, hm, _, hk, _, hmax, _⟩ => ⟨s1, row, hm, hk, hmax, rfl⟩

end fc.storage

namespace fc.storage.amt

open fc.vm

theorem Amt.init_get (bits k : Nat) :
    (Amt.init bits).get k = .error AmtError.kNotFound := by
  unfold Amt.get
  split
  · rfl
  · rfl

theorem Amt.set_get (bits k : Nat) (v : Bytes) (hbits : 0 < bits) (hk : k < 2 ^ 64)
    (a : Amt) (ha : a.bits = bits) (hs : Node.Shaped a.root.height a.root.node) :
    ((a.set k v).2).get k = .ok v := by
  obtain ⟨b, r⟩ := a
  dsimp only at ha hs
  subst ha
  unfold Amt.get Amt.set
  dsimp only [Amt.width]
  rw [if_neg (not_le.mpr (Root.grow_range b hbits r k hk))]
  rw [Node.get_set _ _ _ _ _ (Root.grow_shaped _ _ _ _ hs)]

theorem Amt.remove_get (k : Nat) (a : Amt) :
    ((a.remove k).2).get k = .error AmtError.kNotFound := by
  obtain ⟨b, r⟩ := a
  unfold Amt.remove
  cases hg : Amt.get ⟨b, r⟩ k with
  | error e =>
    dsimp only
    rw [hg]
    unfold Amt.get at hg
    split at hg
    · cases hg; rfl
    · split at hg
      · cases hg
      · cases hg; rfl
  | ok v =>
    dsimp only [Amt.width]
    apply Amt.get_collapse_notFound
    unfold Amt.get
    dsimp only [Amt.width]
    split
    · rfl
    · rw [Node.get_remove]

/-- C27.  In the AMT as the specification describes it, with a branching factor of at
least 2, for every 64-bit key `k` and value `v`: on the empty AMT `get(k)` and `remove(k)`
fail with NotFound and `count()` is 0; after `set(k, v)`, which succeeds, `get(k)` is `v`
and `count()` is 1; after a following `remove(k)`, which succeeds, `get(k)` fails with
NotFound and `count()` is 0. -/
theorem amt_set_get_remove (bits k : Nat) (v : Bytes) (hbits : 0 < bits)
    (hk : k < 2 ^ 64) :
    (Amt.init bits).get k = .error AmtError.kNotFound
      ∧ ((Amt.init bits).remove k).1 = .error AmtError.kNotFound
      ∧ (Amt.init bits).count = 0
      ∧ ((Amt.init bits).set k v).1 = .ok ()
      ∧ (((Amt.init bits).set k v).2).get k = .ok v
      ∧ (((Amt.init bits).set k v).2).count = 1
      ∧ ((((Amt.init bits).set k v).2).remove k).1 = .ok ()
      ∧ (((((Amt.init bits).set k v).2).remove k).2).get k = .error AmtError.kNotFound
      ∧ (((((Amt.init bits).set k v).2).remove k).2).count = 0 := by
  have hget1 : (((Amt.init bits).set k v).2).get k = .ok v :=
    Amt.set_get bits k v hbits hk (Amt.init bits) rfl trivial
  have hcount1 : (((Amt.init bits).set k v).2).count = 1 := by
    unfold Amt.set Amt.count
    dsimp only
    rw [Amt.init_get, Root.grow_count]
    rfl
  refine ⟨Amt.init_get bits k, ?_, rfl, rfl, hget1, hcount1, ?_, Amt.remove_get k _, ?_⟩
  · unfold Amt.remove
    rw [Amt.init_get]
  · unfold Amt.remove
    rw [hget1]
  · unfold Amt.remove
    rw [hget1]
    dsimp only [Amt.count]
    rw [Root.collapse_count]
    dsimp only
    have := hcount1
    unfold Amt.count at this
    rw [this]

/-- The scenario of `AmtTest.SetRemoveRootLeaf`: key 3 and value `07` with 3 bits. -/
theorem amt_set_get_remove_witness :
    (Amt.init 3).get 3 = .error AmtError.kNotFound
      ∧ ((Amt.init 3).remove 3).1 = .error AmtError.kNotFound
      ∧ (Amt.init 3).count = 0
      ∧ ((Amt.init 3).set 3 [7]).1 = .ok ()
      ∧ (((Amt.init 3).set 3 [7]).2).get 3 = .ok [7]
      ∧ (((Amt.init 3).set 3 [7]).2).count = 1
      ∧ ((((Amt.init 3).set 3 [7]).2).remove 3).1 = .ok ()
      ∧ (((((Amt.init 3).set 3 [7]).2).remove 3).2).get 3 = .error AmtError.kNotFound
      ∧ (((((Amt.init 3).set 3 [7]).2).remove 3).2).count = 0 :=
  amt_set_get_remove 3 3 [7] (by decide) (by decide)

end fc.storage.amt

namespace fc.storage.amt

open fc.vm

theorem Root.grow_in_range (w fuel : Nat) (r : Root) (k : Nat)
    (hk : k < w ^ (r.height + 1)) : Root.grow w fuel r k = r := by
  cases fuel with
  | zero => rfl
  | succ fuel =>
    unfold Root.grow
    rw [if_neg (not_le.mpr hk)]

/-- The AMT after a first `set` of a key in the range of the root leaf. -/
theorem Amt.set_first (bits k1 : Nat) (v1 : Bytes) (h1 : k1 < 2 ^ bits) :
    ((Amt.init bits).set k1 v1).2
      = ⟨bits, ⟨0, 1,
          .values (Function.update (fun _ => none) (k1 % (2 ^ bits) ^ (0 + 1)) (some v1))⟩⟩ := by
  have hr : Root.grow (2 ^ bits) 64 ⟨0, 0, Node.empty 0⟩ k1 = ⟨0, 0, Node.empty 0⟩ :=
    Root.grow_in_range _ _ _ _ (by simpa using h1)
  unfold Amt.set
  rw [Amt.init_get]
  dsimp only [Amt.init, Amt.width]
  rw [hr]
  rfl

/-- The AMT after a `set` of a key beyond the range of a root leaf, and after the
following `remove` of that key. -/
theorem Amt.set_remove_beyond (bits k2 : Nat) (v2 : Bytes) (c : Nat)
    (g : Nat → Option Bytes) (hbits : 0 < bits) (h2 : 2 ^ bits ≤ k2) (hk2 : k2 < 2 ^ 64) :
    (∃ f, (((⟨bits, ⟨0, c, .values g⟩⟩ : Amt).set k2 v2).2).root.node = .links f)
      ∧ ((((⟨bits, ⟨0, c, .values g⟩⟩ : Amt).set k2 v2).2).remove k2).1 = .ok ()
      ∧ ((((⟨bits, ⟨0, c, .values g⟩⟩ : Amt).set k2 v2).2).remove k2).2
          = ⟨bits, ⟨0, c, .values g⟩⟩ := by
  have hget : (((⟨bits, ⟨0, c, .values g⟩⟩ : Amt).set k2 v2).2).get k2 = .ok v2 :=
    Amt.set_get bits k2 v2 hbits hk2 _ rfl trivial
  have hfresh : (⟨bits, ⟨0, c, .values g⟩⟩ : Amt).get k2 = .error AmtError.kNotFound := by
    unfold Amt.get
    dsimp only [Amt.width]
    rw [if_pos (by simpa using h2)]
  obtain ⟨j, hj1, hj2, hj3⟩ := Root.grow_eq (2 ^ bits) 64 ⟨0, c, .values g⟩ k2
  have hrange := Root.grow_range bits hbits ⟨0, c, .values g⟩ k2 hk2
  rw [hj1] at hrange
  dsimp only at hj1 hj2 hrange
  have hjpos : 0 < j := by
    rcases Nat.eq_zero_or_pos j with h0 | h0
    · subst h0
      simp at hrange
      omega
    · exact h0
  obtain ⟨i, rfl⟩ : ∃ i, j = i + 1 := ⟨j - 1, by omega⟩
  have hle := hj2 hjpos
  rw [Nat.zero_add] at hj1 hle hrange
  rw [Function.iterate_succ_apply'] at hj1
  have hset : ((⟨bits, ⟨0, c, .values g⟩⟩ : Amt).set k2 v2).2
      = ⟨bits, ⟨i + 1, c + 1,
          Node.set (2 ^ bits) (i + 1) (Node.wrap (Node.wrap^[i] (.values g)))
            (k2 % (2 ^ bits) ^ (i + 1 + 1)) v2⟩⟩ := by
    unfold Amt.set
    rw [hfresh]
    dsimp only [Amt.width]
    rw [hj1]
    rfl
  rw [hset] at hget ⊢
  refine ⟨⟨_, rfl⟩, ?_, ?_⟩
  · unfold Amt.remove
    rw [hget]
  · unfold Amt.remove
    rw [hget]
    dsimp only [Amt.width]
    have hdigit : k2 % (2 ^ bits) ^ (i + 1 + 1) / (2 ^ bits) ^ (i + 1) ≠ 0 := by
      rw [Nat.mod_eq_of_lt hrange]
      intro h0
      have h := (Nat.div_eq_zero_iff (Nat.pow_pos (Nat.pow_pos (by decide)))).mp h0
      omega
    have hnode : Node.remove (2 ^ bits) (i + 1)
          (Node.set (2 ^ bits) (i + 1) (Node.wrap (Node.wrap^[i] (.values g)))
            (k2 % (2 ^ bits) ^ (i + 1 + 1)) v2)
          (k2 % (2 ^ bits) ^ (i + 1 + 1))
        = Node.wrap (Node.wrap^[i] (.values g)) :=
      Node.remove_set_fresh _ _ _ _ _ (Function.update_noteq hdigit _ _)
    rw [hnode, ← Function.iterate_succ_apply' Node.wrap i]
    have hc : c + 1 - 1 = c := rfl
    rw [hc, Root.collapse_wrap (2 ^ bits) (i + 1) (i + 1) c (.values g) (le_refl _)
      (fun f hf => by cases hf)]

/-- C28.  In the AMT as the specification describes it, with a branching factor
`2^bits` of at least 2: for every key `k1` inside the range of the root leaf and every
64-bit key `k2` outside it, starting from the empty AMT, `set(k1, v1); set(k2, v2)` makes
the root node an interior node; the following `remove(k2)` succeeds and leaves the root
equal to the root after only `set(k1, v1)`, whose node is a leaf. -/
theorem amt_grow_then_collapse (bits k1 k2 : Nat) (v1 v2 : Bytes) (hbits : 0 < bits)
    (h1 : k1 < 2 ^ bits) (h2 : 2 ^ bits ≤ k2) (hk2 : k2 < 2 ^ 64) :
    (∃ f, ((((Amt.init bits).set k1 v1).2.set k2 v2).2).getRoot.node = .links f)
      ∧ (((((Amt.init bits).set k1 v1).2.set k2 v2).2).remove k2).1 = .ok ()
      ∧ ((((((Amt.init bits).set k1 v1).2.set k2 v2).2).remove k2).2).getRoot
          = (((Amt.init bits).set k1 v1).2).getRoot
      ∧ ∃ f, ((((((Amt.init bits).set k1 v1).2.set k2 v2).2).remove k2).2).getRoot.node
          = .values f := by
  rw [Amt.set_first bits k1 v1 h1]
  obtain ⟨hl, hok, heq⟩ := Amt.set_remove_beyond bits k2 v2 1
    (Function.update (fun _ => none) (k1 % (2 ^ bits) ^ (0 + 1)) (some v1)) hbits h2 hk2
  refine ⟨hl, hok, ?_, ?_⟩
  · rw [heq]
  · rw [heq]
    exact ⟨_, rfl⟩

/-- The scenario of `AmtTest.SetRemoveCollapseZero`: keys 1 and 64 with 3 bits. -/
theorem amt_grow_then_collapse_witness :
    (∃ f, ((((Amt.init 3).set 1 [6]).2.set 64 [7]).2).getRoot.node = .links f)
      ∧ (((((Amt.init 3).set 1 [6]).2.set 64 [7]).2).remove 64).1 = .ok ()
      ∧ ((((((Amt.init 3).set 1 [6]).2.set 64 [7]).2).remove 64).2).getRoot
          = (((Amt.init 3).set 1 [6]).2).getRoot
      ∧ ∃ f, ((((((Amt.init 3).set 1 [6]).2.set 64 [7]).2).remove 64).2).getRoot.node
          = .values f :=
  amt_grow_then_collapse 3 1 64 [6] [7] (by decide) (by decide) (by decide) (by decide)

end fc.storage.amt

namespace fc.codec.amt

open fc.vm fc.vm.Examples fc.storage.amt

theorem Examples.link_reads (c : Nat) (rest : Bytes) :
    cbor.readCborBlake Examples.reader (Examples.link c ++ rest) = (some (digest c), rest) := by
  rfl

theorem Examples.leaf3_stored :
    StoredAt Examples.reader Examples.walkStore 8 0 Examples.leaf3 (digest 4) :=
  ⟨_, [], [[0x06]], rfl,
    ⟨_, _, _, _, 1, _, _, _, _, _, rfl, rfl, rfl, rfl, by decide, rfl, rfl, rfl, rfl, rfl,
      by decide, [], rfl, rfl⟩,
    rfl, rfl⟩

theorem Examples.leaf0_stored :
    StoredAt Examples.reader Examples.walkStore 8 0 Examples.leaf0 (digest 5) :=
  ⟨_, [], [[0x07]], rfl,
    ⟨_, _, _, _, 1, _, _, _, _, _, rfl, rfl, rfl, rfl, by decide, rfl, rfl, rfl, rfl, rfl,
      by decide, [], rfl, rfl⟩,
    rfl, rfl⟩

theorem Examples.left_stored :
    StoredAt Examples.reader Examples.walkStore 8 1 Examples.left (digest 2) :=
  ⟨_, [digest 4], [], rfl,
    ⟨_, _, _, _, 1, _, _, _, _, _, rfl, rfl, rfl, rfl, by decide, rfl, rfl,
      ⟨_, Examples.link_reads 4 _, rfl⟩, rfl, rfl, rfl⟩,
    rfl, List.Forall₂.cons Examples.leaf3_stored List.Forall₂.nil⟩

theorem Examples.right_stored :
    StoredAt Examples.reader Examples.walkStore 8 1 Examples.right (digest 3) :=
  ⟨_, [digest 5], [], rfl,
    ⟨_, _, _, _, 1, _, _, _, _, _, rfl, rfl, rfl, rfl, by decide, rfl, rfl,
      ⟨_, Examples.link_reads 5 _, rfl⟩, rfl, rfl, rfl⟩,
    rfl, List.Forall₂.cons Examples.leaf0_stored List.Forall₂.nil⟩

theorem Examples.walk_flushed :
    Flushed Examples.reader Examples.walkStore 8 Examples.walkRoot (digest 1) :=
  ⟨_, [digest 2, digest 3], [], rfl,
    ⟨_, _, _, _, _, _, _, rfl, Or.inr ⟨rfl, rfl⟩, rfl, rfl, rfl, rfl,
      ⟨_, _, _, _, 1, _, _, _, _, _, rfl, rfl, rfl, rfl, by decide, rfl, rfl,
        ⟨_, Examples.link_reads 2 _, _, Examples.link_reads 3 _, rfl⟩, rfl, rfl, rfl⟩⟩,
    rfl, List.Forall₂.cons Examples.left_stored
      (List.Forall₂.cons Examples.right_stored List.Forall₂.nil)⟩

theorem Examples.walk_ends :
    Node.RootEnds 8 Examples.walkRoot.height Examples.walkRoot.node := by
  intro last hlast
  have h1 : some Examples.right = some last := hlast
  cases h1
  refine ⟨Examples.leaf0, rfl, ?_⟩
  intro h0
  have h2 : [([0x07] : Bytes)] = [] := h0
  cases h2

/-- C29.  For every AMT whose blocks are all in the store, in the form that the reader
decodes, and which does not end in a node without values: `load()` returns true, and
successive calls of `next()` yield exactly the values at the keys `0, 1, 2, ...` in
ascending order, one per call, after which `next()` returns false; `empty()` is false before
the last value has been yielded and true once it has. -/
theorem amt_walk_yields_values (R : CborReader) (ipld : Hash256 → Option Bytes) (w : Nat)
    (root : Root) (c : Hash256) (hflushed : Flushed R ipld w root c)
    (hends : Node.RootEnds w root.height root.node) :
    ∃ wk, (AmtWalk.new ipld c).load R = .returned (true, wk)
      ∧ AmtWalk.Yields R
          ((List.range (w ^ (root.height + 1))).filterMap (Node.get w root.height root.node))
          wk := by
  obtain ⟨height, count, node⟩ := root
  obtain ⟨b, cs, vs, hb, hroot, hstored⟩ := hflushed
  dsimp only at hroot hstored hends ⊢
  obtain ⟨wk, hload, hat⟩ := AmtWalk.load_ok R ipld height count cs vs c b hb hroot
  refine ⟨wk, hload, ?_⟩
  rw [← Node.entries_eq]
  cases height with
  | zero =>
    cases node with
    | links f => exact hstored.elim
    | values f =>
      obtain ⟨hcs, hvs⟩ := hstored
      subst hcs hvs
      have := AmtWalk.yields_values R ipld [] [] _ wk hat
        (fun wk1 h1 => AmtWalk.at_empty R ipld wk1 h1)
      rw [List.append_nil] at this
      exact this
  | succ h =>
    cases node with
    | values f => exact hstored.elim
    | links f =>
      obtain ⟨hvs, hchildren⟩ := hstored
      subst hvs
      exact AmtWalk.yields_queue R ipld w h (Node.items w f) cs hchildren hends wk hat

/-- The scenario of `AmtVisitTest.Walk`: the values at the keys 3 and 64 of an AMT with
3 bits. -/
theorem amt_walk_yields_values_witness :
    ∃ wk, (AmtWalk.new Examples.walkStore (digest 1)).load Examples.reader
        = .returned (true, wk)
      ∧ AmtWalk.Yields Examples.reader
          ((List.range (8 ^ (Examples.walkRoot.height + 1))).filterMap
            (Node.get 8 Examples.walkRoot.height Examples.walkRoot.node))
          wk :=
  amt_walk_yields_values Examples.reader Examples.walkStore 8 Examples.walkRoot (digest 1)
    Examples.walk_flushed Examples.walk_ends

end fc.codec.amt

namespace fc.codec.amt

open fc.storage.amt

/-- The values of the example in key order: `06`, at key 3, and `07`, at key 64. -/
theorem Examples.walk_values :
    (List.range (8 ^ (Examples.walkRoot.height + 1))).filterMap
        (Node.get 8 Examples.walkRoot.height Examples.walkRoot.node)
      = [[0x06], [0x07]] := by
  rw [← Node.entries_eq]
  rfl

end fc.codec.amt

namespace fc.storage

/-- C31.  For every size `n ≤ 2^64 - 64`: `maxSize64(n)` is `(n + 63) / 64` without
wrap-around, which is the ceiling of `n / 64`, the least `m` with `n ≤ 64 * m`; and
`n ≤ maxSize(maxSize64(n)) < n + 64`, so reading `64 * max_size64` bytes covers the item and
reads fewer than 64 bytes beyond it. -/
theorem maxSize64_covers (n : Nat) (hn : n ≤ 2 ^ 64 - 64) :
    maxSize64 n = (n + 63) / 64
      ∧ maxSize64 n = ⌈(n : ℚ) / 64⌉₊
      ∧ n ≤ 64 * maxSize64 n ∧ (∀ m, n ≤ 64 * m → maxSize64 n ≤ m)
      ∧ maxSize (maxSize64 n) = 64 * maxSize64 n
      ∧ n ≤ maxSize (maxSize64 n) ∧ maxSize (maxSize64 n) < n + 64 := by
  have h1 : maxSize64 n = (n + 63) / 64 := by
    unfold maxSize64
    rw [Nat.mod_eq_of_lt (by omega)]
  have h2 : maxSize (maxSize64 n) = 64 * maxSize64 n := by
    unfold maxSize
    rw [Nat.mod_eq_of_lt (by omega), Nat.mul_comm]
  have hle : n ≤ 64 * maxSize64 n := by omega
  have hleast : ∀ m, n ≤ 64 * m → maxSize64 n ≤ m := by
    intro m hm
    omega
  refine ⟨h1, ?_, hle, hleast, h2, by omega, by omega⟩
  apply le_antisymm
  · apply hleast
    have hc : (n : ℚ) / 64 ≤ (⌈(n : ℚ) / 64⌉₊ : ℚ) := Nat.le_ceil _
    have hq : (n : ℚ) ≤ 64 * (⌈(n : ℚ) / 64⌉₊ : ℚ) := by linarith
    exact_mod_cast hq
  · apply Nat.ceil_le.mpr
    have hq : (n : ℚ) ≤ 64 * (maxSize64 n : ℚ) := by exact_mod_cast hle
    linarith

/-- An item of 103 bytes: `max_size64` is 2, and reading 128 bytes covers it. -/
theorem maxSize64_covers_witness :
    (103 : Nat) ≤ 2 ^ 64 - 64 ∧ maxSize64 103 = 2 ∧ maxSize (maxSize64 103) = 128
      ∧ 103 ≤ maxSize (maxSize64 103) ∧ maxSize (maxSize64 103) < 103 + 64 :=
  ⟨by decide, by decide, by decide,
    (maxSize64_covers 103 (by decide)).2.2.2.2.2.1,
    (maxSize64_covers 103 (by decide)).2.2.2.2.2.2⟩

end fc.storage

namespace fc.vm

open StateTreeImpl

/-- C36.  For every application that reaches the gas settlement and returns a result,
`apply.penalty = max(parent_base_fee - gas_fee_cap, 0) * (used + gas_burned)`, where `used`
is the gas used of the receipt and `gas_burned` the overestimation burn; the penalty is 0
whenever `gas_fee_cap >= parent_base_fee`.  The same holds of every gas settlement taken
alone. -/
theorem penalty_formula (env : Env) (fuel : Nat) (st : StateTreeImpl)
    (message : UnsignedMessage) (msg_gas_cost : GasAmount) (r : Returned) (apply : Apply)
    (h : Env.applyValidated env fuel st message msg_gas_cost = .done r)
    (hok : r.result = .ok apply) :
    apply.penalty
        = max (env.parentBaseFee - message.gas_fee_cap) 0
          * (apply.receipt.gas_used
            + Env.gas_burned message.gas_limit apply.receipt.gas_used)
      ∧ (message.gas_fee_cap ≥ env.parentBaseFee → apply.penalty = 0)
      ∧ ∀ exit_code no_fee used l l' apply',
          Env.gasSettlement env message exit_code no_fee used l = .done (.ok apply', l') →
          apply'.penalty
              = max (env.parentBaseFee - message.gas_fee_cap) 0
                * (used + Env.gas_burned message.gas_limit used)
            ∧ apply'.receipt.gas_used = used := by
  obtain ⟨l1, l2, -, hscope, -⟩ :=
    Env.applyValidated_ok env fuel st message msg_gas_cost r apply h hok
  obtain ⟨exit_code, ex, l0, hfin⟩ := Env.applyScope_ok env fuel message msg_gas_cost _ l2
    apply hscope
  have hp := Env.finishApply_penalty env message exit_code ex l0 l2 apply hfin
  refine ⟨hp, ?_, ?_⟩
  · intro hcap
    rw [hp, max_eq_right (by linarith), zero_mul]
  · intro exit_code no_fee used l l' apply' hs
    exact ⟨Env.gasSettlement_penalty env message exit_code no_fee used l l' apply' hs,
      (Env.gasSettlement_ok env message exit_code no_fee used l l' apply' hs).2.2.2.1⟩

/-- The transfer `msgSend` with the base fee 5 and the fee cap 2: the gas used is 15, the
burn 985 and the penalty `3 * 1000`. -/
theorem penalty_formula_witness :
    Env.applyValidated Examples.envDear 1 Examples.tree0 Examples.msgSend 10
        = .done Examples.validatedDear
      ∧ Examples.validatedDear.result = .ok ⟨⟨VMExitCode.kOk, [], 15⟩, 3000, 0⟩
      ∧ Env.gas_burned 1000 15 = 985
      ∧ (3000 : Int)
          = max (Examples.envDear.parentBaseFee - Examples.msgSend.gas_fee_cap) 0
            * (15 + Env.gas_burned Examples.msgSend.gas_limit 15) :=
  ⟨rfl, rfl, by decide,
    (penalty_formula Examples.envDear 1 Examples.tree0 Examples.msgSend 10
      Examples.validatedDear ⟨⟨VMExitCode.kOk, [], 15⟩, 3000, 0⟩ rfl rfl).1⟩

end fc.vm

namespace fc.vm

end fc.vm

namespace fc.vm

open StateTreeImpl

/-- C32, as stated, fails: on a state tree with two layers, `tryGet` of the actor 100, which
no layer holds and the HAMT does, caches the actor in the top layer `tx_.back()`; the
bottom-most layer is left without it. -/
theorem tryGet_caches_top_counterexample :
    Examples.tree2.tx_ = [Examples.topLayer, Examples.parentLayer]
      ∧ scanActors 100 Examples.tree2.tx_ = none
      ∧ (Examples.tree2.tryGet (Address.id 100)).1 = .ok (some (Examples.account 1000000))
      ∧ (Examples.tree2.tryGet (Address.id 100)).2.tx_lower = [Examples.parentLayer]
      ∧ Examples.parentLayer.actors.lookup 100 = none
      ∧ (Examples.tree2.tryGet (Address.id 100)).2.tx_back.actors.lookup 100
          = some (Examples.account 1000000) := by
  refine ⟨rfl, by decide, rfl, rfl, by decide, by decide⟩

/-- C32, amended: when `tryGet` misses in every transaction layer and finds the actor in the
HAMT, it caches the actor into the top layer of the transaction stack, the layer `tx_.back()`
begun last, and leaves every layer below it as it is; with a stack of depth 1 the top layer
is also the bottom-most one. -/
theorem tryGet_caches_top (s s1 : StateTreeImpl) (address id : Address) (actor : Actor)
    (hlookup : s.tryLookupId address = (.ok (some id), s1))
    (hmiss : scanActors id.getId s1.tx_ = none)
    (hhamt : s1.by_id id.getId = .ok (some actor)) :
    s.tryGet address = (.ok (some actor), s1._set id.getId actor)
      ∧ (s.tryGet address).2.tx_back.actors.lookup id.getId = some actor
      ∧ id.getId ∉ (s.tryGet address).2.tx_back.removed
      ∧ (s.tryGet address).2.tx_lower = s.tx_lower
      ∧ (s.tx_lower = [] → (s.tryGet address).2.tx_ = [(s.tryGet address).2.tx_back]) := by
  have hget : s.tryGet address = (.ok (some actor), s1._set id.getId actor) := by
    unfold StateTreeImpl.tryGet
    rw [hlookup]
    dsimp only
    unfold tryGetId
    rw [hmiss]
    dsimp only
    rw [hhamt]
  have hbelow : s1.tx_lower = s.tx_lower := by
    have := tryLookupId_sameBelow s address
    rw [hlookup] at this
    exact this.1
  rw [hget]
  refine ⟨rfl, ?_, ?_, hbelow, ?_⟩
  · simp [StateTreeImpl._set]
  · simp [StateTreeImpl._set]
  · intro hnil
    unfold StateTreeImpl.tx_
    rw [show (s1._set id.getId actor).tx_lower = s1.tx_lower from rfl, hbelow, hnil]

/-- The actor 100 is read through a tree with two layers: it is cached in the top layer,
and the layer below stays as it was. -/
theorem tryGet_caches_top_witness :
    Examples.tree2.tryLookupId (Address.id 100) = (.ok (some (Address.id 100)), Examples.tree2)
      ∧ (Examples.tree2.tryGet (Address.id 100)).2.tx_back.actors.lookup 100
          = some (Examples.account 1000000)
      ∧ (Examples.tree2.tryGet (Address.id 100)).2.tx_lower = Examples.tree2.tx_lower :=
  ⟨rfl,
    (tryGet_caches_top Examples.tree2 Examples.tree2 (Address.id 100) (Address.id 100)
      (Examples.account 1000000) rfl (by decide) rfl).2.1,
    (tryGet_caches_top Examples.tree2 Examples.tree2 (Address.id 100) (Address.id 100)
      (Examples.account 1000000) rfl (by decide) rfl).2.2.2.1⟩

end fc.vm

namespace fc.codec

open fc.vm fc.vm.Examples

/-- C33, as stated, fails: in a walk over a store whose two interior nodes link the same
leaf, the CID of the leaf is enqueued twice and the leaf is loaded twice: its value is
yielded by two calls of `next`.  The walker has no store of visited CIDs, as the
constructor leaves it; one that has none of the CIDs changes nothing. -/
theorem push_twice_counterexample :
    amt.Examples.sharedLoaded.visited.isNone = true
      ∧ (amt.Examples.nextOf amt.Examples.sharedLoaded).1 = some [0x06]
      ∧ (amt.Examples.nextOf (amt.Examples.nextOf amt.Examples.sharedLoaded).2.2).1
          = some [0x06]
      ∧ amt.Examples.sharedWalked.cids
          = [digest 1, digest 2, digest 3, digest 4, digest 4]
      ∧ (((Tree.new amt.Examples.sharedStore (digest 1))._push (digest 4))._push
            (digest 4)).cids = [digest 1, digest 4, digest 4]
      ∧ ((({ Tree.new amt.Examples.sharedStore (digest 1) with
              visited := some fun _ => false })._push (digest 4))._push (digest 4)).cids
          = [digest 1, digest 4, digest 4] := by
  refine ⟨rfl, rfl, rfl, rfl, rfl, rfl⟩

/-- C33, amended: `_push` enqueues a CID unless the walker has a store of visited CIDs and
that store has the CID; it changes nothing else, the store of visited CIDs included.  So
after any sequence of pushes the queue has grown by the CIDs pushed that the store of
visited CIDs does not have, once for each push and in the order of the pushes, and a CID
that the store has is never enqueued; this is what `_readNode` does with the links of a
node. -/
theorem push_filters_visited (t : Tree) (cs : List Hash256) :
    (∀ c, (t._push c).cids = (if t.isVisited c then t.cids else t.cids ++ [c])
        ∧ (t._push c).visited = t.visited ∧ (t._push c).ipld = t.ipld
        ∧ (t._push c).next_cid = t.next_cid ∧ (t._push c).node = t.node)
      ∧ (cs.foldl Tree._push t).cids = t.cids ++ cs.filter (fun c => !t.isVisited c)
      ∧ (cs.foldl Tree._push t).visited = t.visited
      ∧ (∀ c, t.isVisited c = true → c ∉ cs.filter (fun c => !t.isVisited c))
      ∧ (t.visited = none → (cs.foldl Tree._push t).cids = t.cids ++ cs)
      ∧ ∀ (R : CborReader) (w : amt.AmtWalk) (rest : Bytes), w.toTree = t →
          amt.LinksBytes R cs w.node rest →
          ∃ w1, amt.AmtWalk.readLinks R cs.length w = (true, w1)
            ∧ w1.cids = t.cids ++ cs.filter (fun c => !t.isVisited c) := by
  have hpush : ∀ (t : Tree) (c : Hash256),
      (t._push c).cids = (if t.isVisited c then t.cids else t.cids ++ [c])
        ∧ (t._push c).visited = t.visited ∧ (t._push c).ipld = t.ipld
        ∧ (t._push c).next_cid = t.next_cid ∧ (t._push c).node = t.node := by
    intro t c
    obtain ⟨ip, cids, nc, nd, b, vis⟩ := t
    cases vis with
    | none => exact ⟨rfl, rfl, rfl, rfl, rfl⟩
    | some has =>
      cases hc : has c <;> simp [Tree._push, Tree.isVisited, hc]
  have hvis : ∀ (t : Tree) (c d : Hash256), (t._push c).isVisited d = t.isVisited d := by
    intro t c d
    unfold Tree.isVisited
    rw [(hpush t c).2.1]
  have hfold : ∀ (cs : List Hash256) (t : Tree),
      (cs.foldl Tree._push t).cids = t.cids ++ cs.filter (fun c => !t.isVisited c)
        ∧ (cs.foldl Tree._push t).visited = t.visited := by
    intro cs
    induction cs with
    | nil => intro t; simp
    | cons c cs ih =>
      intro t
      rw [List.foldl_cons]
      obtain ⟨h1, h2⟩ := ih (t._push c)
      have hfilter : (cs.filter fun d => !(t._push c).isVisited d)
          = cs.filter fun d => !t.isVisited d := by
        congr 1
        funext d
        rw [hvis]
      rw [h1, h2, hfilter, (hpush t c).1, (hpush t c).2.1]
      refine ⟨?_, rfl⟩
      cases hc : t.isVisited c <;> simp [hc]
  refine ⟨hpush t, (hfold cs t).1, (hfold cs t).2, ?_, ?_, ?_⟩
  · intro c hc hmem
    have := (List.mem_filter.mp hmem).2
    rw [hc] at this
    simp at this
  · intro hnone
    rw [(hfold cs t).1]
    congr 1
    apply List.filter_eq_self.mpr
    intro c _
    simp [Tree.isVisited, hnone]
  · intro R w rest hw hlinks
    subst hw
    have hloop : ∀ (cs : List Hash256) (w : amt.AmtWalk) (rest : Bytes),
        amt.LinksBytes R cs w.node rest →
        ∃ w1, amt.AmtWalk.readLinks R cs.length w = (true, w1)
          ∧ w1.cids = w.cids ++ cs.filter (fun c => !w.toTree.isVisited c) := by
      intro cs
      induction cs with
      | nil =>
        intro w rest _
        exact ⟨w, rfl, by simp⟩
      | cons c cs ih =>
        intro w rest hl
        obtain ⟨b1, hc, hl1⟩ := hl
        have hstep : amt.AmtWalk.readLinks R (c :: cs).length w
            = amt.AmtWalk.readLinks R cs.length
                { w with toTree := ({ w.toTree with node := b1 })._push c } := by
          simp only [List.length_cons, amt.AmtWalk.readLinks, hc]
        have hnode : ({ w with toTree := ({ w.toTree with node := b1 })._push c }
            : amt.AmtWalk).node = b1 := (hpush _ c).2.2.2.2
        obtain ⟨w1, h1, h2⟩ := ih
          { w with toTree := ({ w.toTree with node := b1 })._push c } rest
          (by rw [hnode]; exact hl1)
        refine ⟨w1, by rw [hstep, h1], ?_⟩
        rw [h2]
        have hv : ∀ d, ((({ w.toTree with node := b1 } : Tree)._push c)).isVisited d
            = w.toTree.isVisited d := by
          intro d
          rw [hvis]
          rfl
        have hfilter : (cs.filter fun d =>
              !((({ w.toTree with node := b1 } : Tree)._push c)).isVisited d)
            = cs.filter fun d => !w.toTree.isVisited d := by
          congr 1
          funext d
          rw [hv]
        show (({ w.toTree with node := b1 } : Tree)._push c).cids ++ _ = _
        rw [hfilter, (hpush _ c).1]
        have hv0 : ({ w.toTree with node := b1 } : Tree).isVisited c = w.toTree.isVisited c :=
          rfl
        rw [hv0]
        cases hc0 : w.toTree.isVisited c <;> simp [hc0]
    exact hloop cs w rest hlinks

end fc.codec

namespace fc.vm

open StateTreeImpl Execution

theorem transferValue_negative (st : StateTreeImpl) (message : UnsignedMessage)
    (caller_id to_id : Address) (to_actor : Actor) (hneg : message.value < 0) :
    transferValue st message caller_id to_id to_actor
      = (.error (Error.exitCode VMExitCode.kSysErrForbidden), st) := by
  unfold transferValue
  rw [if_pos (ne_of_lt hneg), if_pos hneg]

theorem sendTo_negative (env : Env) (inner : Execution → UnsignedMessage → SendResult)
    (ex : Execution) (message : UnsignedMessage) (to_actor : Actor)
    (hneg : message.value < 0) (r : Except Error Bytes) (ex' : Execution)
    (h : sendTo env inner ex message to_actor = .done (r, ex')) : ∃ e, r = .error e := by
  unfold sendTo at h
  generalize ex.chargeGas (env.pricelist.onMethodInvocation message.value message.method) = p
    at h
  obtain ⟨charged, ex1⟩ := p
  dsimp only at h
  cases hc : catchAbort charged with
  | error e =>
    rw [hc] at h
    simp only [Run.done.injEq, Prod.mk.injEq] at h
    exact ⟨e, h.1.symm⟩
  | ok u =>
    rw [hc] at h
    dsimp only at h
    generalize ex1.state_tree.lookupId message.from_ = q at h
    obtain ⟨r1, st2⟩ := q
    rcases r1 with e | caller_id
    · simp only [Run.done.injEq, Prod.mk.injEq] at h
      exact ⟨e, h.1.symm⟩
    · dsimp only at h
      generalize st2.lookupId message.to_ = q2 at h
      obtain ⟨r2, st3⟩ := q2
      rcases r2 with e | to_id
      · simp only [Run.done.injEq, Prod.mk.injEq] at h
        exact ⟨e, h.1.symm⟩
      · dsimp only at h
        rw [transferValue_negative st3 message caller_id to_id to_actor hneg] at h
        simp only [Run.done.injEq, Prod.mk.injEq] at h
        exact ⟨_, h.1.symm⟩

/-- C38, as stated, fails: a send of the value -1 under the gas limit 5 fails at the first
gas charge with `SysErrOutOfGas`, not with `SysErrForbidden`.  And a send of the value -1 to
a key address without an actor fails with `SysErrForbidden` only after the account actor 200
has been created, the head of the init actor has moved from 0 to 3, and the constructor of
the account actor has run: with actor code that charges 7 gas the send uses 7 gas more. -/
theorem send_rejects_value_counterexample :
    Examples.msgNegative.value < 0
      ∧ send Examples.envOk 1 Examples.execSmall Examples.msgNegative 10
          = .done (.error (Error.exitCode VMExitCode.kSysErrOutOfGas), ⟨Examples.tree0, 5, 5⟩)
      ∧ Examples.msgNegativeNew.value < 0
      ∧ send Examples.envOk 2 ⟨Examples.treeNew, 0, 1000⟩ Examples.msgNegativeNew 10
          = .done (Examples.sentIn Examples.envOk Examples.msgNegativeNew)
      ∧ (Examples.sentIn Examples.envOk Examples.msgNegativeNew).1
          = .error (Error.exitCode VMExitCode.kSysErrForbidden)
      ∧ (Examples.treeNew.tryGet (Address.id 200)).1 = .ok none
      ∧ ((Examples.sentIn Examples.envOk Examples.msgNegativeNew).2.state_tree.tryGet
            (Address.id 200)).1 = .ok (some (Examples.account 0))
      ∧ (Examples.treeNew.tryGet (Address.id 1)).1 = .ok (some ⟨1, 0, 0, 0⟩)
      ∧ ((Examples.sentIn Examples.envOk Examples.msgNegativeNew).2.state_tree.tryGet
            (Address.id 1)).1 = .ok (some ⟨1, 3, 0, 0⟩)
      ∧ send Examples.envCharging 2 ⟨Examples.treeNew, 0, 1000⟩ Examples.msgNegativeNew 10
          = .done (Examples.sentIn Examples.envCharging Examples.msgNegativeNew)
      ∧ (Examples.sentIn Examples.envOk Examples.msgNegativeNew).2.gas_used = 23
      ∧ (Examples.sentIn Examples.envCharging Examples.msgNegativeNew).2.gas_used = 30 :=
  ⟨by decide, rfl, by decide, rfl, rfl, rfl, rfl, rfl, rfl, rfl, rfl, rfl⟩

/-- C38, amended: `Execution::send` fails with `SysErrForbidden` for every message whose
value is negative, and with `SysErrInsufficientFunds` for every message with `value > 0`
whose caller id differs from the receiver id and whose caller balance is below the value,
when the send reaches the value transfer (lines 338–352): the two gas charges, the read of
the receiver, or the creation of its account actor when it has none, and the two id lookups
succeed.  A send whose first gas charge fails returns `SysErrOutOfGas` instead.  The error
of the transfer is returned without running the actor code for the message, whatever the
invoker is; every actor is as it was when the send began, when the receiver had an actor
then, and as the creation of the account actor left it otherwise.  A send of a negative
value never succeeds, whichever step rejects it first. -/
theorem send_rejects_value (env : Env) (inner : Execution → UnsignedMessage → SendResult)
    (message : UnsignedMessage) (to_actor : Actor) :
    (message.value < 0 →
        (∀ st caller_id to_id,
            transferValue st message caller_id to_id to_actor
              = (.error (Error.exitCode VMExitCode.kSysErrForbidden), st))
          ∧ (∀ ex ex1 st2 st3 caller_id to_id,
              ex.chargeGas (env.pricelist.onMethodInvocation message.value message.method)
                  = (.ok (), ex1) →
              ex1.state_tree.lookupId message.from_ = (.ok caller_id, st2) →
              st2.lookupId message.to_ = (.ok to_id, st3) →
              sendTo env inner ex message to_actor
                  = .done (.error (Error.exitCode VMExitCode.kSysErrForbidden),
                      { ex1 with state_tree := st3 })
                ∧ SameView ex.state_tree st3)
          ∧ (∀ fuel ex charge ex1 st2 ex3 st4 st5 caller_id to_id,
              ex.chargeGas charge = (.ok (), ex1) →
              ex1.state_tree.tryGet message.to_ = (.ok (some to_actor), st2) →
              ({ ex1 with state_tree := st2 } : Execution).chargeGas
                  (env.pricelist.onMethodInvocation message.value message.method)
                  = (.ok (), ex3) →
              ex3.state_tree.lookupId message.from_ = (.ok caller_id, st4) →
              st4.lookupId message.to_ = (.ok to_id, st5) →
              send env (fuel + 1) ex message charge
                  = .done (.error (Error.exitCode VMExitCode.kSysErrForbidden),
                      { ex3 with state_tree := st5 })
                ∧ SameView ex.state_tree st5)
          ∧ (∀ fuel ex charge ex1 st2 ex3 ex4 st5 st6 caller_id to_id,
              ex.chargeGas charge = (.ok (), ex1) →
              ex1.state_tree.tryGet message.to_ = (.ok none, st2) →
              tryCreateAccountActor env (fun ex m => send env fuel ex m 0)
                  { ex1 with state_tree := st2 } message.to_ = .done (.ok to_actor, ex3) →
              ex3.chargeGas (env.pricelist.onMethodInvocation message.value message.method)
                  = (.ok (), ex4) →
              ex4.state_tree.lookupId message.from_ = (.ok caller_id, st5) →
              st5.lookupId message.to_ = (.ok to_id, st6) →
              send env (fuel + 1) ex message charge
                  = .done (.error (Error.exitCode VMExitCode.kSysErrForbidden),
                      { ex4 with state_tree := st6 })
                ∧ SameView ex3.state_tree st6)
          ∧ ∀ fuel ex charge r ex',
              send env fuel ex message charge = .done (r, ex') → ∃ e, r = .error e)
      ∧ (0 < message.value →
          ∀ st caller_id to_id from_actor, to_id ≠ caller_id →
            (st.tryGet caller_id).1 = .ok (some from_actor) →
            from_actor.balance < message.value →
            ∃ st1, transferValue st message caller_id to_id to_actor
                  = (.error (Error.exitCode VMExitCode.kSysErrInsufficientFunds), st1)
              ∧ SameView st st1
              ∧ (∀ ex ex1 st2,
                  ex.chargeGas
                      (env.pricelist.onMethodInvocation message.value message.method)
                      = (.ok (), ex1) →
                  ex1.state_tree.lookupId message.from_ = (.ok caller_id, st2) →
                  st2.lookupId message.to_ = (.ok to_id, st) →
                  sendTo env inner ex message to_actor
                      = .done (.error (Error.exitCode VMExitCode.kSysErrInsufficientFunds),
                          { ex1 with state_tree := st1 })
                    ∧ SameView ex.state_tree st1)
              ∧ (∀ fuel ex charge ex1 st2 ex3 st4,
                  ex.chargeGas charge = (.ok (), ex1) →
                  ex1.state_tree.tryGet message.to_ = (.ok (some to_actor), st2) →
                  ({ ex1 with state_tree := st2 } : Execution).chargeGas
                      (env.pricelist.onMethodInvocation message.value message.method)
                      = (.ok (), ex3) →
                  ex3.state_tree.lookupId message.from_ = (.ok caller_id, st4) →
                  st4.lookupId message.to_ = (.ok to_id, st) →
                  send env (fuel + 1) ex message charge
                      = .done (.error (Error.exitCode VMExitCode.kSysErrInsufficientFunds),
                          { ex3 with state_tree := st1 })
                    ∧ SameView ex.state_tree st1)
              ∧ ∀ fuel ex charge ex1 st2 ex3 ex4 st5,
                  ex.chargeGas charge = (.ok (), ex1) →
                  ex1.state_tree.tryGet message.to_ = (.ok none, st2) →
                  tryCreateAccountActor env (fun ex m => send env fuel ex m 0)
                      { ex1 with state_tree := st2 } message.to_
                    = .done (.ok to_actor, ex3) →
                  ex3.chargeGas
                      (env.pricelist.onMethodInvocation message.value message.method)
                      = (.ok (), ex4) →
                  ex4.state_tree.lookupId message.from_ = (.ok caller_id, st5) →
                  st5.lookupId message.to_ = (.ok to_id, st) →
                  send env (fuel + 1) ex message charge
                      = .done (.error (Error.exitCode VMExitCode.kSysErrInsufficientFunds),
                          { ex4 with state_tree := st1 })
                    ∧ SameView ex3.state_tree st1)
      ∧ ∀ fuel ex charge e ex1, ex.chargeGas charge = (.error e, ex1) →
          send env (fuel + 1) ex message charge
              = .done (.error (Error.exitCode VMExitCode.kSysErrOutOfGas), ex1)
            ∧ ex1.state_tree = ex.state_tree := by
  have hsendTo : ∀ (inner1 : Execution → UnsignedMessage → SendResult) (e : Error)
      (ex ex1 : Execution) (st2 st3 st4 : StateTreeImpl) (caller_id to_id : Address),
      transferValue st3 message caller_id to_id to_actor = (.error e, st4) →
      SameView st3 st4 →
      ex.chargeGas (env.pricelist.onMethodInvocation message.value message.method)
          = (.ok (), ex1) →
      ex1.state_tree.lookupId message.from_ = (.ok caller_id, st2) →
      st2.lookupId message.to_ = (.ok to_id, st3) →
      sendTo env inner1 ex message to_actor = .done (.error e, { ex1 with state_tree := st4 })
        ∧ SameView ex.state_tree st4 := by
    intro inner1 e ex ex1 st2 st3 st4 caller_id to_id htr hview hcharge hcaller hto_id
    constructor
    · unfold sendTo
      rw [hcharge]
      dsimp only [catchAbort]
      rw [hcaller]
      dsimp only
      rw [hto_id]
      dsimp only
      rw [htr]
    · have h1 : ex1.state_tree = ex.state_tree := by
        have := chargeGas_state_tree ex
          (env.pricelist.onMethodInvocation message.value message.method)
        rw [hcharge] at this
        exact this
      have h2 := lookupId_sameView ex1.state_tree message.from_
      rw [hcaller, h1] at h2
      have h3 := lookupId_sameView st2 message.to_
      rw [hto_id] at h3
      exact (h2.transV h3).transV hview
  have hsend : ∀ (e : Error) (fuel : Nat) (ex ex1 : Execution) (charge : GasAmount)
      (st2 : StateTreeImpl) (ex3 : Execution) (st4 st5 st6 : StateTreeImpl)
      (caller_id to_id : Address),
      transferValue st5 message caller_id to_id to_actor = (.error e, st6) →
      SameView st5 st6 →
      ex.chargeGas charge = (.ok (), ex1) →
      ex1.state_tree.tryGet message.to_ = (.ok (some to_actor), st2) →
      ({ ex1 with state_tree := st2 } : Execution).chargeGas
          (env.pricelist.onMethodInvocation message.value message.method) = (.ok (), ex3) →
      ex3.state_tree.lookupId message.from_ = (.ok caller_id, st4) →
      st4.lookupId message.to_ = (.ok to_id, st5) →
      send env (fuel + 1) ex message charge
          = .done (.error e, { ex3 with state_tree := st6 })
        ∧ SameView ex.state_tree st6 := by
    intro e fuel ex ex1 charge st2 ex3 st4 st5 st6 caller_id to_id htr hview hc1 hget hc2
      hcaller hto_id
    obtain ⟨k1, k2⟩ := hsendTo (fun ex m => send env fuel ex m 0) e
      { ex1 with state_tree := st2 } ex3 st4 st5 st6 caller_id to_id htr hview hc2 hcaller
      hto_id
    constructor
    · unfold send
      rw [hc1]
      dsimp only [catchAbort]
      rw [hget]
      dsimp only
      exact k1
    · have h1 : ex1.state_tree = ex.state_tree := by
        have := chargeGas_state_tree ex charge
        rw [hc1] at this
        exact this
      have h2 := tryGet_sameView ex1.state_tree message.to_
      rw [hget, h1] at h2
      exact h2.transV k2
  have hcreate : ∀ (e : Error) (fuel : Nat) (ex ex1 : Execution) (charge : GasAmount)
      (st2 : StateTreeImpl) (ex3 ex4 : Execution) (st5 st6 st7 : StateTreeImpl)
      (caller_id to_id : Address),
      transferValue st6 message caller_id to_id to_actor = (.error e, st7) →
      SameView st6 st7 →
      ex.chargeGas charge = (.ok (), ex1) →
      ex1.state_tree.tryGet message.to_ = (.ok none, st2) →
      tryCreateAccountActor env (fun ex m => send env fuel ex m 0)
          { ex1 with state_tree := st2 } message.to_ = .done (.ok to_actor, ex3) →
      ex3.chargeGas (env.pricelist.onMethodInvocation message.value message.method)
          = (.ok (), ex4) →
      ex4.state_tree.lookupId message.from_ = (.ok caller_id, st5) →
      st5.lookupId message.to_ = (.ok to_id, st6) →
      send env (fuel + 1) ex message charge
          = .done (.error e, { ex4 with state_tree := st7 })
        ∧ SameView ex3.state_tree st7 := by
    intro e fuel ex ex1 charge st2 ex3 ex4 st5 st6 st7 caller_id to_id htr hview hc1 hget
      hmade hc2 hcaller hto_id
    obtain ⟨k1, k2⟩ := hsendTo (fun ex m => send env fuel ex m 0) e ex3 ex4 st5 st6 st7
      caller_id to_id htr hview hc2 hcaller hto_id
    refine ⟨?_, k2⟩
    unfold send
    rw [hc1]
    dsimp only [catchAbort]
    rw [hget]
    dsimp only
    rw [hmade]
    simp only [Run.bind]
    exact k1
  refine ⟨fun hneg => ⟨?_, ?_, ?_, ?_, ?_⟩, fun hpos => ?_, ?_⟩
  · intro st caller_id to_id
    exact transferValue_negative st message caller_id to_id to_actor hneg
  · intro ex ex1 st2 st3 caller_id to_id hcharge hcaller hto_id
    exact hsendTo inner _ ex ex1 st2 st3 st3 caller_id to_id
      (transferValue_negative st3 message caller_id to_id to_actor hneg)
      (SameView.reflV st3) hcharge hcaller hto_id
  · intro fuel ex charge ex1 st2 ex3 st4 st5 caller_id to_id hc1 hget hc2 hcaller hto_id
    exact hsend _ fuel ex ex1 charge st2 ex3 st4 st5 st5 caller_id to_id
      (transferValue_negative st5 message caller_id to_id to_actor hneg)
      (SameView.reflV st5) hc1 hget hc2 hcaller hto_id
  · intro fuel ex charge ex1 st2 ex3 ex4 st5 st6 caller_id to_id hc1 hget hmade hc2 hcaller
      hto_id
    exact hcreate _ fuel ex ex1 charge st2 ex3 ex4 st5 st6 st6 caller_id to_id
      (transferValue_negative st6 message caller_id to_id to_actor hneg)
      (SameView.reflV st6) hc1 hget hmade hc2 hcaller hto_id
  · intro fuel ex charge r ex' h
    cases fuel with
    | zero => cases h
    | succ fuel =>
      unfold send at h
      generalize ex.chargeGas charge = p at h
      obtain ⟨charged, ex1⟩ := p
      dsimp only at h
      cases hc : catchAbort charged with
      | error e =>
        rw [hc] at h
        simp only [Run.done.injEq, Prod.mk.injEq] at h
        exact ⟨e, h.1.symm⟩
      | ok u =>
        rw [hc] at h
        dsimp only at h
        generalize ex1.state_tree.tryGet message.to_ = q at h
        obtain ⟨r1, st2⟩ := q
        rcases r1 with e | _ | found
        · simp only [Run.done.injEq, Prod.mk.injEq] at h
          exact ⟨e, h.1.symm⟩
        · dsimp only at h
          generalize tryCreateAccountActor env (fun ex m => send env fuel ex m 0)
            { ex1 with state_tree := st2 } message.to_ = c at h
          cases c with
          | done pc =>
            obtain ⟨created, ex3⟩ := pc
            rcases created with e | account_actor
            · simp only [Run.bind, Run.done.injEq, Prod.mk.injEq] at h
              exact ⟨e, h.1.symm⟩
            · simp only [Run.bind] at h
              exact sendTo_negative env _ ex3 message account_actor hneg r ex' h
          | assertFailed w => cases h
          | outOfFuel => cases h
        · dsimp only at h
          exact sendTo_negative env _ _ message found hneg r ex' h
  · intro st caller_id to_id from_actor hne hfrom hbal
    obtain ⟨st1, hget, hview⟩ := get_of_tryGet st caller_id from_actor hfrom
    have htr : transferValue st message caller_id to_id to_actor
        = (.error (Error.exitCode VMExitCode.kSysErrInsufficientFunds), st1) := by
      unfold transferValue
      rw [if_pos (ne_of_gt hpos), if_neg (not_lt.mpr (le_of_lt hpos)), if_pos hne, hget]
      dsimp only
      rw [if_pos hbal]
    refine ⟨st1, htr, hview, ?_, ?_, ?_⟩
    · intro ex ex1 st2 hcharge hcaller hto_id
      exact hsendTo inner _ ex ex1 st2 st st1 caller_id to_id htr hview hcharge hcaller hto_id
    · intro fuel ex charge ex1 st2 ex3 st4 hc1 hget2 hc2 hcaller hto_id
      exact hsend _ fuel ex ex1 charge st2 ex3 st4 st st1 caller_id to_id htr hview hc1 hget2
        hc2 hcaller hto_id
    · intro fuel ex charge ex1 st2 ex3 ex4 st5 hc1 hget2 hmade hc2 hcaller hto_id
      exact hcreate _ fuel ex ex1 charge st2 ex3 ex4 st5 st st1 caller_id to_id htr hview hc1
        hget2 hmade hc2 hcaller hto_id
  · intro fuel ex charge e ex1 hc
    have he : e = asAbort VMExitCode.kSysErrOutOfGas ∧ ex1.state_tree = ex.state_tree := by
      unfold chargeGas at hc
      dsimp only at hc
      split at hc
      · simp only [Prod.mk.injEq, Except.error.injEq] at hc
        exact ⟨hc.1.symm, by rw [← hc.2]⟩
      · cases hc
    obtain ⟨he1, he2⟩ := he
    subst he1
    refine ⟨?_, he2⟩
    unfold send
    rw [hc]
    rfl

/-- The transfers of -1 and of 2000000 from actor 100, whose balance is 1000000, to
actor 101 on `tree0`: the sends fail with `SysErrForbidden` and with
`SysErrInsufficientFunds`, and the balances of both actors are as before. -/
theorem send_rejects_value_witness :
    (∃ ex', send Examples.envOk 1 Examples.exec0 Examples.msgNegative 10
          = .done (.error (Error.exitCode VMExitCode.kSysErrForbidden), ex')
        ∧ (ex'.state_tree.tryGet (Address.id 100)).1 = .ok (some (Examples.account 1000000))
        ∧ (ex'.state_tree.tryGet (Address.id 101)).1 = .ok (some (Examples.account 5)))
      ∧ (∃ ex', send Examples.envOk 1 Examples.exec0 Examples.msgHuge 10
            = .done (.error (Error.exitCode VMExitCode.kSysErrInsufficientFunds), ex')
          ∧ (ex'.state_tree.tryGet (Address.id 100)).1
              = .ok (some (Examples.account 1000000))
          ∧ (ex'.state_tree.tryGet (Address.id 101)).1 = .ok (some (Examples.account 5)))
      ∧ transferValue Examples.tree0 Examples.msgNegative (Address.id 100) (Address.id 101)
            (Examples.account 5)
          = (.error (Error.exitCode VMExitCode.kSysErrForbidden), Examples.tree0)
      ∧ send Examples.envOk 1 Examples.execSmall Examples.msgNegative 10
          = .done (.error (Error.exitCode VMExitCode.kSysErrOutOfGas), ⟨Examples.tree0, 5, 5⟩) :=
  ⟨⟨_, rfl, rfl, rfl⟩, ⟨_, rfl, rfl, rfl⟩,
    ((send_rejects_value Examples.envOk (fun _ _ => .outOfFuel) Examples.msgNegative
      (Examples.account 5)).1 (by decide)).1 Examples.tree0 (Address.id 100) (Address.id 101),
    ((send_rejects_value Examples.envOk (fun _ _ => .outOfFuel) Examples.msgNegative
      (Examples.account 5)).2.2 0 Examples.execSmall 10
      (asAbort VMExitCode.kSysErrOutOfGas) ⟨Examples.tree0, 5, 5⟩ rfl).1⟩

end fc.vm

namespace fc.vm

open StateTreeImpl Execution

end fc.vm

namespace fc.storage

open fc.vm CidsIpldFlush

/-- C39, the code at the failing input: on a store with no flush in progress, `asyncFlush`
starts a flush whose merge fails; `doFlush` returns the error before `flushing.clear()`, so
the flag stays set, and every later `asyncFlush` starts no flush, also when the file system
has recovered.  The same happens when the rename fails.  A flush that succeeds clears the
flag, and the next `asyncFlush` starts a flush again. -/
theorem doFlush_error_keeps_flag :
    Examples.carIdle.flushing = false
      ∧ (doFlush Examples.mergeFails (testAndSet Examples.carIdle).2).1
          = .error (Error.other 5)
      ∧ (doFlush Examples.mergeFails (testAndSet Examples.carIdle).2).2.flushing = true
      ∧ (asyncFlush Examples.mergeFails Examples.carIdle).1 = true
      ∧ (asyncFlush Examples.mergeFails Examples.carIdle).2.flushing = true
      ∧ (asyncFlush Examples.flushOk (asyncFlush Examples.mergeFails Examples.carIdle).2).1
          = false
      ∧ (asyncFlush Examples.flushOk
            (asyncFlush Examples.flushOk
              (asyncFlush Examples.mergeFails Examples.carIdle).2).2).1 = false
      ∧ (asyncFlush Examples.renameFails Examples.carIdle).2.flushing = true
      ∧ (asyncFlush Examples.flushOk Examples.carIdle).2.flushing = false
      ∧ (asyncFlush Examples.flushOk (asyncFlush Examples.flushOk Examples.carIdle).2).1
          = true := by
  refine ⟨rfl, rfl, rfl, rfl, rfl, rfl, rfl, rfl, rfl, rfl⟩

/-- What `doFlush` and `asyncFlush` do with the flag: a `doFlush` that returns an error
leaves the store and the flag as they were, a `doFlush` that succeeds clears the flag;
`asyncFlush` starts a flush exactly when the flag was clear, and while the flag is set it
changes nothing. -/
theorem doFlush_flag (io : FlushIo) (s : CidsIpldFlush) :
    (∀ e s1, doFlush io s = (.error e, s1) → s1 = s)
      ∧ (∀ s1, doFlush io s = (.ok (), s1) → s1.flushing = false)
      ∧ ((asyncFlush io s).1 = true ↔ s.flushing = false)
      ∧ (s.flushing = true → asyncFlush io s = (false, s))
      ∧ (s.flushing = false → ∀ e,
          (doFlush io { s with flushing := true }).1 = .error e →
          (asyncFlush io s).2 = { s with flushing := true }) := by
  have herr : ∀ (s : CidsIpldFlush) e s1, doFlush io s = (.error e, s1) → s1 = s := by
    intro s e s1 h
    unfold doFlush at h
    dsimp only at h
    split at h
    · simp only [Prod.mk.injEq] at h
      exact h.2.symm
    · split at h
      · simp only [Prod.mk.injEq] at h
        exact h.2.symm
      · split at h
        · simp only [Prod.mk.injEq] at h
          exact h.2.symm
        · simp at h
  refine ⟨herr s, ?_, ?_, ?_, ?_⟩
  · intro s1 h
    unfold doFlush at h
    dsimp only at h
    split at h
    · simp at h
    · split at h
      · simp at h
      · split at h
        · simp at h
        · simp only [Prod.mk.injEq, true_and] at h
          rw [← h]
  · obtain ⟨store, flag⟩ := s
    cases flag <;> simp [asyncFlush, testAndSet]
  · intro hf
    obtain ⟨store, flag⟩ := s
    dsimp only at hf
    subst hf
    rfl
  · intro hf e he
    obtain ⟨store, flag⟩ := s
    dsimp only at hf he ⊢
    subst hf
    have : asyncFlush io ⟨store, false⟩ = (true, (doFlush io ⟨store, true⟩).2) := rfl
    rw [this]
    exact herr ⟨store, true⟩ e _ (Prod.ext he rfl)

end fc.storage

namespace fc.primitives

open RleBitset

/-- C40.  For all sets `a` and `c` of 64-bit numbers, `a.cut(c)` holds the numbers
`e - |{x in c : x < e}|` for the `e` of `a` that are not in `c`, in ascending order of `e`.
The count never exceeds `e`, so the subtraction does not underflow; the mapping ascends
strictly on the numbers that are not in `c`, so the result ascends and
`|a.cut(c)| = |a - c|`; `a.cut(empty) = a` and `a.cut(a)` is empty. -/
theorem cut_spec (a c : RleBitset) (ha : a.WF) (hc : c.WF) :
    cut a c = (a.filter fun e => !c.has e).map (fun e => e - below c e)
      ∧ (∀ e, below c e ≤ e)
      ∧ (∀ e1 e2, e1 ∉ c → e1 < e2 → e1 - below c e1 < e2 - below c e2)
      ∧ (cut a c).Sorted (· < ·)
      ∧ sub a c = a.filter (fun e => !c.has e)
      ∧ (cut a c).length = (sub a c).length
      ∧ (∀ v, v ∈ cut a c ↔ ∃ e ∈ a, e ∉ c ∧ v = e - below c e)
      ∧ cut a [] = a ∧ cut a a = [] := by
  have hspec : ∀ c : RleBitset, c.Sorted (· < ·) →
      cut a c = (a.filter fun e => !c.has e).map (fun e => e - below c e) := by
    intro c hc
    unfold cut
    have := cutLoop_spec c hc a [] c [] rfl ha.1 ha.2
      (fun x hx => absurd hx (List.not_mem_nil x))
      (fun v hv => absurd hv (List.not_mem_nil v))
    rw [List.nil_append] at this
    exact this
  have hsub : sub a c = a.filter (fun e => !c.has e) := by
    unfold sub
    rw [sub_spec c a [] ha.1 (fun v hv => absurd hv (List.not_mem_nil v)), List.nil_append]
  have hmono : ∀ e1 e2, e1 ∉ c → e1 < e2 → e1 - below c e1 < e2 - below c e2 :=
    fun e1 e2 h1 h12 => shifted_lt c e1 e2 hc.1 h12 h1
  refine ⟨hspec c hc.1, fun e => below_le c e hc.1, hmono, ?_, hsub, ?_, ?_, ?_, ?_⟩
  · rw [hspec c hc.1]
    apply List.Pairwise.map (fun e => e - below c e) ?_
      (List.Pairwise.and_mem.mp (ha.1.sublist (List.filter_sublist a)))
    intro e1 e2 h
    obtain ⟨h1, _, h12⟩ := h
    have hnot : e1 ∉ c := by
      intro hin
      have := (List.mem_filter.mp h1).2
      rw [(has_eq_true c e1).mpr hin] at this
      simp at this
    exact hmono e1 e2 hnot h12
  · rw [hspec c hc.1, hsub, List.length_map]
  · intro v
    rw [hspec c hc.1, List.mem_map]
    constructor
    · rintro ⟨e, he, rfl⟩
      obtain ⟨hea, hec⟩ := List.mem_filter.mp he
      refine ⟨e, hea, ?_, rfl⟩
      intro hin
      rw [(has_eq_true c e).mpr hin] at hec
      simp at hec
    · rintro ⟨e, hea, hec, rfl⟩
      refine ⟨e, List.mem_filter.mpr ⟨hea, ?_⟩, rfl⟩
      cases hb : c.has e with
      | false => rfl
      | true => exact absurd ((has_eq_true c e).mp hb) hec
  · rw [hspec [] List.sorted_nil]
    have h1 : (a.filter fun e => !(has [] e)) = a :=
      List.filter_eq_self.mpr fun e _ => rfl
    rw [h1]
    have h2 : (fun e => e - below [] e) = id := by
      funext e
      rfl
    rw [h2, List.map_id]
  · rw [hspec a ha.1]
    have h1 : (a.filter fun e => !(has a e)) = [] := by
      apply List.filter_eq_nil_iff.mpr
      intro e he
      rw [(has_eq_true a e).mpr he]
      simp
    rw [h1]
    rfl

/-- The cut of `{1, 3, 5, 7, 9, 20}` by `{3, 4, 8, 9, 10}`. -/
theorem cut_spec_witness :
    cut [1, 3, 5, 7, 9, 20] [3, 4, 8, 9, 10] = [1, 3, 5, 15]
      ∧ sub [1, 3, 5, 7, 9, 20] [3, 4, 8, 9, 10] = [1, 5, 7, 20]
      ∧ cut [1, 3, 5, 7, 9, 20] [3, 4, 8, 9, 10]
          = ([1, 3, 5, 7, 9, 20].filter fun e => !has [3, 4, 8, 9, 10] e).map
              (fun e => e - below [3, 4, 8, 9, 10] e) :=
  ⟨by decide, by decide,
    (cut_spec [1, 3, 5, 7, 9, 20] [3, 4, 8, 9, 10]
      ⟨by decide, by decide⟩ ⟨by decide, by decide⟩).1⟩

end fc.primitives

namespace fc.codec.hamt

open fc.vm fc.vm.Examples

theorem Examples.below_stored :
    StoredAt amt.Examples.reader Examples.hamtStore Examples.below (digest 2) :=
  ⟨_, _, rfl, ⟨_, _, _, _, 1, _, rfl, rfl, rfl, rfl, by decide, rfl, rfl⟩,
    _, _, _, ⟨by decide, rfl, Or.inl ⟨rfl, rfl⟩⟩, rfl, rfl,
    ⟨by decide, _, _, _, _, _, rfl, rfl, rfl, rfl, rfl, rfl, rfl⟩, rfl⟩

theorem Examples.two_stored :
    StoredAt amt.Examples.reader Examples.hamtStore Examples.two (digest 1) :=
  ⟨_, _, rfl, ⟨_, _, _, _, 1, _, rfl, rfl, rfl, rfl, by decide, rfl, rfl⟩,
    _, _, _, ⟨by decide, rfl, Or.inr ⟨_, _, _, _, _, rfl, rfl, rfl, rfl, rfl, Or.inr rfl, rfl⟩⟩,
    rfl, rfl, ⟨by decide, _, _, _, _, _, rfl, rfl, rfl, rfl, rfl, rfl, rfl⟩,
    _, _, digest 2, _, _, _,
    ⟨by decide, rfl, Or.inr ⟨_, _, _, _, _, rfl, rfl, rfl, rfl, rfl, Or.inl rfl, rfl⟩⟩,
    rfl, rfl, ⟨_, _, _, _, 1, _, rfl, rfl, rfl, rfl, by decide, rfl, rfl⟩,
    ⟨_, _, _, ⟨by decide, rfl, Or.inl ⟨rfl, rfl⟩⟩, rfl, rfl,
      ⟨by decide, _, _, _, _, _, rfl, rfl, rfl, rfl, rfl, rfl, rfl⟩, rfl⟩,
    rfl⟩

/-- The three calls of `next` on the example: the entry of the root, the entry of the node
below it, and `false`. -/
theorem Examples.two_next :
    (Examples.nextOf (HamtWalk.new Examples.hamtStore (digest 1))).1
        = some (Examples.abc, [0x01])
      ∧ (Examples.nextOf (Examples.nextOf (HamtWalk.new Examples.hamtStore (digest 1))).2).1
        = some (Examples.xyz, [0x02])
      ∧ (Examples.nextOf (Examples.nextOf
          (Examples.nextOf (HamtWalk.new Examples.hamtStore (digest 1))).2).2).1 = none :=
  ⟨rfl, rfl, rfl⟩

/-- C35.  For every HAMT whose node blocks are all in the store, in the form that the
reader decodes (a node is a list of the bitmap bytes and the list of its pointers; a pointer
is the CID of a child or a bucket, a list of entries `[key bytes, value]`, and may be
wrapped in a map of one entry with the key `"0"` or `"1"`), successive calls of
`HamtWalk::next` yield the key and the value of every bucket entry of every node reachable
from the root, each once, breadth first, and then `next` returns false. -/
theorem hamt_walk_yields_entries (R : CborReader) (ipld : Hash256 → Option Bytes)
    (root : Node) (c : Hash256) (hstored : StoredAt R ipld root c) :
    HamtWalk.Yields R root.order (HamtWalk.new ipld c)
      ∧ root.order.Perm root.entries
      ∧ (∀ e, root.order.countP (fun x => decide (x = e))
          = root.entries.countP (fun x => decide (x = e)))
      ∧ root.order.length = root.entries.length := by
  have hfuel : Node.done.size + ([root].map fun n => n.size + 1).sum < root.size + 2 := by
    simp [Node.size]
  have hat : HamtWalk.At R ipld (HamtWalk.new ipld c) [] .done [root] :=
    ⟨rfl, rfl, rfl, ⟨[], rfl, rfl⟩, Nat.zero_le _,
      List.Forall₂.cons hstored List.Forall₂.nil⟩
  have hperm : root.order.Perm root.entries := by
    have := Node.walk_perm (root.size + 2) .done [root] hfuel
    simpa [Node.entries] using this
  exact ⟨HamtWalk.yields_walk R ipld (root.size + 2) .done [root] _ hfuel hat, hperm,
    fun e => hperm.countP_eq _, hperm.length_eq⟩

/-- The scenario of the HAMT with the keys `"abc"` and `"xyz"`: a HAMT holding two entries
yields exactly two. -/
theorem hamt_walk_yields_entries_witness :
    HamtWalk.Yields amt.Examples.reader [(Examples.abc, [0x01]), (Examples.xyz, [0x02])]
        (HamtWalk.new Examples.hamtStore (digest 1))
      ∧ Examples.two.order.length = 2 :=
  ⟨(hamt_walk_yields_entries amt.Examples.reader Examples.hamtStore Examples.two (digest 1)
      Examples.two_stored).1, rfl⟩

end fc.codec.hamt
